import Mathlib

/-! QDispatch

A shallow embedding of the cooperative task dispatcher of `QDispatch.cpp` and
`QDispatchCore.h`, and theorems about it.

The embedding keeps the intrusive pointer structure of the source: contexts and
queues live in heaps indexed by addresses, `TaskContext *` is `Option Nat`
(`none` is `NULL`), and the singly linked lists are threaded through the
`nextContext` fields.  Loops that walk a list take a bound on the number of
iterations (`fuel`) and yield `none` when the bound is exhausted or when the
source would dereference `NULL` or divide by zero.

A `World` holds one `TaskDispatcher`, the `EventBarrier`s constructed on it, the
context pool of the dispatcher and the tick that `timingFunction()` returns.
-/

namespace QDispatch

/-! ## Machine integers (`unsigned long` and `long` are 32 bits wide) -/

/-- Number of values of `unsigned long`: ticks are taken modulo this. -/
def ULONG_RANGE : Nat := 4294967296

/-- The least `unsigned long` whose conversion to `long` is negative. -/
def LONG_HALF : Nat := 2147483648

/-- Addition of two `unsigned long` values. -/
def uadd (a b : Nat) : Nat := (a + b) % ULONG_RANGE

/-- Subtraction of two `unsigned long` values. -/
def usub (a b : Nat) : Nat := (a + (ULONG_RANGE - b % ULONG_RANGE)) % ULONG_RANGE

/-- The conversion `(long)x` of an `unsigned long`. -/
def toLong (x : Nat) : Int :=
  if x % ULONG_RANGE < LONG_HALF then ((x % ULONG_RANGE : Nat) : Int)
  else ((x % ULONG_RANGE : Nat) : Int) - (ULONG_RANGE : Int)

/-- The conversion of a `long` to `unsigned long` (as in `now + repeatInterval`). -/
def toULong (i : Int) : Nat := (i % (ULONG_RANGE : Int)).toNat

/-- The test `(long)(a - b) < 0` used for every comparison of ticks but one. -/
def before (a b : Nat) : Bool := decide (toLong (usub a b) < 0)

/-! ## Task -/

/-- The `object` member of a `Task`: either `&dummy` or a pointer to some other object. -/
inductive ObjectRef where
  | dummy
  | object (p : Option Nat)
deriving DecidableEq, Repr

/-- A `Task`: the union `u` (a function pointer or a method pointer, `none` is `NULL`)
and the object pointer. -/
structure Task where
  u : Option Nat
  object : ObjectRef
deriving DecidableEq, Repr

namespace Task

/-- The constructor `Task()`. -/
def null : Task := { u := none, object := ObjectRef.dummy }

/-- The constructor `Task(void (*f)())`. -/
def ofFunction (f : Option Nat) : Task := { u := f, object := ObjectRef.dummy }

/-- The constructor `Task(void (C::*cf)(), C *c)`. -/
def ofMethod (cf : Option Nat) (c : Option Nat) : Task := { u := cf, object := ObjectRef.object c }

/-- The conversion `Task::operator bool`. -/
def toBool (t : Task) : Bool :=
  if t.object = ObjectRef.dummy then t.u != none
  else (t.u != none && t.object != ObjectRef.object none)

/-- The comparison `Task::operator==`. -/
def eq (t rhs : Task) : Bool :=
  if t.object ≠ rhs.object then false
  else (if t.object = ObjectRef.dummy then t.u == rhs.u else t.u == rhs.u)

end Task

/-! ## Contexts, queues, pool -/

/-- The fields of a `TaskContext`. -/
structure TaskContext where
  target : Task
  tag : Option Nat
  queue : Option Nat
  nextContext : Option Nat
  dispatchTime : Nat
  repeatInterval : Int
  signalEvent : Option Nat
deriving DecidableEq, Repr

namespace TaskContext

/-- The constructor `TaskContext(Task target, const void *tag)`; `dispatchTime` and
`repeatInterval` are left as the storage `mem` had them. -/
def construct (mem : TaskContext) (target : Task) (tag : Option Nat) : TaskContext :=
  { mem with target := target, tag := tag, queue := none, nextContext := none, signalEvent := none }

/-- The member `isPending()`. -/
def isPending (c : TaskContext) : Bool := c.queue != none

end TaskContext

/-- The fields of the base class `TaskQueue`. -/
structure TaskQueue where
  firstContext : Option Nat
  firstSubqueue : Option Nat
  nextSubqueue : Option Nat
deriving DecidableEq, Repr

/-- The fields of a `DynamicContextPool`. -/
structure DynamicContextPool where
  poolLimit : Nat
  firstEntry : Option Nat
  currentEntry : Option Nat
  poolCount : Nat
deriving DecidableEq, Repr

/-- The enumeration `TaskDispatcher::SchedulingPolicy`. -/
inductive SchedulingPolicy where
  | INTERVAL
  | CYCLE
  | TIMING
deriving DecidableEq, Repr

/-- One dispatcher with its surroundings.

* `now` is the value `timingFunction()` returns;
* `dispatcher` is the address of the `TaskDispatcher`, whose base-class fields are
  `tq dispatcher`; the other addresses of `tq` are `EventBarrier`s on that dispatcher;
* `contextPool` is the pool the dispatcher points to (`none` is `NULL`), and
  `nextEntry` holds the `nextEntry` members of its `DynamicContext`s;
* `brk` is the first address that `new` has not handed out;
* `calls` records the tasks invoked through `Task::operator()`, oldest first. -/
structure World where
  now : Nat
  dispatcher : Nat
  schedulingPolicy : SchedulingPolicy
  contextPool : Option DynamicContextPool
  tq : Nat → TaskQueue
  ctx : Nat → TaskContext
  nextEntry : Nat → Option Nat
  brk : Nat
  calls : List Task

namespace World

/-- Overwrite one context. -/
def setCtx (w : World) (c : Nat) (v : TaskContext) : World :=
  { w with ctx := Function.update w.ctx c v }

/-- Overwrite one queue object. -/
def setTq (w : World) (q : Nat) (v : TaskQueue) : World :=
  { w with tq := Function.update w.tq q v }

end World

/-- A `TaskContext **`: the address of some queue's `firstContext` or of some
context's `nextContext`. -/
inductive Slot where
  | first (q : Nat)
  | next (c : Nat)
deriving DecidableEq, Repr

/-- Read through a `TaskContext **`. -/
def deref (w : World) : Slot → Option Nat
  | Slot.first q => (w.tq q).firstContext
  | Slot.next c => (w.ctx c).nextContext

/-- Write through a `TaskContext **`. -/
def store (w : World) (s : Slot) (v : Option Nat) : World :=
  match s with
  | Slot.first q => w.setTq q { w.tq q with firstContext := v }
  | Slot.next c => w.setCtx c { w.ctx c with nextContext := v }

/-- The callbacks: what invoking a task does to the world (`none`: it does not return). -/
abbrev Callback := Task → World → Option World

/-- The call `Task::operator()`: record it and run the callback. -/
def Task.invoke (cb : Callback) (t : Task) (w : World) : Option World :=
  cb t { w with calls := w.calls ++ [t] }

/-! ## TaskQueue -/

namespace TaskQueue

/-- The private `cancel(TaskContext **ptr)`. -/
def cancelAt (w : World) (ptr : Slot) : Option World :=
  match deref w ptr with
  | none => none
  | some context =>
    let w1 := store w ptr (w.ctx context).nextContext
    let w2 := w1.setCtx context { w1.ctx context with queue := none }
    some (w2.setCtx context { w2.ctx context with nextContext := none })

/-- The loop of `cancel(TaskContext &context)`, from `ptr` on. -/
def cancelLoop : Nat → World → Slot → Nat → Option World
  | 0, _, _, _ => none
  | fuel + 1, w, ptr, context =>
    match deref w ptr with
    | none => some w
    | some p => if p = context then cancelAt w ptr else cancelLoop fuel w (Slot.next p) context

/-- The member `cancel(TaskContext &context)` of the queue at `this`. -/
def cancel (fuel : Nat) (w : World) (this : Nat) (context : Nat) : Option World :=
  cancelLoop fuel w (Slot.first this) context

/-- The loop over the subqueues that ends each `cancelAll`. -/
def forSubqueues (act : World → Nat → Option World) : Nat → World → Option Nat → Option World
  | 0, _, _ => none
  | _ + 1, w, none => some w
  | fuel + 1, w, some subqueue =>
    match act w subqueue with
    | none => none
    | some w1 => forSubqueues act fuel w1 (w1.tq subqueue).nextSubqueue

/-- The first loop of `cancelAll(const void *tag)`, from `ptr` on. -/
def cancelAllTagLoop : Nat → World → Slot → Option Nat → Option World
  | 0, _, _, _ => none
  | fuel + 1, w, ptr, tag =>
    match deref w ptr with
    | none => some w
    | some p =>
      if (w.ctx p).tag = tag then
        match cancelAt w ptr with
        | none => none
        | some w1 => cancelAllTagLoop fuel w1 ptr tag
      else cancelAllTagLoop fuel w (Slot.next p) tag

/-- The member `cancelAll(const void *tag)`. -/
def cancelAllTag : Nat → World → Nat → Option Nat → Option World
  | 0, _, _, _ => none
  | fuel + 1, w, this, tag =>
    match cancelAllTagLoop (fuel + 1) w (Slot.first this) tag with
    | none => none
    | some w1 =>
      forSubqueues (fun w2 subqueue => cancelAllTag fuel w2 subqueue tag) (fuel + 1) w1
        (w1.tq this).firstSubqueue

/-- The first loop of `cancelAll(Task target)`, from `ptr` on. -/
def cancelAllTargetLoop : Nat → World → Slot → Task → Option World
  | 0, _, _, _ => none
  | fuel + 1, w, ptr, target =>
    match deref w ptr with
    | none => some w
    | some p =>
      if Task.eq (w.ctx p).target target then
        match cancelAt w ptr with
        | none => none
        | some w1 => cancelAllTargetLoop fuel w1 ptr target
      else cancelAllTargetLoop fuel w (Slot.next p) target

/-- The member `cancelAll(Task target)`. -/
def cancelAllTarget : Nat → World → Nat → Task → Option World
  | 0, _, _, _ => none
  | fuel + 1, w, this, target =>
    match cancelAllTargetLoop (fuel + 1) w (Slot.first this) target with
    | none => none
    | some w1 =>
      forSubqueues (fun w2 subqueue => cancelAllTarget fuel w2 subqueue target) (fuel + 1) w1
        (w1.tq this).firstSubqueue

/-- The first loop of `cancelAll()`. -/
def cancelAllLoop : Nat → World → Nat → Option World
  | 0, _, _ => none
  | fuel + 1, w, this =>
    match (w.tq this).firstContext with
    | none => some w
    | some _ =>
      match cancelAt w (Slot.first this) with
      | none => none
      | some w1 => cancelAllLoop fuel w1 this

/-- The member `cancelAll()`. -/
def cancelAll : Nat → World → Nat → Option World
  | 0, _, _ => none
  | fuel + 1, w, this =>
    match cancelAllLoop (fuel + 1) w this with
    | none => none
    | some w1 =>
      forSubqueues (fun w2 subqueue => cancelAll fuel w2 subqueue) (fuel + 1) w1
        (w1.tq this).firstSubqueue

/-- The loop of `findContext`, from `ptr` on: `some (some ptr)` is the slot found,
`some none` is the `NULL` result. -/
def findContextLoop : Nat → World → Slot → Option Nat → Option (Option Slot)
  | 0, _, _, _ => none
  | fuel + 1, w, ptr, context =>
    match deref w ptr with
    | none => some none
    | some p => if some p = context then some (some ptr) else findContextLoop fuel w (Slot.next p) context

/-- The member `findContext(TaskContext *context)`. -/
def findContext (fuel : Nat) (w : World) (this : Nat) (context : Option Nat) : Option (Option Slot) :=
  findContextLoop fuel w (Slot.first this) context

/-- The constructor `TaskQueue()`. -/
def construct : TaskQueue := { firstContext := none, firstSubqueue := none, nextSubqueue := none }

end TaskQueue

/-- The member `TaskContext::cancel()` of the context at `this`. -/
def TaskContext.cancel (fuel : Nat) (w : World) (this : Nat) : Option World :=
  match (w.ctx this).queue with
  | none => some w
  | some queue => TaskQueue.cancel fuel w queue this

/-! ## TaskQueue::iterator -/

/-- The fields of a `TaskQueue::iterator`. -/
structure Iterator where
  context : Option Nat
  nextContext : Option Nat
deriving DecidableEq, Repr

namespace Iterator

/-- The constructor `iterator(TaskContext *context)`. -/
def construct (w : World) (context : Option Nat) : Iterator :=
  { context := context
    nextContext := match context with
      | some c => (w.ctx c).nextContext
      | none => none }

/-- The prefix `operator++`. -/
def incr (w : World) (it : Iterator) : Iterator :=
  match it.nextContext with
  | some c => { context := some c, nextContext := (w.ctx c).nextContext }
  | none => { context := none, nextContext := it.nextContext }

/-- The comparison `operator==`. -/
def eq (it rhs : Iterator) : Bool := it.context == rhs.context

/-- The static `endIterator`. -/
def endIterator (w : World) : Iterator := construct w none

/-- The member `TaskQueue::begin()` of the queue at `this`. -/
def begin (w : World) (this : Nat) : Iterator := construct w (w.tq this).firstContext

end Iterator

/-! ## ContextPool and DynamicContextPool -/

/-- The optional `emptyPoolHandler` of a pool: it yields a context pointer and may
change the world. -/
abbrev EmptyPoolHandler := Option (World → Option Nat × World)

namespace DynamicContextPool

/-- The constructor `DynamicContextPool(unsigned poolLimit)`. -/
def construct (poolLimit : Nat) : DynamicContextPool :=
  { poolLimit := poolLimit, firstEntry := none, currentEntry := none, poolCount := 0 }

/-- The do-while loop of `fetchCore`: `some (some c, pool)` when it returns the
context `c`, `some (none, pool)` when it falls through to the allocation. -/
def fetchLoop : Nat → World → DynamicContextPool → Option Nat →
    Option (Option Nat × DynamicContextPool)
  | 0, _, _, _ => none
  | fuel + 1, w, pool, startEntry =>
    match pool.currentEntry with
    | none => none
    | some context =>
      let pool1 : DynamicContextPool :=
        { pool with currentEntry := match w.nextEntry context with
            | some n => some n
            | none => pool.firstEntry }
      if (w.ctx context).isPending = false then some (some context, pool1)
      else if pool1.currentEntry ≠ startEntry then fetchLoop fuel w pool1 startEntry
      else some (none, pool1)

/-- The end of `fetchCore`: allocate a `DynamicContext` and link it at the head. -/
def allocate (w : World) (pool : DynamicContextPool) : Option Nat × World :=
  let newContext := w.brk
  (some newContext,
    { w with
      brk := w.brk + 1
      ctx := Function.update w.ctx newContext
        (TaskContext.construct (w.ctx newContext) Task.null none)
      nextEntry := Function.update w.nextEntry newContext pool.firstEntry
      contextPool := some { pool with firstEntry := some newContext } })

/-- The member `fetchCore()` of the pool `pool` (the one `w.contextPool` holds). -/
def fetchCore (fuel : Nat) (w : World) (pool : DynamicContextPool) : Option (Option Nat × World) :=
  match pool.firstEntry with
  | some _ =>
    let pool1 : DynamicContextPool :=
      if pool.currentEntry = none then { pool with currentEntry := pool.firstEntry } else pool
    match fetchLoop fuel w pool1 pool1.currentEntry with
    | none => none
    | some (some context, pool2) => some (some context, { w with contextPool := some pool2 })
    | some (none, pool2) => some (allocate w pool2)
  | none => some (allocate w pool)

end DynamicContextPool

/-- The member `ContextPool::fetch()`. -/
def ContextPool.fetch (eph : EmptyPoolHandler) (fuel : Nat) (w : World) (pool : DynamicContextPool) :
    Option (Option Nat × World) :=
  match DynamicContextPool.fetchCore fuel w pool with
  | none => none
  | some (context, w1) =>
    match context, eph with
    | none, some handler => some (handler w1)
    | _, _ => some (context, w1)

/-! ## TaskDispatcher -/

namespace TaskDispatcher

/-- The loop of `enqueueContext`, from `ptr` on. -/
def enqueueLoop : Nat → World → Slot → Nat → Option World
  | 0, _, _, _ => none
  | fuel + 1, w, ptr, context =>
    let splice : World :=
      let w1 := w.setCtx context { w.ctx context with queue := some w.dispatcher }
      let w2 := w1.setCtx context { w1.ctx context with nextContext := deref w ptr }
      store w2 ptr (some context)
    match deref w ptr with
    | none => some splice
    | some thisContext =>
      if before (w.ctx context).dispatchTime (w.ctx thisContext).dispatchTime then some splice
      else enqueueLoop fuel w (Slot.next thisContext) context

/-- The member `enqueueContext(TaskContext *context)`. -/
def enqueueContext (fuel : Nat) (w : World) (context : Nat) : Option World :=
  enqueueLoop fuel w (Slot.first w.dispatcher) context

/-- The member `TaskDispatcher::recycleContext(TaskContext *context)`. -/
def recycleContext (fuel : Nat) (w : World) (context : Nat) : Option World :=
  let w1 := w.setCtx context { w.ctx context with dispatchTime := w.now }
  let w2 := w1.setCtx context { w1.ctx context with repeatInterval := -1 }
  enqueueContext fuel w2 context

/-- The overload `schedule(TaskContext &context, long firstInterval, long nextInterval)`. -/
def scheduleContext (fuel : Nat) (w : World) (context : Nat) (firstInterval nextInterval : Int) :
    Option World :=
  if firstInterval ≥ 0 then
    match TaskContext.cancel fuel w context with
    | none => none
    | some w1 =>
      let w2 := w1.setCtx context
        { w1.ctx context with dispatchTime := uadd w1.now (toULong firstInterval) }
      let w3 := w2.setCtx context { w2.ctx context with repeatInterval := nextInterval }
      let w4 := w3.setCtx context { w3.ctx context with signalEvent := none }
      enqueueContext fuel w4 context
  else some w

/-- The overload `schedule(TaskContext &context, long firstInterval, long nextInterval,
Task target, const void *tag)`. -/
def scheduleTarget (fuel : Nat) (w : World) (context : Nat) (firstInterval nextInterval : Int)
    (target : Task) (tag : Option Nat) : Option World :=
  if firstInterval ≥ 0 then
    let w1 := w.setCtx context { w.ctx context with target := target }
    let w2 := w1.setCtx context { w1.ctx context with tag := tag }
    scheduleContext fuel w2 context firstInterval nextInterval
  else some w

/-- The overload `schedule(long firstInterval, long nextInterval, Task target,
const void *tag)`, which takes the context from the pool. -/
def schedule (eph : EmptyPoolHandler) (fuel : Nat) (w : World) (firstInterval nextInterval : Int)
    (target : Task) (tag : Option Nat) : Option (Option Nat × World) :=
  let fetched : Option (Option Nat × World) :=
    match w.contextPool with
    | some pool => ContextPool.fetch eph fuel w pool
    | none => some (none, w)
  match fetched with
  | none => none
  | some (none, w1) => some (none, w1)
  | some (some context, w1) =>
    match TaskQueue.cancelAllTarget fuel w1 w1.dispatcher target with
    | none => none
    | some w2 =>
      match scheduleTarget fuel w2 context firstInterval nextInterval target tag with
      | none => none
      | some w3 => some (some context, w3)

/-- The pool-based `callAfter(long interval, Task target, const void *tag)`. -/
def callAfter (eph : EmptyPoolHandler) (fuel : Nat) (w : World) (interval : Int) (target : Task)
    (tag : Option Nat) : Option (Option Nat × World) :=
  schedule eph fuel w interval (-1) target tag

/-- The pool-based `callEvery(long interval, Task target, const void *tag)`. -/
def callEvery (eph : EmptyPoolHandler) (fuel : Nat) (w : World) (interval : Int) (target : Task)
    (tag : Option Nat) : Option (Option Nat × World) :=
  schedule eph fuel w 0 interval target tag

/-- The overload `callAfter(TaskContext &context, long interval, Task target,
const void *tag)`. -/
def callAfterTarget (fuel : Nat) (w : World) (context : Nat) (interval : Int) (target : Task)
    (tag : Option Nat) : Option World :=
  scheduleTarget fuel w context interval (-1) target tag

/-- The overload `callEvery(TaskContext &context, long interval, Task target,
const void *tag)`. -/
def callEveryTarget (fuel : Nat) (w : World) (context : Nat) (interval : Int) (target : Task)
    (tag : Option Nat) : Option World :=
  scheduleTarget fuel w context 0 interval target tag

/-- The overload `callAfter(TaskContext &context, long interval)`. -/
def callAfterContext (fuel : Nat) (w : World) (context : Nat) (interval : Int) : Option World :=
  scheduleContext fuel w context interval (-1)

/-- The overload `callEvery(TaskContext &context, long interval)`. -/
def callEveryContext (fuel : Nat) (w : World) (context : Nat) (interval : Int) : Option World :=
  scheduleContext fuel w context 0 interval

end TaskDispatcher

/-! ## EventBarrier -/

namespace EventBarrier

/-- The constant `FOREVER`. -/
def FOREVER : Int := -1

/-- The constructor `EventBarrier(TaskDispatcher &dispatcher)` for the barrier at `this`. -/
def construct (w : World) (this : Nat) : World :=
  let w1 := w.setTq this TaskQueue.construct
  let w2 := w1.setTq this
    { w1.tq this with nextSubqueue := (w1.tq w1.dispatcher).firstSubqueue }
  w2.setTq w2.dispatcher { w2.tq w2.dispatcher with firstSubqueue := some this }

/-- The loop of `EventBarrier::recycleContext`: advance `ptr` to the end of the list. -/
def tailLoop : Nat → World → Slot → Option Slot
  | 0, _, _ => none
  | fuel + 1, w, ptr =>
    match deref w ptr with
    | none => some ptr
    | some p => tailLoop fuel w (Slot.next p)

/-- The member `EventBarrier::recycleContext(TaskContext *context)` of the barrier at `this`. -/
def recycleContext (fuel : Nat) (w : World) (this : Nat) (context : Nat) : Option World :=
  match tailLoop fuel w (Slot.first this) with
  | none => none
  | some ptr =>
    let w1 := w.setCtx context { w.ctx context with queue := some this }
    let w2 := w1.setCtx context { w1.ctx context with nextContext := deref w1 ptr }
    some (store w2 ptr (some context))

/-- The member `signal()` of the barrier at `this`. -/
def signal (fuel : Nat) (w : World) (this : Nat) : Option (Bool × World) :=
  match (w.tq this).firstContext with
  | some context =>
    let w1 := w.setTq this { w.tq this with firstContext := (w.ctx context).nextContext }
    match TaskDispatcher.recycleContext fuel w1 context with
    | none => none
    | some w2 => some (true, w2)
  | none => some (false, w)

/-- The member `signalAll()` of the barrier at `this`. -/
def signalAll : Nat → World → Nat → Option World
  | 0, _, _ => none
  | fuel + 1, w, this =>
    match signal (fuel + 1) w this with
    | none => none
    | some (true, w1) => signalAll fuel w1 this
    | some (false, w1) => some w1

/-- The overload `onSignal(TaskContext *context, bool repeat)`. -/
def onSignalContext (fuel : Nat) (w : World) (this : Nat) (context : Nat) (repeat_ : Bool) :
    Option World :=
  match TaskContext.cancel fuel w context with
  | none => none
  | some w1 =>
    let w2 := w1.setCtx context
      { w1.ctx context with signalEvent := if repeat_ then some this else none }
    recycleContext fuel w2 this context

/-- The overload `onSignal(TaskContext *context, Task target, const void *tag, bool repeat)`. -/
def onSignalTarget (fuel : Nat) (w : World) (this : Nat) (context : Nat) (target : Task)
    (tag : Option Nat) (repeat_ : Bool) : Option World :=
  let w1 := w.setCtx context { w.ctx context with target := target }
  let w2 := w1.setCtx context { w1.ctx context with tag := tag }
  onSignalContext fuel w2 this context repeat_

/-- The overload `onSignal(Task target, const void *tag, bool repeat)`, which takes the
context from the pool of the dispatcher. -/
def onSignal (eph : EmptyPoolHandler) (fuel : Nat) (w : World) (this : Nat) (target : Task)
    (tag : Option Nat) (repeat_ : Bool) : Option (Option Nat × World) :=
  let fetched : Option (Option Nat × World) :=
    match w.contextPool with
    | some pool => ContextPool.fetch eph fuel w pool
    | none => some (none, w)
  match fetched with
  | none => none
  | some (none, w1) => some (none, w1)
  | some (some context, w1) =>
    match TaskQueue.cancelAllTarget fuel w1 w1.dispatcher target with
    | none => none
    | some w2 =>
      match onSignalTarget fuel w2 this context target tag repeat_ with
      | none => none
      | some w3 => some (some context, w3)

/-- The pool-based `when(Task target, const void *tag)`. -/
def when (eph : EmptyPoolHandler) (fuel : Nat) (w : World) (this : Nat) (target : Task)
    (tag : Option Nat) : Option (Option Nat × World) :=
  onSignal eph fuel w this target tag false

/-- The pool-based `whenever(Task target, const void *tag)`. -/
def whenever (eph : EmptyPoolHandler) (fuel : Nat) (w : World) (this : Nat) (target : Task)
    (tag : Option Nat) : Option (Option Nat × World) :=
  onSignal eph fuel w this target tag true

/-- The overload `when(TaskContext &context, Task target, const void *tag)`. -/
def whenTarget (fuel : Nat) (w : World) (this : Nat) (context : Nat) (target : Task)
    (tag : Option Nat) : Option World :=
  onSignalTarget fuel w this context target tag false

/-- The overload `whenever(TaskContext &context, Task target, const void *tag)`. -/
def wheneverTarget (fuel : Nat) (w : World) (this : Nat) (context : Nat) (target : Task)
    (tag : Option Nat) : Option World :=
  onSignalTarget fuel w this context target tag true

/-- The overload `when(TaskContext &context)`. -/
def whenContext (fuel : Nat) (w : World) (this : Nat) (context : Nat) : Option World :=
  onSignalContext fuel w this context false

/-- The overload `whenever(TaskContext &context)`. -/
def wheneverContext (fuel : Nat) (w : World) (this : Nat) (context : Nat) : Option World :=
  onSignalContext fuel w this context true

end EventBarrier

/-! ## TaskDispatcher::run -/

namespace TaskDispatcher

/-- The arithmetic of the policy switch of `run()`: `then_` and `now` are the ticks read
before and after the callback, `dispatchTime` the time that just fired.  The result is
`none` where the source takes a remainder by zero. -/
def nextDispatchTime (policy : SchedulingPolicy) (then_ now dispatchTime : Nat)
    (repeatInterval : Int) : Option Nat :=
  match policy with
  | SchedulingPolicy.INTERVAL => some (uadd now (toULong repeatInterval))
  | SchedulingPolicy.CYCLE =>
    let dispatchTime1 := uadd then_ (toULong repeatInterval)
    if dispatchTime1 < now then some now else some dispatchTime1
  | SchedulingPolicy.TIMING =>
    let dispatchTime1 := uadd dispatchTime (toULong repeatInterval)
    let overrun := toLong (usub now dispatchTime1)
    if overrun > 0 then
      (if repeatInterval = 0 then none
       else some (uadd now (toULong (Int.tmod overrun repeatInterval))))
    else some dispatchTime1

/-- The part of `run()` between the test of the head and the callback: detach the head
`context`, and mark it idle when this is its last run. -/
def runDetach (w : World) (context : Nat) : World :=
  let w1 := w.setTq w.dispatcher
    { w.tq w.dispatcher with firstContext := (w.ctx context).nextContext }
  let w2 := w1.setCtx context { w1.ctx context with nextContext := none }
  if (w2.ctx context).repeatInterval < 0 ∧ (w2.ctx context).signalEvent = none then
    w2.setCtx context { w2.ctx context with queue := none }
  else w2

/-- The part of `run()` after the callback; `now` and `dispatchTime` are the locals read
before the callback. -/
def runRearm (fuel : Nat) (w : World) (context : Nat) (now dispatchTime : Nat) : Option World :=
  if (w.ctx context).queue = some w.dispatcher ∧ (w.ctx context).nextContext = none then
    match TaskQueue.findContext fuel w w.dispatcher (some context) with
    | none => none
    | some (some _) => some w
    | some none =>
      let repeatInterval := (w.ctx context).repeatInterval
      if repeatInterval ≥ 0 then
        match nextDispatchTime w.schedulingPolicy now w.now dispatchTime repeatInterval with
        | none => none
        | some dispatchTime1 =>
          enqueueContext fuel (w.setCtx context { w.ctx context with dispatchTime := dispatchTime1 })
            context
      else
        match (w.ctx context).signalEvent with
        | some signalEvent => EventBarrier.recycleContext fuel w signalEvent context
        | none => some (w.setCtx context { w.ctx context with queue := none })
  else some w

/-- The member `run()`. -/
def run (cb : Callback) (fuel : Nat) (w : World) : Option (Bool × World) :=
  match (w.tq w.dispatcher).firstContext with
  | none => some (false, w)
  | some context =>
    let now := w.now
    let dispatchTime := (w.ctx context).dispatchTime
    if toLong (usub now dispatchTime) < 0 then some (false, w)
    else
      let w1 := runDetach w context
      let called : Option World :=
        if (w1.ctx context).target.toBool then Task.invoke cb (w1.ctx context).target w1
        else some w1
      match called with
      | none => none
      | some w2 =>
        match runRearm fuel w2 context now dispatchTime with
        | none => none
        | some w3 => some (true, w3)

end TaskDispatcher

/-! ## Vocabulary of the statements -/

/-- The nodes reached from `p` by following `next`, up to the `NULL` that ends the list. -/
def follows (next : Nat → Option Nat) : Option Nat → List Nat → Prop
  | p, [] => p = none
  | p, c :: l => p = some c ∧ follows next (next c) l

instance follows.decide (next : Nat → Option Nat) :
    (p : Option Nat) → (l : List Nat) → Decidable (follows next p l)
  | p, [] => (inferInstance : Decidable (p = none))
  | _, c :: l => @instDecidableAnd _ _ _ (follows.decide next (next c) l)

/-- The list of contexts linked from `p` through `nextContext` is `l`. -/
abbrev chain (ctx : Nat → TaskContext) (p : Option Nat) (l : List Nat) : Prop :=
  follows (fun c => (ctx c).nextContext) p l

/-- The list of queues linked from `p` through `nextSubqueue` is `l`. -/
abbrev subchain (tq : Nat → TaskQueue) (p : Option Nat) (l : List Nat) : Prop :=
  follows (fun q => (tq q).nextSubqueue) p l

/-- The slot reached from `ptr` after stepping over the contexts of `l`. -/
def slotAfter (ptr : Slot) : List Nat → Slot
  | [] => ptr
  | c :: l => slotAfter (Slot.next c) l

/-- The three assignments that splice `context` into a list at `ptr` on behalf of `queue`. -/
def linkAt (w : World) (ptr : Slot) (context : Nat) (queue : Nat) : World :=
  let w1 := w.setCtx context { w.ctx context with queue := some queue }
  let w2 := w1.setCtx context { w1.ctx context with nextContext := deref w ptr }
  store w2 ptr (some context)

/-- The three assignments of `cancel(TaskContext **ptr)` when `*ptr` is `context`. -/
def unlinkAt (w : World) (ptr : Slot) (context : Nat) : World :=
  let w1 := store w ptr (w.ctx context).nextContext
  let w2 := w1.setCtx context { w1.ctx context with queue := none }
  w2.setCtx context { w2.ctx context with nextContext := none }

/-- Where `enqueueContext` puts a context of dispatch time `t` in the list `l`: before the
first context that `t` is before. -/
def insertByTime (ctx : Nat → TaskContext) (t : Nat) (context : Nat) : List Nat → List Nat
  | [] => [context]
  | x :: l =>
    if before t (ctx x).dispatchTime then context :: x :: l
    else x :: insertByTime ctx t context l

/-- The common shape of the first loop of `cancelAll(Task)`, `cancelAll(const void *)` and
`cancelAll()`: unlink the contexts that satisfy `P`. -/
def cancelWhereLoop (P : TaskContext → Bool) : Nat → World → Slot → Option World
  | 0, _, _ => none
  | fuel + 1, w, ptr =>
    match deref w ptr with
    | none => some w
    | some p =>
      if P (w.ctx p) then
        match TaskQueue.cancelAt w ptr with
        | none => none
        | some w1 => cancelWhereLoop P fuel w1 ptr
      else cancelWhereLoop P fuel w (Slot.next p)

/-- The common shape of the three `cancelAll` members. -/
def cancelWhere (P : TaskContext → Bool) : Nat → World → Nat → Option World
  | 0, _, _ => none
  | fuel + 1, w, this =>
    match cancelWhereLoop P (fuel + 1) w (Slot.first this) with
    | none => none
    | some w1 =>
      TaskQueue.forSubqueues (fun w2 subqueue => cancelWhere P fuel w2 subqueue) (fuel + 1) w1
        (w1.tq this).firstSubqueue

/-- A context with its two link fields blanked: what the list operations leave alone. -/
def TaskContext.data (c : TaskContext) : TaskContext :=
  { c with queue := none, nextContext := none }

/-- The worlds `w` and `w2` differ at most in the links: the `queue` and `nextContext` of
contexts and the `firstContext` of queues. -/
def SameData (w w2 : World) : Prop :=
  w2.now = w.now ∧ w2.dispatcher = w.dispatcher ∧ w2.schedulingPolicy = w.schedulingPolicy ∧
  w2.contextPool = w.contextPool ∧ w2.nextEntry = w.nextEntry ∧ w2.brk = w.brk ∧
  w2.calls = w.calls ∧
  (∀ q, (w2.tq q).firstSubqueue = (w.tq q).firstSubqueue) ∧
  (∀ q, (w2.tq q).nextSubqueue = (w.tq q).nextSubqueue) ∧
  (∀ c, (w2.ctx c).data = (w.ctx c).data)

/-- The link structure of a world: `bs` are the barriers on the subqueue chain of the
dispatcher, none of which has subqueues of its own; `lists q` is the list of the queue
`q`, for the dispatcher and each barrier; and a linked context names its queue. -/
def Linked (w : World) (bs : List Nat) (lists : Nat → List Nat) : Prop :=
  subchain w.tq (w.tq w.dispatcher).firstSubqueue bs ∧
  w.dispatcher ∉ bs ∧
  (∀ b ∈ bs, (w.tq b).firstSubqueue = none) ∧
  (∀ q ∈ w.dispatcher :: bs, chain w.ctx (w.tq q).firstContext (lists q)) ∧
  (∀ q ∈ w.dispatcher :: bs, ∀ c ∈ lists q, (w.ctx c).queue = some q)

instance Linked.decide (w : World) (bs : List Nat) (lists : Nat → List Nat) :
    Decidable (Linked w bs lists) := by
  unfold Linked; infer_instance

/-- Every pending context is linked on the queue it names. -/
def PendingLinked (w : World) (bs : List Nat) (lists : Nat → List Nat) : Prop :=
  ∀ c q, (w.ctx c).queue = some q → q ∈ w.dispatcher :: bs ∧ c ∈ lists q

/-- The entries of the pool: `es` is its chain of contexts, the cursor is `NULL` or one of
them, and all of them were handed out by `new`. -/
def PoolOK (w : World) (pool : DynamicContextPool) (es : List Nat) : Prop :=
  follows w.nextEntry pool.firstEntry es ∧
  (pool.currentEntry = none ∨ ∃ e ∈ es, pool.currentEntry = some e) ∧
  (∀ e ∈ es, e < w.brk)

/-- A callback that does not call back into the scheduler: it returns, and at most the
clock has advanced. -/
def Quiet (cb : Callback) : Prop :=
  ∀ t w, ∃ n, cb t w = some { w with now := n }

/-- The entry that follows `e` in the round of `fetchCore`: its `nextEntry`, or the first
entry when that is `NULL`. -/
def cyc (w : World) (pool : DynamicContextPool) (e : Nat) : Option Nat :=
  match w.nextEntry e with
  | some n => some n
  | none => pool.firstEntry

/-- The round of `fetchCore` goes from `cur` through `rest` and then reaches `fin`. -/
def cycPath (next : Nat → Option Nat) : Nat → List Nat → Option Nat → Prop
  | cur, [], fin => next cur = fin
  | cur, x :: rest, fin => next cur = some x ∧ cycPath next x rest fin

/-- No storage beyond what `new` has handed out holds a pending context. -/
def Fresh (w : World) : Prop := ∀ x, w.brk ≤ x → (w.ctx x).queue = none

/-- The timing fields that `schedule(context, firstInterval, nextInterval)` writes. -/
def armed (c : TaskContext) (t : Nat) (nextInterval : Int) : TaskContext :=
  { c with dispatchTime := t, repeatInterval := nextInterval, signalEvent := none }

/-- The lists after a context has been armed for the time `t`: it leaves the list it was on
and enters the list of the dispatcher. -/
def scheduledLists (w : World) (lists : Nat → List Nat) (context : Nat) (t : Nat) :
    Nat → List Nat :=
  Function.update (fun q => (lists q).erase context) w.dispatcher
    (insertByTime w.ctx t context ((lists w.dispatcher).erase context))


/-- A world between two calls of the library: the lists are well formed, every pending
context is on the list of its queue, the dispatcher has a well-formed pool with entries
`es`, and the storage not yet handed out is idle. -/
def Quiescent (w : World) (bs : List Nat) (lists : Nat → List Nat) (es : List Nat) : Prop :=
  Linked w bs lists ∧ PendingLinked w bs lists ∧
  (∃ pool, w.contextPool = some pool ∧ PoolOK w pool es) ∧ Fresh w

/-! ## Concrete worlds for the examples -/

/-- Storage that holds no context yet. -/
def blankContext : TaskContext :=
  { target := Task.null, tag := none, queue := none, nextContext := none, dispatchTime := 0,
    repeatInterval := 0, signalEvent := none }

/-- A world with nothing scheduled: the dispatcher is at address 100 and has no barrier,
the addresses below 10 are storage of the caller, and `new` hands out storage from 10 on. -/
def startWorld (now : Nat) (policy : SchedulingPolicy) (contextPool : Option DynamicContextPool) :
    World :=
  { now := now, dispatcher := 100, schedulingPolicy := policy, contextPool := contextPool,
    tq := fun _ => TaskQueue.construct, ctx := fun _ => blankContext,
    nextEntry := fun _ => none, brk := 10, calls := [] }

/-- The same world at another tick. -/
def atTick (w : World) (now : Nat) : World := { w with now := now }

/-- A callback that returns at once. -/
def returnAtOnce : Callback := fun _ w => some w

/-- A callback that returns after `ticks` ticks. -/
def returnAfter (ticks : Nat) : Callback := fun _ w => some { w with now := uadd w.now ticks }

/-- A callback that cancels the context `c` and returns. -/
def cancelInside (c : Nat) : Callback := fun _ w => TaskContext.cancel 8 w c

/-- The plain function with address `n` as a task. -/
def fn (n : Nat) : Task := Task.ofFunction (some n)

instance PoolOK.decide (w : World) (pool : DynamicContextPool) (es : List Nat) :
    Decidable (PoolOK w pool es) := by
  unfold PoolOK; infer_instance

/-- The context `c` of `w1` is a pending one-shot that fires at the tick `T`: `run()` at a
tick before `T` (by signed difference) returns false and leaves the world as it is, and
`run()` at a tick not before `T`, such as `T` itself, returns true, invokes `f` once and
leaves `c` idle. -/
def FiresOnceAt (cb : Callback) (fuel : Nat) (w1 : World) (c : Nat) (f : Task) (T : Nat) : Prop :=
  (w1.ctx c).dispatchTime = T ∧
  (w1.ctx c).isPending = true ∧
  (∀ t, toLong (usub t T) < 0 →
    TaskDispatcher.run cb fuel (atTick w1 t) = some (false, atTick w1 t)) ∧
  (∀ t, ¬ toLong (usub t T) < 0 →
    ∃ w2, TaskDispatcher.run cb fuel (atTick w1 t) = some (true, w2) ∧
      w2.calls = w1.calls ++ [f] ∧ (w2.ctx c).isPending = false) ∧
  (∃ w2, TaskDispatcher.run cb fuel (atTick w1 T) = some (true, w2) ∧
    w2.calls = w1.calls ++ [f] ∧ (w2.ctx c).isPending = false)

/-- A world with one barrier, at address 101, and the pool of `startWorld`. -/
def barrierWorld (now : Nat) (policy : SchedulingPolicy) (contextPool : Option DynamicContextPool) :
    World :=
  EventBarrier.construct (startWorld now policy contextPool) 101

/-- A world at tick 5 in which the contexts 0 and 1 of the caller wait, in this order, on
the barrier 101, and the context 2 is due on the dispatcher at tick 3. -/
def waitingWorld : World :=
  ((EventBarrier.whenTarget 8 (barrierWorld 3 SchedulingPolicy.INTERVAL none) 101 0 (fn 1)
      none).bind (fun w1 =>
    (EventBarrier.wheneverTarget 8 w1 101 1 (fn 2) none).bind (fun w2 =>
      (TaskDispatcher.callAfterTarget 8 w2 2 0 (fn 3) none).map (fun w3 => atTick w3 5)))).getD
    (barrierWorld 3 SchedulingPolicy.INTERVAL none)

/-- A world at tick 0 in which the pool context 10 is armed by `callEvery(10, f)`. -/
def periodicWorld : World :=
  ((TaskDispatcher.callEvery none 8
      (startWorld 0 SchedulingPolicy.INTERVAL (some (DynamicContextPool.construct 0)))
      10 (fn 1) none).map Prod.snd).getD
    (startWorld 0 SchedulingPolicy.INTERVAL (some (DynamicContextPool.construct 0)))

/-- The lists of `waitingWorld`. -/
def waitingLists (q : Nat) : List Nat :=
  if q = 101 then [0, 1] else if q = 100 then [2] else []

/-! ## Vocabulary of the statements about cancellation and ordering -/

/-- The queues a `cancelAll` on `this` visits: the dispatcher and all its barriers when
`this` is the dispatcher, and `this` alone when it is a barrier. -/
def cancelScope (w : World) (bs : List Nat) (this : Nat) : List Nat :=
  if this = w.dispatcher then w.dispatcher :: bs else [this]

/-- What a `cancelAll` on `this` that removes the contexts satisfying `P` leaves behind, from
`w` to `w2`: on each queue visited the list is the old one without the contexts that satisfy
`P`, in the old order, and the other lists are as before; the removed contexts are idle and
unlinked; the contexts that stay name the queue they named; no context on a visited queue
satisfies `P` any more; and only links have changed. -/
def CancelledWhere (P : TaskContext → Bool) (w w2 : World) (bs : List Nat)
    (lists : Nat → List Nat) (this : Nat) : Prop :=
  Linked w2 bs (fun q => if q ∈ cancelScope w bs this
    then (lists q).filter (fun c => !P (w.ctx c)) else lists q) ∧
  (∀ q ∈ cancelScope w bs this, ∀ c ∈ lists q, P (w.ctx c) = true →
    (w2.ctx c).queue = none ∧ (w2.ctx c).nextContext = none) ∧
  (∀ c, ¬ ((∃ q ∈ cancelScope w bs this, c ∈ lists q) ∧ P (w.ctx c) = true) →
    (w2.ctx c).queue = (w.ctx c).queue) ∧
  (∀ q ∈ cancelScope w bs this, ∀ l, chain w2.ctx (w2.tq q).firstContext l →
    ∀ c ∈ l, P (w2.ctx c) = false) ∧
  SameData w w2

/-- The list `l` is in ascending order of dispatch time by the signed-difference
comparison: no context is before one that precedes it in the list. -/
def Ascending (ctx : Nat → TaskContext) (l : List Nat) : Prop :=
  l.Pairwise (fun a b => before (ctx b).dispatchTime (ctx a).dispatchTime = false)

/-- The tick `t` lies in the window of half the tick range that starts at `base`.  Ticks
that lie in one such window are less than half the range away from one another. -/
def Within (base t : Nat) : Prop := usub t base < LONG_HALF

instance Ascending.decide (ctx : Nat → TaskContext) (l : List Nat) :
    Decidable (Ascending ctx l) := by
  unfold Ascending; infer_instance

instance Within.decide (base t : Nat) : Decidable (Within base t) := by
  unfold Within; infer_instance

/-! ## A walk over a queue with the iterator -/

/-- The dereference `operator*` of an iterator: the context it stands on (`none`: the
source would bind a reference to `*NULL`). -/
def Iterator.star (it : Iterator) : Option Nat := it.context

/-- What the body of a walk does with the context it is given. -/
inductive Removal where
  | keep
  | viaQueue
  | viaContext
deriving DecidableEq, Repr

/-- The loop `for (it = begin(); it != end(); ++it)` over the queue at `this`, from the
iterator `it` on.  The body receives `*it` and, as `sel` says, leaves it alone, cancels it
with `TaskQueue::cancel` on this queue or cancels it with `TaskContext::cancel`.  The
result is the list of the contexts the body received and the world after the walk. -/
def walk (sel : Nat → Removal) (inner : Nat) :
    Nat → World → Nat → Iterator → Option (List Nat × World)
  | 0, _, _, _ => none
  | fuel + 1, w, this, it =>
    if Iterator.eq it (Iterator.endIterator w) then some ([], w)
    else
      match Iterator.star it with
      | none => none
      | some c =>
        let acted : Option World :=
          match sel c with
          | Removal.keep => some w
          | Removal.viaQueue => TaskQueue.cancel inner w this c
          | Removal.viaContext => TaskContext.cancel inner w c
        match acted with
        | none => none
        | some w1 =>
          match walk sel inner fuel w1 this (Iterator.incr w1 it) with
          | none => none
          | some (l, w2) => some (c :: l, w2)

/-! ## Vocabulary of the statements about the pool -/

/-- The order in which `fetchCore` looks at the entries `es` of the pool: from the cursor to
the end of the chain and then from the head of the chain to the entry before the cursor;
from the head of the chain when the cursor is `NULL`. -/
def poolRound (es : List Nat) (pool : DynamicContextPool) : List Nat :=
  match pool.currentEntry with
  | none => es
  | some s => es.dropWhile (fun e => e != s) ++ es.takeWhile (fun e => e != s)

/-! ## Callbacks that call the scheduler -/

/-- A callback that lets `ticks` ticks pass and then re-arms the context `c` with the
caller-provided `schedule(c, d, n)`. -/
def rearmInside (inner : Nat) (c : Nat) (d n : Int) (ticks : Nat) : Callback :=
  fun _ w => TaskDispatcher.scheduleContext inner { w with now := uadd w.now ticks } c d n

/-! ## Vocabulary of the statements about `run()` and the barriers -/

/-- What a `run()` that dispatches the context `c` leaves alone, from `w` to `w3`: the
dispatcher, the policy, the pool and the storage are as before, the target of `c` has been
recorded as called when it is callable, every other context has kept its queue and its
data, and `c` has kept its target, tag, event and interval. -/
def RunFrame (w w3 : World) (c : Nat) : Prop :=
  w3.dispatcher = w.dispatcher ∧ w3.schedulingPolicy = w.schedulingPolicy ∧
  w3.contextPool = w.contextPool ∧ w3.nextEntry = w.nextEntry ∧ w3.brk = w.brk ∧
  w3.calls = w.calls ++ (if (w.ctx c).target.toBool then [(w.ctx c).target] else []) ∧
  (∀ x, x ≠ c → (w3.ctx x).queue = (w.ctx x).queue ∧ (w3.ctx x).data = (w.ctx x).data) ∧
  (w3.ctx c).target = (w.ctx c).target ∧ (w3.ctx c).tag = (w.ctx c).tag ∧
  (w3.ctx c).signalEvent = (w.ctx c).signalEvent ∧
  (w3.ctx c).repeatInterval = (w.ctx c).repeatInterval

/-- The lists after a context has been parked on the barrier `b`: it has left the list it
was on and is the last of the list of `b`. -/
def parkedLists (lists : Nat → List Nat) (b context : Nat) : Nat → List Nat :=
  Function.update (fun q => (lists q).erase context) b ((lists b).erase context ++ [context])

/-- The calls a program can make on one dispatcher and its barriers, and the passing of
time.  `schedule` and `onSignal` are the pool-based overloads (`callAfter`, `callEvery`,
`when` and `whenever` are instances of them), the forms with a `context` are the overloads
on a context of the caller. -/
inductive Op where
  | tick (t : Nat)
  | schedule (firstInterval nextInterval : Int) (target : Task) (tag : Option Nat)
  | scheduleTarget (context : Nat) (firstInterval nextInterval : Int) (target : Task)
      (tag : Option Nat)
  | scheduleContext (context : Nat) (firstInterval nextInterval : Int)
  | onSignal (b : Nat) (target : Task) (tag : Option Nat) (repeat_ : Bool)
  | onSignalTarget (b context : Nat) (target : Task) (tag : Option Nat) (repeat_ : Bool)
  | onSignalContext (b context : Nat) (repeat_ : Bool)
  | signal (b : Nat)
  | signalAll (b : Nat)
  | cancel (q context : Nat)
  | contextCancel (context : Nat)
  | cancelAllTarget (q : Nat) (target : Task)
  | cancelAllTag (q : Nat) (tag : Option Nat)
  | cancelAll (q : Nat)
  | run

/-- The world after a call (`none`: the call does not return within `fuel`). -/
def Op.apply (cb : Callback) (eph : EmptyPoolHandler) (fuel : Nat) : Op → World → Option World
  | Op.tick t, w => some (atTick w t)
  | Op.schedule firstInterval nextInterval target tag, w =>
    (TaskDispatcher.schedule eph fuel w firstInterval nextInterval target tag).map Prod.snd
  | Op.scheduleTarget context firstInterval nextInterval target tag, w =>
    TaskDispatcher.scheduleTarget fuel w context firstInterval nextInterval target tag
  | Op.scheduleContext context firstInterval nextInterval, w =>
    TaskDispatcher.scheduleContext fuel w context firstInterval nextInterval
  | Op.onSignal b target tag repeat_, w =>
    (EventBarrier.onSignal eph fuel w b target tag repeat_).map Prod.snd
  | Op.onSignalTarget b context target tag repeat_, w =>
    EventBarrier.onSignalTarget fuel w b context target tag repeat_
  | Op.onSignalContext b context repeat_, w =>
    EventBarrier.onSignalContext fuel w b context repeat_
  | Op.signal b, w => (EventBarrier.signal fuel w b).map Prod.snd
  | Op.signalAll b, w => EventBarrier.signalAll fuel w b
  | Op.cancel q context, w => TaskQueue.cancel fuel w q context
  | Op.contextCancel context, w => TaskContext.cancel fuel w context
  | Op.cancelAllTarget q target, w => TaskQueue.cancelAllTarget fuel w q target
  | Op.cancelAllTag q tag, w => TaskQueue.cancelAllTag fuel w q tag
  | Op.cancelAll q, w => TaskQueue.cancelAll fuel w q
  | Op.run, w => (TaskDispatcher.run cb fuel w).map Prod.snd

/-- The call is made on objects that exist: a barrier is one of the barriers `bs` of the
dispatcher, a queue is the dispatcher or one of them, and a context of the caller is
storage below `brk` (its own, or a context the pool has handed out). -/
def Op.ok (bs : List Nat) (w : World) : Op → Prop
  | Op.scheduleTarget context _ _ _ _ => context < w.brk
  | Op.scheduleContext context _ _ => context < w.brk
  | Op.onSignal b _ _ _ => b ∈ bs
  | Op.onSignalTarget b context _ _ _ => b ∈ bs ∧ context < w.brk
  | Op.onSignalContext b context _ => b ∈ bs ∧ context < w.brk
  | Op.signal b => b ∈ bs
  | Op.signalAll b => b ∈ bs
  | Op.cancel q _ => q ∈ w.dispatcher :: bs
  | Op.cancelAllTarget q _ => q ∈ w.dispatcher :: bs
  | Op.cancelAllTag q _ => q ∈ w.dispatcher :: bs
  | Op.cancelAll q => q ∈ w.dispatcher :: bs
  | _ => True

/-- An empty dispatcher with its empty barriers `bs`: no queue has a context on its list,
every context is idle, and the pool, if there is one, has no entries yet. -/
def Initial (bs : List Nat) (w : World) : Prop :=
  subchain w.tq (w.tq w.dispatcher).firstSubqueue bs ∧ w.dispatcher ∉ bs ∧
  (∀ b ∈ bs, (w.tq b).firstSubqueue = none) ∧
  (∀ q ∈ w.dispatcher :: bs, (w.tq q).firstContext = none) ∧
  (∀ c, (w.ctx c).queue = none) ∧
  (∀ pool, w.contextPool = some pool → pool.firstEntry = none ∧ pool.currentEntry = none)

/-- The worlds reached from an empty dispatcher with barriers `bs` by calls that return,
with the callback `cb` for the tasks. -/
inductive Reachable (cb : Callback) (bs : List Nat) : World → Prop where
  | start {w : World} : Initial bs w → Reachable cb bs w
  | step {w w2 : World} (op : Op) (eph : EmptyPoolHandler) (fuel : Nat) :
      Reachable cb bs w → op.ok bs w → op.apply cb eph fuel w = some w2 → Reachable cb bs w2

/-- The event of every pending context is null or one of the barriers. -/
def EventsKnown (bs : List Nat) (w : World) : Prop :=
  ∀ c, (w.ctx c).queue ≠ none → ∀ ev, (w.ctx c).signalEvent = some ev → ev ∈ bs

/-- The pool of the dispatcher, if there is one, is well formed. -/
def PoolInv (w : World) : Prop :=
  ∀ pool, w.contextPool = some pool → ∃ es, PoolOK w pool es

/-- The invariant of the reachable worlds, for given lists. -/
def InvAt (bs : List Nat) (w : World) (lists : Nat → List Nat) : Prop :=
  Linked w bs lists ∧ PendingLinked w bs lists ∧ PoolInv w ∧ Fresh w ∧ EventsKnown bs w

instance Op.ok.decide (bs : List Nat) (w : World) (op : Op) : Decidable (Op.ok bs w op) := by
  cases op <;> unfold Op.ok <;> infer_instance

/-! ## More concrete worlds for the examples -/

/-- The world after the call `op`, made with fuel 8 and without an empty-pool handler (the
same world when the call does not return). -/
def stepD (cb : Callback) (op : Op) (w : World) : World := (op.apply cb none 8 w).getD w

/-- A world at tick 5 with an empty dispatcher, on whose barrier 101 the contexts 0 (by
`whenever`, target `fn 1`) and 1 (by `when`, target `fn 2`) wait, in this order. -/
def cyclingWorld : World :=
  stepD returnAtOnce (Op.tick 5)
    (stepD returnAtOnce (Op.onSignalTarget 101 1 (fn 2) none false)
      (stepD returnAtOnce (Op.onSignalTarget 101 0 (fn 1) none true)
        (barrierWorld 3 SchedulingPolicy.INTERVAL none)))

/-- The lists of `twoWaitersWorld`. -/
def twoWaitersLists (q : Nat) : List Nat := if q = 101 then [0, 1] else []

/-- A world at tick 0 in which the contexts 0 and 1 are armed for the ticks 10 and 20, and
the context 2, on no list, has the dispatch time 15. -/
def orderedWorld : World :=
  (stepD returnAtOnce (Op.scheduleTarget 1 20 (-1) (fn 2) none)
    (stepD returnAtOnce (Op.scheduleTarget 0 10 (-1) (fn 1) none)
      (startWorld 0 SchedulingPolicy.INTERVAL none))).setCtx 2
    { blankContext with dispatchTime := 15 }

/-- The lists of `orderedWorld`. -/
def orderedLists (q : Nat) : List Nat := if q = 100 then [0, 1] else []

/-- A world at tick 0, under the policy `TIMING`, in which the context 0 is armed by
`callEvery(10, fn 1)` and so is due. -/
def armedWorld : World :=
  stepD returnAtOnce (Op.scheduleTarget 0 0 10 (fn 1) none)
    (startWorld 0 SchedulingPolicy.TIMING none)

/-- The lists of `armedWorld`. -/
def armedLists (q : Nat) : List Nat := if q = 100 then [0] else []

/-- A world whose pool has two entries: the context 10, handed out first and cancelled
since, and the context 11, still pending. -/
def pooledWorld : World :=
  stepD returnAtOnce (Op.contextCancel 10)
    (stepD returnAtOnce (Op.schedule 100 (-1) (fn 2) none)
      (stepD returnAtOnce (Op.schedule 100 (-1) (fn 1) none)
        (startWorld 0 SchedulingPolicy.INTERVAL (some (DynamicContextPool.construct 0)))))

/-- The pool of `pooledWorld`: the chain is 11, 10 and the cursor is on 10. -/
def pooledPool : DynamicContextPool :=
  { poolLimit := 0, firstEntry := some 11, currentEntry := some 10, poolCount := 0 }

/-- A world reached by a `when` on a context of the caller, a pool-based `whenever`, a
pool-based `callAfter`, a `signal()` and a `run()`. -/
def mixedWorld : World :=
  stepD returnAtOnce Op.run
    (stepD returnAtOnce (Op.signal 101)
      (stepD returnAtOnce (Op.schedule 2 (-1) (fn 3) none)
        (stepD returnAtOnce (Op.onSignal 101 (fn 2) none true)
          (stepD returnAtOnce (Op.onSignalTarget 101 0 (fn 1) none false)
            (barrierWorld 0 SchedulingPolicy.INTERVAL
              (some (DynamicContextPool.construct 0)))))))

/-! # Theorems -/

/-! ## Lists threaded through a heap -/

theorem follows_congr {next1 next2 : Nat → Option Nat} {l : List Nat} :
    ∀ {p : Option Nat}, (∀ c ∈ l, next2 c = next1 c) → follows next1 p l → follows next2 p l := by
  induction l with
  | nil => intro p _ h; exact h
  | cons c l ih =>
    intro p hagree h
    refine ⟨h.1, ?_⟩
    rw [hagree c (List.mem_cons_self _ _)]
    exact ih (fun x hx => hagree x (List.mem_cons_of_mem _ hx)) h.2

theorem follows_unique {next : Nat → Option Nat} {l1 : List Nat} :
    ∀ {p : Option Nat} {l2 : List Nat}, follows next p l1 → follows next p l2 → l1 = l2 := by
  induction l1 with
  | nil =>
    intro p l2 h1 h2
    cases l2 with
    | nil => rfl
    | cons c l =>
      have h3 : p = none := h1
      have h4 : p = some c := h2.1
      rw [h3] at h4
      exact absurd h4 (by simp)
  | cons c l ih =>
    intro p l2 h1 h2
    cases l2 with
    | nil =>
      have h3 : p = none := h2
      have h4 : p = some c := h1.1
      rw [h3] at h4
      exact absurd h4 (by simp)
    | cons c2 l2 =>
      obtain ⟨h1a, h1b⟩ := h1
      obtain ⟨h2a, h2b⟩ := h2
      have hc : c = c2 := by rw [h1a] at h2a; exact Option.some.inj h2a
      subst hc
      rw [ih h1b h2b]

theorem follows_drop {next : Nat → Option Nat} {a : List Nat} :
    ∀ {p : Option Nat} {m : List Nat}, follows next p (a ++ m) → ∃ p2, follows next p2 m := by
  induction a with
  | nil => intro p m h; exact ⟨p, h⟩
  | cons c a ih => intro p m h; exact ih h.2

theorem follows_not_mem_tail {next : Nat → Option Nat} {p : Option Nat} {c : Nat} {l : List Nat}
    (h : follows next p (c :: l)) : c ∉ l := by
  intro hmem
  obtain ⟨a, b, hab⟩ := List.append_of_mem hmem
  have h2 : follows next (next c) (a ++ c :: b) := by rw [← hab]; exact h.2
  obtain ⟨p2, hp2⟩ := follows_drop h2
  have h3 : l = b := follows_unique h.2 hp2.2
  have h4 : l.length = a.length + (b.length + 1) := by rw [hab]; simp
  rw [h3] at h4
  omega

theorem follows_nodup {next : Nat → Option Nat} {l : List Nat} :
    ∀ {p : Option Nat}, follows next p l → l.Nodup := by
  induction l with
  | nil => intro _ _; exact List.nodup_nil
  | cons c l ih =>
    intro p h
    exact List.nodup_cons.mpr ⟨follows_not_mem_tail h, ih h.2⟩

theorem slotAfter_next (p : Nat) (l : List Nat) :
    ∃ y, slotAfter (Slot.next p) l = Slot.next y ∧ y ∈ p :: l := by
  induction l generalizing p with
  | nil => exact ⟨p, rfl, List.mem_cons_self _ _⟩
  | cons c l ih =>
    obtain ⟨y, hy, hmem⟩ := ih c
    exact ⟨y, hy, List.mem_cons_of_mem _ hmem⟩

theorem slotAfter_append (ptr : Slot) (a b : List Nat) :
    slotAfter ptr (a ++ b) = slotAfter (slotAfter ptr a) b := by
  induction a generalizing ptr with
  | nil => rfl
  | cons c a ih => exact ih (Slot.next c)

/-- The chain seen from the slot that follows a prefix is the rest of the list. -/
theorem chain_slotAfter (w : World) (pre : List Nat) :
    ∀ (ptr : Slot) (m : List Nat), chain w.ctx (deref w ptr) (pre ++ m) →
      chain w.ctx (deref w (slotAfter ptr pre)) m := by
  induction pre with
  | nil => intro ptr m h; exact h
  | cons c pre ih => intro ptr m h; exact ih (Slot.next c) m h.2

/-! ## The splice and the unlink at a slot -/

theorem linkAt_ctx_other (w : World) (y context queue x : Nat) (hx : x ≠ context) (hy : x ≠ y) :
    (linkAt w (Slot.next y) context queue).ctx x = w.ctx x := by
  simp [linkAt, store, World.setCtx, Function.update_apply, hx, hy]

theorem linkAt_tq_next (w : World) (y context queue : Nat) :
    (linkAt w (Slot.next y) context queue).tq = w.tq := by
  simp [linkAt, store, World.setCtx]

theorem unlinkAt_ctx_other (w : World) (y context x : Nat) (hx : x ≠ context) (hy : x ≠ y) :
    (unlinkAt w (Slot.next y) context).ctx x = w.ctx x := by
  simp [unlinkAt, store, World.setCtx, Function.update_apply, hx, hy]

theorem unlinkAt_tq_next (w : World) (y context : Nat) :
    (unlinkAt w (Slot.next y) context).tq = w.tq := by
  simp [unlinkAt, store, World.setCtx]

theorem cancelAt_eq (w : World) (ptr : Slot) (c : Nat) (h : deref w ptr = some c) :
    TaskQueue.cancelAt w ptr = some (unlinkAt w ptr c) := by
  simp [TaskQueue.cancelAt, h, unlinkAt]

theorem linkAt_chain (context queue : Nat) (pre : List Nat) :
    ∀ (w : World) (ptr : Slot) (post : List Nat), chain w.ctx (deref w ptr) (pre ++ post) →
      (pre ++ post).Nodup → context ∉ pre ++ post →
      (∀ c0, ptr = Slot.next c0 → c0 ∉ pre ++ post ∧ c0 ≠ context) →
      chain (linkAt w (slotAfter ptr pre) context queue).ctx
        (deref (linkAt w (slotAfter ptr pre) context queue) ptr) (pre ++ context :: post) := by
  induction pre with
  | nil =>
    intro w ptr post hch _ hc hown
    simp only [List.nil_append] at *
    refine ⟨?_, ?_⟩
    · cases ptr with
      | first q => simp [slotAfter, linkAt, store, deref, World.setTq, World.setCtx]
      | next c0 => simp [slotAfter, linkAt, store, deref, World.setCtx]
    · have hnext : ((linkAt w (slotAfter ptr []) context queue).ctx context).nextContext
          = deref w ptr := by
        cases ptr with
        | first q => simp [slotAfter, linkAt, store, deref, World.setTq, World.setCtx]
        | next c0 =>
          have := (hown c0 rfl).2
          simp [slotAfter, linkAt, store, deref, World.setCtx, Function.update_apply, Ne.symm this]
      show follows _ ((linkAt w (slotAfter ptr []) context queue).ctx context).nextContext post
      rw [hnext]
      refine follows_congr ?_ hch
      intro x hx
      have hxc : x ≠ context := fun h => hc (h ▸ hx)
      cases ptr with
      | first q => simp [slotAfter, linkAt, store, World.setTq, World.setCtx, Function.update_apply, hxc]
      | next c0 =>
        have hx0 : x ≠ c0 := fun h => (hown c0 rfl).1 (h ▸ hx)
        simp [slotAfter, linkAt, store, World.setCtx, Function.update_apply, hxc, hx0]
  | cons p pre ih =>
    intro w ptr post hch hnd hc hown
    obtain ⟨h1, h2⟩ := hch
    have hnd2 : (pre ++ post).Nodup := (List.nodup_cons.mp hnd).2
    have hp : p ∉ pre ++ post := (List.nodup_cons.mp hnd).1
    have hc2 : context ∉ pre ++ post := fun h => hc (List.mem_cons_of_mem _ h)
    have hpc : p ≠ context := fun h => hc (h ▸ List.mem_cons_self _ _)
    have ih2 := ih w (Slot.next p) post h2 hnd2 hc2
      (fun c0 h0 => by cases h0; exact ⟨hp, hpc⟩)
    obtain ⟨y, hy, hymem⟩ := slotAfter_next p pre
    show follows _ _ (p :: (pre ++ context :: post))
    refine ⟨?_, ?_⟩
    · simp only [slotAfter]
      rw [hy]
      cases ptr with
      | first q => simp [deref, linkAt_tq_next]; exact h1
      | next c0 =>
        have h0 := hown c0 rfl
        have hne : c0 ≠ y := by
          intro h
          apply h0.1
          rw [h]
          rcases List.mem_cons.mp hymem with h | h
          · rw [h]; exact List.mem_cons_self _ _
          · exact List.mem_cons_of_mem _ (List.mem_append_left _ h)
        simp only [deref]
        rw [linkAt_ctx_other w y context queue c0 h0.2 hne]
        exact h1
    · exact ih2

theorem unlinkAt_chain (context : Nat) (pre : List Nat) :
    ∀ (w : World) (ptr : Slot) (post : List Nat),
      chain w.ctx (deref w ptr) (pre ++ context :: post) →
      (pre ++ context :: post).Nodup →
      (∀ c0, ptr = Slot.next c0 → c0 ∉ pre ++ context :: post) →
      chain (unlinkAt w (slotAfter ptr pre) context).ctx
        (deref (unlinkAt w (slotAfter ptr pre) context) ptr) (pre ++ post) := by
  induction pre with
  | nil =>
    intro w ptr post hch hnd hown
    simp only [List.nil_append] at *
    obtain ⟨h1, h2⟩ := hch
    have hcp : context ∉ post := (List.nodup_cons.mp hnd).1
    have hd : deref (unlinkAt w (slotAfter ptr []) context) ptr = (w.ctx context).nextContext := by
      cases ptr with
      | first q => simp [slotAfter, unlinkAt, store, deref, World.setTq, World.setCtx]
      | next c0 =>
        have h0 : c0 ≠ context := fun h => hown c0 rfl (h ▸ List.mem_cons_self _ _)
        simp [slotAfter, unlinkAt, store, deref, World.setCtx, Function.update_apply, h0]
    rw [hd]
    refine follows_congr ?_ h2
    intro x hx
    have hxc : x ≠ context := fun h => hcp (h ▸ hx)
    cases ptr with
    | first q => simp [slotAfter, unlinkAt, store, World.setTq, World.setCtx, Function.update_apply, hxc]
    | next c0 =>
      have hx0 : x ≠ c0 := fun h => hown c0 rfl (h ▸ List.mem_cons_of_mem _ hx)
      simp [slotAfter, unlinkAt, store, World.setCtx, Function.update_apply, hxc, hx0]
  | cons p pre ih =>
    intro w ptr post hch hnd hown
    obtain ⟨h1, h2⟩ := hch
    have hnd2 : (pre ++ context :: post).Nodup := (List.nodup_cons.mp hnd).2
    have hp : p ∉ pre ++ context :: post := (List.nodup_cons.mp hnd).1
    have hpc : p ≠ context := fun h => hp (h ▸ by simp)
    have ih2 := ih w (Slot.next p) post h2 hnd2 (fun c0 h0 => by cases h0; exact hp)
    obtain ⟨y, hy, hymem⟩ := slotAfter_next p pre
    show follows _ _ (p :: (pre ++ post))
    refine ⟨?_, ?_⟩
    · simp only [slotAfter]
      rw [hy]
      cases ptr with
      | first q => simp [deref, unlinkAt_tq_next]; exact h1
      | next c0 =>
        have h0 := hown c0 rfl
        have hne : c0 ≠ y := by
          intro h
          apply h0
          rw [h]
          rcases List.mem_cons.mp hymem with h | h
          · rw [h]; exact List.mem_cons_self _ _
          · exact List.mem_cons_of_mem _ (List.mem_append_left _ h)
        have hne2 : c0 ≠ context := fun h => h0 (h ▸ by simp)
        simp only [deref]
        rw [unlinkAt_ctx_other w y context c0 hne2 hne]
        exact h1
    · exact ih2

theorem store_queue (w : World) (s : Slot) (v : Option Nat) (x : Nat) :
    ((store w s v).ctx x).queue = (w.ctx x).queue := by
  cases s with
  | first q => rfl
  | next y =>
    by_cases h : x = y
    · subst h; simp [store, World.setCtx]
    · simp [store, World.setCtx, Function.update_apply, h]

theorem store_data (w : World) (s : Slot) (v : Option Nat) (x : Nat) :
    ((store w s v).ctx x).data = (w.ctx x).data := by
  cases s with
  | first q => rfl
  | next y =>
    by_cases h : x = y
    · subst h; simp [store, World.setCtx, TaskContext.data]
    · simp [store, World.setCtx, Function.update_apply, h]

theorem store_firstSubqueue (w : World) (s : Slot) (v : Option Nat) (q : Nat) :
    ((store w s v).tq q).firstSubqueue = (w.tq q).firstSubqueue := by
  cases s with
  | first q2 =>
    by_cases h : q = q2
    · subst h; simp [store, World.setTq]
    · simp [store, World.setTq, Function.update_apply, h]
  | next y => rfl

theorem store_nextSubqueue (w : World) (s : Slot) (v : Option Nat) (q : Nat) :
    ((store w s v).tq q).nextSubqueue = (w.tq q).nextSubqueue := by
  cases s with
  | first q2 =>
    by_cases h : q = q2
    · subst h; simp [store, World.setTq]
    · simp [store, World.setTq, Function.update_apply, h]
  | next y => rfl

theorem store_scalars (w : World) (s : Slot) (v : Option Nat) :
    (store w s v).now = w.now ∧ (store w s v).dispatcher = w.dispatcher ∧
    (store w s v).schedulingPolicy = w.schedulingPolicy ∧
    (store w s v).contextPool = w.contextPool ∧ (store w s v).nextEntry = w.nextEntry ∧
    (store w s v).brk = w.brk ∧ (store w s v).calls = w.calls := by
  cases s <;> exact ⟨rfl, rfl, rfl, rfl, rfl, rfl, rfl⟩

theorem SameData.refl (w : World) : SameData w w :=
  ⟨rfl, rfl, rfl, rfl, rfl, rfl, rfl, fun _ => rfl, fun _ => rfl, fun _ => rfl⟩

theorem SameData.trans {w1 w2 w3 : World} (h12 : SameData w1 w2) (h23 : SameData w2 w3) :
    SameData w1 w3 := by
  obtain ⟨a1, a2, a3, a4, a5, a6, a7, a8, a9, a10⟩ := h12
  obtain ⟨b1, b2, b3, b4, b5, b6, b7, b8, b9, b10⟩ := h23
  exact ⟨b1.trans a1, b2.trans a2, b3.trans a3, b4.trans a4, b5.trans a5, b6.trans a6,
    b7.trans a7, fun q => (b8 q).trans (a8 q), fun q => (b9 q).trans (a9 q),
    fun c => (b10 c).trans (a10 c)⟩

theorem sameData_store (w : World) (s : Slot) (v : Option Nat) : SameData w (store w s v) := by
  obtain ⟨h1, h2, h3, h4, h5, h6, h7⟩ := store_scalars w s v
  exact ⟨h1, h2, h3, h4, h5, h6, h7, store_firstSubqueue w s v, store_nextSubqueue w s v,
    store_data w s v⟩

/-- Overwriting the two link fields of one context changes no data. -/
theorem sameData_setLinks (w : World) (c : Nat) (q n : Option Nat) :
    SameData w (w.setCtx c { w.ctx c with queue := q, nextContext := n }) := by
  refine ⟨rfl, rfl, rfl, rfl, rfl, rfl, rfl, fun _ => rfl, fun _ => rfl, ?_⟩
  intro x
  by_cases h : x = c
  · subst h; simp [World.setCtx, TaskContext.data]
  · simp [World.setCtx, Function.update_apply, h]

theorem linkAt_eq (w : World) (ptr : Slot) (context queue : Nat) :
    linkAt w ptr context queue
      = store (w.setCtx context
          { w.ctx context with queue := some queue, nextContext := deref w ptr }) ptr
          (some context) := by
  simp [linkAt, World.setCtx]

theorem unlinkAt_eq (w : World) (ptr : Slot) (context : Nat) :
    unlinkAt w ptr context
      = (store w ptr (w.ctx context).nextContext).setCtx context
          { (store w ptr (w.ctx context).nextContext).ctx context with
            queue := none, nextContext := none } := by
  simp [unlinkAt, World.setCtx]

theorem sameData_linkAt (w : World) (ptr : Slot) (context queue : Nat) :
    SameData w (linkAt w ptr context queue) := by
  rw [linkAt_eq]
  exact (sameData_setLinks w context _ _).trans (sameData_store _ ptr _)

theorem sameData_unlinkAt (w : World) (ptr : Slot) (context : Nat) :
    SameData w (unlinkAt w ptr context) := by
  rw [unlinkAt_eq]
  exact (sameData_store w ptr _).trans (sameData_setLinks _ context _ _)

theorem linkAt_queue (w : World) (ptr : Slot) (context queue x : Nat) :
    ((linkAt w ptr context queue).ctx x).queue
      = if x = context then some queue else (w.ctx x).queue := by
  rw [linkAt_eq, store_queue]
  by_cases h : x = context
  · subst h; simp [World.setCtx]
  · simp [World.setCtx, Function.update_apply, h]

theorem unlinkAt_queue (w : World) (ptr : Slot) (context x : Nat) :
    ((unlinkAt w ptr context).ctx x).queue
      = if x = context then none else (w.ctx x).queue := by
  rw [unlinkAt_eq]
  by_cases h : x = context
  · subst h; simp [World.setCtx]
  · simp [World.setCtx, Function.update_apply, h, store_queue]

theorem unlinkAt_next_self (w : World) (ptr : Slot) (context : Nat) :
    ((unlinkAt w ptr context).ctx context).nextContext = none := by
  rw [unlinkAt_eq]; simp [World.setCtx]

theorem linkAt_ctx_frame (w : World) (ptr : Slot) (pre : List Nat) (context queue x : Nat)
    (hx : x ≠ context) (hpre : x ∉ pre) (hptr : ∀ c0, ptr = Slot.next c0 → x ≠ c0) :
    (linkAt w (slotAfter ptr pre) context queue).ctx x = w.ctx x := by
  cases pre with
  | nil =>
    cases ptr with
    | first q => simp [slotAfter, linkAt, store, World.setTq, World.setCtx, Function.update_apply, hx]
    | next c0 =>
      simp [slotAfter, linkAt, store, World.setCtx, Function.update_apply, hx, hptr c0 rfl]
  | cons p pre =>
    obtain ⟨y, hy, hymem⟩ := slotAfter_next p pre
    simp only [slotAfter]
    rw [hy]
    exact linkAt_ctx_other w y context queue x hx (fun h => hpre (h ▸ hymem))

theorem unlinkAt_ctx_frame (w : World) (ptr : Slot) (pre : List Nat) (context x : Nat)
    (hx : x ≠ context) (hpre : x ∉ pre) (hptr : ∀ c0, ptr = Slot.next c0 → x ≠ c0) :
    (unlinkAt w (slotAfter ptr pre) context).ctx x = w.ctx x := by
  cases pre with
  | nil =>
    cases ptr with
    | first q => simp [slotAfter, unlinkAt, store, World.setTq, World.setCtx, Function.update_apply, hx]
    | next c0 =>
      simp [slotAfter, unlinkAt, store, World.setCtx, Function.update_apply, hx, hptr c0 rfl]
  | cons p pre =>
    obtain ⟨y, hy, hymem⟩ := slotAfter_next p pre
    simp only [slotAfter]
    rw [hy]
    exact unlinkAt_ctx_other w y context x hx (fun h => hpre (h ▸ hymem))

theorem linkAt_tq_frame (w : World) (ptr : Slot) (pre : List Nat) (context queue q : Nat)
    (hq : ptr ≠ Slot.first q) :
    (linkAt w (slotAfter ptr pre) context queue).tq q = w.tq q := by
  cases pre with
  | nil =>
    cases ptr with
    | first q2 =>
      have : q ≠ q2 := fun h => hq (by rw [h])
      simp [slotAfter, linkAt, store, World.setTq, World.setCtx, Function.update_apply, this]
    | next c0 => simp [slotAfter, linkAt, store, World.setCtx]
  | cons p pre =>
    obtain ⟨y, hy, _⟩ := slotAfter_next p pre
    simp only [slotAfter]
    rw [hy, linkAt_tq_next]

theorem unlinkAt_tq_frame (w : World) (ptr : Slot) (pre : List Nat) (context q : Nat)
    (hq : ptr ≠ Slot.first q) :
    (unlinkAt w (slotAfter ptr pre) context).tq q = w.tq q := by
  cases pre with
  | nil =>
    cases ptr with
    | first q2 =>
      have : q ≠ q2 := fun h => hq (by rw [h])
      simp [slotAfter, unlinkAt, store, World.setTq, World.setCtx, Function.update_apply, this]
    | next c0 => simp [slotAfter, unlinkAt, store, World.setCtx]
  | cons p pre =>
    obtain ⟨y, hy, _⟩ := slotAfter_next p pre
    simp only [slotAfter]
    rw [hy, unlinkAt_tq_next]

/-! ## The loops over a list, unrolled -/

theorem fuel_succ {n fuel : Nat} (h : n < fuel) : ∃ k, fuel = k + 1 :=
  ⟨fuel - 1, by omega⟩

theorem insertByTime_eq (ctx : Nat → TaskContext) (t context : Nat) (l : List Nat) :
    insertByTime ctx t context l
      = l.takeWhile (fun x => !before t (ctx x).dispatchTime) ++
          context :: l.dropWhile (fun x => !before t (ctx x).dispatchTime) := by
  induction l with
  | nil => rfl
  | cons x l ih =>
    by_cases hb : before t (ctx x).dispatchTime = true
    · simp [insertByTime, hb, List.takeWhile, List.dropWhile]
    · have hb2 : before t (ctx x).dispatchTime = false := by simpa using hb
      simp [insertByTime, hb2, List.takeWhile, List.dropWhile, ih]

theorem enqueueLoop_eq (context : Nat) (l : List Nat) :
    ∀ (fuel : Nat) (w : World) (ptr : Slot), chain w.ctx (deref w ptr) l → l.length < fuel →
      TaskDispatcher.enqueueLoop fuel w ptr context
        = some (linkAt w (slotAfter ptr (l.takeWhile (fun x =>
            !before (w.ctx context).dispatchTime (w.ctx x).dispatchTime))) context
            w.dispatcher) := by
  induction l with
  | nil =>
    intro fuel w ptr hch hfuel
    obtain ⟨n, rfl⟩ := fuel_succ hfuel
    have h0 : deref w ptr = none := hch
    simp [TaskDispatcher.enqueueLoop, h0, slotAfter, linkAt]
  | cons c l ih =>
    intro fuel w ptr hch hfuel
    obtain ⟨n, rfl⟩ := fuel_succ hfuel
    obtain ⟨h1, h2⟩ := hch
    by_cases hb : before (w.ctx context).dispatchTime (w.ctx c).dispatchTime = true
    · simp [TaskDispatcher.enqueueLoop, h1, hb, slotAfter, linkAt, List.takeWhile]
    · have hb2 : before (w.ctx context).dispatchTime (w.ctx c).dispatchTime = false := by
        simpa using hb
      have h3 := ih n w (Slot.next c) h2 (by simp at hfuel; omega)
      simp [TaskDispatcher.enqueueLoop, h1, hb2, slotAfter, List.takeWhile, h3]

theorem cancelLoop_absent (context : Nat) (l : List Nat) :
    ∀ (fuel : Nat) (w : World) (ptr : Slot), chain w.ctx (deref w ptr) l → l.length < fuel →
      context ∉ l → TaskQueue.cancelLoop fuel w ptr context = some w := by
  induction l with
  | nil =>
    intro fuel w ptr hch hfuel _
    obtain ⟨n, rfl⟩ := fuel_succ hfuel
    have h0 : deref w ptr = none := hch
    simp [TaskQueue.cancelLoop, h0]
  | cons c l ih =>
    intro fuel w ptr hch hfuel hmem
    obtain ⟨n, rfl⟩ := fuel_succ hfuel
    obtain ⟨h1, h2⟩ := hch
    have hne : c ≠ context := fun h => hmem (h ▸ List.mem_cons_self _ _)
    have h3 := ih n w (Slot.next c) h2 (by simp at hfuel; omega)
      (fun h => hmem (List.mem_cons_of_mem _ h))
    simp [TaskQueue.cancelLoop, h1, hne, h3]

theorem cancelLoop_present (context : Nat) (pre : List Nat) :
    ∀ (fuel : Nat) (w : World) (ptr : Slot) (post : List Nat),
      chain w.ctx (deref w ptr) (pre ++ context :: post) → pre.length < fuel →
      context ∉ pre →
      TaskQueue.cancelLoop fuel w ptr context
        = some (unlinkAt w (slotAfter ptr pre) context) := by
  induction pre with
  | nil =>
    intro fuel w ptr post hch hfuel _
    obtain ⟨n, rfl⟩ := fuel_succ hfuel
    have h1 : deref w ptr = some context := hch.1
    simp [TaskQueue.cancelLoop, h1, slotAfter, cancelAt_eq w ptr context h1]
  | cons c pre ih =>
    intro fuel w ptr post hch hfuel hmem
    obtain ⟨n, rfl⟩ := fuel_succ hfuel
    obtain ⟨h1, h2⟩ := hch
    have hne : c ≠ context := fun h => hmem (h ▸ List.mem_cons_self _ _)
    have h3 := ih n w (Slot.next c) post h2 (by simp at hfuel; omega)
      (fun h => hmem (List.mem_cons_of_mem _ h))
    simp [TaskQueue.cancelLoop, h1, hne, h3, slotAfter]

theorem findContextLoop_absent (context : Nat) (l : List Nat) :
    ∀ (fuel : Nat) (w : World) (ptr : Slot), chain w.ctx (deref w ptr) l → l.length < fuel →
      context ∉ l → TaskQueue.findContextLoop fuel w ptr (some context) = some none := by
  induction l with
  | nil =>
    intro fuel w ptr hch hfuel _
    obtain ⟨n, rfl⟩ := fuel_succ hfuel
    have h0 : deref w ptr = none := hch
    simp [TaskQueue.findContextLoop, h0]
  | cons c l ih =>
    intro fuel w ptr hch hfuel hmem
    obtain ⟨n, rfl⟩ := fuel_succ hfuel
    obtain ⟨h1, h2⟩ := hch
    have hne : c ≠ context := fun h => hmem (h ▸ List.mem_cons_self _ _)
    have h3 := ih n w (Slot.next c) h2 (by simp at hfuel; omega)
      (fun h => hmem (List.mem_cons_of_mem _ h))
    simp [TaskQueue.findContextLoop, h1, hne, h3]

theorem findContextLoop_present (context : Nat) (l : List Nat) :
    ∀ (fuel : Nat) (w : World) (ptr : Slot), chain w.ctx (deref w ptr) l → l.length < fuel →
      context ∈ l → ∃ s, TaskQueue.findContextLoop fuel w ptr (some context) = some (some s) := by
  induction l with
  | nil => intro _ _ _ _ _ hmem; exact absurd hmem (List.not_mem_nil _)
  | cons c l ih =>
    intro fuel w ptr hch hfuel hmem
    obtain ⟨n, rfl⟩ := fuel_succ hfuel
    obtain ⟨h1, h2⟩ := hch
    by_cases hc : c = context
    · exact ⟨ptr, by simp [TaskQueue.findContextLoop, h1, hc]⟩
    · have hmem2 : context ∈ l := by
        rcases List.mem_cons.mp hmem with h | h
        · exact absurd h.symm hc
        · exact h
      obtain ⟨s, hs⟩ := ih n w (Slot.next c) h2 (by simp at hfuel; omega) hmem2
      exact ⟨s, by simp [TaskQueue.findContextLoop, h1, hc, hs]⟩

theorem tailLoop_eq (l : List Nat) :
    ∀ (fuel : Nat) (w : World) (ptr : Slot), chain w.ctx (deref w ptr) l → l.length < fuel →
      EventBarrier.tailLoop fuel w ptr = some (slotAfter ptr l) := by
  induction l with
  | nil =>
    intro fuel w ptr hch hfuel
    obtain ⟨n, rfl⟩ := fuel_succ hfuel
    have h0 : deref w ptr = none := hch
    simp [EventBarrier.tailLoop, h0, slotAfter]
  | cons c l ih =>
    intro fuel w ptr hch hfuel
    obtain ⟨n, rfl⟩ := fuel_succ hfuel
    obtain ⟨h1, h2⟩ := hch
    have h3 := ih n w (Slot.next c) h2 (by simp at hfuel; omega)
    simp [EventBarrier.tailLoop, h1, h3, slotAfter]

/-! ## The three `cancelAll` members have one shape -/

theorem cancelAllTargetLoop_eq (target : Task) :
    ∀ (fuel : Nat) (w : World) (ptr : Slot),
      TaskQueue.cancelAllTargetLoop fuel w ptr target
        = cancelWhereLoop (fun c => Task.eq c.target target) fuel w ptr := by
  intro fuel
  induction fuel with
  | zero => intro w ptr; rfl
  | succ n ih =>
    intro w ptr
    simp only [TaskQueue.cancelAllTargetLoop, cancelWhereLoop]
    cases deref w ptr with
    | none => rfl
    | some p =>
      simp only []
      split
      · cases TaskQueue.cancelAt w ptr with
        | none => rfl
        | some w1 => exact ih w1 ptr
      · exact ih w (Slot.next p)

theorem cancelAllTagLoop_eq (tag : Option Nat) :
    ∀ (fuel : Nat) (w : World) (ptr : Slot),
      TaskQueue.cancelAllTagLoop fuel w ptr tag
        = cancelWhereLoop (fun c => decide (c.tag = tag)) fuel w ptr := by
  intro fuel
  induction fuel with
  | zero => intro w ptr; rfl
  | succ n ih =>
    intro w ptr
    simp only [TaskQueue.cancelAllTagLoop, cancelWhereLoop]
    cases deref w ptr with
    | none => rfl
    | some p =>
      simp only []
      by_cases h : (w.ctx p).tag = tag
      · simp only [h, if_true, decide_True]
        cases TaskQueue.cancelAt w ptr with
        | none => rfl
        | some w1 => exact ih w1 ptr
      · simp only [h, if_false, decide_False]
        exact ih w (Slot.next p)

theorem cancelAllLoop_eq :
    ∀ (fuel : Nat) (w : World) (this : Nat),
      TaskQueue.cancelAllLoop fuel w this
        = cancelWhereLoop (fun _ => true) fuel w (Slot.first this) := by
  intro fuel
  induction fuel with
  | zero => intro w this; rfl
  | succ n ih =>
    intro w this
    simp only [TaskQueue.cancelAllLoop, cancelWhereLoop, deref]
    cases (w.tq this).firstContext with
    | none => rfl
    | some p =>
      simp only [if_true]
      cases TaskQueue.cancelAt w (Slot.first this) with
      | none => rfl
      | some w1 => exact ih w1 this

theorem forSubqueues_congr {act1 act2 : World → Nat → Option World}
    (h : ∀ w q, act1 w q = act2 w q) :
    ∀ (fuel : Nat) (w : World) (p : Option Nat),
      TaskQueue.forSubqueues act1 fuel w p = TaskQueue.forSubqueues act2 fuel w p := by
  intro fuel
  induction fuel with
  | zero => intro w p; rfl
  | succ n ih =>
    intro w p
    cases p with
    | none => rfl
    | some q =>
      simp only [TaskQueue.forSubqueues, h]
      cases act2 w q with
      | none => rfl
      | some w1 => exact ih w1 _

theorem cancelAllTarget_eq (target : Task) :
    ∀ (fuel : Nat) (w : World) (this : Nat),
      TaskQueue.cancelAllTarget fuel w this target
        = cancelWhere (fun c => Task.eq c.target target) fuel w this := by
  intro fuel
  induction fuel with
  | zero => intro w this; rfl
  | succ n ih =>
    intro w this
    simp only [TaskQueue.cancelAllTarget, cancelWhere, cancelAllTargetLoop_eq]
    cases cancelWhereLoop (fun c => Task.eq c.target target) (n + 1) w (Slot.first this) with
    | none => rfl
    | some w1 => exact forSubqueues_congr (fun w2 q => ih w2 q) _ _ _

theorem cancelAllTag_eq (tag : Option Nat) :
    ∀ (fuel : Nat) (w : World) (this : Nat),
      TaskQueue.cancelAllTag fuel w this tag
        = cancelWhere (fun c => decide (c.tag = tag)) fuel w this := by
  intro fuel
  induction fuel with
  | zero => intro w this; rfl
  | succ n ih =>
    intro w this
    simp only [TaskQueue.cancelAllTag, cancelWhere, cancelAllTagLoop_eq]
    cases cancelWhereLoop (fun c => decide (c.tag = tag)) (n + 1) w (Slot.first this) with
    | none => rfl
    | some w1 => exact forSubqueues_congr (fun w2 q => ih w2 q) _ _ _

theorem cancelAll_eq :
    ∀ (fuel : Nat) (w : World) (this : Nat),
      TaskQueue.cancelAll fuel w this = cancelWhere (fun _ => true) fuel w this := by
  intro fuel
  induction fuel with
  | zero => intro w this; rfl
  | succ n ih =>
    intro w this
    simp only [TaskQueue.cancelAll, cancelWhere, cancelAllLoop_eq]
    cases cancelWhereLoop (fun _ => true) (n + 1) w (Slot.first this) with
    | none => rfl
    | some w1 => exact forSubqueues_congr (fun w2 q => ih w2 q) _ _ _

/-! ## The loop that unlinks the contexts satisfying a test -/

theorem deref_unlinkAt_self (w : World) (ptr : Slot) (c : Nat)
    (hown : ∀ c0, ptr = Slot.next c0 → c0 ≠ c) :
    deref (unlinkAt w ptr c) ptr = (w.ctx c).nextContext := by
  cases ptr with
  | first q => simp [unlinkAt, store, deref, World.setTq, World.setCtx]
  | next c0 =>
    have h0 := hown c0 rfl
    simp [unlinkAt, store, deref, World.setCtx, Function.update_apply, h0]

theorem cancelWhereLoop_spec (P : TaskContext → Bool) (hP : ∀ c, P c = P c.data)
    (l : List Nat) :
    ∀ (fuel : Nat) (w : World) (ptr : Slot), chain w.ctx (deref w ptr) l →
      (∀ c0, ptr = Slot.next c0 → c0 ∉ l) → l.length < fuel →
      ∃ w2, cancelWhereLoop P fuel w ptr = some w2 ∧
        chain w2.ctx (deref w2 ptr) (l.filter (fun c => !P (w.ctx c))) ∧
        SameData w w2 ∧
        (∀ x, (w2.ctx x).queue
          = if x ∈ l ∧ P (w.ctx x) = true then none else (w.ctx x).queue) ∧
        (∀ x, x ∉ l → (∀ c0, ptr = Slot.next c0 → x ≠ c0) → w2.ctx x = w.ctx x) ∧
        (∀ q, ptr ≠ Slot.first q → w2.tq q = w.tq q) ∧
        (∀ x ∈ l, P (w.ctx x) = true → (w2.ctx x).nextContext = none) := by
  induction l with
  | nil =>
    intro fuel w ptr hch _ hfuel
    obtain ⟨n, rfl⟩ := fuel_succ hfuel
    have h0 : deref w ptr = none := hch
    refine ⟨w, by simp [cancelWhereLoop, h0], ?_, SameData.refl w, ?_, ?_, ?_, ?_⟩
    · exact hch
    · intro x; simp
    · intro x _ _; rfl
    · intro q _; rfl
    · intro x hx; exact absurd hx (List.not_mem_nil _)
  | cons c l ih =>
    intro fuel w ptr hch hown hfuel
    obtain ⟨n, rfl⟩ := fuel_succ hfuel
    have hcl : c ∉ l := follows_not_mem_tail hch
    obtain ⟨h1, h2⟩ := hch
    have hn : l.length < n := by simp at hfuel; omega
    by_cases hPc : P (w.ctx c) = true
    · -- the head is unlinked and the loop goes on at the same slot
      have hownc : ∀ c0, ptr = Slot.next c0 → c0 ≠ c :=
        fun c0 h0 h => hown c0 h0 (h ▸ List.mem_cons_self _ _)
      have hsd1 : SameData w (unlinkAt w ptr c) := sameData_unlinkAt w ptr c
      have hch1 : chain (unlinkAt w ptr c).ctx (deref (unlinkAt w ptr c) ptr) l := by
        have := unlinkAt_chain c [] w ptr l ⟨h1, h2⟩
          (List.nodup_cons.mpr ⟨hcl, follows_nodup h2⟩) (fun c0 h0 => hown c0 h0)
        simpa [slotAfter] using this
      obtain ⟨w2, hrun, hch2, hsd2, hq2, hfr2, htq2, hnx2⟩ :=
        ih n (unlinkAt w ptr c) ptr hch1
          (fun c0 h0 h => hown c0 h0 (List.mem_cons_of_mem _ h)) hn
      have hPeq : ∀ x, P ((unlinkAt w ptr c).ctx x) = P (w.ctx x) := by
        intro x
        rw [hP ((unlinkAt w ptr c).ctx x), hP (w.ctx x), hsd1.2.2.2.2.2.2.2.2.2 x]
      refine ⟨w2, ?_, ?_, hsd1.trans hsd2, ?_, ?_, ?_, ?_⟩
      · simp [cancelWhereLoop, h1, hPc, cancelAt_eq w ptr c h1, hrun]
      · have : (c :: l).filter (fun c => !P (w.ctx c))
            = l.filter (fun y => !P ((unlinkAt w ptr c).ctx y)) := by
          rw [List.filter_cons_of_neg (by simp [hPc])]
          exact List.filter_congr (fun x _ => by rw [hPeq x])
        rw [this]
        exact hch2
      · intro x
        rw [hq2 x, hPeq x, unlinkAt_queue]
        by_cases hxc : x = c
        · subst hxc; simp [hPc]
        · simp [hxc]
      · intro x hx hx0
        have hxc : x ≠ c := fun h => hx (h ▸ List.mem_cons_self _ _)
        rw [hfr2 x (fun h => hx (List.mem_cons_of_mem _ h)) hx0]
        have := unlinkAt_ctx_frame w ptr [] c x hxc (List.not_mem_nil _) hx0
        simpa [slotAfter] using this
      · intro q hq
        rw [htq2 q hq]
        have := unlinkAt_tq_frame w ptr [] c q hq
        simpa [slotAfter] using this
      · intro x hx hPx
        rcases List.mem_cons.mp hx with hxc | hxl
        · subst hxc
          rw [hfr2 x hcl (fun c0 h0 => (hownc c0 h0).symm)]
          exact unlinkAt_next_self w ptr x
        · exact hnx2 x hxl (by rw [hPeq x]; exact hPx)
    · -- the head stays and the loop goes on at its `nextContext`
      have hPc2 : P (w.ctx c) = false := by simpa using hPc
      obtain ⟨w2, hrun, hch2, hsd2, hq2, hfr2, htq2, hnx2⟩ :=
        ih n w (Slot.next c) h2 (fun c0 h0 => by cases h0; exact hcl) hn
      have hd : deref w2 ptr = some c := by
        cases ptr with
        | first q =>
          show (w2.tq q).firstContext = some c
          rw [htq2 q (by simp)]
          exact h1
        | next c0 =>
          have h0 := hown c0 rfl
          show (w2.ctx c0).nextContext = some c
          rw [hfr2 c0 (fun h => h0 (List.mem_cons_of_mem _ h))
            (fun c1 h1 => by cases h1; exact fun h => h0 (h ▸ List.mem_cons_self _ _))]
          exact h1
      refine ⟨w2, ?_, ?_, hsd2, ?_, ?_, ?_, ?_⟩
      · simp [cancelWhereLoop, h1, hPc2, hrun]
      · rw [List.filter_cons_of_pos (by simp [hPc2])]
        exact ⟨hd, hch2⟩
      · intro x
        rw [hq2 x]
        by_cases hxc : x = c
        · subst hxc; simp [hPc2, hcl]
        · simp [hxc]
      · intro x hx hx0
        exact hfr2 x (fun h => hx (List.mem_cons_of_mem _ h))
          (fun c1 h1 => by cases h1; exact fun h => hx (h ▸ List.mem_cons_self _ _))
      · intro q _
        exact htq2 q (by simp)
      · intro x hx hPx
        rcases List.mem_cons.mp hx with hxc | hxl
        · subst hxc; rw [hPc2] at hPx; exact absurd hPx (by simp)
        · exact hnx2 x hxl hPx

/-! ## The link structure under local changes -/

theorem Linked.dispatcher_chain {w : World} {bs : List Nat} {lists : Nat → List Nat}
    (hL : Linked w bs lists) :
    chain w.ctx (w.tq w.dispatcher).firstContext (lists w.dispatcher) :=
  hL.2.2.2.1 w.dispatcher (List.mem_cons_self _ _)

theorem Linked.chain_of_mem {w : World} {bs : List Nat} {lists : Nat → List Nat}
    (hL : Linked w bs lists) {q : Nat} (hq : q ∈ w.dispatcher :: bs) :
    chain w.ctx (w.tq q).firstContext (lists q) :=
  hL.2.2.2.1 q hq

theorem Linked.owner {w : World} {bs : List Nat} {lists : Nat → List Nat}
    (hL : Linked w bs lists) {q : Nat} (hq : q ∈ w.dispatcher :: bs) {c : Nat}
    (hc : c ∈ lists q) : (w.ctx c).queue = some q :=
  hL.2.2.2.2 q hq c hc

/-- The lists of two different queues share no context. -/
theorem Linked.disjoint {w : World} {bs : List Nat} {lists : Nat → List Nat}
    (hL : Linked w bs lists) {q1 q2 : Nat} (h1 : q1 ∈ w.dispatcher :: bs)
    (h2 : q2 ∈ w.dispatcher :: bs) (hne : q1 ≠ q2) {c : Nat} (hc1 : c ∈ lists q1) :
    c ∉ lists q2 := by
  intro hc2
  have e1 := hL.owner h1 hc1
  have e2 := hL.owner h2 hc2
  rw [e1] at e2
  exact hne (Option.some.inj e2)

/-- An idle context is on no list. -/
theorem Linked.not_mem_of_idle {w : World} {bs : List Nat} {lists : Nat → List Nat}
    (hL : Linked w bs lists) {c : Nat} (hc : (w.ctx c).queue = none) {q : Nat}
    (hq : q ∈ w.dispatcher :: bs) : c ∉ lists q := by
  intro hmem
  have := hL.owner hq hmem
  rw [hc] at this
  exact absurd this (by simp)

theorem Linked.congr_lists {w : World} {bs : List Nat} {lists lists2 : Nat → List Nat}
    (hL : Linked w bs lists) (h : ∀ q ∈ w.dispatcher :: bs, lists2 q = lists q) :
    Linked w bs lists2 := by
  obtain ⟨h1, h2, h3, h4, h5⟩ := hL
  refine ⟨h1, h2, h3, ?_, ?_⟩
  · intro q hq; rw [h q hq]; exact h4 q hq
  · intro q hq c hc; rw [h q hq] at hc; exact h5 q hq c hc

/-- Only the link fields matter to `Linked`. -/
theorem Linked.congr_world {w w2 : World} {bs : List Nat} {lists : Nat → List Nat}
    (hL : Linked w bs lists) (hd : w2.dispatcher = w.dispatcher) (htq : w2.tq = w.tq)
    (hq : ∀ x, (w2.ctx x).queue = (w.ctx x).queue)
    (hn : ∀ x, (w2.ctx x).nextContext = (w.ctx x).nextContext) :
    Linked w2 bs lists := by
  obtain ⟨h1, h2, h3, h4, h5⟩ := hL
  unfold Linked
  rw [hd, htq]
  refine ⟨h1, h2, h3, ?_, ?_⟩
  · intro q hq2
    exact follows_congr (fun c _ => hn c) (h4 q hq2)
  · intro q hq2 c hc
    rw [hq c]
    exact h5 q hq2 c hc

/-- A change confined to the list of one queue `q`: the other lists stay as they are. -/
theorem Linked.update {w w2 : World} {bs : List Nat} {lists : Nat → List Nat}
    (hL : Linked w bs lists) (q : Nat) (l2 : List Nat) (hsd : SameData w w2)
    (htq : ∀ q2, q2 ≠ q → w2.tq q2 = w.tq q2)
    (hctx : ∀ q2 ∈ w.dispatcher :: bs, q2 ≠ q → ∀ x ∈ lists q2, w2.ctx x = w.ctx x)
    (hch : chain w2.ctx (w2.tq q).firstContext l2)
    (hown : ∀ c ∈ l2, (w2.ctx c).queue = some q) :
    Linked w2 bs (Function.update lists q l2) := by
  obtain ⟨h1, h2, h3, h4, h5⟩ := hL
  obtain ⟨_, hd, _, _, _, _, _, hfs, hns, _⟩ := hsd
  unfold Linked
  rw [hd]
  refine ⟨?_, h2, ?_, ?_, ?_⟩
  · rw [hfs]
    exact follows_congr (fun b _ => hns b) h1
  · intro b hb
    rw [hfs]
    exact h3 b hb
  · intro q2 hq2
    by_cases hqq : q2 = q
    · subst hqq
      rw [Function.update_same]
      exact hch
    · rw [Function.update_noteq hqq, htq q2 hqq]
      exact follows_congr (fun c hc => by rw [hctx q2 hq2 hqq c hc]) (h4 q2 hq2)
  · intro q2 hq2 c hc
    by_cases hqq : q2 = q
    · subst hqq
      rw [Function.update_same] at hc
      exact hown c hc
    · rw [Function.update_noteq hqq] at hc
      rw [hctx q2 hq2 hqq c hc]
      exact h5 q2 hq2 c hc

theorem mem_insertByTime (ctx : Nat → TaskContext) (t context : Nat) (l : List Nat) (x : Nat) :
    x ∈ insertByTime ctx t context l ↔ x = context ∨ x ∈ l := by
  induction l with
  | nil => simp [insertByTime]
  | cons y l ih =>
    by_cases hb : before t (ctx y).dispatchTime = true
    · simp [insertByTime, hb]
    · have hb2 : before t (ctx y).dispatchTime = false := by simpa using hb
      simp only [insertByTime, hb2, List.mem_cons, ih]
      simp
      tauto

/-- Splicing a context that is on no list into the list of `q`, after the prefix `pre`. -/
theorem Linked.linkAt {w : World} {bs : List Nat} {lists : Nat → List Nat}
    (hL : Linked w bs lists) {q : Nat} (hq : q ∈ w.dispatcher :: bs) (context : Nat)
    (hc : ∀ q2 ∈ w.dispatcher :: bs, context ∉ lists q2) (pre post : List Nat)
    (hl : lists q = pre ++ post) :
    Linked (linkAt w (slotAfter (Slot.first q) pre) context q) bs
      (Function.update lists q (pre ++ context :: post)) := by
  have hch := hL.chain_of_mem hq
  rw [hl] at hch
  have hcq : context ∉ pre ++ post := by rw [← hl]; exact hc q hq
  refine hL.update q _ (sameData_linkAt _ _ _ _) ?_ ?_ ?_ ?_
  · intro q2 hq2
    exact linkAt_tq_frame w (Slot.first q) pre context q q2 (by simp [Ne.symm hq2])
  · intro q2 hq2 hne x hx
    refine linkAt_ctx_frame w (Slot.first q) pre context q x ?_ ?_ (by simp)
    · exact fun h => hc q2 hq2 (h ▸ hx)
    · intro hxpre
      have : x ∈ lists q := by rw [hl]; exact List.mem_append_left _ hxpre
      exact hL.disjoint hq hq2 (Ne.symm hne) this hx
  · exact linkAt_chain context q pre w (Slot.first q) post hch (follows_nodup hch) hcq (by simp)
  · intro c hcmem
    rw [linkAt_queue]
    by_cases h : c = context
    · simp [h]
    · simp only [h, if_false]
      have : c ∈ lists q := by
        rw [hl]
        rcases List.mem_append.mp hcmem with h1 | h1
        · exact List.mem_append_left _ h1
        · rcases List.mem_cons.mp h1 with h2 | h2
          · exact absurd h2 h
          · exact List.mem_append_right _ h2
      exact hL.owner hq this

/-- Unlinking a context from the list of `q`. -/
theorem Linked.unlinkAt {w : World} {bs : List Nat} {lists : Nat → List Nat}
    (hL : Linked w bs lists) {q : Nat} (hq : q ∈ w.dispatcher :: bs) (context : Nat)
    (pre post : List Nat) (hl : lists q = pre ++ context :: post) :
    Linked (unlinkAt w (slotAfter (Slot.first q) pre) context) bs
      (Function.update lists q (pre ++ post)) := by
  have hch := hL.chain_of_mem hq
  rw [hl] at hch
  have hnd := follows_nodup hch
  have hcmem : context ∈ lists q := by rw [hl]; simp
  refine hL.update q _ (sameData_unlinkAt _ _ _) ?_ ?_ ?_ ?_
  · intro q2 hq2
    exact unlinkAt_tq_frame w (Slot.first q) pre context q2 (by simp [Ne.symm hq2])
  · intro q2 hq2 hne x hx
    refine unlinkAt_ctx_frame w (Slot.first q) pre context x ?_ ?_ (by simp)
    · intro h
      exact hL.disjoint hq hq2 (Ne.symm hne) hcmem (h ▸ hx)
    · intro hxpre
      have : x ∈ lists q := by rw [hl]; exact List.mem_append_left _ hxpre
      exact hL.disjoint hq hq2 (Ne.symm hne) this hx
  · exact unlinkAt_chain context pre w (Slot.first q) post hch hnd (by simp)
  · intro c hcmem2
    rw [unlinkAt_queue]
    have hne : c ≠ context := by
      intro h
      subst h
      have := List.nodup_middle.mp hnd
      exact (List.nodup_cons.mp this).1 hcmem2
    simp only [hne, if_false]
    have : c ∈ lists q := by
      rw [hl]
      rcases List.mem_append.mp hcmem2 with h1 | h1
      · exact List.mem_append_left _ h1
      · exact List.mem_append_right _ (List.mem_cons_of_mem _ h1)
    exact hL.owner hq this

/-! ## enqueueContext, the barrier's recycleContext and cancel on a linked world -/

theorem TaskContext.data_eq_iff (a b : TaskContext) :
    a.data = b.data ↔ a.target = b.target ∧ a.tag = b.tag ∧ a.dispatchTime = b.dispatchTime ∧
      a.repeatInterval = b.repeatInterval ∧ a.signalEvent = b.signalEvent := by
  cases a; cases b
  simp [TaskContext.data]

theorem SameData.ctx {w w2 : World} (h : SameData w w2) (c : Nat) :
    (w2.ctx c).target = (w.ctx c).target ∧ (w2.ctx c).tag = (w.ctx c).tag ∧
      (w2.ctx c).dispatchTime = (w.ctx c).dispatchTime ∧
      (w2.ctx c).repeatInterval = (w.ctx c).repeatInterval ∧
      (w2.ctx c).signalEvent = (w.ctx c).signalEvent :=
  (TaskContext.data_eq_iff _ _).mp (h.2.2.2.2.2.2.2.2.2 c)

theorem SameData.dispatcher {w w2 : World} (h : SameData w w2) : w2.dispatcher = w.dispatcher :=
  h.2.1

theorem enqueueContext_linked {w : World} {bs : List Nat} {lists : Nat → List Nat}
    (hL : Linked w bs lists) (context : Nat)
    (hc : ∀ q2 ∈ w.dispatcher :: bs, context ∉ lists q2) (fuel : Nat)
    (hfuel : (lists w.dispatcher).length < fuel) :
    ∃ w2, TaskDispatcher.enqueueContext fuel w context = some w2 ∧
      Linked w2 bs (Function.update lists w.dispatcher
        (insertByTime w.ctx (w.ctx context).dispatchTime context (lists w.dispatcher))) ∧
      SameData w w2 ∧
      (∀ x, (w2.ctx x).queue = if x = context then some w.dispatcher else (w.ctx x).queue) ∧
      (∀ q, q ≠ w.dispatcher → w2.tq q = w.tq q) := by
  have hch := hL.dispatcher_chain
  have hd : w.dispatcher ∈ w.dispatcher :: bs := List.mem_cons_self _ _
  refine ⟨_, enqueueLoop_eq context _ fuel w (Slot.first w.dispatcher) hch hfuel, ?_,
    sameData_linkAt _ _ _ _, fun x => linkAt_queue _ _ _ _ x, ?_⟩
  · rw [insertByTime_eq]
    exact hL.linkAt hd context hc _ _ (List.takeWhile_append_dropWhile _ _).symm
  · intro q hq
    exact linkAt_tq_frame w (Slot.first w.dispatcher) _ context _ q (by simp [Ne.symm hq])

theorem deref_setQueue (w : World) (c : Nat) (q : Option Nat) (ptr : Slot) :
    deref (w.setCtx c { w.ctx c with queue := q }) ptr = deref w ptr := by
  cases ptr with
  | first q2 => rfl
  | next y =>
    by_cases h : y = c
    · subst h; simp [deref, World.setCtx]
    · simp [deref, World.setCtx, Function.update_apply, h]

theorem barrier_recycleContext_linked {w : World} {bs : List Nat} {lists : Nat → List Nat}
    (hL : Linked w bs lists) {b : Nat} (hb : b ∈ w.dispatcher :: bs) (context : Nat)
    (hc : ∀ q2 ∈ w.dispatcher :: bs, context ∉ lists q2) (fuel : Nat)
    (hfuel : (lists b).length < fuel) :
    ∃ w2, EventBarrier.recycleContext fuel w b context = some w2 ∧
      Linked w2 bs (Function.update lists b (lists b ++ [context])) ∧
      SameData w w2 ∧
      (∀ x, (w2.ctx x).queue = if x = context then some b else (w.ctx x).queue) := by
  have hch := hL.chain_of_mem hb
  have htail := tailLoop_eq (lists b) fuel w (Slot.first b) hch hfuel
  have heq : EventBarrier.recycleContext fuel w b context
      = some (linkAt w (slotAfter (Slot.first b) (lists b)) context b) := by
    simp only [EventBarrier.recycleContext, htail, deref_setQueue]
    simp [linkAt]
  refine ⟨_, heq, ?_, sameData_linkAt _ _ _ _, fun x => linkAt_queue _ _ _ _ x⟩
  exact hL.linkAt hb context hc (lists b) [] (by simp)

theorem cancel_linked_absent {w : World} {bs : List Nat} {lists : Nat → List Nat}
    (hL : Linked w bs lists) {q : Nat} (hq : q ∈ w.dispatcher :: bs) (context : Nat)
    (hc : context ∉ lists q) (fuel : Nat) (hfuel : (lists q).length < fuel) :
    TaskQueue.cancel fuel w q context = some w :=
  cancelLoop_absent context (lists q) fuel w (Slot.first q) (hL.chain_of_mem hq) hfuel hc

theorem cancel_linked_present {w : World} {bs : List Nat} {lists : Nat → List Nat}
    (hL : Linked w bs lists) {q : Nat} (hq : q ∈ w.dispatcher :: bs) (context : Nat)
    (hc : context ∈ lists q) (fuel : Nat) (hfuel : (lists q).length < fuel) :
    ∃ w2, TaskQueue.cancel fuel w q context = some w2 ∧
      Linked w2 bs (Function.update lists q ((lists q).erase context)) ∧
      SameData w w2 ∧
      (∀ x, (w2.ctx x).queue = if x = context then none else (w.ctx x).queue) ∧
      (w2.ctx context).nextContext = none := by
  have hch := hL.chain_of_mem hq
  have hnd := follows_nodup hch
  obtain ⟨pre, post, hl⟩ := List.append_of_mem hc
  have hpre : context ∉ pre := by
    intro h
    rw [hl] at hnd
    have := (List.nodup_append.mp hnd).2.2
    exact this h (List.mem_cons_self _ _) 
  have herase : (lists q).erase context = pre ++ post := by
    rw [hl, List.erase_append_right _ hpre, List.erase_cons_head]
  have hrun : TaskQueue.cancel fuel w q context
      = some (unlinkAt w (slotAfter (Slot.first q) pre) context) := by
    refine cancelLoop_present context pre fuel w (Slot.first q) post ?_ ?_ hpre
    · rw [← hl]; exact hch
    · have : pre.length ≤ (lists q).length := by rw [hl]; simp
      omega
  refine ⟨_, hrun, ?_, sameData_unlinkAt _ _ _, fun x => unlinkAt_queue _ _ _ x,
    unlinkAt_next_self _ _ _⟩
  rw [herase]
  exact hL.unlinkAt hq context pre post hl

/-- The member `TaskContext::cancel()` on a linked world: the context leaves whatever list
it was on.  A context that names a queue without being on its list keeps that name. -/
theorem contextCancel_linked {w : World} {bs : List Nat} {lists : Nat → List Nat}
    (hL : Linked w bs lists) (context : Nat)
    (hknown : ∀ q, (w.ctx context).queue = some q → q ∈ w.dispatcher :: bs) (fuel : Nat)
    (hfuel : ∀ q ∈ w.dispatcher :: bs, (lists q).length < fuel) :
    ∃ w2, TaskContext.cancel fuel w context = some w2 ∧
      Linked w2 bs (fun q => (lists q).erase context) ∧
      SameData w w2 ∧
      (∀ x, x ≠ context → (w2.ctx x).queue = (w.ctx x).queue) ∧
      ((w2.ctx context).queue = none ∨ (w2.ctx context).queue = (w.ctx context).queue) ∧
      (w2.tq w.dispatcher).firstSubqueue = (w.tq w.dispatcher).firstSubqueue := by
  have herase_absent : ∀ q, context ∉ lists q → (lists q).erase context = lists q :=
    fun q h => List.erase_of_not_mem h
  cases hq : (w.ctx context).queue with
  | none =>
    refine ⟨w, by simp [TaskContext.cancel, hq], ?_, SameData.refl w, fun _ _ => rfl,
      Or.inl hq, rfl⟩
    exact hL.congr_lists (fun q hq2 => herase_absent q (hL.not_mem_of_idle hq hq2))
  | some q =>
    have hqm := hknown q hq
    by_cases hmem : context ∈ lists q
    · obtain ⟨w2, hrun, hL2, hsd, hqs, _⟩ :=
        cancel_linked_present hL hqm context hmem fuel (hfuel q hqm)
      refine ⟨w2, by simp [TaskContext.cancel, hq, hrun], ?_, hsd, ?_, ?_, hsd.2.2.2.2.2.2.2.1 _⟩
      · refine hL2.congr_lists ?_
        intro q2 hq2
        rw [hsd.dispatcher] at hq2
        by_cases hqq : q2 = q
        · subst hqq; simp
        · rw [Function.update_noteq hqq]
          exact herase_absent q2 (hL.disjoint hqm hq2 (Ne.symm hqq) hmem)
      · intro x hx; rw [hqs x]; simp [hx]
      · left; rw [hqs context]; simp
    · have hrun := cancel_linked_absent hL hqm context hmem fuel (hfuel q hqm)
      refine ⟨w, by simp [TaskContext.cancel, hq, hrun], ?_, SameData.refl w, fun _ _ => rfl,
        Or.inr hq, rfl⟩
      refine hL.congr_lists ?_
      intro q2 hq2
      by_cases hqq : q2 = q
      · subst hqq; exact herase_absent q2 hmem
      · refine herase_absent q2 ?_
        intro h
        have := hL.owner hq2 h
        rw [hq] at this
        exact hqq (Option.some.inj this).symm

/-! ## The `cancelAll` members on a linked world -/

theorem SameData.pred {w w2 : World} (h : SameData w w2) (P : TaskContext → Bool)
    (hP : ∀ c, P c = P c.data) (x : Nat) : P (w2.ctx x) = P (w.ctx x) := by
  rw [hP (w2.ctx x), hP (w.ctx x), h.2.2.2.2.2.2.2.2.2 x]

/-- The first loop of a `cancelAll` on the list of one queue. -/
theorem cancelWhereLoop_linked (P : TaskContext → Bool) (hP : ∀ c, P c = P c.data)
    {w : World} {bs : List Nat} {lists : Nat → List Nat} (hL : Linked w bs lists) {q : Nat}
    (hq : q ∈ w.dispatcher :: bs) (fuel : Nat) (hfuel : (lists q).length < fuel) :
    ∃ w2, cancelWhereLoop P fuel w (Slot.first q) = some w2 ∧
      Linked w2 bs (Function.update lists q ((lists q).filter (fun c => !P (w.ctx c)))) ∧
      SameData w w2 ∧
      (∀ x, (w2.ctx x).queue
        = if x ∈ lists q ∧ P (w.ctx x) = true then none else (w.ctx x).queue) ∧
      (∀ x ∈ lists q, P (w.ctx x) = true → (w2.ctx x).nextContext = none) ∧
      (∀ x, x ∉ lists q → w2.ctx x = w.ctx x) := by
  obtain ⟨w2, hrun, hch, hsd, hqs, hfr, htq, hnx⟩ :=
    cancelWhereLoop_spec P hP (lists q) fuel w (Slot.first q) (hL.chain_of_mem hq)
      (by simp) hfuel
  refine ⟨w2, hrun, ?_, hsd, hqs, hnx, fun x hx => hfr x hx (by simp)⟩
  refine hL.update q _ hsd ?_ ?_ hch ?_
  · intro q2 hq2
    exact htq q2 (by simp [Ne.symm hq2])
  · intro q2 hq2 hne x hx
    exact hfr x (hL.disjoint hq2 hq hne hx) (by simp)
  · intro c hc
    have hc2 := List.mem_filter.mp hc
    rw [hqs c]
    have hPc : P (w.ctx c) = false := by simpa using hc2.2
    simp only [hPc, Bool.false_eq_true, and_false, if_false]
    exact hL.owner hq hc2.1

/-- A `cancelAll` on a queue that has no subqueues. -/
theorem cancelWhere_leaf (P : TaskContext → Bool) (hP : ∀ c, P c = P c.data)
    {w : World} {bs : List Nat} {lists : Nat → List Nat} (hL : Linked w bs lists) {q : Nat}
    (hq : q ∈ w.dispatcher :: bs) (hleaf : (w.tq q).firstSubqueue = none) (fuel : Nat)
    (hfuel : (lists q).length + 1 < fuel) :
    ∃ w2, cancelWhere P fuel w q = some w2 ∧
      Linked w2 bs (Function.update lists q ((lists q).filter (fun c => !P (w.ctx c)))) ∧
      SameData w w2 ∧
      (∀ x, (w2.ctx x).queue
        = if x ∈ lists q ∧ P (w.ctx x) = true then none else (w.ctx x).queue) ∧
      (∀ x ∈ lists q, P (w.ctx x) = true → (w2.ctx x).nextContext = none) ∧
      (∀ x, x ∉ lists q → w2.ctx x = w.ctx x) := by
  obtain ⟨n, rfl⟩ := fuel_succ hfuel
  obtain ⟨w2, hrun, hL2, hsd, hqs, hnx, hfr⟩ :=
    cancelWhereLoop_linked P hP hL hq (n + 1) (by omega)
  refine ⟨w2, ?_, hL2, hsd, hqs, hnx, hfr⟩
  have hfs : (w2.tq q).firstSubqueue = none := by rw [hsd.2.2.2.2.2.2.2.1 q]; exact hleaf
  simp [cancelWhere, hrun, hfs, TaskQueue.forSubqueues]

/-- The loop over the subqueues of a `cancelAll`, on the barriers `rem` still to visit. -/
theorem forSubqueues_cancelWhere (P : TaskContext → Bool) (hP : ∀ c, P c = P c.data)
    (bs : List Nat) (fuel : Nat) (rem : List Nat) :
    ∀ (fuel2 : Nat) (w : World) (lists : Nat → List Nat) (p : Option Nat),
      Linked w bs lists → subchain w.tq p rem → (∀ b ∈ rem, b ∈ bs) →
      (∀ q ∈ w.dispatcher :: bs, (lists q).length + 1 < fuel) → rem.length < fuel2 →
      ∃ w2, TaskQueue.forSubqueues (fun w1 subqueue => cancelWhere P fuel w1 subqueue)
          fuel2 w p = some w2 ∧
        Linked w2 bs (fun q => if q ∈ rem then (lists q).filter (fun c => !P (w.ctx c))
          else lists q) ∧
        SameData w w2 ∧
        (∀ x, (w2.ctx x).queue
          = if (∃ q ∈ rem, x ∈ lists q) ∧ P (w.ctx x) = true then none
            else (w.ctx x).queue) ∧
        (∀ x, (∃ q ∈ rem, x ∈ lists q) → P (w.ctx x) = true → (w2.ctx x).nextContext = none) ∧
        (∀ x, (∀ q ∈ rem, x ∉ lists q) → w2.ctx x = w.ctx x) := by
  induction rem with
  | nil =>
    intro fuel2 w lists p hL hsub _ _ hfuel2
    obtain ⟨n, rfl⟩ := fuel_succ hfuel2
    have hp : p = none := hsub
    subst hp
    refine ⟨w, rfl, ?_, SameData.refl w, ?_, ?_, fun _ _ => rfl⟩
    · exact hL.congr_lists (fun q _ => by simp)
    · intro x; simp
    · intro x hx; obtain ⟨q, hq, _⟩ := hx; exact absurd hq (List.not_mem_nil _)
  | cons b rem ih =>
    intro fuel2 w lists p hL hsub hrem hfuel hfuel2
    obtain ⟨n, rfl⟩ := fuel_succ hfuel2
    have hbrem : b ∉ rem := follows_not_mem_tail hsub
    obtain ⟨hp, hsub2⟩ := hsub
    subst hp
    have hb : b ∈ bs := hrem b (List.mem_cons_self _ _)
    have hbq : b ∈ w.dispatcher :: bs := List.mem_cons_of_mem _ hb
    obtain ⟨w1, hrun1, hL1, hsd1, hqs1, hnx1, hfr1⟩ :=
      cancelWhere_leaf P hP hL hbq (hL.2.2.1 b hb) fuel (hfuel b hbq)
    have hd1 : w1.dispatcher = w.dispatcher := hsd1.dispatcher
    have hsub3 : subchain w1.tq (w1.tq b).nextSubqueue rem := by
      rw [hsd1.2.2.2.2.2.2.2.2.1 b]
      exact follows_congr (fun q _ => hsd1.2.2.2.2.2.2.2.2.1 q) hsub2
    have hlen1 : ∀ q ∈ w1.dispatcher :: bs,
        (Function.update lists b ((lists b).filter (fun c => !P (w.ctx c))) q).length + 1
          < fuel := by
      intro q hq
      rw [hd1] at hq
      by_cases hqb : q = b
      · subst hqb
        rw [Function.update_same]
        have := List.length_filter_le (fun c => !P (w.ctx c)) (lists q)
        have := hfuel q hq
        omega
      · rw [Function.update_noteq hqb]; exact hfuel q hq
    obtain ⟨w2, hrun2, hL2, hsd2, hqs2, hnx2, hfr2⟩ :=
      ih n w1 _ _ hL1 hsub3 (fun x hx => hrem x (List.mem_cons_of_mem _ hx)) hlen1
        (by simp at hfuel2; omega)
    have hPeq : ∀ x, P (w1.ctx x) = P (w.ctx x) := hsd1.pred P hP
    refine ⟨w2, ?_, ?_, hsd1.trans hsd2, ?_, ?_, ?_⟩
    · simp [TaskQueue.forSubqueues, hrun1, hrun2]
    · refine hL2.congr_lists ?_
      intro q _
      by_cases hqb : q = b
      · subst hqb
        simp [hbrem]
      · by_cases hqr : q ∈ rem
        · simp only [hqr, if_true, List.mem_cons, or_true, Function.update_noteq hqb]
          exact (List.filter_congr (fun x _ => by rw [hPeq x])).symm
        · simp [hqr, hqb, Function.update_noteq hqb]
    · intro x
      rw [hqs2 x, hqs1 x, hPeq x]
      by_cases hPx : P (w.ctx x) = true
      · by_cases hxb : x ∈ lists b
        · have : ∃ q ∈ b :: rem, x ∈ lists q := ⟨b, List.mem_cons_self _ _, hxb⟩
          simp [hPx, hxb, this]
        · by_cases hxr : ∃ q ∈ rem, x ∈ Function.update lists b
              ((lists b).filter (fun c => !P (w.ctx c))) q
          · obtain ⟨q, hq, hxq⟩ := hxr
            have hqb : q ≠ b := fun h => hbrem (h ▸ hq)
            have hxq2 : x ∈ lists q := by rwa [Function.update_noteq hqb] at hxq
            have h1 : ∃ q ∈ rem, x ∈ Function.update lists b
                ((lists b).filter (fun c => !P (w.ctx c))) q :=
              ⟨q, hq, by rwa [Function.update_noteq hqb]⟩
            have h2 : ∃ q ∈ b :: rem, x ∈ lists q := ⟨q, List.mem_cons_of_mem _ hq, hxq2⟩
            simp only [h1, h2, hPx, and_self, if_true]
          · have h2 : ¬ ∃ q ∈ b :: rem, x ∈ lists q := by
              rintro ⟨q, hq, hxq⟩
              rcases List.mem_cons.mp hq with h | h
              · subst h; exact hxb hxq
              · have hqb : q ≠ b := fun h2 => hbrem (h2 ▸ h)
                exact hxr ⟨q, h, by rwa [Function.update_noteq hqb]⟩
            simp only [hxr, h2, hxb, false_and, if_false]
      · have hPx2 : P (w.ctx x) = false := by simpa using hPx
        simp [hPx2]
    · rintro x ⟨q, hq, hxq⟩ hPx
      rcases List.mem_cons.mp hq with h | h
      · subst h
        have hx1 := hnx1 x hxq hPx
        have hxf : ∀ q2 ∈ rem, x ∉ Function.update lists q
            ((lists q).filter (fun c => !P (w.ctx c))) q2 := by
          intro q2 hq2
          have hq2b : q2 ≠ q := fun h2 => hbrem (h2 ▸ hq2)
          rw [Function.update_noteq hq2b]
          exact hL.disjoint hbq (List.mem_cons_of_mem _ (hrem q2 (List.mem_cons_of_mem _ hq2)))
            (Ne.symm hq2b) hxq
        rw [hfr2 x hxf]
        exact hx1
      · have hqb : q ≠ b := fun h2 => hbrem (h2 ▸ h)
        exact hnx2 x ⟨q, h, by rwa [Function.update_noteq hqb]⟩ (by rw [hPeq x]; exact hPx)
    · intro x hx
      have hxf : ∀ q2 ∈ rem, x ∉ Function.update lists b
          ((lists b).filter (fun c => !P (w.ctx c))) q2 := by
        intro q2 hq2
        have hq2b : q2 ≠ b := fun h2 => hbrem (h2 ▸ hq2)
        rw [Function.update_noteq hq2b]
        exact hx q2 (List.mem_cons_of_mem _ hq2)
      rw [hfr2 x hxf]
      exact hfr1 x (hx b (List.mem_cons_self _ _))

/-- A `cancelAll` called on the dispatcher: every list of the dispatcher and of its barriers
loses the contexts that satisfy the test, and nothing else changes. -/
theorem cancelWhere_linked (P : TaskContext → Bool) (hP : ∀ c, P c = P c.data)
    {w : World} {bs : List Nat} {lists : Nat → List Nat} (hL : Linked w bs lists) (fuel : Nat)
    (hfuel : ∀ q ∈ w.dispatcher :: bs, (lists q).length + 2 < fuel)
    (hfuel2 : bs.length + 1 < fuel) :
    ∃ w2, cancelWhere P fuel w w.dispatcher = some w2 ∧
      Linked w2 bs (fun q => (lists q).filter (fun c => !P (w.ctx c))) ∧
      SameData w w2 ∧
      (∀ x, (w2.ctx x).queue
        = if (∃ q ∈ w.dispatcher :: bs, x ∈ lists q) ∧ P (w.ctx x) = true then none
          else (w.ctx x).queue) ∧
      (∀ x, (∃ q ∈ w.dispatcher :: bs, x ∈ lists q) → P (w.ctx x) = true →
        (w2.ctx x).nextContext = none) ∧
      (∀ x, (∀ q ∈ w.dispatcher :: bs, x ∉ lists q) → w2.ctx x = w.ctx x) := by
  obtain ⟨n, rfl⟩ := fuel_succ hfuel2
  have hd : w.dispatcher ∈ w.dispatcher :: bs := List.mem_cons_self _ _
  obtain ⟨w1, hrun1, hL1, hsd1, hqs1, hnx1, hfr1⟩ :=
    cancelWhereLoop_linked P hP hL hd (n + 1) (by have := hfuel _ hd; omega)
  have hd1 : w1.dispatcher = w.dispatcher := hsd1.dispatcher
  have hdbs : w.dispatcher ∉ bs := hL.2.1
  have hsub : subchain w1.tq (w1.tq w.dispatcher).firstSubqueue bs := by
    have := hL1.1
    rwa [hd1] at this
  have hlen1 : ∀ q ∈ w1.dispatcher :: bs,
      (Function.update lists w.dispatcher
        ((lists w.dispatcher).filter (fun c => !P (w.ctx c))) q).length + 1 < n := by
    intro q hq
    rw [hd1] at hq
    by_cases hqb : q = w.dispatcher
    · rw [hqb, Function.update_same]
      have := List.length_filter_le (fun c => !P (w.ctx c)) (lists w.dispatcher)
      have := hfuel _ hd
      omega
    · rw [Function.update_noteq hqb]
      have := hfuel q hq
      omega
  obtain ⟨w2, hrun2, hL2, hsd2, hqs2, hnx2, hfr2⟩ :=
    forSubqueues_cancelWhere P hP bs n bs (n + 1) w1 _ _ hL1 hsub (fun _ h => h) hlen1
      (by omega)
  have hPeq : ∀ x, P (w1.ctx x) = P (w.ctx x) := hsd1.pred P hP
  have hupd : ∀ q ∈ bs, Function.update lists w.dispatcher
      ((lists w.dispatcher).filter (fun c => !P (w.ctx c))) q = lists q := by
    intro q hq
    have hne : q ≠ w.dispatcher := by
      intro h
      rw [h] at hq
      exact hdbs hq
    exact Function.update_noteq hne _ _
  refine ⟨w2, ?_, ?_, hsd1.trans hsd2, ?_, ?_, ?_⟩
  · simp [cancelWhere, hrun1, hrun2]
  · refine hL2.congr_lists ?_
    intro q hq
    by_cases hqb : q ∈ bs
    · simp only [hqb, if_true, hupd q hqb]
      exact List.filter_congr (fun x _ => by rw [hPeq x])
    · have hqd : q = w.dispatcher := by
        rw [hsd2.dispatcher, hd1] at hq
        rcases List.mem_cons.mp hq with h | h
        · exact h
        · exact absurd h hqb
      subst hqd
      simp [hqb]
  · intro x
    rw [hqs2 x, hqs1 x, hPeq x]
    by_cases hPx : P (w.ctx x) = true
    · by_cases hxd : x ∈ lists w.dispatcher
      · have : ∃ q ∈ w.dispatcher :: bs, x ∈ lists q := ⟨_, hd, hxd⟩
        simp [hPx, hxd, this]
      · by_cases hxr : ∃ q ∈ bs, x ∈ lists q
        · obtain ⟨q, hq, hxq⟩ := hxr
          have h1 : ∃ q ∈ bs, x ∈ Function.update lists w.dispatcher
              ((lists w.dispatcher).filter (fun c => !P (w.ctx c))) q :=
            ⟨q, hq, by rwa [hupd q hq]⟩
          have h2 : ∃ q ∈ w.dispatcher :: bs, x ∈ lists q :=
            ⟨q, List.mem_cons_of_mem _ hq, hxq⟩
          simp only [h1, h2, hPx, and_self, if_true]
        · have h1 : ¬ ∃ q ∈ bs, x ∈ Function.update lists w.dispatcher
              ((lists w.dispatcher).filter (fun c => !P (w.ctx c))) q := by
            rintro ⟨q, hq, hxq⟩
            exact hxr ⟨q, hq, by rwa [hupd q hq] at hxq⟩
          have h2 : ¬ ∃ q ∈ w.dispatcher :: bs, x ∈ lists q := by
            rintro ⟨q, hq, hxq⟩
            rcases List.mem_cons.mp hq with h | h
            · subst h; exact hxd hxq
            · exact hxr ⟨q, h, hxq⟩
          simp only [h1, h2, hxd, false_and, if_false]
    · have hPx2 : P (w.ctx x) = false := by simpa using hPx
      simp [hPx2]
  · rintro x ⟨q, hq, hxq⟩ hPx
    rcases List.mem_cons.mp hq with h | h
    · subst h
      have hxf : ∀ q2 ∈ bs, x ∉ Function.update lists w.dispatcher
          ((lists w.dispatcher).filter (fun c => !P (w.ctx c))) q2 := by
        intro q2 hq2
        rw [hupd q2 hq2]
        exact hL.disjoint hd (List.mem_cons_of_mem _ hq2) (fun h2 => hdbs (h2 ▸ hq2)) hxq
      rw [hfr2 x hxf]
      exact hnx1 x hxq hPx
    · exact hnx2 x ⟨q, h, by rwa [hupd q h]⟩ (by rw [hPeq x]; exact hPx)
  · intro x hx
    have hxf : ∀ q2 ∈ bs, x ∉ Function.update lists w.dispatcher
        ((lists w.dispatcher).filter (fun c => !P (w.ctx c))) q2 := by
      intro q2 hq2
      rw [hupd q2 hq2]
      exact hx q2 (List.mem_cons_of_mem _ hq2)
    rw [hfr2 x hxf]
    exact hfr1 x (hx _ hd)

/-! ## DynamicContextPool::fetchCore -/

/-- One iteration of the do-while loop of `fetchCore`. -/
theorem fetchLoop_step (n : Nat) (w : World) (pool : DynamicContextPool) (start : Option Nat)
    (e : Nat) (hcur : pool.currentEntry = some e) :
    DynamicContextPool.fetchLoop (n + 1) w pool start
      = if (w.ctx e).isPending = false then
          some (some e, { pool with currentEntry := cyc w pool e })
        else if cyc w pool e ≠ start then
          DynamicContextPool.fetchLoop n w { pool with currentEntry := cyc w pool e } start
        else some (none, { pool with currentEntry := cyc w pool e }) := by
  rw [DynamicContextPool.fetchLoop]
  simp only [hcur]
  rfl

/-- Whatever `fetchLoop` returns is not pending. -/
theorem fetchLoop_idle :
    ∀ (fuel : Nat) (w : World) (pool : DynamicContextPool) (start : Option Nat) (c : Nat)
      (pool2 : DynamicContextPool),
      DynamicContextPool.fetchLoop fuel w pool start = some (some c, pool2) →
      (w.ctx c).queue = none := by
  intro fuel
  induction fuel with
  | zero => intro w pool start c pool2 h; simp [DynamicContextPool.fetchLoop] at h
  | succ n ih =>
    intro w pool start c pool2 h
    cases hcur : pool.currentEntry with
    | none => simp [DynamicContextPool.fetchLoop, hcur] at h
    | some e =>
      rw [fetchLoop_step n w pool start e hcur] at h
      split_ifs at h with h1 h2
      · simp only [Option.some.injEq, Prod.mk.injEq] at h
        rw [← h.1]
        simpa [TaskContext.isPending] using h1
      · exact ih w _ start c pool2 h
      · simp at h

/-- What `fetchCore` returns is either an entry that is not pending, with no context
changed, or the storage `new` hands out next. -/
theorem fetchCore_result (fuel : Nat) (w : World) (pool : DynamicContextPool) (c : Nat)
    (w2 : World) (h : DynamicContextPool.fetchCore fuel w pool = some (some c, w2)) :
    ((w.ctx c).queue = none ∧ w2.ctx = w.ctx ∧ w2.brk = w.brk) ∨
    (c = w.brk ∧ w2.brk = w.brk + 1 ∧ (w2.ctx c).queue = none ∧
      ∀ x, x ≠ w.brk → w2.ctx x = w.ctx x) := by
  have halloc : ∀ pool2 : DynamicContextPool,
      DynamicContextPool.allocate w pool2 = (some c, w2) →
      (c = w.brk ∧ w2.brk = w.brk + 1 ∧ (w2.ctx c).queue = none ∧
        ∀ x, x ≠ w.brk → w2.ctx x = w.ctx x) := by
    intro pool2 h2
    simp only [DynamicContextPool.allocate, Prod.mk.injEq, Option.some.injEq] at h2
    obtain ⟨h3, h4⟩ := h2
    subst h3
    subst h4
    refine ⟨rfl, rfl, ?_, ?_⟩
    · simp [TaskContext.construct]
    · intro x hx; simp [Function.update_apply, hx]
  simp only [DynamicContextPool.fetchCore] at h
  cases hfirst : pool.firstEntry with
  | none =>
    simp only [hfirst, Option.some.injEq] at h
    exact Or.inr (halloc pool h)
  | some e0 =>
    simp only [hfirst] at h
    split at h
    · simp at h
    · rename_i context pool2 hloop
      simp only [Option.some.injEq, Prod.mk.injEq] at h
      obtain ⟨h3, h4⟩ := h
      subst h3
      subst h4
      exact Or.inl ⟨fetchLoop_idle fuel w _ _ _ _ hloop, rfl, rfl⟩
    · rename_i pool2 hloop
      simp only [Option.some.injEq] at h
      exact Or.inr (halloc pool2 h)

/-- A chain of entries, read as a round: each entry leads to the next one, the last one
to the first entry of the pool. -/
theorem cycPath_of_follows (w : World) (pool : DynamicContextPool) (l : List Nat) :
    ∀ a, follows w.nextEntry (w.nextEntry a) l → cycPath (cyc w pool) a l pool.firstEntry := by
  induction l with
  | nil =>
    intro a h
    have h0 : w.nextEntry a = none := h
    show cyc w pool a = pool.firstEntry
    simp [cyc, h0]
  | cons x l ih =>
    intro a h
    obtain ⟨h1, h2⟩ := h
    refine ⟨?_, ih x h2⟩
    simp [cyc, h1]

theorem cycPath_of_follows_mid (w : World) (pool : DynamicContextPool) (s : Nat)
    (more : List Nat) (l : List Nat) :
    ∀ a, follows w.nextEntry (w.nextEntry a) (l ++ s :: more) →
      cycPath (cyc w pool) a l (some s) := by
  induction l with
  | nil =>
    intro a h
    have h1 : w.nextEntry a = some s := h.1
    show cyc w pool a = some s
    simp [cyc, h1]
  | cons x l ih =>
    intro a h
    obtain ⟨h1, h2⟩ := h
    refine ⟨?_, ih x h2⟩
    simp [cyc, h1]

theorem cycPath_append (next : Nat → Option Nat) (b : Nat) (l2 : List Nat) (fin : Option Nat)
    (l1 : List Nat) :
    ∀ a, cycPath next a l1 (some b) → cycPath next b l2 fin →
      cycPath next a (l1 ++ b :: l2) fin := by
  induction l1 with
  | nil => intro a h1 h2; exact ⟨h1, h2⟩
  | cons x l1 ih => intro a h1 h2; exact ⟨h1.1, ih x h1.2 h2⟩

/-- From any entry `s` of the pool, the round visits the entries after `s`, then those
before it, and comes back to `s`. -/
theorem cycPath_round (w : World) (pool : DynamicContextPool) (pre post : List Nat) (s : Nat)
    (h : follows w.nextEntry pool.firstEntry (pre ++ s :: post)) :
    cycPath (cyc w pool) s (post ++ pre) (some s) := by
  cases pre with
  | nil =>
    obtain ⟨h1, h2⟩ := h
    have := cycPath_of_follows w pool post s h2
    rw [h1] at this
    simpa using this
  | cons p0 pre =>
    obtain ⟨h1, h2⟩ := h
    obtain ⟨p2, hp2⟩ := follows_drop h2
    have hpost := cycPath_of_follows w pool post s hp2.2
    rw [h1] at hpost
    have hpre := cycPath_of_follows_mid w pool s post pre p0 h2
    exact cycPath_append _ p0 pre (some s) post s hpost hpre

/-- The do-while loop of `fetchCore` along a round: it returns the first entry that is not
pending, or falls through when there is none. -/
theorem fetchLoop_round (w : World) (s : Nat) (rest : List Nat) :
    ∀ (fuel : Nat) (pool : DynamicContextPool) (cur : Nat),
      pool.currentEntry = some cur → cycPath (cyc w pool) cur rest (some s) → s ∉ rest →
      rest.length < fuel →
      (∃ c pool2, DynamicContextPool.fetchLoop fuel w pool (some s) = some (some c, pool2) ∧
        c ∈ cur :: rest ∧ pool2.firstEntry = pool.firstEntry ∧
        pool2.poolLimit = pool.poolLimit ∧ pool2.poolCount = pool.poolCount ∧
        pool2.currentEntry = cyc w pool c) ∨
      ((∀ x ∈ cur :: rest, (w.ctx x).isPending = true) ∧
        DynamicContextPool.fetchLoop fuel w pool (some s)
          = some (none, { pool with currentEntry := some s })) := by
  induction rest with
  | nil =>
    intro fuel pool cur hcur hpath _ hfuel
    obtain ⟨n, rfl⟩ := fuel_succ hfuel
    have hc : cyc w pool cur = some s := hpath
    by_cases hidle : (w.ctx cur).isPending = false
    · left
      refine ⟨cur, { pool with currentEntry := some s }, ?_, List.mem_cons_self _ _, rfl, rfl,
        rfl, hc.symm⟩
      rw [fetchLoop_step n w pool (some s) cur hcur]
      simp [hidle, hc]
    · right
      have hp : (w.ctx cur).isPending = true := by simpa using hidle
      refine ⟨?_, ?_⟩
      · intro x hx
        rw [List.mem_singleton.mp hx]
        exact hp
      · rw [fetchLoop_step n w pool (some s) cur hcur]
        simp [hp, hc]
  | cons x rest ih =>
    intro fuel pool cur hcur hpath hs hfuel
    obtain ⟨n, rfl⟩ := fuel_succ hfuel
    obtain ⟨hc, hpath2⟩ := hpath
    have hxs : x ≠ s := fun h => hs (h ▸ List.mem_cons_self _ _)
    by_cases hidle : (w.ctx cur).isPending = false
    · left
      refine ⟨cur, { pool with currentEntry := some x }, ?_, List.mem_cons_self _ _, rfl, rfl,
        rfl, hc.symm⟩
      rw [fetchLoop_step n w pool (some s) cur hcur]
      simp [hidle, hc]
    · have hp : (w.ctx cur).isPending = true := by simpa using hidle
      have hstep : DynamicContextPool.fetchLoop (n + 1) w pool (some s)
          = DynamicContextPool.fetchLoop n w { pool with currentEntry := some x } (some s) := by
        rw [fetchLoop_step n w pool (some s) cur hcur]
        simp [hp, hc, hxs]
      have hcyc : cyc w { pool with currentEntry := some x } = cyc w pool := by
        funext e; simp [cyc]
      rcases ih n { pool with currentEntry := some x } x rfl (by rw [hcyc]; exact hpath2)
          (fun h => hs (List.mem_cons_of_mem _ h)) (by simp at hfuel; omega) with
        ⟨c, pool2, h1, h2, h3, h4, h5, h6⟩ | ⟨h1, h2⟩
      · left
        refine ⟨c, pool2, by rw [hstep]; exact h1, List.mem_cons_of_mem _ h2, h3, h4, h5, ?_⟩
        rw [h6, hcyc]
      · right
        refine ⟨?_, by rw [hstep]; exact h2⟩
        intro y hy
        rcases List.mem_cons.mp hy with h | h
        · rw [h]; exact hp
        · exact h1 y h

theorem follows_next_mem {next : Nat → Option Nat} {l : List Nat} :
    ∀ {p : Option Nat}, follows next p l → ∀ c ∈ l, next c = none ∨ ∃ n ∈ l, next c = some n := by
  induction l with
  | nil => intro _ _ c hc; exact absurd hc (List.not_mem_nil _)
  | cons x l ih =>
    intro p h c hc
    obtain ⟨_, h2⟩ := h
    rcases List.mem_cons.mp hc with hcx | hcl
    · subst hcx
      cases l with
      | nil => left; exact h2
      | cons y l => right; exact ⟨y, by simp, h2.1⟩
    · rcases ih h2 c hcl with h3 | ⟨n, hn, h3⟩
      · left; exact h3
      · right; exact ⟨n, List.mem_cons_of_mem _ hn, h3⟩

/-- What `allocate` leaves behind. -/
theorem allocate_spec (w : World) (pool : DynamicContextPool) (es : List Nat)
    (hp : PoolOK w pool es) :
    ∃ pool2, (DynamicContextPool.allocate w pool).2.contextPool = some pool2 ∧
      PoolOK (DynamicContextPool.allocate w pool).2 pool2 (w.brk :: es) ∧
      pool2.poolLimit = pool.poolLimit := by
  obtain ⟨h1, h2, h3⟩ := hp
  have hbrk : w.brk ∉ es := fun h => Nat.lt_irrefl _ (h3 _ h)
  refine ⟨{ pool with firstEntry := some w.brk }, rfl, ⟨?_, ?_, ?_⟩, rfl⟩
  · refine ⟨rfl, ?_⟩
    show follows _ (Function.update w.nextEntry w.brk pool.firstEntry w.brk) es
    rw [Function.update_same]
    refine follows_congr ?_ h1
    intro c hc
    have hne : c ≠ w.brk := by
      intro h
      rw [h] at hc
      exact hbrk hc
    exact Function.update_noteq hne _ _
  · rcases h2 with h2 | ⟨e, he, h2⟩
    · left; exact h2
    · right; exact ⟨e, List.mem_cons_of_mem _ he, h2⟩
  · intro e he
    show e < w.brk + 1
    rcases List.mem_cons.mp he with h | h
    · omega
    · have := h3 e h; omega

/-- With a well-formed pool and enough fuel `fetchCore` returns a context; the pool stays
well formed and no queue changes. -/
theorem fetchCore_total (w : World) (pool : DynamicContextPool) (es : List Nat)
    (hp : PoolOK w pool es) (fuel : Nat) (hfuel : es.length < fuel) :
    ∃ c w2 pool2 es2, DynamicContextPool.fetchCore fuel w pool = some (some c, w2) ∧
      w2.contextPool = some pool2 ∧ PoolOK w2 pool2 es2 ∧ c ∈ es2 ∧
      es2.length ≤ es.length + 1 ∧ pool2.poolLimit = pool.poolLimit ∧
      w2.tq = w.tq ∧ w2.dispatcher = w.dispatcher ∧ w2.now = w.now ∧
      w2.schedulingPolicy = w.schedulingPolicy ∧ w2.calls = w.calls := by
  have halloc : ∀ pool1 : DynamicContextPool, PoolOK w pool1 es →
      pool1.poolLimit = pool.poolLimit →
      ∃ c w2 pool2 es2, DynamicContextPool.allocate w pool1 = (some c, w2) ∧
        w2.contextPool = some pool2 ∧ PoolOK w2 pool2 es2 ∧ c ∈ es2 ∧
        es2.length ≤ es.length + 1 ∧ pool2.poolLimit = pool.poolLimit ∧
        w2.tq = w.tq ∧ w2.dispatcher = w.dispatcher ∧ w2.now = w.now ∧
        w2.schedulingPolicy = w.schedulingPolicy ∧ w2.calls = w.calls := by
    intro pool1 hp1 hlim
    obtain ⟨pool2, h1, h2, h3⟩ := allocate_spec w pool1 es hp1
    exact ⟨w.brk, (DynamicContextPool.allocate w pool1).2, pool2, w.brk :: es, rfl, h1, h2,
      List.mem_cons_self _ _, by simp, h3.trans hlim, rfl, rfl, rfl, rfl, rfl⟩
  cases es with
  | nil =>
    have hfirst : pool.firstEntry = none := hp.1
    obtain ⟨c, w2, pool2, es2, h1, h2⟩ := halloc pool hp rfl
    exact ⟨c, w2, pool2, es2, by simp [DynamicContextPool.fetchCore, hfirst, h1], h2⟩
  | cons e0 es0 =>
    obtain ⟨hfol, hcur, hlt⟩ := hp
    have hfirst : pool.firstEntry = some e0 := hfol.1
    -- the cursor after the first two statements
    obtain ⟨s, hs, pool1, hpool1, hcur1⟩ : ∃ s, s ∈ e0 :: es0 ∧ ∃ pool1 : DynamicContextPool,
        pool1 = (if pool.currentEntry = none then
          { pool with currentEntry := pool.firstEntry } else pool) ∧
        pool1.currentEntry = some s := by
      rcases hcur with h | ⟨e, he, h⟩
      · exact ⟨e0, List.mem_cons_self _ _, _, rfl, by simp [h, hfirst]⟩
      · exact ⟨e, he, _, rfl, by simp [h]⟩
    have hfirst1 : pool1.firstEntry = pool.firstEntry := by
      rw [hpool1]; split <;> rfl
    have hlim1 : pool1.poolLimit = pool.poolLimit := by
      rw [hpool1]; split <;> rfl
    have hcyc : cyc w pool1 = cyc w pool := by
      funext e; simp [cyc, hfirst1]
    obtain ⟨pre, post, hsplit⟩ := List.append_of_mem hs
    have hnd : (pre ++ s :: post).Nodup := by rw [← hsplit]; exact follows_nodup hfol
    have hsrest : s ∉ post ++ pre := by
      have h1 := List.nodup_middle.mp hnd
      have h2 := (List.nodup_cons.mp h1).1
      intro h
      apply h2
      rcases List.mem_append.mp h with h3 | h3
      · exact List.mem_append_right _ h3
      · exact List.mem_append_left _ h3
    have hpath : cycPath (cyc w pool1) s (post ++ pre) (some s) := by
      rw [hcyc]
      exact cycPath_round w pool pre post s (by rw [← hsplit]; exact hfol)
    have hlen : (post ++ pre).length < fuel := by
      have : (e0 :: es0).length = pre.length + (post.length + 1) := by rw [hsplit]; simp
      simp only [List.length_append]
      omega
    have hunfold : DynamicContextPool.fetchCore fuel w pool
        = match DynamicContextPool.fetchLoop fuel w pool1 pool1.currentEntry with
          | none => none
          | some (some context, pool2) => some (some context, { w with contextPool := some pool2 })
          | some (none, pool2) => some (DynamicContextPool.allocate w pool2) := by
      subst hpool1
      unfold DynamicContextPool.fetchCore
      rw [hfirst]
    rw [hunfold, hcur1]
    rcases fetchLoop_round w s (post ++ pre) fuel pool1 s hcur1 hpath hsrest hlen with
      ⟨c, pool2, h1, h2, h3, h4, _, h6⟩ | ⟨_, h2⟩
    · have hces : c ∈ e0 :: es0 := by
        rw [hsplit]
        rcases List.mem_cons.mp h2 with h | h
        · rw [h]; simp
        · rcases List.mem_append.mp h with h | h
          · exact List.mem_append_right _ (List.mem_cons_of_mem _ h)
          · exact List.mem_append_left _ h
      refine ⟨c, { w with contextPool := some pool2 }, pool2, e0 :: es0, by rw [h1], rfl,
        ⟨?_, ?_, hlt⟩, hces, by simp, h4.trans hlim1, rfl, rfl, rfl, rfl, rfl⟩
      · show follows w.nextEntry pool2.firstEntry (e0 :: es0)
        rw [h3, hfirst1]
        exact hfol
      · right
        rw [h6, hcyc]
        rcases follows_next_mem hfol c hces with h | ⟨n, hn, h⟩
        · exact ⟨e0, List.mem_cons_self _ _, by simp [cyc, h, hfirst]⟩
        · exact ⟨n, hn, by simp [cyc, h]⟩
    · rw [h2]
      have hp2 : PoolOK w { pool1 with currentEntry := some s } (e0 :: es0) := by
        refine ⟨?_, Or.inr ⟨s, hs, rfl⟩, hlt⟩
        show follows w.nextEntry pool1.firstEntry (e0 :: es0)
        rw [hfirst1]
        exact hfol
      obtain ⟨c, w2, pool2, es2, h3, h4⟩ := halloc _ hp2 hlim1
      exact ⟨c, w2, pool2, es2, by simp only [h3], h4⟩

/-! ## Arming a caller-provided context -/

theorem insertByTime_congr (ctx1 ctx2 : Nat → TaskContext) (t context : Nat) (l : List Nat)
    (h : ∀ x ∈ l, (ctx2 x).dispatchTime = (ctx1 x).dispatchTime) :
    insertByTime ctx2 t context l = insertByTime ctx1 t context l := by
  induction l with
  | nil => rfl
  | cons x l ih =>
    simp only [insertByTime, h x (List.mem_cons_self _ _),
      ih (fun y hy => h y (List.mem_cons_of_mem _ hy))]

/-- Overwriting data fields of one context commutes with a change of links. -/
theorem SameData.setCtx {w w2 : World} (h : SameData w w2) (c : Nat) (v v2 : TaskContext)
    (hv : v2.data = v.data) : SameData (w.setCtx c v) (w2.setCtx c v2) := by
  obtain ⟨a1, a2, a3, a4, a5, a6, a7, a8, a9, a10⟩ := h
  refine ⟨a1, a2, a3, a4, a5, a6, a7, a8, a9, ?_⟩
  intro x
  by_cases hx : x = c
  · subst hx; simpa [World.setCtx] using hv
  · simpa [World.setCtx, Function.update_apply, hx] using a10 x

/-- Arming a context that may be the one whose callback is running: such a context can
name the dispatcher in `queue` without being on its list. -/
theorem scheduleContext_busy {w : World} {bs : List Nat} {lists : Nat → List Nat}
    (hL : Linked w bs lists) (context : Nat)
    (hknown : ∀ q, (w.ctx context).queue = some q → q ∈ w.dispatcher :: bs)
    (hPL : ∀ x q, x ≠ context → (w.ctx x).queue = some q →
      q ∈ w.dispatcher :: bs ∧ x ∈ lists q)
    (firstInterval nextInterval : Int) (hfi : 0 ≤ firstInterval) (fuel : Nat)
    (hfuel : ∀ q ∈ w.dispatcher :: bs, (lists q).length < fuel) :
    ∃ w2, TaskDispatcher.scheduleContext fuel w context firstInterval nextInterval = some w2 ∧
      Linked w2 bs (scheduledLists w lists context (uadd w.now (toULong firstInterval))) ∧
      PendingLinked w2 bs (scheduledLists w lists context (uadd w.now (toULong firstInterval))) ∧
      SameData (w.setCtx context
        (armed (w.ctx context) (uadd w.now (toULong firstInterval)) nextInterval)) w2 ∧
      (∀ x, (w2.ctx x).queue
        = if x = context then some w.dispatcher else (w.ctx x).queue) := by
  obtain ⟨w1, hrun1, hL1, hsd1, hq1, hqc1, _⟩ :=
    contextCancel_linked hL context hknown fuel hfuel
  have hd1 : w1.dispatcher = w.dispatcher := hsd1.dispatcher
  have hnow1 : w1.now = w.now := hsd1.1
  -- the three assignments of the timing fields
  let t := uadd w.now (toULong firstInterval)
  let w4 : World := w1.setCtx context (armed (w1.ctx context) t nextInterval)
  have hw4 : (((w1.setCtx context
        { w1.ctx context with dispatchTime := uadd w1.now (toULong firstInterval) }).setCtx context
        { (w1.setCtx context
            { w1.ctx context with dispatchTime := uadd w1.now (toULong firstInterval) }).ctx
            context with repeatInterval := nextInterval }).setCtx context
        { ((w1.setCtx context
            { w1.ctx context with dispatchTime := uadd w1.now (toULong firstInterval) }).setCtx
            context
            { (w1.setCtx context
                { w1.ctx context with
                  dispatchTime := uadd w1.now (toULong firstInterval) }).ctx context with
              repeatInterval := nextInterval }).ctx context with signalEvent := none }) = w4 := by
    simp [w4, t, World.setCtx, armed, hnow1]
  have hL4 : Linked w4 bs (fun q => (lists q).erase context) := by
    refine hL1.congr_world rfl rfl ?_ ?_
    · intro x
      by_cases hx : x = context
      · subst hx; simp [w4, World.setCtx, armed]
      · simp [w4, World.setCtx, Function.update_apply, hx]
    · intro x
      by_cases hx : x = context
      · subst hx; simp [w4, World.setCtx, armed]
      · simp [w4, World.setCtx, Function.update_apply, hx]
  have hnd : ∀ q ∈ w.dispatcher :: bs, (lists q).Nodup :=
    fun q hq => follows_nodup (hL.chain_of_mem hq)
  have hc4 : ∀ q2 ∈ w4.dispatcher :: bs, context ∉ (fun q => (lists q).erase context) q2 := by
    intro q2 hq2
    have hq3 : q2 ∈ w.dispatcher :: bs := by
      have : w4.dispatcher = w.dispatcher := hd1
      rwa [this] at hq2
    exact fun h => ((hnd q2 hq3).mem_erase_iff.mp h).1 rfl
  have hd4 : w4.dispatcher = w.dispatcher := hd1
  obtain ⟨w2, hrun2, hL2, hsd2, hq2, _⟩ :=
    enqueueContext_linked hL4 context hc4 fuel (by
      rw [hd4]
      have := hfuel w.dispatcher (List.mem_cons_self _ _)
      have := List.length_erase_le context (lists w.dispatcher)
      show ((lists w.dispatcher).erase context).length < fuel
      omega)
  have hlists : Function.update (fun q => (lists q).erase context) w4.dispatcher
      (insertByTime w4.ctx (w4.ctx context).dispatchTime context
        ((fun q => (lists q).erase context) w4.dispatcher))
      = scheduledLists w lists context t := by
    rw [hd4]
    unfold scheduledLists
    refine congrArg (Function.update _ _) ?_
    have hdt : (w4.ctx context).dispatchTime = t := by simp [w4, World.setCtx, armed]
    rw [hdt]
    refine insertByTime_congr _ _ _ _ _ ?_
    intro x hx
    have hxc : x ≠ context := by
      intro h
      rw [h] at hx
      exact ((hnd _ (List.mem_cons_self _ _)).mem_erase_iff.mp hx).1 rfl
    have : w4.ctx x = w1.ctx x := by simp [w4, World.setCtx, Function.update_apply, hxc]
    rw [this]
    exact (hsd1.ctx x).2.2.1
  rw [hlists] at hL2
  have hqfinal : ∀ x, (w2.ctx x).queue
      = if x = context then some w.dispatcher else (w.ctx x).queue := by
    intro x
    rw [hq2 x, hd4]
    by_cases hx : x = context
    · simp [hx]
    · simp only [hx, if_false]
      have : w4.ctx x = w1.ctx x := by simp [w4, World.setCtx, Function.update_apply, hx]
      rw [this]
      exact hq1 x hx
  have hd2 : w2.dispatcher = w.dispatcher := hsd2.dispatcher.trans hd4
  refine ⟨w2, ?_, hL2, ?_, ?_, hqfinal⟩
  · have hge : firstInterval ≥ 0 := hfi
    simp only [TaskDispatcher.scheduleContext, hge, if_true, hrun1, hw4]
    exact hrun2
  · intro c q hcq
    rw [hqfinal c] at hcq
    by_cases hc : c = context
    · subst hc
      simp only [if_true, Option.some.injEq] at hcq
      subst hcq
      refine ⟨by rw [hd2]; exact List.mem_cons_self _ _, ?_⟩
      unfold scheduledLists
      rw [Function.update_same]
      exact (mem_insertByTime _ _ _ _ _).mpr (Or.inl rfl)
    · simp only [hc, if_false] at hcq
      obtain ⟨hq, hmem⟩ := hPL c q hc hcq
      refine ⟨by rw [hd2]; exact hq, ?_⟩
      unfold scheduledLists
      by_cases hqd : q = w.dispatcher
      · subst hqd
        rw [Function.update_same]
        exact (mem_insertByTime _ _ _ _ _).mpr
          (Or.inr ((List.mem_erase_of_ne hc).mpr hmem))
      · rw [Function.update_noteq hqd]
        exact (List.mem_erase_of_ne hc).mpr hmem
  · exact (hsd1.setCtx context _ _ (by
      have := hsd1.2.2.2.2.2.2.2.2.2 context
      have h2 := (TaskContext.data_eq_iff _ _).mp this
      simp [armed, TaskContext.data, h2.1, h2.2.1])).trans hsd2

theorem scheduleContext_spec {w : World} {bs : List Nat} {lists : Nat → List Nat}
    (hL : Linked w bs lists) (hPL : PendingLinked w bs lists) (context : Nat)
    (firstInterval nextInterval : Int) (hfi : 0 ≤ firstInterval) (fuel : Nat)
    (hfuel : ∀ q ∈ w.dispatcher :: bs, (lists q).length < fuel) :
    ∃ w2, TaskDispatcher.scheduleContext fuel w context firstInterval nextInterval = some w2 ∧
      Linked w2 bs (scheduledLists w lists context (uadd w.now (toULong firstInterval))) ∧
      PendingLinked w2 bs (scheduledLists w lists context (uadd w.now (toULong firstInterval))) ∧
      SameData (w.setCtx context
        (armed (w.ctx context) (uadd w.now (toULong firstInterval)) nextInterval)) w2 ∧
      (∀ x, (w2.ctx x).queue
        = if x = context then some w.dispatcher else (w.ctx x).queue) :=
  scheduleContext_busy hL context (fun q hq => (hPL context q hq).1)
    (fun x q _ h => hPL x q h) firstInterval nextInterval hfi fuel hfuel

theorem PendingLinked.congr_queue {w w2 : World} {bs : List Nat} {lists : Nat → List Nat}
    (hPL : PendingLinked w bs lists) (hd : w2.dispatcher = w.dispatcher)
    (hq : ∀ x, (w2.ctx x).queue = (w.ctx x).queue) : PendingLinked w2 bs lists := by
  intro c q h
  rw [hq c] at h
  rw [hd]
  exact hPL c q h

theorem scheduledLists_congr (w w2 : World) (lists : Nat → List Nat) (context t : Nat)
    (hd : w2.dispatcher = w.dispatcher)
    (hdt : ∀ x, x ≠ context → (w2.ctx x).dispatchTime = (w.ctx x).dispatchTime)
    (hnd : (lists w.dispatcher).Nodup) :
    scheduledLists w2 lists context t = scheduledLists w lists context t := by
  unfold scheduledLists
  rw [hd]
  refine congrArg (Function.update _ _) ?_
  refine insertByTime_congr _ _ _ _ _ ?_
  intro x hx
  refine hdt x ?_
  intro h
  rw [h] at hx
  exact (hnd.mem_erase_iff.mp hx).1 rfl

theorem scheduleTarget_spec {w : World} {bs : List Nat} {lists : Nat → List Nat}
    (hL : Linked w bs lists) (hPL : PendingLinked w bs lists) (context : Nat)
    (firstInterval nextInterval : Int) (hfi : 0 ≤ firstInterval) (target : Task)
    (tag : Option Nat) (fuel : Nat)
    (hfuel : ∀ q ∈ w.dispatcher :: bs, (lists q).length < fuel) :
    ∃ w2, TaskDispatcher.scheduleTarget fuel w context firstInterval nextInterval target tag
        = some w2 ∧
      Linked w2 bs (scheduledLists w lists context (uadd w.now (toULong firstInterval))) ∧
      PendingLinked w2 bs (scheduledLists w lists context (uadd w.now (toULong firstInterval))) ∧
      SameData (w.setCtx context
        { armed (w.ctx context) (uadd w.now (toULong firstInterval)) nextInterval with
          target := target, tag := tag }) w2 ∧
      (∀ x, (w2.ctx x).queue
        = if x = context then some w.dispatcher else (w.ctx x).queue) := by
  let w0 : World := w.setCtx context { w.ctx context with target := target, tag := tag }
  have hw0 : (w.setCtx context { w.ctx context with target := target }).setCtx context
      { (w.setCtx context { w.ctx context with target := target }).ctx context with tag := tag }
      = w0 := by
    simp [w0, World.setCtx]
  have hq0 : ∀ x, (w0.ctx x).queue = (w.ctx x).queue := by
    intro x
    by_cases hx : x = context
    · subst hx; simp [w0, World.setCtx]
    · simp [w0, World.setCtx, Function.update_apply, hx]
  have hn0 : ∀ x, (w0.ctx x).nextContext = (w.ctx x).nextContext := by
    intro x
    by_cases hx : x = context
    · subst hx; simp [w0, World.setCtx]
    · simp [w0, World.setCtx, Function.update_apply, hx]
  have hL0 : Linked w0 bs lists := hL.congr_world rfl rfl hq0 hn0
  have hPL0 : PendingLinked w0 bs lists := hPL.congr_queue rfl hq0
  obtain ⟨w2, hrun, hL2, hPL2, hsd2, hq2⟩ :=
    scheduleContext_spec hL0 hPL0 context firstInterval nextInterval hfi fuel hfuel
  have hlists : scheduledLists w0 lists context (uadd w0.now (toULong firstInterval))
      = scheduledLists w lists context (uadd w.now (toULong firstInterval)) := by
    refine scheduledLists_congr w w0 lists context _ rfl ?_
      (follows_nodup hL.dispatcher_chain)
    intro x hx
    simp [w0, World.setCtx, Function.update_apply, hx]
  rw [hlists] at hL2 hPL2
  refine ⟨w2, ?_, hL2, hPL2, ?_, ?_⟩
  · have hge : firstInterval ≥ 0 := hfi
    simp only [TaskDispatcher.scheduleTarget, hge, if_true, hw0]
    exact hrun
  · have : w0.setCtx context
        (armed (w0.ctx context) (uadd w0.now (toULong firstInterval)) nextInterval)
        = w.setCtx context
          { armed (w.ctx context) (uadd w.now (toULong firstInterval)) nextInterval with
            target := target, tag := tag } := by
      simp [w0, World.setCtx, armed]
    rw [← this]
    exact hsd2
  · intro x
    rw [hq2 x, hq0 x]
    rfl

/-! ## Scheduling with a context from the pool -/

theorem Task.eq_iff (a b : Task) : Task.eq a b = true ↔ a = b := by
  cases a with
  | mk ua oa =>
    cases b with
    | mk ub ob =>
      by_cases ho : oa = ob
      · subst ho
        by_cases hu : ua = ub
        · subst hu; simp [Task.eq]
        · simp [Task.eq, hu]
      · simp [Task.eq, ho]

theorem length_insertByTime (ctx : Nat → TaskContext) (t context : Nat) (l : List Nat) :
    (insertByTime ctx t context l).length = l.length + 1 := by
  rw [insertByTime_eq]
  have := congrArg List.length
    (List.takeWhile_append_dropWhile (fun x => !before t (ctx x).dispatchTime) l)
  simp only [List.length_append, List.length_cons] at this ⊢
  omega

theorem length_scheduledLists (w : World) (lists : Nat → List Nat) (context t q : Nat) :
    (scheduledLists w lists context t q).length ≤ (lists q).length + 1 := by
  unfold scheduledLists
  by_cases hq : q = w.dispatcher
  · subst hq
    rw [Function.update_same, length_insertByTime]
    have := List.length_erase_le context (lists w.dispatcher)
    omega
  · rw [Function.update_noteq hq]
    have := List.length_erase_le context (lists q)
    show ((lists q).erase context).length ≤ _
    omega

/-- Contexts on no list may change without harm to the link structure. -/
theorem Linked.congr_on {w w2 : World} {bs : List Nat} {lists : Nat → List Nat}
    (hL : Linked w bs lists) (hd : w2.dispatcher = w.dispatcher) (htq : w2.tq = w.tq)
    (hctx : ∀ q ∈ w.dispatcher :: bs, ∀ x ∈ lists q, w2.ctx x = w.ctx x) :
    Linked w2 bs lists := by
  obtain ⟨h1, h2, h3, h4, h5⟩ := hL
  unfold Linked
  rw [hd, htq]
  refine ⟨h1, h2, h3, ?_, ?_⟩
  · intro q hq
    exact follows_congr (fun c hc => by rw [hctx q hq c hc]) (h4 q hq)
  · intro q hq c hc
    rw [hctx q hq c hc]
    exact h5 q hq c hc

/-- Fetching from the pool in a quiescent world: an idle context comes back, and the world
stays quiescent with the same lists. -/
theorem fetch_spec {w : World} {bs : List Nat} {lists : Nat → List Nat} {es : List Nat}
    (hQ : Quiescent w bs lists es) (pool : DynamicContextPool) (hpool : w.contextPool = some pool)
    (eph : EmptyPoolHandler) (fuel : Nat) (hfuel : es.length < fuel) :
    ∃ c w2 es2, ContextPool.fetch eph fuel w pool = some (some c, w2) ∧
      Quiescent w2 bs lists es2 ∧ (w2.ctx c).queue = none ∧ c < w2.brk ∧
      es2.length ≤ es.length + 1 ∧ w2.dispatcher = w.dispatcher ∧ w2.now = w.now ∧
      w2.calls = w.calls ∧ w2.schedulingPolicy = w.schedulingPolicy ∧
      (∀ x, (w.ctx x).queue ≠ none → w2.ctx x = w.ctx x) := by
  obtain ⟨hL, hPL, ⟨pool0, hpool0, hp⟩, hfresh⟩ := hQ
  have hpp : pool0 = pool := by rw [hpool0] at hpool; exact Option.some.inj hpool
  subst hpp
  obtain ⟨c, w2, pool2, es2, hrun, hpool2, hp2, hces, hlen, _, htq, hd, hnow, hpol, hcalls⟩ :=
    fetchCore_total w pool0 es hp fuel hfuel
  have hres := fetchCore_result fuel w pool0 c w2 hrun
  have hcb : c < w2.brk := hp2.2.2 c hces
  have hfetch : ContextPool.fetch eph fuel w pool0 = some (some c, w2) := by
    simp [ContextPool.fetch, hrun]
  refine ⟨c, w2, es2, hfetch, ?_, ?_, hcb, hlen, hd, hnow, hcalls, hpol, ?_⟩
  · rcases hres with ⟨_, hctx, hbrk⟩ | ⟨hc, hbrk, hqc, hctx⟩
    · refine ⟨hL.congr_on hd htq (fun q _ x _ => by rw [hctx]), ?_, ⟨pool2, hpool2, hp2⟩, ?_⟩
      · exact hPL.congr_queue hd (fun x => by rw [hctx])
      · intro x hx
        rw [hctx]
        exact hfresh x (by rw [hbrk] at hx; exact hx)
    · have hnot : ∀ q ∈ w.dispatcher :: bs, ∀ x ∈ lists q, x ≠ w.brk := by
        intro q hq x hx hxb
        have h1 := hL.owner hq hx
        rw [hxb, hfresh w.brk (Nat.le_refl _)] at h1
        exact absurd h1 (by simp)
      refine ⟨hL.congr_on hd htq (fun q hq x hx => hctx x (hnot q hq x hx)), ?_,
        ⟨pool2, hpool2, hp2⟩, ?_⟩
      · intro x q hxq
        by_cases hxb : x = w.brk
        · rw [hxb, ← hc, hqc] at hxq
          exact absurd hxq (by simp)
        · rw [hctx x hxb] at hxq
          rw [hd]
          exact hPL x q hxq
      · intro x hx
        rw [hbrk] at hx
        rw [hctx x (by omega)]
        exact hfresh x (by omega)
  · rcases hres with ⟨hq, hctx, _⟩ | ⟨_, _, hqc, _⟩
    · rw [hctx]; exact hq
    · exact hqc
  · intro x hx
    rcases hres with ⟨_, hctx, _⟩ | ⟨_, _, _, hctx⟩
    · rw [hctx]
    · refine hctx x ?_
      intro hxb
      rw [hxb] at hx
      exact hx (hfresh w.brk (Nat.le_refl _))

theorem targetTest_data (target : Task) (c : TaskContext) :
    Task.eq c.target target = Task.eq c.data.target target := rfl

/-- The pool-based `schedule` in a quiescent world, with a non-negative first interval:
it returns a context, which afterwards is the only pending one with that target. -/
theorem schedule_spec {w : World} {bs : List Nat} {lists : Nat → List Nat} {es : List Nat}
    (hQ : Quiescent w bs lists es) (eph : EmptyPoolHandler)
    (firstInterval nextInterval : Int) (hfi : 0 ≤ firstInterval) (target : Task)
    (tag : Option Nat) (fuel : Nat)
    (hfuel : ∀ q ∈ w.dispatcher :: bs, (lists q).length + 2 < fuel)
    (hfuel2 : bs.length + 1 < fuel) (hfuel3 : es.length < fuel) :
    ∃ c w3 lists3 es3,
      TaskDispatcher.schedule eph fuel w firstInterval nextInterval target tag
        = some (some c, w3) ∧
      Quiescent w3 bs lists3 es3 ∧
      (w3.ctx c).queue = some w.dispatcher ∧ c ∈ lists3 w.dispatcher ∧
      (w3.ctx c).target = target ∧ (w3.ctx c).tag = tag ∧
      (w3.ctx c).dispatchTime = uadd w.now (toULong firstInterval) ∧
      (w3.ctx c).repeatInterval = nextInterval ∧ (w3.ctx c).signalEvent = none ∧
      (∀ x, (w3.ctx x).queue ≠ none → Task.eq (w3.ctx x).target target = true → x = c) ∧
      (∀ q, (lists3 q).length ≤ (lists q).length + 1) ∧ es3.length ≤ es.length + 1 ∧
      w3.dispatcher = w.dispatcher ∧ w3.now = w.now ∧ w3.calls = w.calls := by
  obtain ⟨pool, hpool, _⟩ := hQ.2.2.1
  obtain ⟨c, w1, es1, hfetch, hQ1, hqc1, hcb1, hlen1, hd1, hnow1, hcalls1, _, _⟩ :=
    fetch_spec hQ pool hpool eph fuel hfuel3
  obtain ⟨hL1, hPL1, ⟨pool1, hpool1, hp1⟩, hfresh1⟩ := hQ1
  -- cancelAll(target)
  have hP : ∀ x : TaskContext, (fun c : TaskContext => Task.eq c.target target) x
      = (fun c : TaskContext => Task.eq c.target target) x.data := fun _ => rfl
  obtain ⟨w2, hrun2, hL2, hsd2, hq2, _, _⟩ :=
    cancelWhere_linked (fun c => Task.eq c.target target) hP hL1 fuel
      (by rw [hd1]; exact hfuel) hfuel2
  have hd2 : w2.dispatcher = w.dispatcher := hsd2.dispatcher.trans hd1
  have hPL2 : PendingLinked w2 bs
      (fun q => (lists q).filter (fun c => !Task.eq (w1.ctx c).target target)) := by
    intro x q hxq
    rw [hq2 x] at hxq
    split at hxq
    · exact absurd hxq (by simp)
    · rename_i hnot
      obtain ⟨hq, hmem⟩ := hPL1 x q hxq
      refine ⟨by rw [hsd2.dispatcher]; exact hq, List.mem_filter.mpr ⟨hmem, ?_⟩⟩
      have : ¬ Task.eq (w1.ctx x).target target = true := fun h => hnot ⟨⟨q, hq, hmem⟩, h⟩
      simpa using this
  have hqc2 : (w2.ctx c).queue = none := by
    rw [hq2 c]
    split
    · rfl
    · exact hqc1
  -- schedule(*context, firstInterval, nextInterval, target, tag)
  have hfuel4 : ∀ q ∈ w2.dispatcher :: bs,
      ((fun q => (lists q).filter (fun c => !Task.eq (w1.ctx c).target target)) q).length
        < fuel := by
    intro q hq
    rw [hd2] at hq
    have := hfuel q hq
    have := List.length_filter_le (fun c => !Task.eq (w1.ctx c).target target) (lists q)
    show ((lists q).filter _).length < fuel
    omega
  obtain ⟨w3, hrun3, hL3, hPL3, hsd3, hq3⟩ :=
    scheduleTarget_spec hL2 hPL2 c firstInterval nextInterval hfi target tag fuel hfuel4
  have hd3 : w3.dispatcher = w.dispatcher := hsd3.dispatcher.trans hd2
  have hnow2 : w2.now = w.now := hsd2.1.trans hnow1
  have hc3 := hsd3.ctx c
  simp only [World.setCtx, Function.update_same, armed] at hc3
  have hrun : TaskDispatcher.schedule eph fuel w firstInterval nextInterval target tag
      = some (some c, w3) := by
    simp only [TaskDispatcher.schedule, hpool, hfetch]
    rw [cancelAllTarget_eq, hd1, ← hd1, hrun2]
    simp only [hrun3]
  refine ⟨c, w3, _, es1, hrun, ⟨hL3, hPL3, ⟨pool1, ?_, ?_⟩, ?_⟩, ?_, ?_, hc3.1, hc3.2.1, ?_,
    hc3.2.2.2.1, hc3.2.2.2.2, ?_, ?_, hlen1, hd3, hsd3.1.trans hnow2, ?_⟩
  · rw [hsd3.2.2.2.1]
    show w2.contextPool = some pool1
    rw [hsd2.2.2.2.1]
    exact hpool1
  · obtain ⟨h1, h2, h3⟩ := hp1
    refine ⟨?_, h2, ?_⟩
    · rw [hsd3.2.2.2.2.1]
      show follows w2.nextEntry _ _
      rw [hsd2.2.2.2.2.1]
      exact h1
    · intro e he
      rw [hsd3.2.2.2.2.2.1]
      show e < w2.brk
      rw [hsd2.2.2.2.2.2.1]
      exact h3 e he
  · intro x hx
    have hb3 : w3.brk = w1.brk := by
      rw [hsd3.2.2.2.2.2.1]
      show w2.brk = w1.brk
      exact hsd2.2.2.2.2.2.1
    rw [hb3] at hx
    rw [hq3 x]
    have hxc : x ≠ c := by omega
    simp only [hxc, if_false]
    rw [hq2 x]
    split
    · rfl
    · exact hfresh1 x hx
  · rw [hq3 c, hd2]; simp
  · unfold scheduledLists
    rw [hd2, Function.update_same]
    exact (mem_insertByTime _ _ _ _ _).mpr (Or.inl rfl)
  · rw [hc3.2.2.1, hnow2]
  · intro x hx htx
    by_contra hxc
    rw [hq3 x] at hx
    simp only [hxc, if_false] at hx
    rw [hq2 x] at hx
    split at hx
    · exact hx rfl
    · rename_i hnot
      cases hqx : (w1.ctx x).queue with
      | none => exact hx hqx
      | some q =>
        obtain ⟨hq, hmem⟩ := hPL1 x q hqx
        apply hnot
        refine ⟨⟨q, hq, hmem⟩, ?_⟩
        have h3 := (hsd3.ctx x).1
        have h2 := (hsd2.ctx x).1
        simp only [World.setCtx, Function.update_apply, hxc, if_false] at h3
        rw [h3, h2] at htx
        exact htx
  · intro q
    have h1 := length_scheduledLists w2
      (fun q => (lists q).filter (fun c => !Task.eq (w1.ctx c).target target)) c
      (uadd w2.now (toULong firstInterval)) q
    have h2 := List.length_filter_le (fun c => !Task.eq (w1.ctx c).target target) (lists q)
    have h3 : ((fun q => (lists q).filter (fun c => !Task.eq (w1.ctx c).target target)) q).length
        ≤ (lists q).length := h2
    omega
  · rw [hsd3.2.2.2.2.2.2.1]
    show w2.calls = w.calls
    rw [hsd2.2.2.2.2.2.2.1]
    exact hcalls1

/-! ## TaskDispatcher::run -/

theorem run_empty (cb : Callback) (fuel : Nat) (w : World)
    (h : (w.tq w.dispatcher).firstContext = none) :
    TaskDispatcher.run cb fuel w = some (false, w) := by
  simp [TaskDispatcher.run, h]

theorem run_not_due (cb : Callback) (fuel : Nat) (w : World) (c : Nat)
    (h : (w.tq w.dispatcher).firstContext = some c)
    (hb : toLong (usub w.now (w.ctx c).dispatchTime) < 0) :
    TaskDispatcher.run cb fuel w = some (false, w) := by
  simp [TaskDispatcher.run, h, hb]

/-- The world in which the callback of the head `c` starts. -/
theorem run_due (cb : Callback) (fuel : Nat) (w : World) (c : Nat)
    (h : (w.tq w.dispatcher).firstContext = some c)
    (hb : ¬ toLong (usub w.now (w.ctx c).dispatchTime) < 0) :
    TaskDispatcher.run cb fuel w
      = match (if ((TaskDispatcher.runDetach w c).ctx c).target.toBool then
            Task.invoke cb ((TaskDispatcher.runDetach w c).ctx c).target
              (TaskDispatcher.runDetach w c)
          else some (TaskDispatcher.runDetach w c)) with
        | none => none
        | some w2 =>
          match TaskDispatcher.runRearm fuel w2 c w.now (w.ctx c).dispatchTime with
          | none => none
          | some w3 => some (true, w3) := by
  simp only [TaskDispatcher.run, h, hb, if_false]

theorem runDetach_ctx_other (w : World) (c x : Nat) (hx : x ≠ c) :
    (TaskDispatcher.runDetach w c).ctx x = w.ctx x := by
  unfold TaskDispatcher.runDetach
  simp only []
  split <;> simp [World.setCtx, World.setTq, Function.update_apply, hx]

theorem runDetach_ctx_self (w : World) (c : Nat) :
    (TaskDispatcher.runDetach w c).ctx c
      = { w.ctx c with
          nextContext := none
          queue := if (w.ctx c).repeatInterval < 0 ∧ (w.ctx c).signalEvent = none then none
            else (w.ctx c).queue } := by
  unfold TaskDispatcher.runDetach
  simp only []
  by_cases h : (w.ctx c).repeatInterval < 0 ∧ (w.ctx c).signalEvent = none
  · simp [World.setCtx, World.setTq, h]
  · have h2 : ¬ ((w.ctx c).repeatInterval < 0 ∧ (w.ctx c).signalEvent = none) := h
    simp only [World.setCtx, World.setTq, Function.update_same]
    rw [if_neg h2, if_neg h2]
    simp

theorem runDetach_tq (w : World) (c q : Nat) :
    (TaskDispatcher.runDetach w c).tq q
      = if q = w.dispatcher then
          { w.tq w.dispatcher with firstContext := (w.ctx c).nextContext }
        else w.tq q := by
  unfold TaskDispatcher.runDetach
  simp only []
  split <;> by_cases hq : q = w.dispatcher <;>
    simp [World.setCtx, World.setTq, Function.update_apply, hq]

theorem runDetach_scalars (w : World) (c : Nat) :
    (TaskDispatcher.runDetach w c).now = w.now ∧
    (TaskDispatcher.runDetach w c).dispatcher = w.dispatcher ∧
    (TaskDispatcher.runDetach w c).schedulingPolicy = w.schedulingPolicy ∧
    (TaskDispatcher.runDetach w c).contextPool = w.contextPool ∧
    (TaskDispatcher.runDetach w c).nextEntry = w.nextEntry ∧
    (TaskDispatcher.runDetach w c).brk = w.brk ∧
    (TaskDispatcher.runDetach w c).calls = w.calls := by
  unfold TaskDispatcher.runDetach
  simp only []
  split <;> exact ⟨rfl, rfl, rfl, rfl, rfl, rfl, rfl⟩

theorem sameData_runDetach (w : World) (c : Nat) :
    SameData w (TaskDispatcher.runDetach w c) := by
  obtain ⟨h1, h2, h3, h4, h5, h6, h7⟩ := runDetach_scalars w c
  refine ⟨h1, h2, h3, h4, h5, h6, h7, ?_, ?_, ?_⟩
  · intro q; rw [runDetach_tq]; split
    · rename_i h; rw [h]
    · rfl
  · intro q; rw [runDetach_tq]; split
    · rename_i h; rw [h]
    · rfl
  · intro x
    by_cases hx : x = c
    · subst hx; rw [runDetach_ctx_self]; rfl
    · rw [runDetach_ctx_other w c x hx]

/-- Detaching the head of the dispatcher's list. -/
theorem runDetach_linked {w : World} {bs : List Nat} {lists : Nat → List Nat}
    (hL : Linked w bs lists) (c : Nat) (rest : List Nat)
    (hl : lists w.dispatcher = c :: rest) :
    Linked (TaskDispatcher.runDetach w c) bs (Function.update lists w.dispatcher rest) := by
  have hd : w.dispatcher ∈ w.dispatcher :: bs := List.mem_cons_self _ _
  have hch := hL.dispatcher_chain
  rw [hl] at hch
  have hcr : c ∉ rest := follows_not_mem_tail hch
  have hcm : c ∈ lists w.dispatcher := by rw [hl]; exact List.mem_cons_self _ _
  refine hL.update w.dispatcher rest (sameData_runDetach w c) ?_ ?_ ?_ ?_
  · intro q hq; rw [runDetach_tq]; simp [hq]
  · intro q hq hne x hx
    refine runDetach_ctx_other w c x ?_
    intro h
    exact hL.disjoint hd hq (Ne.symm hne) hcm (h ▸ hx)
  · rw [runDetach_tq]
    simp only [if_true]
    refine follows_congr ?_ hch.2
    intro x hx
    rw [runDetach_ctx_other w c x (fun h => hcr (h ▸ hx))]
  · intro x hx
    rw [runDetach_ctx_other w c x (fun h => hcr (h ▸ hx))]
    exact hL.owner hd (by rw [hl]; exact List.mem_cons_of_mem _ hx)

/-- After the callback of a context that is idle by then, `run()` does nothing more. -/
theorem runRearm_idle (fuel : Nat) (w : World) (c now dispatchTime : Nat)
    (h : (w.ctx c).queue = none) :
    TaskDispatcher.runRearm fuel w c now dispatchTime = some w := by
  simp [TaskDispatcher.runRearm, h]

/-- After the callback of a periodic context that was left alone, `run()` puts it back on
the list at the time the policy gives. -/
theorem runRearm_periodic {w : World} {bs : List Nat} {lists : Nat → List Nat}
    (hL : Linked w bs lists) (c now dispatchTime : Nat)
    (hc : ∀ q ∈ w.dispatcher :: bs, c ∉ lists q)
    (hq : (w.ctx c).queue = some w.dispatcher) (hn : (w.ctx c).nextContext = none)
    (hr : 0 ≤ (w.ctx c).repeatInterval) (t : Nat)
    (ht : TaskDispatcher.nextDispatchTime w.schedulingPolicy now w.now dispatchTime
      (w.ctx c).repeatInterval = some t)
    (fuel : Nat) (hfuel : (lists w.dispatcher).length < fuel) :
    ∃ w2, TaskDispatcher.runRearm fuel w c now dispatchTime = some w2 ∧
      Linked w2 bs (Function.update lists w.dispatcher
        (insertByTime w.ctx t c (lists w.dispatcher))) ∧
      SameData (w.setCtx c { w.ctx c with dispatchTime := t }) w2 ∧
      (∀ x, (w2.ctx x).queue = (w.ctx x).queue) := by
  have hd : w.dispatcher ∈ w.dispatcher :: bs := List.mem_cons_self _ _
  have hfind : TaskQueue.findContext fuel w w.dispatcher (some c) = some none :=
    findContextLoop_absent c _ fuel w (Slot.first w.dispatcher) hL.dispatcher_chain hfuel
      (hc _ hd)
  let w1 : World := w.setCtx c { w.ctx c with dispatchTime := t }
  have hL1 : Linked w1 bs lists := by
    refine hL.congr_world rfl rfl ?_ ?_
    · intro x
      by_cases hx : x = c
      · subst hx; simp [w1, World.setCtx]
      · simp [w1, World.setCtx, Function.update_apply, hx]
    · intro x
      by_cases hx : x = c
      · subst hx; simp [w1, World.setCtx]
      · simp [w1, World.setCtx, Function.update_apply, hx]
  obtain ⟨w2, hrun, hL2, hsd2, hq2, _⟩ := enqueueContext_linked hL1 c hc fuel hfuel
  have hdt : (w1.ctx c).dispatchTime = t := by simp [w1, World.setCtx]
  have hins : insertByTime w1.ctx (w1.ctx c).dispatchTime c (lists w1.dispatcher)
      = insertByTime w.ctx t c (lists w.dispatcher) := by
    rw [hdt]
    refine insertByTime_congr _ _ _ _ _ ?_
    intro x hx
    have hxc : x ≠ c := fun h => hc _ hd (h ▸ hx)
    simp [w1, World.setCtx, Function.update_apply, hxc]
  rw [hins] at hL2
  refine ⟨w2, ?_, hL2, hsd2, ?_⟩
  · have hge : (w.ctx c).repeatInterval ≥ 0 := hr
    unfold TaskDispatcher.runRearm
    rw [if_pos ⟨hq, hn⟩]
    simp only [hfind]
    rw [if_pos hge]
    simp only [ht]
    exact hrun
  · intro x
    rw [hq2 x]
    by_cases hx : x = c
    · subst hx
      simp only [if_true]
      exact hq.symm
    · simp [w1, World.setCtx, Function.update_apply, hx]

/-- After the callback of an event-bound context that was left alone, `run()` parks it at
the tail of its barrier. -/
theorem runRearm_event {w : World} {bs : List Nat} {lists : Nat → List Nat}
    (hL : Linked w bs lists) (c now dispatchTime : Nat)
    (hc : ∀ q ∈ w.dispatcher :: bs, c ∉ lists q)
    (hq : (w.ctx c).queue = some w.dispatcher) (hn : (w.ctx c).nextContext = none)
    (hr : (w.ctx c).repeatInterval < 0) (ev : Nat) (hev : (w.ctx c).signalEvent = some ev)
    (hevm : ev ∈ w.dispatcher :: bs)
    (fuel : Nat) (hfuel : ∀ q ∈ w.dispatcher :: bs, (lists q).length < fuel) :
    ∃ w2, TaskDispatcher.runRearm fuel w c now dispatchTime = some w2 ∧
      Linked w2 bs (Function.update lists ev (lists ev ++ [c])) ∧
      SameData w w2 ∧
      (∀ x, (w2.ctx x).queue = if x = c then some ev else (w.ctx x).queue) := by
  have hd : w.dispatcher ∈ w.dispatcher :: bs := List.mem_cons_self _ _
  have hfind : TaskQueue.findContext fuel w w.dispatcher (some c) = some none :=
    findContextLoop_absent c _ fuel w (Slot.first w.dispatcher) hL.dispatcher_chain
      (hfuel _ hd) (hc _ hd)
  obtain ⟨w2, hrun, hL2, hsd2, hq2⟩ :=
    barrier_recycleContext_linked hL hevm c hc fuel (hfuel ev hevm)
  refine ⟨w2, ?_, hL2, hsd2, hq2⟩
  have hge : ¬ (w.ctx c).repeatInterval ≥ 0 := by omega
  unfold TaskDispatcher.runRearm
  rw [if_pos ⟨hq, hn⟩]
  simp only [hfind]
  rw [if_neg hge]
  simp only [hev]
  exact hrun

theorem usub_self (t : Nat) : usub t t = 0 := by
  unfold usub ULONG_RANGE
  omega

theorem toLong_zero : toLong 0 = 0 := by
  simp [toLong, ULONG_RANGE, LONG_HALF]

theorem toULong_of_nonneg (d : Int) (h0 : 0 ≤ d) (h1 : d < 4294967296) :
    toULong d = d.toNat := by
  unfold toULong ULONG_RANGE
  have : d % ((4294967296 : Nat) : Int) = d := Int.emod_eq_of_lt h0 (by simpa using h1)
  rw [this]

theorem nextDispatchTime_isSome (policy : SchedulingPolicy) (then_ now dispatchTime : Nat)
    (repeatInterval : Int) (h : policy = SchedulingPolicy.TIMING → repeatInterval ≠ 0) :
    ∃ t, TaskDispatcher.nextDispatchTime policy then_ now dispatchTime repeatInterval = some t := by
  cases policy with
  | INTERVAL => exact ⟨_, rfl⟩
  | CYCLE =>
    unfold TaskDispatcher.nextDispatchTime
    simp only []
    split <;> exact ⟨_, rfl⟩
  | TIMING =>
    have hr := h rfl
    unfold TaskDispatcher.nextDispatchTime
    simp only [hr, if_false]
    split <;> exact ⟨_, rfl⟩

theorem erase_insertByTime (ctx : Nat → TaskContext) (t c : Nat) (l : List Nat) (hc : c ∉ l) :
    (insertByTime ctx t c l).erase c = l := by
  rw [insertByTime_eq]
  have hpre : c ∉ l.takeWhile (fun x => !before t (ctx x).dispatchTime) :=
    fun h => hc (List.takeWhile_subset _ h)
  rw [List.erase_append_right _ hpre, List.erase_cons_head, List.takeWhile_append_dropWhile]

/-- What a quiet callback leaves of the world in which it started. -/
theorem quiet_called (cb : Callback) (hcb : Quiet cb) (w1 : World) (t : Task) :
    ∃ n, (if t.toBool then Task.invoke cb t w1 else some w1)
      = some { w1 with now := n, calls := w1.calls ++ (if t.toBool then [t] else []) } := by
  by_cases ht : t.toBool = true
  · obtain ⟨n, hn⟩ := hcb t { w1 with calls := w1.calls ++ [t] }
    exact ⟨n, by simp [ht, Task.invoke, hn]⟩
  · have ht2 : t.toBool = false := by simpa using ht
    exact ⟨w1.now, by simp [ht2]⟩

/-- One step of `run()` with a callback that leaves the scheduler alone, in any linked
world where the re-arm arithmetic is defined: nothing happens when no context is due;
otherwise `run()` returns true, the target of the head is invoked once (not at all when
it is falsy), and afterwards every list holds what it held before, the head apart. -/
theorem run_single_step (cb : Callback) (hcb : Quiet cb) {w : World} {bs : List Nat}
    {lists : Nat → List Nat} (hL : Linked w bs lists) (fuel : Nat)
    (hfuel : ∀ q ∈ w.dispatcher :: bs, (lists q).length < fuel) :
    (lists w.dispatcher = [] → TaskDispatcher.run cb fuel w = some (false, w)) ∧
    (∀ c rest, lists w.dispatcher = c :: rest →
      toLong (usub w.now (w.ctx c).dispatchTime) < 0 →
      TaskDispatcher.run cb fuel w = some (false, w)) ∧
    (∀ c rest, lists w.dispatcher = c :: rest →
      ¬ toLong (usub w.now (w.ctx c).dispatchTime) < 0 →
      (∀ ev, (w.ctx c).signalEvent = some ev → ev ∈ w.dispatcher :: bs) →
      (w.schedulingPolicy = SchedulingPolicy.TIMING → (w.ctx c).repeatInterval ≠ 0) →
      Linked (TaskDispatcher.runDetach w c) bs (Function.update lists w.dispatcher rest) ∧
      ∃ w3 lists3, TaskDispatcher.run cb fuel w = some (true, w3) ∧
        w3.calls = w.calls ++
          (if (w.ctx c).target.toBool then [(w.ctx c).target] else []) ∧
        Linked w3 bs lists3 ∧
        (∀ q ∈ w.dispatcher :: bs, (lists3 q).erase c = (lists q).erase c) ∧
        (∀ x, x ≠ c → (w3.ctx x).queue = (w.ctx x).queue ∧ (w3.ctx x).data = (w.ctx x).data)) := by
  have hd : w.dispatcher ∈ w.dispatcher :: bs := List.mem_cons_self _ _
  have hch := hL.dispatcher_chain
  refine ⟨?_, ?_, ?_⟩
  · intro hl
    rw [hl] at hch
    exact run_empty cb fuel w hch
  · intro c rest hl hb
    rw [hl] at hch
    exact run_not_due cb fuel w c hch.1 hb
  · intro c rest hl hb hev hdiv
    have hL1 := runDetach_linked hL c rest hl
    refine ⟨hL1, ?_⟩
    rw [hl] at hch
    have hcr : c ∉ rest := follows_not_mem_tail hch
    have hcm : c ∈ lists w.dispatcher := by rw [hl]; exact List.mem_cons_self _ _
    have hqc : (w.ctx c).queue = some w.dispatcher := hL.owner hd hcm
    -- the callback
    have htarget : ((TaskDispatcher.runDetach w c).ctx c).target = (w.ctx c).target := by
      rw [runDetach_ctx_self]
    obtain ⟨n, hcalled⟩ := quiet_called cb hcb (TaskDispatcher.runDetach w c) (w.ctx c).target
    have hscal := runDetach_scalars w c
    let w2 : World := { TaskDispatcher.runDetach w c with
      now := n
      calls := (TaskDispatcher.runDetach w c).calls ++
        (if (w.ctx c).target.toBool then [(w.ctx c).target] else []) }
    have hrun : TaskDispatcher.run cb fuel w
        = match TaskDispatcher.runRearm fuel w2 c w.now (w.ctx c).dispatchTime with
          | none => none
          | some w3 => some (true, w3) := by
      rw [run_due cb fuel w c hch.1 hb, htarget, hcalled]
    have hL2 : Linked w2 bs (Function.update lists w.dispatcher rest) :=
      hL1.congr_world rfl rfl (fun _ => rfl) (fun _ => rfl)
    have hd2 : w2.dispatcher = w.dispatcher := hscal.2.1
    have hcalls2 : w2.calls = w.calls ++
        (if (w.ctx c).target.toBool then [(w.ctx c).target] else []) := by
      show (TaskDispatcher.runDetach w c).calls ++ _ = _
      rw [hscal.2.2.2.2.2.2]
    have hc2 : ∀ q ∈ w2.dispatcher :: bs, c ∉ Function.update lists w.dispatcher rest q := by
      intro q hq
      rw [hd2] at hq
      by_cases hqd : q = w.dispatcher
      · rw [hqd, Function.update_same]; exact hcr
      · rw [Function.update_noteq hqd]
        exact hL.disjoint hd hq (Ne.symm hqd) hcm
    have hctx2 : ∀ x, w2.ctx x = (TaskDispatcher.runDetach w c).ctx x := fun _ => rfl
    have hother : ∀ x, x ≠ c → w2.ctx x = w.ctx x :=
      fun x hx => runDetach_ctx_other w c x hx
    have hn2 : (w2.ctx c).nextContext = none := by rw [hctx2, runDetach_ctx_self]
    have hlen2 : ∀ q ∈ w2.dispatcher :: bs,
        (Function.update lists w.dispatcher rest q).length < fuel := by
      intro q hq
      rw [hd2] at hq
      by_cases hqd : q = w.dispatcher
      · rw [hqd, Function.update_same]
        have := hfuel _ hd
        rw [hl] at this
        simp at this
        omega
      · rw [Function.update_noteq hqd]; exact hfuel q hq
    have herase_rest : ∀ q ∈ w.dispatcher :: bs,
        (Function.update lists w.dispatcher rest q).erase c = (lists q).erase c := by
      intro q _
      by_cases hqd : q = w.dispatcher
      · rw [hqd, Function.update_same, hl, List.erase_cons_head, List.erase_of_not_mem hcr]
      · rw [Function.update_noteq hqd]
    rw [hrun]
    by_cases hone : (w.ctx c).repeatInterval < 0 ∧ (w.ctx c).signalEvent = none
    · -- the last run of a one-shot context
      have hq2 : (w2.ctx c).queue = none := by
        rw [hctx2, runDetach_ctx_self]; simp [hone]
      refine ⟨w2, _, by rw [runRearm_idle fuel w2 c _ _ hq2], hcalls2, hL2, herase_rest, ?_⟩
      intro x hx
      rw [hother x hx]
      exact ⟨rfl, rfl⟩
    · have hq2 : (w2.ctx c).queue = some w2.dispatcher := by
        rw [hctx2, runDetach_ctx_self, hd2]
        simp only [hone, if_false]
        exact hqc
      have hr2 : (w2.ctx c).repeatInterval = (w.ctx c).repeatInterval := by
        rw [hctx2, runDetach_ctx_self]
      have hs2 : (w2.ctx c).signalEvent = (w.ctx c).signalEvent := by
        rw [hctx2, runDetach_ctx_self]
      by_cases hr : 0 ≤ (w.ctx c).repeatInterval
      · -- a periodic context
        obtain ⟨t, ht⟩ := nextDispatchTime_isSome w2.schedulingPolicy w.now w2.now
          (w.ctx c).dispatchTime (w2.ctx c).repeatInterval (by
            intro hp
            rw [hr2]
            exact hdiv (by rw [← hp]; exact hscal.2.2.1.symm))
        obtain ⟨w3, hrun3, hL3, hsd3, hq3⟩ :=
          runRearm_periodic hL2 c w.now (w.ctx c).dispatchTime hc2 hq2 hn2
            (by rw [hr2]; exact hr) t ht fuel (hlen2 _ (List.mem_cons_self _ _))
        refine ⟨w3, _, by rw [hrun3], ?_, hL3, ?_, ?_⟩
        · rw [hsd3.2.2.2.2.2.2.1]
          exact hcalls2
        · intro q hq
          by_cases hqd : q = w.dispatcher
          · rw [hqd, hd2, Function.update_same, Function.update_same,
              erase_insertByTime _ _ _ _ hcr, hl, List.erase_cons_head]
          · rw [hd2, Function.update_noteq hqd, Function.update_noteq hqd]
        · intro x hx
          refine ⟨by rw [hq3 x, hother x hx], ?_⟩
          have := hsd3.2.2.2.2.2.2.2.2.2 x
          simp only [World.setCtx, Function.update_apply, hx, if_false] at this
          rw [this, hother x hx]
      · -- an event-bound context
        have hr3 : (w.ctx c).repeatInterval < 0 := by omega
        obtain ⟨ev, hevs⟩ : ∃ ev, (w.ctx c).signalEvent = some ev := by
          cases h : (w.ctx c).signalEvent with
          | none => exact absurd ⟨hr3, h⟩ hone
          | some ev => exact ⟨ev, rfl⟩
        have hevm := hev ev hevs
        obtain ⟨w3, hrun3, hL3, hsd3, hq3⟩ :=
          runRearm_event hL2 c w.now (w.ctx c).dispatchTime hc2 hq2 hn2
            (by rw [hr2]; exact hr3) ev (by rw [hs2]; exact hevs)
            (by rw [hd2]; exact hevm) fuel hlen2
        refine ⟨w3, _, by rw [hrun3], ?_, hL3, ?_, ?_⟩
        · rw [hsd3.2.2.2.2.2.2.1]
          exact hcalls2
        · intro q hq
          by_cases hqe : q = ev
          · rw [hqe, Function.update_same]
            have hcev : c ∉ Function.update lists w.dispatcher rest ev :=
              hc2 ev (by rw [hd2]; exact hevm)
            rw [List.erase_append_right _ hcev]
            simp only [List.erase_cons_head, List.append_nil]
            rw [← herase_rest ev hevm, List.erase_of_not_mem hcev]
          · rw [Function.update_noteq hqe]
            exact herase_rest q hq
        · intro x hx
          refine ⟨by rw [hq3 x]; simp only [hx, if_false]; rw [hother x hx], ?_⟩
          rw [hsd3.2.2.2.2.2.2.2.2.2 x, hother x hx]

/-! ## EventBarrier::signal -/

/-- Popping the head of a barrier's list, as `signal()` does before it hands the context to
the dispatcher. -/
theorem popHead_linked {w : World} {bs : List Nat} {lists : Nat → List Nat}
    (hL : Linked w bs lists) {b : Nat} (hb : b ∈ w.dispatcher :: bs) (c : Nat)
    (rest : List Nat) (hl : lists b = c :: rest) :
    Linked (w.setTq b { w.tq b with firstContext := (w.ctx c).nextContext }) bs
      (Function.update lists b rest) := by
  have hch := hL.chain_of_mem hb
  rw [hl] at hch
  refine hL.update b rest ?_ ?_ ?_ ?_ ?_
  · refine ⟨rfl, rfl, rfl, rfl, rfl, rfl, rfl, ?_, ?_, fun _ => rfl⟩
    · intro q
      by_cases hq : q = b
      · subst hq; simp [World.setTq]
      · simp [World.setTq, Function.update_apply, hq]
    · intro q
      by_cases hq : q = b
      · subst hq; simp [World.setTq]
      · simp [World.setTq, Function.update_apply, hq]
  · intro q hq
    simp [World.setTq, Function.update_apply, hq]
  · intro _ _ _ _ _; rfl
  · simp only [World.setTq, Function.update_same]
    exact hch.2
  · intro x hx
    exact hL.owner hb (by rw [hl]; exact List.mem_cons_of_mem _ hx)

theorem signal_spec {w : World} {bs : List Nat} {lists : Nat → List Nat}
    (hL : Linked w bs lists) (b : Nat) (hb : b ∈ bs) (fuel : Nat)
    (hfuel : (lists w.dispatcher).length < fuel) (c : Nat) (rest : List Nat)
    (hl : lists b = c :: rest) :
    ∃ w2, EventBarrier.signal fuel w b = some (true, w2) ∧
      Linked w2 bs (Function.update (Function.update lists b rest) w.dispatcher
        (insertByTime w.ctx w.now c (lists w.dispatcher))) ∧
      SameData (w.setCtx c { w.ctx c with dispatchTime := w.now, repeatInterval := -1 }) w2 ∧
      (∀ x, (w2.ctx x).queue = if x = c then some w.dispatcher else (w.ctx x).queue) := by
  have hbq : b ∈ w.dispatcher :: bs := List.mem_cons_of_mem _ hb
  have hd : w.dispatcher ∈ w.dispatcher :: bs := List.mem_cons_self _ _
  have hbd : b ≠ w.dispatcher := fun h => hL.2.1 (h ▸ hb)
  have hch := hL.chain_of_mem hbq
  rw [hl] at hch
  have hcr : c ∉ rest := follows_not_mem_tail hch
  have hcm : c ∈ lists b := by rw [hl]; exact List.mem_cons_self _ _
  have hfirst : (w.tq b).firstContext = some c := hch.1
  let w1 : World := w.setTq b { w.tq b with firstContext := (w.ctx c).nextContext }
  have hL1 : Linked w1 bs (Function.update lists b rest) := popHead_linked hL hbq c rest hl
  let w3 : World := w1.setCtx c { w1.ctx c with dispatchTime := w1.now, repeatInterval := -1 }
  have hw3 : (w1.setCtx c { w1.ctx c with dispatchTime := w1.now }).setCtx c
      { (w1.setCtx c { w1.ctx c with dispatchTime := w1.now }).ctx c with repeatInterval := -1 }
      = w3 := by
    simp [w3, World.setCtx]
  have hL3 : Linked w3 bs (Function.update lists b rest) := by
    refine hL1.congr_world rfl rfl ?_ ?_
    · intro x
      by_cases hx : x = c
      · subst hx; simp [w3, World.setCtx]
      · simp [w3, World.setCtx, Function.update_apply, hx]
    · intro x
      by_cases hx : x = c
      · subst hx; simp [w3, World.setCtx]
      · simp [w3, World.setCtx, Function.update_apply, hx]
  have hc3 : ∀ q2 ∈ w3.dispatcher :: bs, c ∉ Function.update lists b rest q2 := by
    intro q2 hq2
    by_cases hqb : q2 = b
    · rw [hqb, Function.update_same]; exact hcr
    · rw [Function.update_noteq hqb]
      exact hL.disjoint hbq hq2 (Ne.symm hqb) hcm
  have hld : Function.update lists b rest w.dispatcher = lists w.dispatcher :=
    Function.update_noteq (Ne.symm hbd) _ _
  obtain ⟨w2, hrun, hL2, hsd2, hq2, _⟩ :=
    enqueueContext_linked hL3 c hc3 fuel (by
      show (Function.update lists b rest w.dispatcher).length < fuel
      rw [hld]; exact hfuel)
  have hins : insertByTime w3.ctx (w3.ctx c).dispatchTime c
        (Function.update lists b rest w3.dispatcher)
      = insertByTime w.ctx w.now c (lists w.dispatcher) := by
    have h1 : (w3.ctx c).dispatchTime = w.now := by simp [w3, w1, World.setCtx, World.setTq]
    have h2 : Function.update lists b rest w3.dispatcher = lists w.dispatcher := hld
    rw [h1, h2]
    refine insertByTime_congr _ _ _ _ _ ?_
    intro x hx
    have hxc : x ≠ c := fun h => hL.disjoint hbq hd hbd hcm (h ▸ hx)
    simp [w3, w1, World.setCtx, World.setTq, Function.update_apply, hxc]
  rw [hins] at hL2
  refine ⟨w2, ?_, hL2, ?_, ?_⟩
  · simp only [EventBarrier.signal, hfirst, TaskDispatcher.recycleContext, hw3]
    rw [hrun]
  · refine SameData.trans ?_ hsd2
    refine ⟨rfl, rfl, rfl, rfl, rfl, rfl, rfl, ?_, ?_, ?_⟩
    · intro q
      by_cases hq : q = b
      · subst hq; simp [w3, w1, World.setTq, World.setCtx]
      · simp [w3, w1, World.setTq, World.setCtx, Function.update_apply, hq]
    · intro q
      by_cases hq : q = b
      · subst hq; simp [w3, w1, World.setTq, World.setCtx]
      · simp [w3, w1, World.setTq, World.setCtx, Function.update_apply, hq]
    · intro x
      by_cases hx : x = c
      · subst hx; simp [w3, w1, World.setTq, World.setCtx]
      · simp [w3, w1, World.setTq, World.setCtx, Function.update_apply, hx]
  · intro x
    rw [hq2 x]
    by_cases hx : x = c
    · simp [hx, w3, w1, World.setTq, World.setCtx]
    · simp [hx, w3, w1, World.setTq, World.setCtx, Function.update_apply]

theorem signal_empty (fuel : Nat) (w : World) (b : Nat) (h : (w.tq b).firstContext = none) :
    EventBarrier.signal fuel w b = some (false, w) := by
  simp [EventBarrier.signal, h]

/-! ## A one-shot context at the head of the dispatcher's list -/

theorem uadd_toULong (t0 : Nat) (d : Int) (h0 : 0 ≤ d) (h1 : d < 2147483648) :
    uadd t0 (toULong d) = (t0 + d.toNat) % ULONG_RANGE := by
  rw [toULong_of_nonneg d h0 (by omega)]
  rfl

/-- What `run()` does when the head of the list is a one-shot context: nothing before its
time; from its time on it invokes the target once and leaves the context idle. -/
theorem run_oneshot_head (cb : Callback) (hcb : Quiet cb) (fuel : Nat) (w : World) (c : Nat)
    (hhead : (w.tq w.dispatcher).firstContext = some c)
    (hr : (w.ctx c).repeatInterval < 0) (hs : (w.ctx c).signalEvent = none)
    (ht : (w.ctx c).target.toBool = true) :
    (∀ t, toLong (usub t (w.ctx c).dispatchTime) < 0 →
      TaskDispatcher.run cb fuel (atTick w t) = some (false, atTick w t)) ∧
    (∀ t, ¬ toLong (usub t (w.ctx c).dispatchTime) < 0 →
      ∃ w2, TaskDispatcher.run cb fuel (atTick w t) = some (true, w2) ∧
        w2.calls = w.calls ++ [(w.ctx c).target] ∧ (w2.ctx c).isPending = false) := by
  refine ⟨?_, ?_⟩
  · intro t hb
    exact run_not_due cb fuel (atTick w t) c hhead hb
  · intro t hb
    have hdue := run_due cb fuel (atTick w t) c hhead hb
    have hself := runDetach_ctx_self (atTick w t) c
    have hctx : (atTick w t).ctx c = w.ctx c := rfl
    rw [hctx] at hself
    have htarget : ((TaskDispatcher.runDetach (atTick w t) c).ctx c).target = (w.ctx c).target := by
      rw [hself]
    obtain ⟨n, hcalled⟩ :=
      quiet_called cb hcb (TaskDispatcher.runDetach (atTick w t) c) (w.ctx c).target
    rw [htarget, hcalled] at hdue
    have hq : ((TaskDispatcher.runDetach (atTick w t) c).ctx c).queue = none := by
      rw [hself]; simp [hr, hs]
    have hscal := runDetach_scalars (atTick w t) c
    let w2 : World := { TaskDispatcher.runDetach (atTick w t) c with
      now := n
      calls := (TaskDispatcher.runDetach (atTick w t) c).calls ++
        (if (w.ctx c).target.toBool then [(w.ctx c).target] else []) }
    have hq2 : (w2.ctx c).queue = none := hq
    refine ⟨w2, ?_, ?_, ?_⟩
    · rw [hdue]
      show (match TaskDispatcher.runRearm fuel w2 c _ _ with
        | none => none
        | some w3 => some (true, w3)) = _
      rw [runRearm_idle fuel w2 c _ _ hq2]
    · show (TaskDispatcher.runDetach (atTick w t) c).calls ++ _ = _
      rw [hscal.2.2.2.2.2.2]
      simp [ht, atTick]
    · show (TaskContext.isPending ((TaskDispatcher.runDetach (atTick w t) c).ctx c)) = false
      simp [TaskContext.isPending, hq]

/-! # The claims -/

theorem quiet_returnAtOnce : Quiet returnAtOnce := fun _ w => ⟨w.now, rfl⟩

theorem quiet_returnAfter (ticks : Nat) : Quiet (returnAfter ticks) :=
  fun _ w => ⟨uadd w.now ticks, rfl⟩

theorem pendingLinked_startWorld (now : Nat) (policy : SchedulingPolicy)
    (pool : Option DynamicContextPool) (bs : List Nat) (lists : Nat → List Nat) :
    PendingLinked (startWorld now policy pool) bs lists := by
  intro c q h
  simp [startWorld, blankContext] at h

theorem fresh_startWorld (now : Nat) (policy : SchedulingPolicy)
    (pool : Option DynamicContextPool) : Fresh (startWorld now policy pool) :=
  fun _ _ => rfl

theorem quiescent_startWorld (now : Nat) (policy : SchedulingPolicy) (poolLimit : Nat) :
    Quiescent (startWorld now policy (some (DynamicContextPool.construct poolLimit))) []
      (fun _ => []) [] :=
  ⟨⟨rfl, List.not_mem_nil _, fun _ h => absurd h (List.not_mem_nil _), fun _ _ => rfl,
      fun _ _ _ h => absurd h (List.not_mem_nil _)⟩,
    pendingLinked_startWorld _ _ _ _ _,
    ⟨DynamicContextPool.construct poolLimit, rfl,
      ⟨rfl, Or.inl rfl, fun _ h => absurd h (List.not_mem_nil _)⟩⟩,
    fresh_startWorld _ _ _⟩

/-- Claim C1, at the input where the code departs from it: under the TIMING policy, with
the context that `callEvery(0, f)` arms (repeatInterval 0) at the head and due since one
tick, `run()` takes the remainder of the overrun by zero and returns nothing. -/
theorem run_timing_zero_interval_undefined :
    ∃ w1, TaskDispatcher.callEveryTarget 8 (startWorld 0 SchedulingPolicy.TIMING none) 0 0
        (fn 1) none = some w1 ∧
      (w1.tq w1.dispatcher).firstContext = some 0 ∧
      (w1.ctx 0).repeatInterval = 0 ∧
      ¬ toLong (usub 1 (w1.ctx 0).dispatchTime) < 0 ∧
      TaskDispatcher.nextDispatchTime SchedulingPolicy.TIMING 1 1 (w1.ctx 0).dispatchTime 0
        = none ∧
      (TaskDispatcher.run returnAtOnce 8 (atTick w1 1)).isNone = true :=
  ⟨_, rfl, by decide, by decide, by decide, by decide, by decide⟩

/-- Claim C2: a one-shot armed for `d` ticks ahead, `0 ≤ d < 2^31`, on a dispatcher whose
list is empty, at any tick `t0`: its dispatch time is `t0 + d` modulo `2^32`; `run()` at any
tick that is before that time by signed difference returns false and changes nothing (so
`f` is not invoked); `run()` at any tick that is not before it, in particular at
`t0 + d` modulo `2^32`, returns true, invokes `f` exactly once and leaves the context
idle.  This holds for `callAfter` on a context of the caller and, when the dispatcher has
a well-formed pool, for `callAfter` on a context from the pool. -/
theorem oneshot_fires_across_wraparound (cb : Callback) (hcb : Quiet cb) (w : World)
    (bs : List Nat) (lists : Nat → List Nat) (hL : Linked w bs lists)
    (hPL : PendingLinked w bs lists) (hempty : lists w.dispatcher = [])
    (eph : EmptyPoolHandler) (c : Nat) (f : Task) (hf : f.toBool = true) (tag : Option Nat)
    (d : Int) (hd0 : 0 ≤ d) (hd1 : d < 2147483648) (fuel : Nat)
    (hfuel : ∀ q ∈ w.dispatcher :: bs, (lists q).length + 2 < fuel)
    (hfuel2 : bs.length + 1 < fuel) :
    (∃ w1, TaskDispatcher.callAfterTarget fuel w c d f tag = some w1 ∧
      FiresOnceAt cb fuel w1 c f ((w.now + d.toNat) % ULONG_RANGE)) ∧
    (∀ pool es, w.contextPool = some pool → PoolOK w pool es → Fresh w → es.length < fuel →
      ∃ c1 w1, TaskDispatcher.callAfter eph fuel w d f tag = some (some c1, w1) ∧
        FiresOnceAt cb fuel w1 c1 f ((w.now + d.toNat) % ULONG_RANGE)) := by
  have hdue : ∀ T : Nat, ¬ toLong (usub T T) < 0 := by
    intro T; rw [usub_self, toLong_zero]; decide
  have hT := uadd_toULong w.now d hd0 hd1
  have hlt : ∀ q ∈ w.dispatcher :: bs, (lists q).length < fuel :=
    fun q hq => by have := hfuel q hq; omega
  refine ⟨?_, ?_⟩
  · -- the context of the caller
    obtain ⟨w1, hrun, hL1, _, hsd, hq⟩ :=
      scheduleTarget_spec hL hPL c d (-1) hd0 f tag fuel hlt
    have hc := hsd.ctx c
    simp only [World.setCtx, Function.update_same, armed] at hc
    have hd1w : w1.dispatcher = w.dispatcher := hsd.dispatcher
    have hhead : (w1.tq w1.dispatcher).firstContext = some c := by
      have hch := hL1.dispatcher_chain
      rw [hd1w] at hch
      unfold scheduledLists at hch
      rw [Function.update_same, hempty] at hch
      rw [hd1w]
      exact hch.1
    have hdt : (w1.ctx c).dispatchTime = (w.now + d.toNat) % ULONG_RANGE := by
      rw [hc.2.2.1, hT]
    obtain ⟨hA, hB⟩ := run_oneshot_head cb hcb fuel w1 c hhead (by rw [hc.2.2.2.1]; decide)
      hc.2.2.2.2 (by rw [hc.1]; exact hf)
    rw [hdt] at hA
    rw [hdt, hc.1] at hB
    refine ⟨w1, hrun, hdt, ?_, hA, hB, hB _ (hdue _)⟩
    simp [TaskContext.isPending, hq c]
  · -- the context of the pool
    intro pool es hpool hp hfresh hfuel3
    obtain ⟨c1, w1, lists1, es1, hrun, hQ1, hq, hmem, htg, _, hdt0, hri, hse, _, hlen, _, hd1w,
      _, _⟩ := schedule_spec ⟨hL, hPL, ⟨pool, hpool, hp⟩, hfresh⟩ eph d (-1) hd0 f tag fuel
        hfuel hfuel2 hfuel3
    have hl1 : lists1 w.dispatcher = [c1] := by
      have h1 := hlen w.dispatcher
      rw [hempty] at h1
      cases hl : lists1 w.dispatcher with
      | nil => rw [hl] at hmem; exact absurd hmem (List.not_mem_nil _)
      | cons a l =>
        rw [hl] at h1 hmem
        have hl0 : l = [] := by
          cases l with
          | nil => rfl
          | cons b l2 => simp at h1
        subst hl0
        rw [List.mem_singleton.mp hmem]
    have hhead : (w1.tq w1.dispatcher).firstContext = some c1 := by
      have hch := hQ1.1.dispatcher_chain
      rw [hd1w, hl1] at hch
      rw [hd1w]
      exact hch.1
    have hdt : (w1.ctx c1).dispatchTime = (w.now + d.toNat) % ULONG_RANGE := by
      rw [hdt0, hT]
    obtain ⟨hA, hB⟩ := run_oneshot_head cb hcb fuel w1 c1 hhead (by rw [hri]; decide)
      hse (by rw [htg]; exact hf)
    rw [hdt] at hA
    rw [hdt, htg] at hB
    refine ⟨c1, w1, hrun, hdt, ?_, hA, hB, hB _ (hdue _)⟩
    simp [TaskContext.isPending, hq]

/-- The statement of C2 at a start tick 500 ticks before the wrap, with `d = 1000`: the
dispatch time is 500. -/
theorem oneshot_fires_across_wraparound_witness :
    Quiet returnAtOnce ∧
    Linked (startWorld 4294966796 SchedulingPolicy.INTERVAL
      (some (DynamicContextPool.construct 0))) [] (fun _ => []) ∧
    PendingLinked (startWorld 4294966796 SchedulingPolicy.INTERVAL
      (some (DynamicContextPool.construct 0))) [] (fun _ => []) ∧
    (fn 1).toBool = true ∧ (0 : Int) ≤ 1000 ∧ (1000 : Int) < 2147483648 ∧
    (4294966796 + (1000 : Int).toNat) % ULONG_RANGE = 500 ∧
    (∃ w1, TaskDispatcher.callAfterTarget 8
        (startWorld 4294966796 SchedulingPolicy.INTERVAL
          (some (DynamicContextPool.construct 0))) 0 1000 (fn 1) none = some w1 ∧
      FiresOnceAt returnAtOnce 8 w1 0 (fn 1) ((4294966796 + (1000 : Int).toNat) % ULONG_RANGE)) ∧
    (∃ c1 w1, TaskDispatcher.callAfter none 8
        (startWorld 4294966796 SchedulingPolicy.INTERVAL
          (some (DynamicContextPool.construct 0))) 1000 (fn 1) none = some (some c1, w1) ∧
      FiresOnceAt returnAtOnce 8 w1 c1 (fn 1)
        ((4294966796 + (1000 : Int).toNat) % ULONG_RANGE)) :=
  have h := oneshot_fires_across_wraparound returnAtOnce quiet_returnAtOnce
    (startWorld 4294966796 SchedulingPolicy.INTERVAL (some (DynamicContextPool.construct 0)))
    [] (fun _ => []) (quiescent_startWorld _ _ _).1 (quiescent_startWorld _ _ _).2.1 rfl none 0
    (fn 1) (by decide) none 1000 (by decide) (by decide) 8 (by decide) (by decide)
  ⟨quiet_returnAtOnce, (quiescent_startWorld _ _ _).1, (quiescent_startWorld _ _ _).2.1,
    by decide, by decide, by decide, by decide, h.1,
    h.2 (DynamicContextPool.construct 0) [] rfl (by decide) (fresh_startWorld _ _ _)
      (by decide)⟩

/-- Claim C3, at the input where the code departs from it: under CYCLE, with the callback
entered at tick `2^32 - 5`, left at tick `2^32 - 3` and `repeatInterval = 10`, the time
`then + r` wraps to 5, which is not before `now` by signed difference, so the claim gives
5; the code compares the two unsigned values with `<`, finds `5 < 2^32 - 3` and re-arms at
`now`.  The same is seen through `run()`: a context armed by `callEvery(10, f)` at tick
`2^32 - 15` fires there, is re-armed for `2^32 - 5`, fires there with a callback of two
ticks and is re-armed for `2^32 - 3`.  Away from the wrap the code agrees with the claim,
as for a callback from tick 10 to tick 25. -/
theorem cycle_rearm_compares_unsigned :
    uadd 4294967291 (toULong 10) = 5 ∧
    before 5 4294967293 = false ∧
    TaskDispatcher.nextDispatchTime SchedulingPolicy.CYCLE 4294967291 4294967293 4294967291 10
      = some 4294967293 ∧
    (TaskDispatcher.callEveryTarget 8 (startWorld 4294967281 SchedulingPolicy.CYCLE none)
        0 10 (fn 1) none).bind (fun w1 =>
      (TaskDispatcher.run returnAtOnce 8 w1).bind (fun r1 =>
        (TaskDispatcher.run (returnAfter 2) 8 (atTick r1.2 4294967291)).map (fun r2 =>
          (r1.1, (r1.2.ctx 0).dispatchTime, r2.1, r2.2.now, (r2.2.ctx 0).dispatchTime))))
      = some (true, 4294967291, true, 4294967293, 4294967293) ∧
    TaskDispatcher.nextDispatchTime SchedulingPolicy.CYCLE 10 25 10 10 = some 25 :=
  ⟨by decide, by decide, by decide, by decide!, by decide⟩

/-- Claim C4, at the input where the code departs from it: under TIMING with
`prev = 10` and `r = 10`, a callback that returns at tick 37 is re-armed by the code at
`37 + (17 mod 10) = 44`, which is not on the grid `10 + k * 10`; the claim gives 40.  The
same is seen through `run()`: a context armed by `callEvery(10, f)` at tick 0 fires there,
is re-armed for 10, fires there with a callback of 27 ticks and is re-armed for 44. -/
theorem timing_rearm_leaves_grid :
    TaskDispatcher.nextDispatchTime SchedulingPolicy.TIMING 10 37 10 10 = some 44 ∧
    (¬ ∃ k : Nat, 44 = 10 + k * 10) ∧
    (TaskDispatcher.callEveryTarget 8 (startWorld 0 SchedulingPolicy.TIMING none)
        0 10 (fn 1) none).bind (fun w1 =>
      (TaskDispatcher.run returnAtOnce 8 w1).bind (fun r1 =>
        (TaskDispatcher.run (returnAfter 27) 8 (atTick r1.2 10)).map (fun r2 =>
          (r1.1, (r1.2.ctx 0).dispatchTime, r2.1, r2.2.now, (r2.2.ctx 0).dispatchTime))))
      = some (true, 10, true, 37, 44) :=
  ⟨by decide, by omega, by decide!⟩

/-- Claim C5, at the input where the code departs from it: with `poolLimit = 2` and no
empty-pool handler, three `callAfter` calls for three targets return three different
contexts; the third call allocates a third context although two exist and are pending,
where the claim has it return null.  The counter `poolCount` stays 0. -/
theorem pool_limit_not_consulted :
    (TaskDispatcher.callAfter none 8
        (startWorld 0 SchedulingPolicy.INTERVAL (some (DynamicContextPool.construct 2)))
        100 (fn 1) none).bind (fun r1 =>
      (TaskDispatcher.callAfter none 8 r1.2 100 (fn 2) none).bind (fun r2 =>
        (TaskDispatcher.callAfter none 8 r2.2 100 (fn 3) none).map (fun r3 =>
          (r1.1, r2.1, (r2.2.ctx 10).isPending, (r2.2.ctx 11).isPending, r3.1))))
      = some (some 10, some 11, true, true, some 12) ∧
    (TaskDispatcher.callAfter none 8
        (startWorld 0 SchedulingPolicy.INTERVAL (some (DynamicContextPool.construct 2)))
        100 (fn 1) none).bind (fun r1 =>
      (TaskDispatcher.callAfter none 8 r1.2 100 (fn 2) none).bind (fun r2 =>
        (TaskDispatcher.callAfter none 8 r2.2 100 (fn 3) none).bind (fun r3 =>
          r3.2.contextPool)))
      = some { poolLimit := 2, firstEntry := some 12, currentEntry := some 10,
               poolCount := 0 } :=
  ⟨by decide!, by decide!⟩

theorem scheduleTarget_negative (fuel : Nat) (w : World) (context : Nat)
    (firstInterval nextInterval : Int) (target : Task) (tag : Option Nat)
    (h : firstInterval < 0) :
    TaskDispatcher.scheduleTarget fuel w context firstInterval nextInterval target tag
      = some w := by
  have : ¬ firstInterval ≥ 0 := by omega
  simp [TaskDispatcher.scheduleTarget, this]

theorem scheduleContext_negative (fuel : Nat) (w : World) (context : Nat)
    (firstInterval nextInterval : Int) (h : firstInterval < 0) :
    TaskDispatcher.scheduleContext fuel w context firstInterval nextInterval = some w := by
  have : ¬ firstInterval ≥ 0 := by omega
  simp [TaskDispatcher.scheduleContext, this]

/-- Claim C6, at the input where the code departs from it: the context 0 of the caller is
pending with target `f`; the pool-based `schedule(-1, -1, f, tag)` takes a context from
the pool and runs `cancelAll(f)` before it looks at the interval, so the pending context
is unlinked and idle afterwards, and the pool has allocated a context; the claim has the
call change nothing. -/
theorem negative_interval_pool_schedule_cancels :
    (TaskDispatcher.callAfterTarget 8
        (startWorld 0 SchedulingPolicy.INTERVAL (some (DynamicContextPool.construct 0)))
        0 100 (fn 1) none).bind (fun w1 =>
      some ((w1.tq w1.dispatcher).firstContext, (w1.ctx 0).queue, w1.brk))
      = some (some 0, some 100, 10) ∧
    (TaskDispatcher.callAfterTarget 8
        (startWorld 0 SchedulingPolicy.INTERVAL (some (DynamicContextPool.construct 0)))
        0 100 (fn 1) none).bind (fun w1 =>
      (TaskDispatcher.schedule none 8 w1 (-1) (-1) (fn 1) (some 7)).map (fun r2 =>
        (r2.1, (r2.2.tq r2.2.dispatcher).firstContext, (r2.2.ctx 0).queue,
          (r2.2.ctx 10).isPending, r2.2.brk)))
      = some (some 10, none, none, false, 11) :=
  ⟨by decide!, by decide!⟩

/-- Claim C8, at the input where the code departs from it: a periodic context
(`callEvery(10, f)` on the context 0) whose callback calls `cancel()` on it.  When the
callback starts the context is off the list but still names the dispatcher; `cancel()`
looks for it on the list, does not find it and leaves it pending; after the callback
`run()` re-arms it.  So the context is pending after `cancel()` and pending, on the list,
after `run()`. -/
theorem cancel_inside_callback_rearmed :
    (TaskDispatcher.callEveryTarget 8 (startWorld 0 SchedulingPolicy.INTERVAL none)
        0 10 (fn 1) none).bind (fun w1 =>
      (TaskContext.cancel 8 (TaskDispatcher.runDetach w1 0) 0).bind (fun w2 =>
        some ((w1.tq w1.dispatcher).firstContext, (w1.ctx 0).repeatInterval,
          (w2.ctx 0).isPending)))
      = some (some 0, 10, true) ∧
    (TaskDispatcher.callEveryTarget 8 (startWorld 0 SchedulingPolicy.INTERVAL none)
        0 10 (fn 1) none).bind (fun w1 =>
      (TaskDispatcher.run (cancelInside 0) 8 w1).map (fun r3 =>
        (r3.1, (r3.2.ctx 0).isPending, (r3.2.tq r3.2.dispatcher).firstContext,
          (r3.2.ctx 0).dispatchTime, r3.2.calls)))
      = some (true, true, some 0, 10, [fn 1]) :=
  ⟨by decide!, by decide!⟩

/-- Claim C7: in a world whose lists are well formed and where every pending context is
linked, for every target `f`, tags and intervals with non-negative first intervals, and
with enough fuel: when the dispatcher has a well-formed pool, two pool-based `schedule`
calls for `f` both return a context, and afterwards the context returned by the second
call is pending on the dispatcher with target `f` and the second tag, and it is the only
pending context whose target is `f` (every pending context whose `target` field equals `f`
is that context); whereas two `schedule` calls on two different
contexts of the caller with the same target `f` leave both contexts pending, both on the
list of the dispatcher, both with target `f`. -/
theorem dedup_by_target {w : World} {bs : List Nat} {lists : Nat → List Nat}
    (hL : Linked w bs lists) (hPL : PendingLinked w bs lists) (eph : EmptyPoolHandler)
    (f : Task) (tag tag2 : Option Nat)
    (firstInterval nextInterval firstInterval2 nextInterval2 : Int)
    (h1 : 0 ≤ firstInterval) (h2 : 0 ≤ firstInterval2) (c1 c2 : Nat) (hc : c1 ≠ c2)
    (fuel : Nat) (hfuel : ∀ q ∈ w.dispatcher :: bs, (lists q).length + 3 < fuel)
    (hfuel2 : bs.length + 1 < fuel) :
    (∀ pool es, w.contextPool = some pool → PoolOK w pool es → Fresh w →
      es.length + 1 < fuel →
      ∃ ca wa cb wb,
        TaskDispatcher.schedule eph fuel w firstInterval nextInterval f tag
          = some (some ca, wa) ∧
        TaskDispatcher.schedule eph fuel wa firstInterval2 nextInterval2 f tag2
          = some (some cb, wb) ∧
        (wb.ctx cb).queue = some w.dispatcher ∧ (wb.ctx cb).target = f ∧
        (wb.ctx cb).tag = tag2 ∧
        (∀ x, (wb.ctx x).isPending = true → (wb.ctx x).target = f → x = cb)) ∧
    (∃ wa wb l,
      TaskDispatcher.scheduleTarget fuel w c1 firstInterval nextInterval f tag = some wa ∧
      TaskDispatcher.scheduleTarget fuel wa c2 firstInterval2 nextInterval2 f tag2 = some wb ∧
      (wb.ctx c1).isPending = true ∧ (wb.ctx c2).isPending = true ∧
      (wb.ctx c1).target = f ∧ (wb.ctx c2).target = f ∧
      chain wb.ctx (wb.tq w.dispatcher).firstContext l ∧ c1 ∈ l ∧ c2 ∈ l) := by
  refine ⟨?_, ?_⟩
  · intro pool es hpool hp hfresh hfuel3
    have hQ : Quiescent w bs lists es := ⟨hL, hPL, ⟨pool, hpool, hp⟩, hfresh⟩
    obtain ⟨ca, wa, listsA, esA, hrunA, hQA, _, _, _, _, _, _, _, _, hlenA, hlenE, hdA, _, _⟩ :=
      schedule_spec hQ eph firstInterval nextInterval h1 f tag fuel
        (fun q hq => by have := hfuel q hq; omega) hfuel2 (by omega)
    obtain ⟨cb, wb, listsB, esB, hrunB, _, hqB, _, htB, htagB, _, _, _, huniq, _, _, _, _, _⟩ :=
      schedule_spec hQA eph firstInterval2 nextInterval2 h2 f tag2 fuel
        (fun q hq => by
          rw [hdA] at hq
          have := hfuel q hq
          have := hlenA q
          omega) hfuel2 (by omega)
    refine ⟨ca, wa, cb, wb, hrunA, hrunB, by rw [hqB, hdA], htB, htagB, ?_⟩
    intro x hx htx
    refine huniq x ?_ ((Task.eq_iff _ _).mpr htx)
    intro hnone
    simp [TaskContext.isPending, hnone] at hx
  · obtain ⟨wa, hrunA, hLA, hPLA, hsdA, hqA⟩ :=
      scheduleTarget_spec hL hPL c1 firstInterval nextInterval h1 f tag fuel
        (fun q hq => by have := hfuel q hq; omega)
    have hdA : wa.dispatcher = w.dispatcher := hsdA.dispatcher
    obtain ⟨wb, hrunB, hLB, _, hsdB, hqB⟩ :=
      scheduleTarget_spec hLA hPLA c2 firstInterval2 nextInterval2 h2 f tag2 fuel
        (fun q hq => by
          rw [hdA] at hq
          have := hfuel q hq
          have := length_scheduledLists w lists c1 (uadd w.now (toULong firstInterval)) q
          omega)
    have hdB : wb.dispatcher = w.dispatcher := hsdB.dispatcher.trans hdA
    have hcA := hsdA.ctx c1
    simp only [World.setCtx, Function.update_same, armed] at hcA
    have hcB2 := hsdB.ctx c2
    simp only [World.setCtx, Function.update_same, armed] at hcB2
    have hcB1 := hsdB.ctx c1
    simp only [World.setCtx, Function.update_apply, hc, if_false] at hcB1
    have hch := hLB.dispatcher_chain
    rw [hdB] at hch
    refine ⟨wa, wb, _, hrunA, hrunB, ?_, ?_, by rw [hcB1.1, hcA.1], hcB2.1, hch, ?_, ?_⟩
    · simp [TaskContext.isPending, hqB c1, hc, hqA c1]
    · simp [TaskContext.isPending, hqB c2]
    · unfold scheduledLists
      rw [hdA, Function.update_same]
      refine (mem_insertByTime _ _ _ _ _).mpr (Or.inr ?_)
      refine (List.mem_erase_of_ne hc).mpr ?_
      rw [Function.update_same]
      exact (mem_insertByTime _ _ _ _ _).mpr (Or.inl rfl)
    · unfold scheduledLists
      rw [hdA, Function.update_same]
      exact (mem_insertByTime _ _ _ _ _).mpr (Or.inl rfl)

theorem quiescent_barrierWorld :
    Quiescent (barrierWorld 0 SchedulingPolicy.INTERVAL (some (DynamicContextPool.construct 0)))
      [101] (fun _ => []) [] :=
  ⟨by decide, fun c q h => by
      simp [barrierWorld, EventBarrier.construct, World.setTq, startWorld, blankContext] at h,
    ⟨DynamicContextPool.construct 0, rfl, by decide⟩, fun _ _ => rfl⟩

/-- The statement of C7 on a dispatcher with one barrier and an empty pool. -/
theorem dedup_by_target_witness :
    Linked (barrierWorld 0 SchedulingPolicy.INTERVAL (some (DynamicContextPool.construct 0)))
      [101] (fun _ => []) ∧
    PendingLinked
      (barrierWorld 0 SchedulingPolicy.INTERVAL (some (DynamicContextPool.construct 0)))
      [101] (fun _ => []) ∧
    (0 : Int) ≤ 100 ∧ (0 : Int) ≤ 0 ∧ (0 : Nat) ≠ 1 ∧
    (∃ ca wa cb wb,
      TaskDispatcher.schedule none 8
        (barrierWorld 0 SchedulingPolicy.INTERVAL (some (DynamicContextPool.construct 0)))
        100 (-1) (fn 1) (some 7) = some (some ca, wa) ∧
      TaskDispatcher.schedule none 8 wa 0 50 (fn 1) (some 9) = some (some cb, wb) ∧
      (wb.ctx cb).queue = some 100 ∧ (wb.ctx cb).target = fn 1 ∧
      (wb.ctx cb).tag = some 9 ∧
      (∀ x, (wb.ctx x).isPending = true → (wb.ctx x).target = fn 1 → x = cb)) ∧
    (∃ wa wb l,
      TaskDispatcher.scheduleTarget 8
        (barrierWorld 0 SchedulingPolicy.INTERVAL (some (DynamicContextPool.construct 0)))
        0 100 (-1) (fn 1) (some 7) = some wa ∧
      TaskDispatcher.scheduleTarget 8 wa 1 0 50 (fn 1) (some 9) = some wb ∧
      (wb.ctx 0).isPending = true ∧ (wb.ctx 1).isPending = true ∧
      (wb.ctx 0).target = fn 1 ∧ (wb.ctx 1).target = fn 1 ∧
      chain wb.ctx (wb.tq 100).firstContext l ∧ 0 ∈ l ∧ 1 ∈ l) :=
  have h := dedup_by_target quiescent_barrierWorld.1 quiescent_barrierWorld.2.1 none (fn 1)
    (some 7) (some 9) 100 (-1) 0 50 (by decide) (by decide) 0 1 (by decide) 8 (by decide)
    (by decide)
  ⟨quiescent_barrierWorld.1, quiescent_barrierWorld.2.1, by decide, by decide, by decide,
    h.1 (DynamicContextPool.construct 0) [] rfl (by decide) (fun _ _ => rfl) (by decide), h.2⟩

/-! ## The busy marker (C9) -/

/-- The member `fetchCore()` never returns null. -/
theorem fetchCore_nonnull (fuel : Nat) (w : World) (pool : DynamicContextPool)
    (r : Option Nat) (w2 : World)
    (h : DynamicContextPool.fetchCore fuel w pool = some (r, w2)) : ∃ c, r = some c := by
  unfold DynamicContextPool.fetchCore at h
  cases hfirst : pool.firstEntry with
  | none =>
    rw [hfirst] at h
    simp only [DynamicContextPool.allocate, Option.some.injEq, Prod.mk.injEq] at h
    exact ⟨_, h.1.symm⟩
  | some e0 =>
    rw [hfirst] at h
    simp only [] at h
    split at h
    · simp at h
    · simp only [Option.some.injEq, Prod.mk.injEq] at h
      exact ⟨_, h.1.symm⟩
    · simp only [DynamicContextPool.allocate, Option.some.injEq, Prod.mk.injEq] at h
      exact ⟨_, h.1.symm⟩

/-- So `fetch()` returns what `fetchCore()` returns, whatever the empty-pool handler. -/
theorem fetch_eq_fetchCore (eph : EmptyPoolHandler) (fuel : Nat) (w : World)
    (pool : DynamicContextPool) :
    ContextPool.fetch eph fuel w pool = DynamicContextPool.fetchCore fuel w pool := by
  unfold ContextPool.fetch
  cases hcore : DynamicContextPool.fetchCore fuel w pool with
  | none => rfl
  | some r =>
    obtain ⟨r1, w1⟩ := r
    obtain ⟨c, hc⟩ := fetchCore_nonnull fuel w pool r1 w1 hcore
    subst hc
    rfl

/-- A fetch neither returns nor touches a context that is pending and was handed out
before. -/
theorem fetch_skips_pending (eph : EmptyPoolHandler) (fuel : Nat) (w1 : World)
    (pool : DynamicContextPool) (c c2 : Nat) (w2 : World)
    (hq : (w1.ctx c).queue ≠ none) (hc : c < w1.brk)
    (h : ContextPool.fetch eph fuel w1 pool = some (some c2, w2)) :
    c2 ≠ c ∧ w2.ctx c = w1.ctx c ∧ c < w2.brk := by
  rw [fetch_eq_fetchCore] at h
  rcases fetchCore_result fuel w1 pool c2 w2 h with ⟨h1, h2, h3⟩ | ⟨h1, h2, _, h4⟩
  · refine ⟨?_, by rw [h2], by rw [h3]; exact hc⟩
    intro hcc
    rw [hcc] at h1
    exact hq h1
  · have hne : c ≠ w1.brk := by omega
    exact ⟨by rw [h1]; exact Ne.symm hne, h4 c hne, by omega⟩

/-- Claim C9, refuted as stated: the one-shot context that `callAfter(0, f)` takes from the
pool (context 10) is the head of the list and due; in the world in which `run()` starts its
callback it is not pending, and a fetch from the pool made there returns that very
context. -/
theorem busy_marker_not_kept_for_oneshot :
    (TaskDispatcher.callAfter none 8
        (startWorld 0 SchedulingPolicy.INTERVAL (some (DynamicContextPool.construct 0)))
        0 (fn 1) none).bind (fun r1 =>
      r1.2.contextPool.bind (fun pool =>
        (ContextPool.fetch none 8 (TaskDispatcher.runDetach r1.2 10) pool).map (fun r2 =>
          (r1.1, (r1.2.tq r1.2.dispatcher).firstContext,
            ((TaskDispatcher.runDetach r1.2 10).ctx 10).isPending, r2.1))))
      = some (some 10, some 10, false, some 10) := by
  decide!

/-- Claim C9, amended: for every context that `run()` dispatches and that is periodic
(`repeatInterval ≥ 0`) or bound to an event (`signalEvent` not null), the callback starts
in the world `runDetach w c`, where the `queue` field still names the dispatcher; and in
any world in which it does, a fetch from the pool returns a context, never this one, and
leaves the field as it is.  So the marker stays through any number of fetches in the
callback. -/
theorem busy_marker_periodic (w : World) (c : Nat)
    (hhead : (w.tq w.dispatcher).firstContext = some c)
    (hdue : ¬ toLong (usub w.now (w.ctx c).dispatchTime) < 0)
    (hq : (w.ctx c).queue = some w.dispatcher)
    (hbusy : 0 ≤ (w.ctx c).repeatInterval ∨ (w.ctx c).signalEvent ≠ none)
    (hc : c < w.brk) :
    (∀ (cb : Callback) (fuel : Nat), (w.ctx c).target.toBool = true →
      TaskDispatcher.run cb fuel w
        = (Task.invoke cb (w.ctx c).target (TaskDispatcher.runDetach w c)).bind (fun w2 =>
            (TaskDispatcher.runRearm fuel w2 c w.now (w.ctx c).dispatchTime).map
              (fun w3 => (true, w3)))) ∧
    ((TaskDispatcher.runDetach w c).ctx c).queue = some w.dispatcher ∧
    ((TaskDispatcher.runDetach w c).ctx c).isPending = true ∧
    c < (TaskDispatcher.runDetach w c).brk ∧
    (∀ w1 : World, (w1.ctx c).queue = some w.dispatcher → c < w1.brk →
      ∀ (eph : EmptyPoolHandler) (fuel : Nat) (pool : DynamicContextPool),
        (∀ c2 w2, ContextPool.fetch eph fuel w1 pool = some (some c2, w2) →
          c2 ≠ c ∧ (w2.ctx c).queue = some w.dispatcher ∧ c < w2.brk) ∧
        (∀ es, PoolOK w1 pool es → es.length < fuel →
          ∃ c2 w2, ContextPool.fetch eph fuel w1 pool = some (some c2, w2))) := by
  have hnot : ¬ ((w.ctx c).repeatInterval < 0 ∧ (w.ctx c).signalEvent = none) := by
    rintro ⟨h1, h2⟩
    rcases hbusy with h | h
    · omega
    · exact h h2
  have hqd : ((TaskDispatcher.runDetach w c).ctx c).queue = some w.dispatcher := by
    rw [runDetach_ctx_self]
    simp only [hnot, if_false]
    exact hq
  refine ⟨?_, hqd, by simp [TaskContext.isPending, hqd], ?_, ?_⟩
  · intro cb fuel ht
    have htarget : ((TaskDispatcher.runDetach w c).ctx c).target = (w.ctx c).target := by
      rw [runDetach_ctx_self]
    rw [run_due cb fuel w c hhead hdue, htarget]
    simp only [ht, if_true]
    cases Task.invoke cb (w.ctx c).target (TaskDispatcher.runDetach w c) with
    | none => rfl
    | some w2 =>
      simp only [Option.bind]
      cases TaskDispatcher.runRearm fuel w2 c w.now (w.ctx c).dispatchTime <;> rfl
  · rw [(runDetach_scalars w c).2.2.2.2.2.1]; exact hc
  · intro w1 hq1 hc1 eph fuel pool
    refine ⟨?_, ?_⟩
    · intro c2 w2 h
      obtain ⟨h1, h2, h3⟩ :=
        fetch_skips_pending eph fuel w1 pool c c2 w2 (by rw [hq1]; simp) hc1 h
      exact ⟨h1, by rw [h2]; exact hq1, h3⟩
    · intro es hp hfuel
      obtain ⟨c2, w2, _, _, h, _⟩ := fetchCore_total w1 pool es hp fuel hfuel
      exact ⟨c2, w2, by rw [fetch_eq_fetchCore]; exact h⟩

theorem busy_marker_periodic_witness :
    (periodicWorld.tq periodicWorld.dispatcher).firstContext = some 10 ∧
    (¬ toLong (usub periodicWorld.now (periodicWorld.ctx 10).dispatchTime) < 0) ∧
    (periodicWorld.ctx 10).queue = some periodicWorld.dispatcher ∧
    (0 ≤ (periodicWorld.ctx 10).repeatInterval ∨ (periodicWorld.ctx 10).signalEvent ≠ none) ∧
    10 < periodicWorld.brk ∧
    ((∀ (cb : Callback) (fuel : Nat), (periodicWorld.ctx 10).target.toBool = true →
      TaskDispatcher.run cb fuel periodicWorld
        = (Task.invoke cb (periodicWorld.ctx 10).target
            (TaskDispatcher.runDetach periodicWorld 10)).bind (fun w2 =>
            (TaskDispatcher.runRearm fuel w2 10 periodicWorld.now
              (periodicWorld.ctx 10).dispatchTime).map (fun w3 => (true, w3)))) ∧
    ((TaskDispatcher.runDetach periodicWorld 10).ctx 10).queue = some periodicWorld.dispatcher ∧
    ((TaskDispatcher.runDetach periodicWorld 10).ctx 10).isPending = true ∧
    10 < (TaskDispatcher.runDetach periodicWorld 10).brk ∧
    (∀ w1 : World, (w1.ctx 10).queue = some periodicWorld.dispatcher → 10 < w1.brk →
      ∀ (eph : EmptyPoolHandler) (fuel : Nat) (pool : DynamicContextPool),
        (∀ c2 w2, ContextPool.fetch eph fuel w1 pool = some (some c2, w2) →
          c2 ≠ 10 ∧ (w2.ctx 10).queue = some periodicWorld.dispatcher ∧ 10 < w2.brk) ∧
        (∀ es, PoolOK w1 pool es → es.length < fuel →
          ∃ c2 w2, ContextPool.fetch eph fuel w1 pool = some (some c2, w2)))) :=
  ⟨by decide!, by decide!, by decide!, Or.inl (by decide!), by decide!,
    busy_marker_periodic periodicWorld 10 (by decide!) (by decide!) (by decide!)
      (Or.inl (by decide!)) (by decide!)⟩

/-- Claim C10: on a barrier `b` of a linked world, `signal()` returns false and changes
nothing when no context waits on `b`; otherwise it returns true, the head `c` of the
barrier's list (the waiter registered first) leaves that list, whose other contexts stay
in their order, and is on the list of the dispatcher with `queue` the dispatcher,
`dispatchTime` the current tick and `repeatInterval = -1`; no other context changes its
queue or its data, and the other barriers keep their lists. -/
theorem signal_releases_head {w : World} {bs : List Nat} {lists : Nat → List Nat}
    (hL : Linked w bs lists) (b : Nat) (hb : b ∈ bs) (fuel : Nat)
    (hfuel : (lists w.dispatcher).length < fuel) :
    (lists b = [] → EventBarrier.signal fuel w b = some (false, w)) ∧
    (∀ c rest, lists b = c :: rest →
      ∃ w2, EventBarrier.signal fuel w b = some (true, w2) ∧
        chain w2.ctx (w2.tq b).firstContext rest ∧
        chain w2.ctx (w2.tq w.dispatcher).firstContext
          (insertByTime w.ctx w.now c (lists w.dispatcher)) ∧
        c ∈ insertByTime w.ctx w.now c (lists w.dispatcher) ∧
        (w2.ctx c).queue = some w.dispatcher ∧ (w2.ctx c).dispatchTime = w.now ∧
        (w2.ctx c).repeatInterval = -1 ∧
        (∀ x, x ≠ c → (w2.ctx x).queue = (w.ctx x).queue ∧ (w2.ctx x).data = (w.ctx x).data) ∧
        (∀ q ∈ bs, q ≠ b → chain w2.ctx (w2.tq q).firstContext (lists q))) := by
  have hbq : b ∈ w.dispatcher :: bs := List.mem_cons_of_mem _ hb
  have hbd : b ≠ w.dispatcher := fun h => hL.2.1 (h ▸ hb)
  refine ⟨?_, ?_⟩
  · intro hl
    have hch := hL.chain_of_mem hbq
    rw [hl] at hch
    exact signal_empty fuel w b hch
  · intro c rest hl
    obtain ⟨w2, hrun, hL2, hsd, hq⟩ := signal_spec hL b hb fuel hfuel c rest hl
    have hd2 : w2.dispatcher = w.dispatcher := hsd.dispatcher
    have hc := hsd.ctx c
    simp only [World.setCtx, Function.update_same] at hc
    refine ⟨w2, hrun, ?_, ?_, (mem_insertByTime _ _ _ _ _).mpr (Or.inl rfl), ?_, hc.2.2.1,
      hc.2.2.2.1, ?_, ?_⟩
    · have := hL2.chain_of_mem (q := b) (by rw [hd2]; exact hbq)
      rwa [Function.update_noteq hbd, Function.update_same] at this
    · have := hL2.dispatcher_chain
      rwa [hd2, Function.update_same] at this
    · rw [hq c]; simp
    · intro x hx
      refine ⟨by rw [hq x]; simp [hx], ?_⟩
      have := hsd.2.2.2.2.2.2.2.2.2 x
      simpa [World.setCtx, Function.update_apply, hx] using this
    · intro q hqm hqb
      have hqd : q ≠ w.dispatcher := fun h => hL.2.1 (h ▸ hqm)
      have := hL2.chain_of_mem (q := q) (by rw [hd2]; exact List.mem_cons_of_mem _ hqm)
      rwa [Function.update_noteq hqd, Function.update_noteq hqb] at this

theorem signal_releases_head_witness :
    Linked waitingWorld [101] waitingLists ∧
    101 ∈ [101] ∧
    (waitingLists waitingWorld.dispatcher).length < 8 ∧
    ((waitingLists 101 = [] →
      EventBarrier.signal 8 waitingWorld 101 = some (false, waitingWorld)) ∧
    (∀ c rest, waitingLists 101 = c :: rest →
      ∃ w2, EventBarrier.signal 8 waitingWorld 101 = some (true, w2) ∧
        chain w2.ctx (w2.tq 101).firstContext rest ∧
        chain w2.ctx (w2.tq waitingWorld.dispatcher).firstContext
          (insertByTime waitingWorld.ctx waitingWorld.now c
            (waitingLists waitingWorld.dispatcher)) ∧
        c ∈ insertByTime waitingWorld.ctx waitingWorld.now c
          (waitingLists waitingWorld.dispatcher) ∧
        (w2.ctx c).queue = some waitingWorld.dispatcher ∧
        (w2.ctx c).dispatchTime = waitingWorld.now ∧
        (w2.ctx c).repeatInterval = -1 ∧
        (∀ x, x ≠ c → (w2.ctx x).queue = (waitingWorld.ctx x).queue ∧
          (w2.ctx x).data = (waitingWorld.ctx x).data) ∧
        (∀ q ∈ [101], q ≠ 101 → chain w2.ctx (w2.tq q).firstContext (waitingLists q)))) :=
  ⟨by decide!, by decide, by decide!,
    @signal_releases_head waitingWorld [101] waitingLists (by decide!) 101 (by decide) 8
      (by decide!)⟩

/-! ## A `cancelAll` on any queue of the dispatcher -/

/-- A `cancelAll` on the dispatcher or on one of its barriers. -/
theorem cancelWhere_scope (P : TaskContext → Bool) (hP : ∀ c, P c = P c.data)
    {w : World} {bs : List Nat} {lists : Nat → List Nat} (hL : Linked w bs lists) {this : Nat}
    (hthis : this ∈ w.dispatcher :: bs) (fuel : Nat)
    (hfuel : ∀ q ∈ w.dispatcher :: bs, (lists q).length + 2 < fuel)
    (hfuel2 : bs.length + 1 < fuel) :
    ∃ w2, cancelWhere P fuel w this = some w2 ∧ CancelledWhere P w w2 bs lists this := by
  have hd : w.dispatcher ∈ w.dispatcher :: bs := List.mem_cons_self _ _
  have key : ∃ w2, cancelWhere P fuel w this = some w2 ∧
      Linked w2 bs (fun q => if q ∈ cancelScope w bs this
        then (lists q).filter (fun c => !P (w.ctx c)) else lists q) ∧
      SameData w w2 ∧
      (∀ x, (w2.ctx x).queue
        = if (∃ q ∈ cancelScope w bs this, x ∈ lists q) ∧ P (w.ctx x) = true then none
          else (w.ctx x).queue) ∧
      (∀ x, (∃ q ∈ cancelScope w bs this, x ∈ lists q) → P (w.ctx x) = true →
        (w2.ctx x).nextContext = none) := by
    by_cases hdis : this = w.dispatcher
    · subst hdis
      obtain ⟨w2, hrun, hL2, hsd, hqs, hnx, _⟩ := cancelWhere_linked P hP hL fuel hfuel hfuel2
      have hsc : cancelScope w bs w.dispatcher = w.dispatcher :: bs := by simp [cancelScope]
      rw [hsc]
      refine ⟨w2, hrun, ?_, hsd, hqs, hnx⟩
      refine hL2.congr_lists ?_
      intro q hq
      rw [hsd.dispatcher] at hq
      simp only [hq, if_true]
    · have hsc : cancelScope w bs this = [this] := by simp [cancelScope, hdis]
      have hb : this ∈ bs := by
        rcases List.mem_cons.mp hthis with h | h
        · exact absurd h hdis
        · exact h
      obtain ⟨w2, hrun, hL2, hsd, hqs, hnx, _⟩ :=
        cancelWhere_leaf P hP hL hthis (hL.2.2.1 this hb) fuel
          (by have := hfuel this hthis; omega)
      rw [hsc]
      refine ⟨w2, hrun, ?_, hsd, ?_, ?_⟩
      · refine hL2.congr_lists ?_
        intro q _
        by_cases hq : q = this
        · subst hq; simp
        · simp [hq, Function.update_noteq hq]
      · intro x
        rw [hqs x]
        simp
      · intro x hx hPx
        obtain ⟨q, hq, hxq⟩ := hx
        rw [List.mem_singleton.mp hq] at hxq
        exact hnx x hxq hPx
  obtain ⟨w2, hrun, hL2, hsd, hqs, hnx⟩ := key
  have hscope : ∀ q ∈ cancelScope w bs this, q ∈ w.dispatcher :: bs := by
    intro q hq
    unfold cancelScope at hq
    split_ifs at hq with h
    · exact hq
    · rw [List.mem_singleton.mp hq]; exact hthis
  refine ⟨w2, hrun, hL2, ?_, ?_, ?_, hsd⟩
  · intro q hq c hc hPc
    refine ⟨?_, hnx c ⟨q, hq, hc⟩ hPc⟩
    rw [hqs c, if_pos ⟨⟨q, hq, hc⟩, hPc⟩]
  · intro c hc
    rw [hqs c, if_neg hc]
  · intro q hq l hch c hc
    have hq2 : q ∈ w2.dispatcher :: bs := by rw [hsd.dispatcher]; exact hscope q hq
    have hl := follows_unique hch (hL2.chain_of_mem hq2)
    rw [hl] at hc
    simp only [hq, if_true] at hc
    have hc2 := List.mem_filter.mp hc
    rw [hsd.pred P hP c]
    simpa using hc2.2


/-! ## The three ways a due context leaves `run()` -/

/-- After the callback of a periodic context that was left alone, `run()` does not return
when the policy switch takes a remainder by zero. -/
theorem runRearm_undefined {w : World} {bs : List Nat} {lists : Nat → List Nat}
    (hL : Linked w bs lists) (c now dispatchTime : Nat)
    (hc : ∀ q ∈ w.dispatcher :: bs, c ∉ lists q)
    (hq : (w.ctx c).queue = some w.dispatcher) (hn : (w.ctx c).nextContext = none)
    (hr : 0 ≤ (w.ctx c).repeatInterval)
    (ht : TaskDispatcher.nextDispatchTime w.schedulingPolicy now w.now dispatchTime
      (w.ctx c).repeatInterval = none)
    (fuel : Nat) (hfuel : (lists w.dispatcher).length < fuel) :
    TaskDispatcher.runRearm fuel w c now dispatchTime = none := by
  have hd : w.dispatcher ∈ w.dispatcher :: bs := List.mem_cons_self _ _
  have hfind : TaskQueue.findContext fuel w w.dispatcher (some c) = some none :=
    findContextLoop_absent c _ fuel w (Slot.first w.dispatcher) hL.dispatcher_chain hfuel
      (hc _ hd)
  have hge : (w.ctx c).repeatInterval ≥ 0 := hr
  unfold TaskDispatcher.runRearm
  rw [if_pos ⟨hq, hn⟩]
  simp only [hfind]
  rw [if_pos hge]
  simp only [ht]

/-- A dispatch step with a callback that leaves the scheduler alone, on a due head `c`; `n`
is the tick at which the callback returns.  When the policy switch gives a next dispatch
time, or is not reached: a one-shot context ends idle, a periodic one is back on the list
of the dispatcher and an event-bound one is at the tail of the list of its barrier.  When
the policy switch takes a remainder by zero, `run()` does not return. -/
theorem run_step_core (cb : Callback) (hcb : Quiet cb) {w : World} {bs : List Nat}
    {lists : Nat → List Nat} (hL : Linked w bs lists) (fuel : Nat)
    (hfuel : ∀ q ∈ w.dispatcher :: bs, (lists q).length < fuel) (c : Nat) (rest : List Nat)
    (hl : lists w.dispatcher = c :: rest)
    (hdue : ¬ toLong (usub w.now (w.ctx c).dispatchTime) < 0)
    (hev : ∀ ev, (w.ctx c).signalEvent = some ev → ev ∈ bs) :
    ∃ n : Nat,
    (0 ≤ (w.ctx c).repeatInterval →
      TaskDispatcher.nextDispatchTime w.schedulingPolicy w.now n (w.ctx c).dispatchTime
        (w.ctx c).repeatInterval = none →
      TaskDispatcher.run cb fuel w = none) ∧
    ((0 ≤ (w.ctx c).repeatInterval →
      ∃ t, TaskDispatcher.nextDispatchTime w.schedulingPolicy w.now n (w.ctx c).dispatchTime
        (w.ctx c).repeatInterval = some t) →
    ∃ w3 lists3, TaskDispatcher.run cb fuel w = some (true, w3) ∧ Linked w3 bs lists3 ∧
      RunFrame w w3 c ∧
      ((w.ctx c).repeatInterval < 0 → (w.ctx c).signalEvent = none →
        lists3 = Function.update lists w.dispatcher rest ∧ (w3.ctx c).queue = none) ∧
      (0 ≤ (w.ctx c).repeatInterval →
        ∃ t, lists3 = Function.update lists w.dispatcher (insertByTime w.ctx t c rest) ∧
          (w3.ctx c).queue = some w.dispatcher ∧ (w3.ctx c).dispatchTime = t) ∧
      (∀ ev, (w.ctx c).repeatInterval < 0 → (w.ctx c).signalEvent = some ev →
        lists3 = Function.update (Function.update lists w.dispatcher rest) ev (lists ev ++ [c]) ∧
          (w3.ctx c).queue = some ev)) := by
  have hd : w.dispatcher ∈ w.dispatcher :: bs := List.mem_cons_self _ _
  have hch := hL.dispatcher_chain
  have hL1 := runDetach_linked hL c rest hl
  rw [hl] at hch
  have hcr : c ∉ rest := follows_not_mem_tail hch
  have hcm : c ∈ lists w.dispatcher := by rw [hl]; exact List.mem_cons_self _ _
  have hqc : (w.ctx c).queue = some w.dispatcher := hL.owner hd hcm
  have htarget : ((TaskDispatcher.runDetach w c).ctx c).target = (w.ctx c).target := by
    rw [runDetach_ctx_self]
  obtain ⟨n, hcalled⟩ := quiet_called cb hcb (TaskDispatcher.runDetach w c) (w.ctx c).target
  have hscal := runDetach_scalars w c
  let w2 : World := { TaskDispatcher.runDetach w c with
    now := n
    calls := (TaskDispatcher.runDetach w c).calls ++
      (if (w.ctx c).target.toBool then [(w.ctx c).target] else []) }
  have hrun : TaskDispatcher.run cb fuel w
      = match TaskDispatcher.runRearm fuel w2 c w.now (w.ctx c).dispatchTime with
        | none => none
        | some w3 => some (true, w3) := by
    rw [run_due cb fuel w c hch.1 hdue, htarget, hcalled]
  have hL2 : Linked w2 bs (Function.update lists w.dispatcher rest) :=
    hL1.congr_world rfl rfl (fun _ => rfl) (fun _ => rfl)
  have hd2 : w2.dispatcher = w.dispatcher := hscal.2.1
  have hcalls2 : w2.calls = w.calls ++
      (if (w.ctx c).target.toBool then [(w.ctx c).target] else []) := by
    show (TaskDispatcher.runDetach w c).calls ++ _ = _
    rw [hscal.2.2.2.2.2.2]
  have hc2 : ∀ q ∈ w2.dispatcher :: bs, c ∉ Function.update lists w.dispatcher rest q := by
    intro q hq
    rw [hd2] at hq
    by_cases hqd : q = w.dispatcher
    · rw [hqd, Function.update_same]; exact hcr
    · rw [Function.update_noteq hqd]
      exact hL.disjoint hd hq (Ne.symm hqd) hcm
  have hctx2 : ∀ x, w2.ctx x = (TaskDispatcher.runDetach w c).ctx x := fun _ => rfl
  have hother : ∀ x, x ≠ c → w2.ctx x = w.ctx x :=
    fun x hx => runDetach_ctx_other w c x hx
  have hn2 : (w2.ctx c).nextContext = none := by rw [hctx2, runDetach_ctx_self]
  have hlen2 : ∀ q ∈ w2.dispatcher :: bs,
      (Function.update lists w.dispatcher rest q).length < fuel := by
    intro q hq
    rw [hd2] at hq
    by_cases hqd : q = w.dispatcher
    · rw [hqd, Function.update_same]
      have := hfuel _ hd
      rw [hl] at this
      simp at this
      omega
    · rw [Function.update_noteq hqd]; exact hfuel q hq
  have hr2 : (w2.ctx c).repeatInterval = (w.ctx c).repeatInterval := by
    rw [hctx2, runDetach_ctx_self]
  have hs2 : (w2.ctx c).signalEvent = (w.ctx c).signalEvent := by
    rw [hctx2, runDetach_ctx_self]
  have ht2 : (w2.ctx c).target = (w.ctx c).target := by
    rw [hctx2, runDetach_ctx_self]
  have hg2 : (w2.ctx c).tag = (w.ctx c).tag := by
    rw [hctx2, runDetach_ctx_self]
  have hsc2 : w2.schedulingPolicy = w.schedulingPolicy ∧ w2.contextPool = w.contextPool ∧
      w2.nextEntry = w.nextEntry ∧ w2.brk = w.brk :=
    ⟨hscal.2.2.1, hscal.2.2.2.1, hscal.2.2.2.2.1, hscal.2.2.2.2.2.1⟩
  have hq2p : ¬ ((w.ctx c).repeatInterval < 0 ∧ (w.ctx c).signalEvent = none) →
      (w2.ctx c).queue = some w2.dispatcher := by
    intro hone
    rw [hctx2, runDetach_ctx_self, hd2]
    simp only [hone, if_false]
    exact hqc
  refine ⟨n, ?_, ?_⟩
  · intro hr hnone
    rw [hrun]
    have hone : ¬ ((w.ctx c).repeatInterval < 0 ∧ (w.ctx c).signalEvent = none) := by
      intro h; omega
    have := runRearm_undefined hL2 c w.now (w.ctx c).dispatchTime hc2 (hq2p hone) hn2
      (by rw [hr2]; exact hr)
      (by
        rw [hr2, hsc2.1]
        exact hnone)
      fuel (hlen2 _ (List.mem_cons_self _ _))
    simp only [this]
  intro hnext
  rw [hrun]
  by_cases hone : (w.ctx c).repeatInterval < 0 ∧ (w.ctx c).signalEvent = none
  · -- the last run of a one-shot context
    have hq2 : (w2.ctx c).queue = none := by
      rw [hctx2, runDetach_ctx_self]; simp [hone]
    refine ⟨w2, _, by rw [runRearm_idle fuel w2 c _ _ hq2], hL2,
      ⟨hd2, hsc2.1, hsc2.2.1, hsc2.2.2.1, hsc2.2.2.2, hcalls2, ?_, ht2, hg2, hs2, hr2⟩,
      fun _ _ => ⟨rfl, hq2⟩, ?_, ?_⟩
    · intro x hx
      rw [hother x hx]
      exact ⟨rfl, rfl⟩
    · intro hr
      exact absurd hone.1 (by omega)
    · intro ev _ hse
      rw [hone.2] at hse
      exact absurd hse (by simp)
  · have hq2 : (w2.ctx c).queue = some w2.dispatcher := by
      rw [hctx2, runDetach_ctx_self, hd2]
      simp only [hone, if_false]
      exact hqc
    by_cases hr : 0 ≤ (w.ctx c).repeatInterval
    · -- a periodic context
      obtain ⟨t, ht0⟩ := hnext hr
      have ht : TaskDispatcher.nextDispatchTime w2.schedulingPolicy w.now w2.now
          (w.ctx c).dispatchTime (w2.ctx c).repeatInterval = some t := by
        rw [hr2, hsc2.1]
        exact ht0
      obtain ⟨w3, hrun3, hL3, hsd3, hq3⟩ :=
        runRearm_periodic hL2 c w.now (w.ctx c).dispatchTime hc2 hq2 hn2
          (by rw [hr2]; exact hr) t ht fuel (hlen2 _ (List.mem_cons_self _ _))
      have hc3 := hsd3.ctx c
      simp only [World.setCtx, Function.update_same] at hc3
      have hins : insertByTime w2.ctx t c (Function.update lists w.dispatcher rest w2.dispatcher)
          = insertByTime w.ctx t c rest := by
        rw [hd2, Function.update_same]
        refine insertByTime_congr _ _ _ _ _ ?_
        intro x hx
        rw [hother x (fun h => hcr (h ▸ hx))]
      rw [hins, hd2, Function.update_idem] at hL3
      refine ⟨w3, _, by rw [hrun3], hL3,
        ⟨hsd3.dispatcher.trans hd2, hsd3.2.2.1.trans hsc2.1, hsd3.2.2.2.1.trans hsc2.2.1,
          hsd3.2.2.2.2.1.trans hsc2.2.2.1, hsd3.2.2.2.2.2.1.trans hsc2.2.2.2,
          hsd3.2.2.2.2.2.2.1.trans hcalls2, ?_, hc3.1.trans ht2, hc3.2.1.trans hg2,
          hc3.2.2.2.2.trans hs2, hc3.2.2.2.1.trans hr2⟩,
        ?_, ?_, ?_⟩
      · intro x hx
        refine ⟨by rw [hq3 x, hother x hx], ?_⟩
        have := hsd3.2.2.2.2.2.2.2.2.2 x
        simp only [World.setCtx, Function.update_apply, hx, if_false] at this
        rw [this, hother x hx]
      · intro hneg
        exact absurd hneg (by omega)
      · intro _
        refine ⟨t, rfl, ?_, hc3.2.2.1⟩
        rw [hq3 c, hq2, hd2]
      · intro ev hneg _
        exact absurd hneg (by omega)
    · -- an event-bound context
      have hr3 : (w.ctx c).repeatInterval < 0 := by omega
      obtain ⟨ev, hevs⟩ : ∃ ev, (w.ctx c).signalEvent = some ev := by
        cases h : (w.ctx c).signalEvent with
        | none => exact absurd ⟨hr3, h⟩ hone
        | some ev => exact ⟨ev, rfl⟩
      have hevm : ev ∈ w.dispatcher :: bs := List.mem_cons_of_mem _ (hev ev hevs)
      have hevd : ev ≠ w.dispatcher := fun h => hL.2.1 (h ▸ hev ev hevs)
      obtain ⟨w3, hrun3, hL3, hsd3, hq3⟩ :=
        runRearm_event hL2 c w.now (w.ctx c).dispatchTime hc2 hq2 hn2
          (by rw [hr2]; exact hr3) ev (by rw [hs2]; exact hevs)
          (by rw [hd2]; exact hevm) fuel hlen2
      have hc3 := hsd3.ctx c
      rw [Function.update_noteq hevd] at hL3
      refine ⟨w3, _, by rw [hrun3], hL3,
        ⟨hsd3.dispatcher.trans hd2, hsd3.2.2.1.trans hsc2.1, hsd3.2.2.2.1.trans hsc2.2.1,
          hsd3.2.2.2.2.1.trans hsc2.2.2.1, hsd3.2.2.2.2.2.1.trans hsc2.2.2.2,
          hsd3.2.2.2.2.2.2.1.trans hcalls2, ?_, hc3.1.trans ht2, hc3.2.1.trans hg2,
          hc3.2.2.2.2.trans hs2, hc3.2.2.2.1.trans hr2⟩,
        ?_, ?_, ?_⟩
      · intro x hx
        refine ⟨by rw [hq3 x]; simp only [hx, if_false]; rw [hother x hx], ?_⟩
        rw [hsd3.2.2.2.2.2.2.2.2.2 x, hother x hx]
      · intro _ hnone
        rw [hnone] at hevs
        exact absurd hevs (by simp)
      · intro hpos
        exact absurd hpos hr
      · intro ev2 _ hse
        rw [hevs] at hse
        have := Option.some.inj hse
        subst this
        refine ⟨rfl, ?_⟩
        rw [hq3 c]; simp

/-- A dispatch step with a callback that leaves the scheduler alone, on a due head `c`,
when the interval of `c` is not zero under the policy `TIMING`. -/
theorem run_step_cases (cb : Callback) (hcb : Quiet cb) {w : World} {bs : List Nat}
    {lists : Nat → List Nat} (hL : Linked w bs lists) (fuel : Nat)
    (hfuel : ∀ q ∈ w.dispatcher :: bs, (lists q).length < fuel) (c : Nat) (rest : List Nat)
    (hl : lists w.dispatcher = c :: rest)
    (hdue : ¬ toLong (usub w.now (w.ctx c).dispatchTime) < 0)
    (hev : ∀ ev, (w.ctx c).signalEvent = some ev → ev ∈ bs)
    (hdiv : w.schedulingPolicy = SchedulingPolicy.TIMING → (w.ctx c).repeatInterval ≠ 0) :
    ∃ w3 lists3, TaskDispatcher.run cb fuel w = some (true, w3) ∧ Linked w3 bs lists3 ∧
      RunFrame w w3 c ∧
      ((w.ctx c).repeatInterval < 0 → (w.ctx c).signalEvent = none →
        lists3 = Function.update lists w.dispatcher rest ∧ (w3.ctx c).queue = none) ∧
      (0 ≤ (w.ctx c).repeatInterval →
        ∃ t, lists3 = Function.update lists w.dispatcher (insertByTime w.ctx t c rest) ∧
          (w3.ctx c).queue = some w.dispatcher ∧ (w3.ctx c).dispatchTime = t) ∧
      (∀ ev, (w.ctx c).repeatInterval < 0 → (w.ctx c).signalEvent = some ev →
        lists3 = Function.update (Function.update lists w.dispatcher rest) ev (lists ev ++ [c]) ∧
          (w3.ctx c).queue = some ev) := by
  obtain ⟨n, _, h⟩ := run_step_core cb hcb hL fuel hfuel c rest hl hdue hev
  exact h (fun _ => nextDispatchTime_isSome _ _ _ _ _ hdiv)

/-- Whenever a dispatch step on a due head returns, it has returned true and left the
world as `run_step_core` says. -/
theorem run_step_partial (cb : Callback) (hcb : Quiet cb) {w : World} {bs : List Nat}
    {lists : Nat → List Nat} (hL : Linked w bs lists) (fuel : Nat)
    (hfuel : ∀ q ∈ w.dispatcher :: bs, (lists q).length < fuel) (c : Nat) (rest : List Nat)
    (hl : lists w.dispatcher = c :: rest)
    (hdue : ¬ toLong (usub w.now (w.ctx c).dispatchTime) < 0)
    (hev : ∀ ev, (w.ctx c).signalEvent = some ev → ev ∈ bs) (r : Bool) (w3 : World)
    (hrun : TaskDispatcher.run cb fuel w = some (r, w3)) :
    r = true ∧ ∃ lists3, Linked w3 bs lists3 ∧ RunFrame w w3 c ∧
      ((w.ctx c).repeatInterval < 0 → (w.ctx c).signalEvent = none →
        lists3 = Function.update lists w.dispatcher rest ∧ (w3.ctx c).queue = none) ∧
      (0 ≤ (w.ctx c).repeatInterval →
        ∃ t, lists3 = Function.update lists w.dispatcher (insertByTime w.ctx t c rest) ∧
          (w3.ctx c).queue = some w.dispatcher ∧ (w3.ctx c).dispatchTime = t) ∧
      (∀ ev, (w.ctx c).repeatInterval < 0 → (w.ctx c).signalEvent = some ev →
        lists3 = Function.update (Function.update lists w.dispatcher rest) ev (lists ev ++ [c]) ∧
          (w3.ctx c).queue = some ev) := by
  obtain ⟨n, hnone, hsome⟩ := run_step_core cb hcb hL fuel hfuel c rest hl hdue hev
  have hnext : 0 ≤ (w.ctx c).repeatInterval →
      ∃ t, TaskDispatcher.nextDispatchTime w.schedulingPolicy w.now n (w.ctx c).dispatchTime
        (w.ctx c).repeatInterval = some t := by
    intro hr
    cases ht : TaskDispatcher.nextDispatchTime w.schedulingPolicy w.now n
        (w.ctx c).dispatchTime (w.ctx c).repeatInterval with
    | none =>
      rw [hnone hr ht] at hrun
      exact absurd hrun (by simp)
    | some t => exact ⟨t, rfl⟩
  obtain ⟨w4, lists3, hrun4, h⟩ := hsome hnext
  rw [hrun4] at hrun
  have h1 := Option.some.inj hrun
  have h2 := Prod.mk.inj h1
  rw [← h2.2, ← h2.1]
  exact ⟨rfl, lists3, h⟩

/-! ## Registering a waiter on a barrier -/

/-- The overload `onSignal(context, repeat)`: the context leaves the list it is on and is
parked at the tail of the barrier. -/
theorem onSignalContext_spec {w : World} {bs : List Nat} {lists : Nat → List Nat}
    (hL : Linked w bs lists) (hPL : PendingLinked w bs lists) {b : Nat} (hb : b ∈ bs)
    (context : Nat) (repeat_ : Bool) (fuel : Nat)
    (hfuel : ∀ q ∈ w.dispatcher :: bs, (lists q).length < fuel) :
    ∃ w2, EventBarrier.onSignalContext fuel w b context repeat_ = some w2 ∧
      Linked w2 bs (parkedLists lists b context) ∧
      PendingLinked w2 bs (parkedLists lists b context) ∧
      SameData (w.setCtx context
        { w.ctx context with signalEvent := if repeat_ then some b else none }) w2 ∧
      (∀ x, (w2.ctx x).queue = if x = context then some b else (w.ctx x).queue) := by
  obtain ⟨w1, hrun1, hL1, hsd1, hq1, _, _⟩ :=
    contextCancel_linked hL context (fun q hq => (hPL context q hq).1) fuel hfuel
  have hd1 : w1.dispatcher = w.dispatcher := hsd1.dispatcher
  let w2 : World := w1.setCtx context
    { w1.ctx context with signalEvent := if repeat_ then some b else none }
  have hL2 : Linked w2 bs (fun q => (lists q).erase context) := by
    refine hL1.congr_world rfl rfl ?_ ?_
    · intro x
      by_cases hx : x = context
      · subst hx; simp [w2, World.setCtx]
      · simp [w2, World.setCtx, Function.update_apply, hx]
    · intro x
      by_cases hx : x = context
      · subst hx; simp [w2, World.setCtx]
      · simp [w2, World.setCtx, Function.update_apply, hx]
  have hnd : ∀ q ∈ w.dispatcher :: bs, (lists q).Nodup :=
    fun q hq => follows_nodup (hL.chain_of_mem hq)
  have hd2 : w2.dispatcher = w.dispatcher := hd1
  have hc2 : ∀ q2 ∈ w2.dispatcher :: bs, context ∉ (fun q => (lists q).erase context) q2 := by
    intro q2 hq2
    rw [hd2] at hq2
    exact fun h => ((hnd q2 hq2).mem_erase_iff.mp h).1 rfl
  have hbm : b ∈ w.dispatcher :: bs := List.mem_cons_of_mem _ hb
  obtain ⟨w3, hrun3, hL3, hsd3, hq3⟩ :=
    barrier_recycleContext_linked hL2 (by rw [hd2]; exact hbm) context hc2 fuel (by
      have := hfuel b hbm
      have := List.length_erase_le context (lists b)
      show ((lists b).erase context).length < fuel
      omega)
  have hqfinal : ∀ x, (w3.ctx x).queue = if x = context then some b else (w.ctx x).queue := by
    intro x
    rw [hq3 x]
    by_cases hx : x = context
    · simp [hx]
    · simp only [hx, if_false]
      have : w2.ctx x = w1.ctx x := by simp [w2, World.setCtx, Function.update_apply, hx]
      rw [this]
      exact hq1 x hx
  have hd3 : w3.dispatcher = w.dispatcher := hsd3.dispatcher.trans hd2
  refine ⟨w3, ?_, hL3, ?_, ?_, hqfinal⟩
  · simp only [EventBarrier.onSignalContext, hrun1]
    exact hrun3
  · intro c q hcq
    rw [hqfinal c] at hcq
    by_cases hc : c = context
    · subst hc
      simp only [if_true, Option.some.injEq] at hcq
      subst hcq
      refine ⟨by rw [hd3]; exact hbm, ?_⟩
      unfold parkedLists
      rw [Function.update_same]
      exact List.mem_append_right _ (List.mem_singleton_self _)
    · simp only [hc, if_false] at hcq
      obtain ⟨hq, hmem⟩ := hPL c q hcq
      refine ⟨by rw [hd3]; exact hq, ?_⟩
      unfold parkedLists
      by_cases hqb : q = b
      · subst hqb
        rw [Function.update_same]
        exact List.mem_append_left _ ((List.mem_erase_of_ne hc).mpr hmem)
      · rw [Function.update_noteq hqb]
        exact (List.mem_erase_of_ne hc).mpr hmem
  · exact (hsd1.setCtx context _ _ (by
      have := hsd1.2.2.2.2.2.2.2.2.2 context
      have h2 := (TaskContext.data_eq_iff _ _).mp this
      simp [TaskContext.data, h2.1, h2.2.1, h2.2.2.1, h2.2.2.2.1])).trans hsd3

/-- The overload `onSignal(context, target, tag, repeat)`. -/
theorem onSignalTarget_spec {w : World} {bs : List Nat} {lists : Nat → List Nat}
    (hL : Linked w bs lists) (hPL : PendingLinked w bs lists) {b : Nat} (hb : b ∈ bs)
    (context : Nat) (target : Task) (tag : Option Nat) (repeat_ : Bool) (fuel : Nat)
    (hfuel : ∀ q ∈ w.dispatcher :: bs, (lists q).length < fuel) :
    ∃ w2, EventBarrier.onSignalTarget fuel w b context target tag repeat_ = some w2 ∧
      Linked w2 bs (parkedLists lists b context) ∧
      PendingLinked w2 bs (parkedLists lists b context) ∧
      SameData (w.setCtx context
        { w.ctx context with
          target := target, tag := tag,
          signalEvent := if repeat_ then some b else none }) w2 ∧
      (∀ x, (w2.ctx x).queue = if x = context then some b else (w.ctx x).queue) := by
  let w0 : World := w.setCtx context { w.ctx context with target := target, tag := tag }
  have hw0 : (w.setCtx context { w.ctx context with target := target }).setCtx context
      { (w.setCtx context { w.ctx context with target := target }).ctx context with tag := tag }
      = w0 := by
    simp [w0, World.setCtx]
  have hq0 : ∀ x, (w0.ctx x).queue = (w.ctx x).queue := by
    intro x
    by_cases hx : x = context
    · subst hx; simp [w0, World.setCtx]
    · simp [w0, World.setCtx, Function.update_apply, hx]
  have hn0 : ∀ x, (w0.ctx x).nextContext = (w.ctx x).nextContext := by
    intro x
    by_cases hx : x = context
    · subst hx; simp [w0, World.setCtx]
    · simp [w0, World.setCtx, Function.update_apply, hx]
  have hL0 : Linked w0 bs lists := hL.congr_world rfl rfl hq0 hn0
  have hPL0 : PendingLinked w0 bs lists := hPL.congr_queue rfl hq0
  obtain ⟨w2, hrun, hL2, hPL2, hsd2, hq2⟩ :=
    onSignalContext_spec hL0 hPL0 hb context repeat_ fuel hfuel
  refine ⟨w2, ?_, hL2, hPL2, ?_, ?_⟩
  · simp only [EventBarrier.onSignalTarget, hw0]
    exact hrun
  · have : w0.setCtx context
        { w0.ctx context with signalEvent := if repeat_ then some b else none }
        = w.setCtx context
          { w.ctx context with
            target := target, tag := tag,
            signalEvent := if repeat_ then some b else none } := by
      simp [w0, World.setCtx]
    rw [← this]
    exact hsd2
  · intro x
    rw [hq2 x, hq0 x]

/-- The pool-based `onSignal(target, tag, repeat)` in a quiescent world: it returns a
context of the pool, parked at the tail of the barrier, after every pending context with
that target has been cancelled. -/
theorem onSignal_spec {w : World} {bs : List Nat} {lists : Nat → List Nat} {es : List Nat}
    (hQ : Quiescent w bs lists es) (eph : EmptyPoolHandler) {b : Nat} (hb : b ∈ bs)
    (target : Task) (tag : Option Nat) (repeat_ : Bool) (fuel : Nat)
    (hfuel : ∀ q ∈ w.dispatcher :: bs, (lists q).length + 2 < fuel)
    (hfuel2 : bs.length + 1 < fuel) (hfuel3 : es.length < fuel) :
    ∃ c w3 es3,
      EventBarrier.onSignal eph fuel w b target tag repeat_ = some (some c, w3) ∧
      Quiescent w3 bs (parkedLists
        (fun q => (lists q).filter (fun x => !Task.eq (w.ctx x).target target)) b c) es3 ∧
      (∀ q ∈ w.dispatcher :: bs, c ∉ lists q) ∧
      (w3.ctx c).queue = some b ∧ (w3.ctx c).target = target ∧ (w3.ctx c).tag = tag ∧
      (w3.ctx c).signalEvent = (if repeat_ then some b else none) ∧
      (∀ x, x ≠ c → (w3.ctx x).data = (w.ctx x).data) ∧
      (∀ x, x ≠ c → (w3.ctx x).queue
        = if (∃ q ∈ w.dispatcher :: bs, x ∈ lists q) ∧ Task.eq (w.ctx x).target target = true
          then none else (w.ctx x).queue) ∧
      es3.length ≤ es.length + 1 ∧
      w3.dispatcher = w.dispatcher ∧ w3.now = w.now ∧ w3.calls = w.calls ∧
      w3.schedulingPolicy = w.schedulingPolicy := by
  obtain ⟨pool, hpool, _⟩ := hQ.2.2.1
  obtain ⟨c, w1, es1, hfetch, hQ1, hqc1, hcb1, hlen1, hd1, hnow1, hcalls1, hpol1, hsame1⟩ :=
    fetch_spec hQ pool hpool eph fuel hfuel3
  have hother1 : ∀ x, x ≠ c → w1.ctx x = w.ctx x := by
    intro x hx
    have h := hfetch
    rw [fetch_eq_fetchCore] at h
    rcases fetchCore_result fuel w pool c w1 h with ⟨_, hctx, _⟩ | ⟨hc, _, _, hctx⟩
    · rw [hctx]
    · exact hctx x (by rw [← hc]; exact hx)
  obtain ⟨hL1, hPL1, ⟨pool1, hpool1, hp1⟩, hfresh1⟩ := hQ1
  have hcnot1 : ∀ q ∈ w.dispatcher :: bs, c ∉ lists q := by
    intro q hq hc
    have := hL1.owner (by rw [hd1]; exact hq) hc
    rw [hqc1] at this
    exact absurd this (by simp)
  -- cancelAll(target)
  have hP : ∀ x : TaskContext, (fun c : TaskContext => Task.eq c.target target) x
      = (fun c : TaskContext => Task.eq c.target target) x.data := fun _ => rfl
  obtain ⟨w2, hrun2, hL2, hsd2, hq2, _, _⟩ :=
    cancelWhere_linked (fun c => Task.eq c.target target) hP hL1 fuel
      (by rw [hd1]; exact hfuel) hfuel2
  have hd2 : w2.dispatcher = w.dispatcher := hsd2.dispatcher.trans hd1
  have hfilter : ∀ q ∈ w.dispatcher :: bs,
      (lists q).filter (fun c => !Task.eq (w1.ctx c).target target)
        = (lists q).filter (fun x => !Task.eq (w.ctx x).target target) := by
    intro q hq
    refine List.filter_congr ?_
    intro x hx
    rw [hother1 x (fun h => hcnot1 q hq (h ▸ hx))]
  have hL2b : Linked w2 bs
      (fun q => (lists q).filter (fun x => !Task.eq (w.ctx x).target target)) := by
    refine hL2.congr_lists ?_
    intro q hq
    rw [hd2] at hq
    exact (hfilter q hq).symm
  have hPL2 : PendingLinked w2 bs
      (fun q => (lists q).filter (fun x => !Task.eq (w.ctx x).target target)) := by
    intro x q hxq
    rw [hq2 x] at hxq
    split at hxq
    · exact absurd hxq (by simp)
    · rename_i hnot
      obtain ⟨hq, hmem⟩ := hPL1 x q hxq
      refine ⟨by rw [hsd2.dispatcher]; exact hq, ?_⟩
      rw [hd1] at hq
      show x ∈ (lists q).filter _
      rw [← hfilter q hq]
      refine List.mem_filter.mpr ⟨hmem, ?_⟩
      have : ¬ Task.eq (w1.ctx x).target target = true :=
        fun h => hnot ⟨⟨q, by rw [hd1]; exact hq, hmem⟩, h⟩
      simpa using this
  have hqc2 : (w2.ctx c).queue = none := by
    rw [hq2 c]
    split
    · rfl
    · exact hqc1
  have hfuel4 : ∀ q ∈ w2.dispatcher :: bs,
      ((fun q => (lists q).filter (fun x => !Task.eq (w.ctx x).target target)) q).length
        < fuel := by
    intro q hq
    rw [hd2] at hq
    have := hfuel q hq
    have := List.length_filter_le (fun x => !Task.eq (w.ctx x).target target) (lists q)
    show ((lists q).filter _).length < fuel
    omega
  obtain ⟨w3, hrun3, hL3, hPL3, hsd3, hq3⟩ :=
    onSignalTarget_spec hL2b hPL2 hb c target tag repeat_ fuel hfuel4
  have hd3 : w3.dispatcher = w.dispatcher := hsd3.dispatcher.trans hd2
  have hnow2 : w2.now = w.now := hsd2.1.trans hnow1
  have hc3 := hsd3.ctx c
  simp only [World.setCtx, Function.update_same] at hc3
  have hrun : EventBarrier.onSignal eph fuel w b target tag repeat_ = some (some c, w3) := by
    simp only [EventBarrier.onSignal, hpool, hfetch]
    rw [cancelAllTarget_eq, hd1, ← hd1, hrun2]
    simp only [hrun3]
  refine ⟨c, w3, es1, hrun, ⟨hL3, hPL3, ⟨pool1, ?_, ?_⟩, ?_⟩, hcnot1, ?_, hc3.1, hc3.2.1,
    hc3.2.2.2.2, ?_, ?_, hlen1, hd3, hsd3.1.trans hnow2, ?_, ?_⟩
  · rw [hsd3.2.2.2.1]
    show w2.contextPool = some pool1
    rw [hsd2.2.2.2.1]
    exact hpool1
  · obtain ⟨h1, h2, h3⟩ := hp1
    refine ⟨?_, h2, ?_⟩
    · rw [hsd3.2.2.2.2.1]
      show follows w2.nextEntry _ _
      rw [hsd2.2.2.2.2.1]
      exact h1
    · intro e he
      rw [hsd3.2.2.2.2.2.1]
      show e < w2.brk
      rw [hsd2.2.2.2.2.2.1]
      exact h3 e he
  · intro x hx
    have hb3 : w3.brk = w1.brk := by
      rw [hsd3.2.2.2.2.2.1]
      show w2.brk = w1.brk
      exact hsd2.2.2.2.2.2.1
    rw [hb3] at hx
    rw [hq3 x]
    have hxc : x ≠ c := by omega
    simp only [hxc, if_false]
    rw [hq2 x]
    split
    · rfl
    · exact hfresh1 x hx
  · rw [hq3 c]; simp
  · intro x hx
    have h3 := hsd3.2.2.2.2.2.2.2.2.2 x
    simp only [World.setCtx, Function.update_apply, hx, if_false] at h3
    rw [h3, hsd2.2.2.2.2.2.2.2.2.2 x, hother1 x hx]
  · intro x hx
    rw [hq3 x]
    simp only [hx, if_false]
    rw [hq2 x, hd1, hother1 x hx]
  · rw [hsd3.2.2.2.2.2.2.1]
    show w2.calls = w.calls
    rw [hsd2.2.2.2.2.2.2.1]
    exact hcalls1
  · rw [hsd3.2.2.1]
    show w2.schedulingPolicy = w.schedulingPolicy
    rw [hsd2.2.2.1]
    exact hpol1

/-! ## A signal followed by a dispatch step -/

theorem Linked.tickFrame {w : World} {bs : List Nat} {lists : Nat → List Nat}
    (hL : Linked w bs lists) (t : Nat) : Linked (atTick w t) bs lists :=
  hL.congr_world rfl rfl (fun _ => rfl) (fun _ => rfl)

theorem PendingLinked.tickPending {w : World} {bs : List Nat} {lists : Nat → List Nat}
    (hPL : PendingLinked w bs lists) (t : Nat) : PendingLinked (atTick w t) bs lists :=
  hPL.congr_queue rfl (fun _ => rfl)

/-- On a dispatcher with an empty list: `signal()` at the tick `ts` on a barrier whose
first waiter is `c`, and then `run()` at a tick `tr` that is not before `ts`.  The target
of `c` is called once; a waiter without `signalEvent` ends idle, and one with a
`signalEvent` is parked at the tail of that barrier. -/
theorem event_cycle (cb : Callback) (hcb : Quiet cb) {w : World} {bs : List Nat}
    {lists : Nat → List Nat} (hL : Linked w bs lists) {b : Nat} (hb : b ∈ bs)
    (hd : lists w.dispatcher = []) (c : Nat) (rest : List Nat) (hl : lists b = c :: rest)
    (hev : ∀ ev, (w.ctx c).signalEvent = some ev → ev ∈ bs) (ts tr : Nat)
    (hdue : ¬ toLong (usub tr ts) < 0) (fuel : Nat)
    (hfuel : ∀ q ∈ w.dispatcher :: bs, (lists q).length + 1 < fuel) :
    ∃ w1 w2, EventBarrier.signal fuel (atTick w ts) b = some (true, w1) ∧
      TaskDispatcher.run cb fuel (atTick w1 tr) = some (true, w2) ∧
      w2.calls = w.calls ++ (if (w.ctx c).target.toBool then [(w.ctx c).target] else []) ∧
      w2.dispatcher = w.dispatcher ∧
      (∀ x, (w2.ctx x).target = (w.ctx x).target ∧
        (w2.ctx x).signalEvent = (w.ctx x).signalEvent) ∧
      (∀ x, x ≠ c → (w2.ctx x).queue = (w.ctx x).queue) ∧
      ((w.ctx c).signalEvent = none →
        Linked w2 bs (Function.update lists b rest) ∧ (w2.ctx c).queue = none) ∧
      (∀ ev, (w.ctx c).signalEvent = some ev →
        Linked w2 bs (Function.update (Function.update lists b rest) ev
          (Function.update lists b rest ev ++ [c])) ∧ (w2.ctx c).queue = some ev) := by
  have hdm : w.dispatcher ∈ w.dispatcher :: bs := List.mem_cons_self _ _
  have hbd : b ≠ w.dispatcher := fun h => hL.2.1 (h ▸ hb)
  -- signal()
  obtain ⟨w1, hrun1, hL1, hsd1, hq1⟩ := signal_spec (hL.tickFrame ts) b hb fuel
    (by show (lists w.dispatcher).length < fuel; have := hfuel _ hdm; omega) c rest hl
  have hd1 : w1.dispatcher = w.dispatcher := hsd1.dispatcher
  have hc1 := hsd1.ctx c
  simp only [World.setCtx, Function.update_same] at hc1
  have hx1 : ∀ x, x ≠ c → (w1.ctx x).data = (w.ctx x).data := by
    intro x hx
    have := hsd1.2.2.2.2.2.2.2.2.2 x
    simpa [World.setCtx, Function.update_apply, hx, atTick] using this
  have hlists1 : Function.update (Function.update lists b rest) (atTick w ts).dispatcher
      (insertByTime (atTick w ts).ctx (atTick w ts).now c (lists (atTick w ts).dispatcher))
      = Function.update (Function.update lists b rest) w.dispatcher [c] := by
    show Function.update (Function.update lists b rest) w.dispatcher
      (insertByTime w.ctx ts c (lists w.dispatcher)) = _
    rw [hd]
    rfl
  rw [hlists1] at hL1
  -- run()
  have hL1t := hL1.tickFrame tr
  have hdt : ((atTick w1 tr).ctx c).dispatchTime = ts := hc1.2.2.1
  have hri : ((atTick w1 tr).ctx c).repeatInterval = -1 := hc1.2.2.2.1
  have hse : ((atTick w1 tr).ctx c).signalEvent = (w.ctx c).signalEvent := hc1.2.2.2.2
  have htg : ((atTick w1 tr).ctx c).target = (w.ctx c).target := hc1.1
  obtain ⟨w2, lists2, hrun2, hL2, hfr, hcase1, _, hcase3⟩ :=
    run_step_cases cb hcb hL1t fuel (by
        intro q hq
        have hq2 : q ∈ w.dispatcher :: bs := by
          have : (atTick w1 tr).dispatcher = w.dispatcher := hd1
          rwa [this] at hq
        have := hfuel q hq2
        by_cases hqd : q = w.dispatcher
        · rw [hqd, Function.update_same]; simp; omega
        · rw [Function.update_noteq hqd]
          by_cases hqb : q = b
          · rw [hqb, Function.update_same]
            rw [hqb, hl] at this
            simp at this
            omega
          · rw [Function.update_noteq hqb]; omega)
      c [] (by
        have : (atTick w1 tr).dispatcher = w.dispatcher := hd1
        rw [this, Function.update_same])
      (by rw [hdt]; exact hdue)
      (by intro ev h; rw [hse] at h; exact hev ev h)
      (by intro _; rw [hri]; decide)
  have hd2 : w2.dispatcher = w.dispatcher := hfr.1.trans hd1
  have hlistsA : ∀ q ∈ w.dispatcher :: bs,
      Function.update lists b rest q
        = Function.update (Function.update (Function.update lists b rest) w.dispatcher [c])
            w.dispatcher [] q := by
    intro q _
    by_cases hqd : q = w.dispatcher
    · rw [hqd, Function.update_same, Function.update_noteq (Ne.symm hbd), hd]
    · rw [Function.update_noteq hqd, Function.update_noteq hqd]
  refine ⟨w1, w2, hrun1, hrun2, ?_, hd2, ?_, ?_, ?_, ?_⟩
  · rw [hfr.2.2.2.2.2.1, htg]
    show w1.calls ++ _ = _
    rw [hsd1.2.2.2.2.2.2.1]
    rfl
  · intro x
    by_cases hx : x = c
    · subst hx
      exact ⟨hfr.2.2.2.2.2.2.2.1.trans htg, hfr.2.2.2.2.2.2.2.2.2.1.trans hse⟩
    · have h2 := (hfr.2.2.2.2.2.2.1 x hx).2
      have h3 : (w2.ctx x).data = (w.ctx x).data := h2.trans (hx1 x hx)
      have h4 := (TaskContext.data_eq_iff _ _).mp h3
      exact ⟨h4.1, h4.2.2.2.2⟩
  · intro x hx
    rw [(hfr.2.2.2.2.2.2.1 x hx).1]
    show (w1.ctx x).queue = _
    rw [hq1 x]
    simp only [hx, if_false]
    rfl
  · intro hnone
    obtain ⟨hlists2, hq2⟩ := hcase1 (by rw [hri]; decide) (by rw [hse]; exact hnone)
    refine ⟨?_, hq2⟩
    rw [hlists2] at hL2
    refine hL2.congr_lists ?_
    intro q hq
    rw [hd2] at hq
    have : (atTick w1 tr).dispatcher = w.dispatcher := hd1
    rw [this]
    exact hlistsA q hq
  · intro ev hsome
    obtain ⟨hlists2, hq2⟩ := hcase3 ev (by rw [hri]; decide) (by rw [hse]; exact hsome)
    refine ⟨?_, hq2⟩
    rw [hlists2] at hL2
    have hevd : ev ≠ w.dispatcher := fun h => hL.2.1 (h ▸ hev ev hsome)
    refine hL2.congr_lists ?_
    intro q hq
    rw [hd2] at hq
    have : (atTick w1 tr).dispatcher = w.dispatcher := hd1
    rw [this]
    by_cases hqe : q = ev
    · rw [hqe, Function.update_same, Function.update_same, Function.update_noteq hevd]
    · rw [Function.update_noteq hqe, Function.update_noteq hqe]
      exact hlistsA q hq

/-- One round of a lone repeating waiter: with `c` alone on the barrier `b`, bound to `b`,
and nothing on the list of the dispatcher, `signal()` and then `run()` call its target
once and leave the lists as they were. -/
theorem whenever_round (cb : Callback) (hcb : Quiet cb) {w : World} {bs : List Nat}
    {lists : Nat → List Nat} (hL : Linked w bs lists) {b : Nat} (hb : b ∈ bs)
    (hd : lists w.dispatcher = []) (c : Nat) (hl : lists b = [c])
    (hse : (w.ctx c).signalEvent = some b) (ts tr : Nat)
    (hdue : ¬ toLong (usub tr ts) < 0) (fuel : Nat)
    (hfuel : ∀ q ∈ w.dispatcher :: bs, (lists q).length + 1 < fuel) :
    ∃ w1 w2, EventBarrier.signal fuel (atTick w ts) b = some (true, w1) ∧
      TaskDispatcher.run cb fuel (atTick w1 tr) = some (true, w2) ∧
      w2.calls = w.calls ++ (if (w.ctx c).target.toBool then [(w.ctx c).target] else []) ∧
      w2.dispatcher = w.dispatcher ∧ Linked w2 bs lists ∧
      (∀ x, (w2.ctx x).target = (w.ctx x).target ∧
        (w2.ctx x).signalEvent = (w.ctx x).signalEvent) ∧
      (∀ x, (w2.ctx x).queue = (w.ctx x).queue) ∧
      Linked w1 bs (Function.update (Function.update lists b []) w.dispatcher [c]) ∧
      w1.calls = w.calls ∧ w1.dispatcher = w.dispatcher := by
  have hbm : b ∈ w.dispatcher :: bs := List.mem_cons_of_mem _ hb
  obtain ⟨w1, w2, hrun1, hrun2, hcalls, hd2, hdata, hq, _, hsome⟩ :=
    event_cycle cb hcb hL hb hd c [] hl (by intro ev h; rw [hse] at h; rw [← Option.some.inj h]; exact hb)
      ts tr hdue fuel hfuel
  obtain ⟨hL2, hqc⟩ := hsome b hse
  have hL1 : Linked w1 bs (Function.update (Function.update lists b []) w.dispatcher [c]) ∧
      w1.calls = w.calls ∧ w1.dispatcher = w.dispatcher := by
    obtain ⟨w1b, hrun1b, hL1, hsd1, _⟩ := signal_spec (hL.tickFrame ts) b hb fuel
      (by show (lists w.dispatcher).length < fuel
          have := hfuel _ (List.mem_cons_self _ _); omega) c [] hl
    rw [hrun1] at hrun1b
    have : w1 = w1b := by
      have := Option.some.inj hrun1b
      exact (Prod.mk.inj this).2
    subst this
    refine ⟨?_, hsd1.2.2.2.2.2.2.1, hsd1.dispatcher⟩
    have hlists1 : Function.update (Function.update lists b []) (atTick w ts).dispatcher
        (insertByTime (atTick w ts).ctx (atTick w ts).now c (lists (atTick w ts).dispatcher))
        = Function.update (Function.update lists b []) w.dispatcher [c] := by
      show Function.update (Function.update lists b []) w.dispatcher
        (insertByTime w.ctx ts c (lists w.dispatcher)) = _
      rw [hd]
      rfl
    rw [hlists1] at hL1
    exact hL1
  refine ⟨w1, w2, hrun1, hrun2, hcalls, hd2, ?_, hdata, ?_, hL1⟩
  · refine hL2.congr_lists ?_
    intro q _
    by_cases hqb : q = b
    · rw [hqb, Function.update_same, Function.update_same, hl]; rfl
    · rw [Function.update_noteq hqb, Function.update_noteq hqb]
  · intro x
    by_cases hx : x = c
    · rw [hx, hqc, hL.owner hbm (by rw [hl]; exact List.mem_singleton_self _)]
    · exact hq x hx

/-! ## EventBarrier::signalAll -/

theorem cancelLoop_mono (context : Nat) :
    ∀ (fuel fuel2 : Nat) (w : World) (ptr : Slot) (r : World), fuel ≤ fuel2 →
      TaskQueue.cancelLoop fuel w ptr context = some r →
      TaskQueue.cancelLoop fuel2 w ptr context = some r := by
  intro fuel
  induction fuel with
  | zero => intro fuel2 w ptr r _ h; simp [TaskQueue.cancelLoop] at h
  | succ n ih =>
    intro fuel2 w ptr r hle h
    obtain ⟨m, rfl⟩ : ∃ m, fuel2 = m + 1 := ⟨fuel2 - 1, by omega⟩
    unfold TaskQueue.cancelLoop at h ⊢
    cases hd : deref w ptr with
    | none => simpa [hd] using h
    | some p =>
      simp only [hd] at h ⊢
      split_ifs at h ⊢ with hp
      · exact h
      · exact ih m w _ r (by omega) h

theorem cancel_mono {fuel fuel2 : Nat} (hle : fuel ≤ fuel2) {w : World} {q context : Nat}
    {r : World} (h : TaskQueue.cancel fuel w q context = some r) :
    TaskQueue.cancel fuel2 w q context = some r :=
  cancelLoop_mono context fuel fuel2 w _ r hle h

theorem contextCancel_mono {fuel fuel2 : Nat} (hle : fuel ≤ fuel2) {w : World} {context : Nat}
    {r : World} (h : TaskContext.cancel fuel w context = some r) :
    TaskContext.cancel fuel2 w context = some r := by
  unfold TaskContext.cancel at h ⊢
  cases hq : (w.ctx context).queue with
  | none => simpa [hq] using h
  | some q =>
    simp only [hq] at h ⊢
    exact cancel_mono hle h

theorem cancelWhereLoop_mono (P : TaskContext → Bool) :
    ∀ (fuel fuel2 : Nat) (w : World) (ptr : Slot) (r : World), fuel ≤ fuel2 →
      cancelWhereLoop P fuel w ptr = some r → cancelWhereLoop P fuel2 w ptr = some r := by
  intro fuel
  induction fuel with
  | zero => intro fuel2 w ptr r _ h; simp [cancelWhereLoop] at h
  | succ n ih =>
    intro fuel2 w ptr r hle h
    obtain ⟨m, rfl⟩ : ∃ m, fuel2 = m + 1 := ⟨fuel2 - 1, by omega⟩
    unfold cancelWhereLoop at h ⊢
    cases hd : deref w ptr with
    | none => simpa [hd] using h
    | some p =>
      simp only [hd] at h ⊢
      split_ifs at h ⊢ with hp
      · cases hc : TaskQueue.cancelAt w ptr with
        | none => simp [hc] at h
        | some w1 =>
          simp only [hc] at h ⊢
          exact ih m w1 ptr r (by omega) h
      · exact ih m w _ r (by omega) h

theorem forSubqueues_mono (act1 act2 : World → Nat → Option World)
    (hact : ∀ w q r, act1 w q = some r → act2 w q = some r) :
    ∀ (fuel fuel2 : Nat) (w : World) (p : Option Nat) (r : World), fuel ≤ fuel2 →
      TaskQueue.forSubqueues act1 fuel w p = some r →
      TaskQueue.forSubqueues act2 fuel2 w p = some r := by
  intro fuel
  induction fuel with
  | zero => intro fuel2 w p r _ h; simp [TaskQueue.forSubqueues] at h
  | succ n ih =>
    intro fuel2 w p r hle h
    obtain ⟨m, rfl⟩ : ∃ m, fuel2 = m + 1 := ⟨fuel2 - 1, by omega⟩
    cases p with
    | none => simpa [TaskQueue.forSubqueues] using h
    | some q =>
      simp only [TaskQueue.forSubqueues] at h ⊢
      cases ha : act1 w q with
      | none => simp [ha] at h
      | some w1 =>
        simp only [ha] at h
        simp only [hact w q w1 ha]
        exact ih m w1 _ r (by omega) h

theorem cancelWhere_mono (P : TaskContext → Bool) :
    ∀ (fuel fuel2 : Nat) (w : World) (this : Nat) (r : World), fuel ≤ fuel2 →
      cancelWhere P fuel w this = some r → cancelWhere P fuel2 w this = some r := by
  intro fuel
  induction fuel with
  | zero => intro fuel2 w this r _ h; simp [cancelWhere] at h
  | succ n ih =>
    intro fuel2 w this r hle h
    obtain ⟨m, rfl⟩ : ∃ m, fuel2 = m + 1 := ⟨fuel2 - 1, by omega⟩
    unfold cancelWhere at h ⊢
    cases hl : cancelWhereLoop P (n + 1) w (Slot.first this) with
    | none => simp [hl] at h
    | some w1 =>
      simp only [hl] at h
      simp only [cancelWhereLoop_mono P (n + 1) (m + 1) w _ w1 hle hl]
      exact forSubqueues_mono _ _ (fun w2 q r2 h2 => ih m w2 q r2 (by omega) h2)
        (n + 1) (m + 1) w1 _ r hle h

theorem findContextLoop_mono (context : Option Nat) :
    ∀ (fuel fuel2 : Nat) (w : World) (ptr : Slot) (r : Option Slot), fuel ≤ fuel2 →
      TaskQueue.findContextLoop fuel w ptr context = some r →
      TaskQueue.findContextLoop fuel2 w ptr context = some r := by
  intro fuel
  induction fuel with
  | zero => intro fuel2 w ptr r _ h; simp [TaskQueue.findContextLoop] at h
  | succ n ih =>
    intro fuel2 w ptr r hle h
    obtain ⟨m, rfl⟩ : ∃ m, fuel2 = m + 1 := ⟨fuel2 - 1, by omega⟩
    unfold TaskQueue.findContextLoop at h ⊢
    cases hd : deref w ptr with
    | none => simpa [hd] using h
    | some p =>
      simp only [hd] at h ⊢
      split_ifs at h ⊢ with hp
      · exact h
      · exact ih m w _ r (by omega) h

theorem fetchLoop_mono :
    ∀ (fuel fuel2 : Nat) (w : World) (pool : DynamicContextPool) (start : Option Nat)
      (r : Option Nat × DynamicContextPool), fuel ≤ fuel2 →
      DynamicContextPool.fetchLoop fuel w pool start = some r →
      DynamicContextPool.fetchLoop fuel2 w pool start = some r := by
  intro fuel
  induction fuel with
  | zero => intro fuel2 w pool start r _ h; simp [DynamicContextPool.fetchLoop] at h
  | succ n ih =>
    intro fuel2 w pool start r hle h
    obtain ⟨m, rfl⟩ : ∃ m, fuel2 = m + 1 := ⟨fuel2 - 1, by omega⟩
    cases hcur : pool.currentEntry with
    | none => simp [DynamicContextPool.fetchLoop, hcur] at h
    | some e =>
      rw [fetchLoop_step n w pool start e hcur] at h
      rw [fetchLoop_step m w pool start e hcur]
      split_ifs at h ⊢ with h1 h2
      · exact h
      · exact ih m w _ start r (by omega) h
      · exact h

theorem fetchCore_mono {fuel fuel2 : Nat} (hle : fuel ≤ fuel2) {w : World}
    {pool : DynamicContextPool} {r : Option Nat × World}
    (h : DynamicContextPool.fetchCore fuel w pool = some r) :
    DynamicContextPool.fetchCore fuel2 w pool = some r := by
  have key : ∀ pool1 : DynamicContextPool,
      (match DynamicContextPool.fetchLoop fuel w pool1 pool1.currentEntry with
        | none => none
        | some (some context, pool2) =>
          some (some context, { w with contextPool := some pool2 })
        | some (none, pool2) => some (DynamicContextPool.allocate w pool2)) = some r →
      (match DynamicContextPool.fetchLoop fuel2 w pool1 pool1.currentEntry with
        | none => none
        | some (some context, pool2) =>
          some (some context, { w with contextPool := some pool2 })
        | some (none, pool2) => some (DynamicContextPool.allocate w pool2)) = some r := by
    intro pool1 h1
    cases hl : DynamicContextPool.fetchLoop fuel w pool1 pool1.currentEntry with
    | none => simp [hl] at h1
    | some r1 =>
      rw [hl] at h1
      rw [fetchLoop_mono fuel fuel2 w _ _ r1 hle hl]
      exact h1
  unfold DynamicContextPool.fetchCore at h ⊢
  cases hf : pool.firstEntry with
  | none => simpa [hf] using h
  | some e =>
    simp only [hf] at h ⊢
    exact key _ h

theorem enqueueLoop_mono (context : Nat) :
    ∀ (fuel fuel2 : Nat) (w : World) (ptr : Slot) (r : World), fuel ≤ fuel2 →
      TaskDispatcher.enqueueLoop fuel w ptr context = some r →
      TaskDispatcher.enqueueLoop fuel2 w ptr context = some r := by
  intro fuel
  induction fuel with
  | zero => intro fuel2 w ptr r _ h; simp [TaskDispatcher.enqueueLoop] at h
  | succ n ih =>
    intro fuel2 w ptr r hle h
    obtain ⟨m, rfl⟩ : ∃ m, fuel2 = m + 1 := ⟨fuel2 - 1, by omega⟩
    unfold TaskDispatcher.enqueueLoop at h ⊢
    cases hd : deref w ptr with
    | none => simpa [hd] using h
    | some p =>
      simp only [hd] at h ⊢
      split_ifs at h ⊢ with hp
      · exact h
      · exact ih m w _ r (by omega) h

theorem enqueueContext_mono {fuel fuel2 : Nat} (hle : fuel ≤ fuel2) {w : World} {context : Nat}
    {r : World} (h : TaskDispatcher.enqueueContext fuel w context = some r) :
    TaskDispatcher.enqueueContext fuel2 w context = some r :=
  enqueueLoop_mono context fuel fuel2 w _ r hle h

theorem tailLoop_mono :
    ∀ (fuel fuel2 : Nat) (w : World) (ptr : Slot) (r : Slot), fuel ≤ fuel2 →
      EventBarrier.tailLoop fuel w ptr = some r → EventBarrier.tailLoop fuel2 w ptr = some r := by
  intro fuel
  induction fuel with
  | zero => intro fuel2 w ptr r _ h; simp [EventBarrier.tailLoop] at h
  | succ n ih =>
    intro fuel2 w ptr r hle h
    obtain ⟨m, rfl⟩ : ∃ m, fuel2 = m + 1 := ⟨fuel2 - 1, by omega⟩
    unfold EventBarrier.tailLoop at h ⊢
    cases hd : deref w ptr with
    | none => simpa [hd] using h
    | some p =>
      simp only [hd] at h ⊢
      exact ih m w _ r (by omega) h

theorem barrier_recycleContext_mono {fuel fuel2 : Nat} (hle : fuel ≤ fuel2) {w : World}
    {this context : Nat} {r : World}
    (h : EventBarrier.recycleContext fuel w this context = some r) :
    EventBarrier.recycleContext fuel2 w this context = some r := by
  unfold EventBarrier.recycleContext at h ⊢
  cases ht : EventBarrier.tailLoop fuel w (Slot.first this) with
  | none => simp [ht] at h
  | some ptr =>
    rw [ht] at h
    rw [tailLoop_mono fuel fuel2 w _ ptr hle ht]
    exact h

theorem scheduleContext_mono {fuel fuel2 : Nat} (hle : fuel ≤ fuel2) {w : World}
    {context : Nat} {firstInterval nextInterval : Int} {r : World}
    (h : TaskDispatcher.scheduleContext fuel w context firstInterval nextInterval = some r) :
    TaskDispatcher.scheduleContext fuel2 w context firstInterval nextInterval = some r := by
  unfold TaskDispatcher.scheduleContext at h ⊢
  split_ifs at h ⊢ with h1
  · cases hc : TaskContext.cancel fuel w context with
    | none => simp [hc] at h
    | some w1 =>
      rw [hc] at h
      rw [contextCancel_mono hle hc]
      exact enqueueContext_mono hle h
  · exact h

theorem scheduleTarget_mono {fuel fuel2 : Nat} (hle : fuel ≤ fuel2) {w : World}
    {context : Nat} {firstInterval nextInterval : Int} {target : Task} {tag : Option Nat}
    {r : World}
    (h : TaskDispatcher.scheduleTarget fuel w context firstInterval nextInterval target tag
      = some r) :
    TaskDispatcher.scheduleTarget fuel2 w context firstInterval nextInterval target tag
      = some r := by
  unfold TaskDispatcher.scheduleTarget at h ⊢
  split_ifs at h ⊢ with h1
  · exact scheduleContext_mono hle h
  · exact h

theorem onSignalContext_mono {fuel fuel2 : Nat} (hle : fuel ≤ fuel2) {w : World}
    {this context : Nat} {repeat_ : Bool} {r : World}
    (h : EventBarrier.onSignalContext fuel w this context repeat_ = some r) :
    EventBarrier.onSignalContext fuel2 w this context repeat_ = some r := by
  unfold EventBarrier.onSignalContext at h ⊢
  cases hc : TaskContext.cancel fuel w context with
  | none => simp [hc] at h
  | some w1 =>
    rw [hc] at h
    rw [contextCancel_mono hle hc]
    exact barrier_recycleContext_mono hle h

theorem onSignalTarget_mono {fuel fuel2 : Nat} (hle : fuel ≤ fuel2) {w : World}
    {this context : Nat} {target : Task} {tag : Option Nat} {repeat_ : Bool} {r : World}
    (h : EventBarrier.onSignalTarget fuel w this context target tag repeat_ = some r) :
    EventBarrier.onSignalTarget fuel2 w this context target tag repeat_ = some r :=
  onSignalContext_mono hle h

theorem signal_mono {fuel fuel2 : Nat} (hle : fuel ≤ fuel2) {w : World} {this : Nat}
    {r : Bool × World} (h : EventBarrier.signal fuel w this = some r) :
    EventBarrier.signal fuel2 w this = some r := by
  unfold EventBarrier.signal at h ⊢
  cases hf : (w.tq this).firstContext with
  | none => simpa [hf] using h
  | some c =>
    simp only [hf] at h ⊢
    cases hr : TaskDispatcher.recycleContext fuel
        (w.setTq this { w.tq this with firstContext := (w.ctx c).nextContext }) c with
    | none => simp [hr] at h
    | some w2 =>
      rw [hr] at h
      have : TaskDispatcher.recycleContext fuel2
          (w.setTq this { w.tq this with firstContext := (w.ctx c).nextContext }) c
          = some w2 := enqueueContext_mono hle hr
      rw [this]
      exact h

theorem runRearm_mono {fuel fuel2 : Nat} (hle : fuel ≤ fuel2) {w : World}
    {context now dispatchTime : Nat} {r : World}
    (h : TaskDispatcher.runRearm fuel w context now dispatchTime = some r) :
    TaskDispatcher.runRearm fuel2 w context now dispatchTime = some r := by
  unfold TaskDispatcher.runRearm at h ⊢
  split_ifs at h ⊢ with h1
  · cases hf : TaskQueue.findContext fuel w w.dispatcher (some context) with
    | none => simp [hf] at h
    | some s =>
      rw [hf] at h
      have hf2 : TaskQueue.findContext fuel2 w w.dispatcher (some context) = some s :=
        findContextLoop_mono _ fuel fuel2 w _ s hle hf
      rw [hf2]
      cases s with
      | some s1 => exact h
      | none =>
        simp only [] at h ⊢
        split_ifs at h ⊢ with h2
        · cases hn : TaskDispatcher.nextDispatchTime w.schedulingPolicy now w.now dispatchTime
              (w.ctx context).repeatInterval with
          | none => simp [hn] at h
          | some t =>
            simp only [hn] at h ⊢
            exact enqueueContext_mono hle h
        · cases hs : (w.ctx context).signalEvent with
          | none => simpa [hs] using h
          | some ev =>
            simp only [hs] at h ⊢
            exact barrier_recycleContext_mono hle h
  · exact h

theorem run_mono (cb : Callback) {fuel fuel2 : Nat} (hle : fuel ≤ fuel2) {w : World}
    {r : Bool × World} (h : TaskDispatcher.run cb fuel w = some r) :
    TaskDispatcher.run cb fuel2 w = some r := by
  cases hf : (w.tq w.dispatcher).firstContext with
  | none =>
    rw [run_empty cb fuel w hf] at h
    rw [run_empty cb fuel2 w hf]
    exact h
  | some c =>
    by_cases hb : toLong (usub w.now (w.ctx c).dispatchTime) < 0
    · rw [run_not_due cb fuel w c hf hb] at h
      rw [run_not_due cb fuel2 w c hf hb]
      exact h
    · rw [run_due cb fuel w c hf hb] at h
      rw [run_due cb fuel2 w c hf hb]
      cases hc : (if ((TaskDispatcher.runDetach w c).ctx c).target.toBool then
            Task.invoke cb ((TaskDispatcher.runDetach w c).ctx c).target
              (TaskDispatcher.runDetach w c)
          else some (TaskDispatcher.runDetach w c)) with
      | none => simp [hc] at h
      | some w2 =>
        simp only [hc] at h ⊢
        cases hr : TaskDispatcher.runRearm fuel w2 c w.now (w.ctx c).dispatchTime with
        | none => simp [hr] at h
        | some w3 =>
          simp only [hr] at h
          simp only [runRearm_mono hle hr]
          exact h

/-! ## The invariant of the reachable worlds -/

theorem length_le_sum (f : Nat → Nat) (qs : List Nat) (q : Nat) (hq : q ∈ qs) :
    f q ≤ (qs.map f).sum := by
  induction qs with
  | nil => exact absurd hq (List.not_mem_nil _)
  | cons a qs ih =>
    rcases List.mem_cons.mp hq with rfl | h
    · simp
    · have := ih h
      simp
      omega

/-- Fuel that is enough for every loop over the lists. -/
theorem exists_fuel (lists : Nat → List Nat) (qs : List Nat) (k : Nat) :
    ∃ B, ∀ q ∈ qs, 3 * (lists q).length + k < B :=
  ⟨3 * (qs.map (fun q => (lists q).length)).sum + k + 1, fun q hq => by
    have := length_le_sum (fun q => (lists q).length) qs q hq
    simp only [] at this
    omega⟩

/-- The invariant carries over to a world whose links are again consistent and whose pool
and storage are as before. -/
theorem InvAt.frame {bs : List Nat} {w w2 : World} {lists lists2 : Nat → List Nat}
    (hI : InvAt bs w lists) (hL2 : Linked w2 bs lists2) (hPL2 : PendingLinked w2 bs lists2)
    (hpool : w2.contextPool = w.contextPool) (hne : w2.nextEntry = w.nextEntry)
    (hbrk : w2.brk = w.brk)
    (hq : ∀ x, (w2.ctx x).queue ≠ none →
      ((w.ctx x).queue ≠ none ∧ (w2.ctx x).signalEvent = (w.ctx x).signalEvent) ∨
      (x < w.brk ∧ ∀ ev, (w2.ctx x).signalEvent = some ev → ev ∈ bs)) :
    InvAt bs w2 lists2 := by
  obtain ⟨_, _, hP, hF, hE⟩ := hI
  refine ⟨hL2, hPL2, ?_, ?_, ?_⟩
  · intro pool hp
    rw [hpool] at hp
    obtain ⟨es, h1, h2, h3⟩ := hP pool hp
    exact ⟨es, by rw [hne]; exact h1, h2, by rw [hbrk]; exact h3⟩
  · intro x hx
    rw [hbrk] at hx
    by_contra hne2
    rcases hq x hne2 with ⟨h1, _⟩ | ⟨h1, _⟩
    · exact h1 (hF x hx)
    · omega
  · intro x hx ev hev
    rcases hq x hx with ⟨h1, h2⟩ | ⟨_, h2⟩
    · rw [h2] at hev
      exact hE x h1 ev hev
    · exact h2 ev hev

/-- The member `TaskQueue::cancel(context)` keeps the invariant. -/
theorem inv_cancel {bs : List Nat} {w : World} {lists : Nat → List Nat}
    (hI : InvAt bs w lists) {q : Nat} (hq : q ∈ w.dispatcher :: bs) (context fuel : Nat)
    (w2 : World) (h : TaskQueue.cancel fuel w q context = some w2) :
    ∃ lists2, InvAt bs w2 lists2 ∧ w2.brk = w.brk ∧ w2.dispatcher = w.dispatcher ∧
      (∀ x, (w.ctx x).queue = none → (w2.ctx x).queue = none) ∧
      (context ∈ lists q → (w2.ctx context).queue = none) := by
  obtain ⟨B, hB⟩ := exists_fuel lists (w.dispatcher :: bs) 0
  have hm := cancel_mono (Nat.le_add_right fuel B) h
  have hlen : (lists q).length < fuel + B := by have := hB q hq; omega
  by_cases hc : context ∈ lists q
  · obtain ⟨w3, hrun, hL3, hsd, hqs, _⟩ :=
      cancel_linked_present hI.1 hq context hc (fuel + B) hlen
    rw [hrun] at hm
    have := Option.some.inj hm
    subst this
    refine ⟨_, hI.frame hL3 ?_ hsd.2.2.2.1 hsd.2.2.2.2.1 hsd.2.2.2.2.2.1 ?_,
      hsd.2.2.2.2.2.1, hsd.dispatcher, ?_, ?_⟩
    · intro x q2 hx
      rw [hqs x] at hx
      split_ifs at hx with hxc
      obtain ⟨h1, h2⟩ := hI.2.1 x q2 hx
      refine ⟨by rw [hsd.dispatcher]; exact h1, ?_⟩
      by_cases hqq : q2 = q
      · rw [hqq, Function.update_same]
        rw [hqq] at h2
        exact (List.mem_erase_of_ne hxc).mpr h2
      · rw [Function.update_noteq hqq]; exact h2
    · intro x hx
      left
      rw [hqs x] at hx
      split_ifs at hx with hxc
      · exact absurd rfl hx
      · exact ⟨hx, (hsd.ctx x).2.2.2.2⟩
    · intro x hx
      rw [hqs x, hx]
      simp
    · intro _
      rw [hqs context]; simp
  · have hrun := cancel_linked_absent hI.1 hq context hc (fuel + B) hlen
    rw [hrun] at hm
    have := Option.some.inj hm
    subst this
    exact ⟨lists, hI, rfl, rfl, fun _ hx => hx, fun h2 => absurd h2 hc⟩

/-- The member `TaskContext::cancel()` keeps the invariant and leaves the context idle. -/
theorem inv_contextCancel {bs : List Nat} {w : World} {lists : Nat → List Nat}
    (hI : InvAt bs w lists) (context fuel : Nat) (w2 : World)
    (h : TaskContext.cancel fuel w context = some w2) :
    ∃ lists2, InvAt bs w2 lists2 ∧ w2.brk = w.brk ∧ w2.dispatcher = w.dispatcher ∧
      (∀ x, (w.ctx x).queue = none → (w2.ctx x).queue = none) ∧
      (w2.ctx context).queue = none := by
  unfold TaskContext.cancel at h
  cases hq : (w.ctx context).queue with
  | none =>
    simp only [hq] at h
    have := Option.some.inj h
    subst this
    exact ⟨lists, hI, rfl, rfl, fun _ hx => hx, hq⟩
  | some q =>
    simp only [hq] at h
    obtain ⟨hqm, hc⟩ := hI.2.1 context q hq
    obtain ⟨lists2, h1, h2, h3, h4, h5⟩ := inv_cancel hI hqm context fuel w2 h
    exact ⟨lists2, h1, h2, h3, h4, h5 hc⟩

/-- A `cancelAll` keeps the invariant. -/
theorem inv_cancelWhere (P : TaskContext → Bool) (hP : ∀ c, P c = P c.data) {bs : List Nat}
    {w : World} {lists : Nat → List Nat} (hI : InvAt bs w lists) {this : Nat}
    (hthis : this ∈ w.dispatcher :: bs) (fuel : Nat) (w2 : World)
    (h : cancelWhere P fuel w this = some w2) :
    ∃ lists2, InvAt bs w2 lists2 ∧ w2.brk = w.brk ∧ w2.dispatcher = w.dispatcher ∧
      (∀ x, (w.ctx x).queue = none → (w2.ctx x).queue = none) := by
  obtain ⟨B, hB⟩ := exists_fuel lists (w.dispatcher :: bs) (bs.length + 3)
  have hm := cancelWhere_mono P fuel (fuel + B) w this w2 (Nat.le_add_right fuel B) h
  obtain ⟨w3, hrun, hL3, hrem, hkeep, _, hsd⟩ := cancelWhere_scope P hP hI.1 hthis (fuel + B)
    (fun q hq => by have := hB q hq; omega)
    (by have := hB _ (List.mem_cons_self w.dispatcher bs); omega)
  rw [hrun] at hm
  have := Option.some.inj hm
  subst this
  have hscope : ∀ q ∈ cancelScope w bs this, q ∈ w.dispatcher :: bs := by
    intro q hq
    unfold cancelScope at hq
    split_ifs at hq with h
    · exact hq
    · rw [List.mem_singleton.mp hq]; exact hthis
  have hqs : ∀ x, (w3.ctx x).queue ≠ none → (w3.ctx x).queue = (w.ctx x).queue ∧
      ¬ ((∃ q ∈ cancelScope w bs this, x ∈ lists q) ∧ P (w.ctx x) = true) := by
    intro x hx
    by_cases hc : (∃ q ∈ cancelScope w bs this, x ∈ lists q) ∧ P (w.ctx x) = true
    · obtain ⟨⟨q, hq, hxq⟩, hPx⟩ := hc
      exact absurd (hrem q hq x hxq hPx).1 hx
    · exact ⟨hkeep x hc, hc⟩
  refine ⟨_, hI.frame hL3 ?_ hsd.2.2.2.1 hsd.2.2.2.2.1 hsd.2.2.2.2.2.1 ?_,
    hsd.2.2.2.2.2.1, hsd.dispatcher, ?_⟩
  · intro x q hx
    obtain ⟨h1, h2⟩ := hqs x (by rw [hx]; simp)
    rw [h1] at hx
    obtain ⟨h3, h4⟩ := hI.2.1 x q hx
    refine ⟨by rw [hsd.dispatcher]; exact h3, ?_⟩
    by_cases hqs2 : q ∈ cancelScope w bs this
    · simp only [hqs2, if_true]
      refine List.mem_filter.mpr ⟨h4, ?_⟩
      have : ¬ P (w.ctx x) = true := fun hp => h2 ⟨⟨q, hqs2, h4⟩, hp⟩
      simpa using this
    · simp only [hqs2, if_false]
      exact h4
  · intro x hx
    left
    obtain ⟨h1, _⟩ := hqs x hx
    exact ⟨by rw [← h1]; exact hx, (hsd.ctx x).2.2.2.2⟩
  · intro x hx
    by_contra hne
    obtain ⟨h1, _⟩ := hqs x hne
    rw [h1] at hne
    exact hne hx

/-- The caller-provided `schedule(context, firstInterval, nextInterval)` keeps the
invariant. -/
theorem inv_scheduleContext {bs : List Nat} {w : World} {lists : Nat → List Nat}
    (hI : InvAt bs w lists) (context : Nat) (hc : context < w.brk)
    (firstInterval nextInterval : Int) (fuel : Nat) (w2 : World)
    (h : TaskDispatcher.scheduleContext fuel w context firstInterval nextInterval = some w2) :
    ∃ lists2, InvAt bs w2 lists2 ∧ w2.brk = w.brk ∧ w2.dispatcher = w.dispatcher := by
  by_cases hfi : 0 ≤ firstInterval
  · obtain ⟨B, hB⟩ := exists_fuel lists (w.dispatcher :: bs) 0
    have hm := scheduleContext_mono (Nat.le_add_right fuel B) h
    obtain ⟨w3, hrun, hL3, hPL3, hsd, hqs⟩ := scheduleContext_spec hI.1 hI.2.1 context
      firstInterval nextInterval hfi (fuel + B) (fun q hq => by have := hB q hq; omega)
    rw [hrun] at hm
    have := Option.some.inj hm
    subst this
    refine ⟨_, hI.frame hL3 hPL3 hsd.2.2.2.1 hsd.2.2.2.2.1 hsd.2.2.2.2.2.1 ?_,
      hsd.2.2.2.2.2.1, hsd.dispatcher⟩
    intro x hx
    by_cases hxc : x = context
    · right
      subst hxc
      refine ⟨hc, ?_⟩
      intro ev hev
      have := (hsd.ctx x).2.2.2.2
      simp only [World.setCtx, Function.update_same, armed] at this
      rw [this] at hev
      exact absurd hev (by simp)
    · left
      rw [hqs x] at hx
      simp only [hxc, if_false] at hx
      refine ⟨hx, ?_⟩
      have := (hsd.ctx x).2.2.2.2
      simpa [World.setCtx, Function.update_apply, hxc] using this
  · have hge : ¬ firstInterval ≥ 0 := hfi
    simp only [TaskDispatcher.scheduleContext, hge, if_false] at h
    have := Option.some.inj h
    subst this
    exact ⟨lists, hI, rfl, rfl⟩

/-- The caller-provided `schedule(context, firstInterval, nextInterval, target, tag)` keeps
the invariant. -/
theorem inv_scheduleTarget {bs : List Nat} {w : World} {lists : Nat → List Nat}
    (hI : InvAt bs w lists) (context : Nat) (hc : context < w.brk)
    (firstInterval nextInterval : Int) (target : Task) (tag : Option Nat) (fuel : Nat)
    (w2 : World)
    (h : TaskDispatcher.scheduleTarget fuel w context firstInterval nextInterval target tag
      = some w2) :
    ∃ lists2, InvAt bs w2 lists2 ∧ w2.brk = w.brk ∧ w2.dispatcher = w.dispatcher := by
  by_cases hfi : 0 ≤ firstInterval
  · obtain ⟨B, hB⟩ := exists_fuel lists (w.dispatcher :: bs) 0
    have hm := scheduleTarget_mono (Nat.le_add_right fuel B) h
    obtain ⟨w3, hrun, hL3, hPL3, hsd, hqs⟩ := scheduleTarget_spec hI.1 hI.2.1 context
      firstInterval nextInterval hfi target tag (fuel + B)
      (fun q hq => by have := hB q hq; omega)
    rw [hrun] at hm
    have := Option.some.inj hm
    subst this
    refine ⟨_, hI.frame hL3 hPL3 hsd.2.2.2.1 hsd.2.2.2.2.1 hsd.2.2.2.2.2.1 ?_,
      hsd.2.2.2.2.2.1, hsd.dispatcher⟩
    intro x hx
    by_cases hxc : x = context
    · right
      subst hxc
      refine ⟨hc, ?_⟩
      intro ev hev
      have := (hsd.ctx x).2.2.2.2
      simp only [World.setCtx, Function.update_same, armed] at this
      rw [this] at hev
      exact absurd hev (by simp)
    · left
      rw [hqs x] at hx
      simp only [hxc, if_false] at hx
      refine ⟨hx, ?_⟩
      have := (hsd.ctx x).2.2.2.2
      simpa [World.setCtx, Function.update_apply, hxc] using this
  · have hge : ¬ firstInterval ≥ 0 := hfi
    simp only [TaskDispatcher.scheduleTarget, hge, if_false] at h
    have := Option.some.inj h
    subst this
    exact ⟨lists, hI, rfl, rfl⟩

/-- The caller-provided `onSignal(context, target, tag, repeat)` keeps the invariant. -/
theorem inv_onSignalTarget {bs : List Nat} {w : World} {lists : Nat → List Nat}
    (hI : InvAt bs w lists) {b : Nat} (hb : b ∈ bs) (context : Nat) (hc : context < w.brk)
    (target : Task) (tag : Option Nat) (repeat_ : Bool) (fuel : Nat) (w2 : World)
    (h : EventBarrier.onSignalTarget fuel w b context target tag repeat_ = some w2) :
    ∃ lists2, InvAt bs w2 lists2 ∧ w2.brk = w.brk ∧ w2.dispatcher = w.dispatcher := by
  obtain ⟨B, hB⟩ := exists_fuel lists (w.dispatcher :: bs) 0
  have hm := onSignalTarget_mono (Nat.le_add_right fuel B) h
  obtain ⟨w3, hrun, hL3, hPL3, hsd, hqs⟩ := onSignalTarget_spec hI.1 hI.2.1 hb context
    target tag repeat_ (fuel + B) (fun q hq => by have := hB q hq; omega)
  rw [hrun] at hm
  have := Option.some.inj hm
  subst this
  refine ⟨_, hI.frame hL3 hPL3 hsd.2.2.2.1 hsd.2.2.2.2.1 hsd.2.2.2.2.2.1 ?_,
    hsd.2.2.2.2.2.1, hsd.dispatcher⟩
  intro x hx
  by_cases hxc : x = context
  · right
    subst hxc
    refine ⟨hc, ?_⟩
    intro ev hev
    have := (hsd.ctx x).2.2.2.2
    simp only [World.setCtx, Function.update_same] at this
    rw [this] at hev
    split_ifs at hev
    · rw [← Option.some.inj hev]; exact hb
  · left
    rw [hqs x] at hx
    simp only [hxc, if_false] at hx
    refine ⟨hx, ?_⟩
    have := (hsd.ctx x).2.2.2.2
    simpa [World.setCtx, Function.update_apply, hxc] using this

/-- The caller-provided `onSignal(context, repeat)` keeps the invariant. -/
theorem inv_onSignalContext {bs : List Nat} {w : World} {lists : Nat → List Nat}
    (hI : InvAt bs w lists) {b : Nat} (hb : b ∈ bs) (context : Nat) (hc : context < w.brk)
    (repeat_ : Bool) (fuel : Nat) (w2 : World)
    (h : EventBarrier.onSignalContext fuel w b context repeat_ = some w2) :
    ∃ lists2, InvAt bs w2 lists2 ∧ w2.brk = w.brk ∧ w2.dispatcher = w.dispatcher := by
  obtain ⟨B, hB⟩ := exists_fuel lists (w.dispatcher :: bs) 0
  have hm := onSignalContext_mono (Nat.le_add_right fuel B) h
  obtain ⟨w3, hrun, hL3, hPL3, hsd, hqs⟩ := onSignalContext_spec hI.1 hI.2.1 hb context
    repeat_ (fuel + B) (fun q hq => by have := hB q hq; omega)
  rw [hrun] at hm
  have := Option.some.inj hm
  subst this
  refine ⟨_, hI.frame hL3 hPL3 hsd.2.2.2.1 hsd.2.2.2.2.1 hsd.2.2.2.2.2.1 ?_,
    hsd.2.2.2.2.2.1, hsd.dispatcher⟩
  intro x hx
  by_cases hxc : x = context
  · right
    subst hxc
    refine ⟨hc, ?_⟩
    intro ev hev
    have := (hsd.ctx x).2.2.2.2
    simp only [World.setCtx, Function.update_same] at this
    rw [this] at hev
    split_ifs at hev
    · rw [← Option.some.inj hev]; exact hb
  · left
    rw [hqs x] at hx
    simp only [hxc, if_false] at hx
    refine ⟨hx, ?_⟩
    have := (hsd.ctx x).2.2.2.2
    simpa [World.setCtx, Function.update_apply, hxc] using this

/-- A fetch from the pool keeps the invariant and returns an idle context of the pool. -/
theorem inv_fetch {bs : List Nat} {w : World} {lists : Nat → List Nat}
    (hI : InvAt bs w lists) (pool : DynamicContextPool) (hpool : w.contextPool = some pool)
    (eph : EmptyPoolHandler) (fuel : Nat) (r : Option Nat) (w1 : World)
    (h : ContextPool.fetch eph fuel w pool = some (r, w1)) :
    ∃ c, r = some c ∧ InvAt bs w1 lists ∧ c < w1.brk ∧ (w1.ctx c).queue = none ∧
      w1.dispatcher = w.dispatcher := by
  obtain ⟨hL, hPL, hP, hF, hE⟩ := hI
  obtain ⟨es, hes⟩ := hP pool hpool
  have hQ : Quiescent w bs lists es := ⟨hL, hPL, ⟨pool, hpool, hes⟩, hF⟩
  have hm : ContextPool.fetch eph (fuel + (es.length + 1)) w pool = some (r, w1) := by
    rw [fetch_eq_fetchCore] at h ⊢
    exact fetchCore_mono (Nat.le_add_right _ _) h
  obtain ⟨c, w2, es2, hrun, hQ2, hqc, hcb, _, hd, _, _, _, hsame⟩ :=
    fetch_spec hQ pool hpool eph (fuel + (es.length + 1)) (by omega)
  rw [hrun] at hm
  have h1 := Prod.mk.inj (Option.some.inj hm)
  have hw : w2 = w1 := h1.2
  subst hw
  refine ⟨c, h1.1.symm, ⟨hQ2.1, hQ2.2.1, ?_, hQ2.2.2.2, ?_⟩, hcb, hqc, hd⟩
  · intro pool2 hp2
    obtain ⟨pool3, hp3, hok⟩ := hQ2.2.2.1
    rw [hp3] at hp2
    rw [← Option.some.inj hp2]
    exact ⟨es2, hok⟩
  · intro x hx ev hev
    cases hq : (w2.ctx x).queue with
    | none => exact absurd hq hx
    | some q =>
      obtain ⟨hqm, hxm⟩ := hQ2.2.1 x q hq
      rw [hd] at hqm
      have hqw : (w.ctx x).queue = some q := hL.owner hqm hxm
      have hctx := hsame x (by rw [hqw]; simp)
      rw [hctx] at hev
      exact hE x (by rw [hqw]; simp) ev hev

/-- The member `signal()` keeps the invariant. -/
theorem inv_signal {bs : List Nat} {w : World} {lists : Nat → List Nat}
    (hI : InvAt bs w lists) {b : Nat} (hb : b ∈ bs) (fuel : Nat) (r : Bool) (w2 : World)
    (h : EventBarrier.signal fuel w b = some (r, w2)) :
    ∃ lists2, InvAt bs w2 lists2 ∧ w2.brk = w.brk ∧ w2.dispatcher = w.dispatcher := by
  have hbm : b ∈ w.dispatcher :: bs := List.mem_cons_of_mem _ hb
  have hbd : b ≠ w.dispatcher := fun h => hI.1.2.1 (h ▸ hb)
  cases hl : lists b with
  | nil =>
    have hch := hI.1.chain_of_mem hbm
    rw [hl] at hch
    rw [signal_empty fuel w b hch] at h
    have := (Prod.mk.inj (Option.some.inj h)).2
    subst this
    exact ⟨lists, hI, rfl, rfl⟩
  | cons c rest =>
    obtain ⟨B, hB⟩ := exists_fuel lists (w.dispatcher :: bs) 0
    have hm := signal_mono (Nat.le_add_right fuel B) h
    obtain ⟨w3, hrun, hL3, hsd, hqs⟩ := signal_spec hI.1 b hb (fuel + B)
      (by have := hB _ (List.mem_cons_self w.dispatcher bs); omega) c rest hl
    rw [hrun] at hm
    have := (Prod.mk.inj (Option.some.inj hm)).2
    subst this
    have hcm : c ∈ lists b := by rw [hl]; exact List.mem_cons_self _ _
    have hqc : (w.ctx c).queue = some b := hI.1.owner hbm hcm
    refine ⟨_, hI.frame hL3 ?_ hsd.2.2.2.1 hsd.2.2.2.2.1 hsd.2.2.2.2.2.1 ?_,
      hsd.2.2.2.2.2.1, hsd.dispatcher⟩
    · intro x q hx
      rw [hqs x] at hx
      by_cases hxc : x = c
      · subst hxc
        simp only [if_true, Option.some.injEq] at hx
        subst hx
        refine ⟨by rw [hsd.dispatcher]; exact List.mem_cons_self _ _, ?_⟩
        rw [Function.update_same]
        exact (mem_insertByTime _ _ _ _ _).mpr (Or.inl rfl)
      · simp only [hxc, if_false] at hx
        obtain ⟨h1, h2⟩ := hI.2.1 x q hx
        refine ⟨by rw [hsd.dispatcher]; exact h1, ?_⟩
        by_cases hqd : q = w.dispatcher
        · rw [hqd, Function.update_same]
          rw [hqd] at h2
          exact (mem_insertByTime _ _ _ _ _).mpr (Or.inr h2)
        · rw [Function.update_noteq hqd]
          by_cases hqb : q = b
          · rw [hqb, Function.update_same]
            rw [hqb, hl] at h2
            rcases List.mem_cons.mp h2 with h3 | h3
            · exact absurd h3 hxc
            · exact h3
          · rw [Function.update_noteq hqb]; exact h2
    · intro x hx
      left
      by_cases hxc : x = c
      · subst hxc
        refine ⟨by rw [hqc]; simp, ?_⟩
        have := (hsd.ctx x).2.2.2.2
        simpa [World.setCtx] using this
      · rw [hqs x] at hx
        simp only [hxc, if_false] at hx
        refine ⟨hx, ?_⟩
        have := (hsd.ctx x).2.2.2.2
        simpa [World.setCtx, Function.update_apply, hxc] using this

/-- The member `signalAll()` keeps the invariant. -/
theorem inv_signalAll {bs : List Nat} {b : Nat} (hb : b ∈ bs) :
    ∀ (fuel : Nat) (w : World) (lists : Nat → List Nat) (w2 : World), InvAt bs w lists →
      EventBarrier.signalAll fuel w b = some w2 →
      ∃ lists2, InvAt bs w2 lists2 ∧ w2.brk = w.brk ∧ w2.dispatcher = w.dispatcher := by
  intro fuel
  induction fuel with
  | zero => intro w lists w2 _ h; simp [EventBarrier.signalAll] at h
  | succ n ih =>
    intro w lists w2 hI h
    unfold EventBarrier.signalAll at h
    cases hs : EventBarrier.signal (n + 1) w b with
    | none => simp [hs] at h
    | some r =>
      obtain ⟨r1, w1⟩ := r
      obtain ⟨lists1, hI1, hb1, hd1⟩ := inv_signal hI hb (n + 1) r1 w1 hs
      cases r1 with
      | true =>
        simp only [hs] at h
        obtain ⟨lists2, hI2, hb2, hd2⟩ := ih w1 lists1 w2 hI1 h
        exact ⟨lists2, hI2, hb2.trans hb1, hd2.trans hd1⟩
      | false =>
        simp only [hs] at h
        have := Option.some.inj h
        subst this
        exact ⟨lists1, hI1, hb1, hd1⟩

/-- The member `run()` with a callback that leaves the scheduler alone keeps the
invariant. -/
theorem inv_run (cb : Callback) (hcb : Quiet cb) {bs : List Nat} {w : World}
    {lists : Nat → List Nat} (hI : InvAt bs w lists) (fuel : Nat) (r : Bool) (w2 : World)
    (h : TaskDispatcher.run cb fuel w = some (r, w2)) :
    ∃ lists2, InvAt bs w2 lists2 ∧ w2.brk = w.brk ∧ w2.dispatcher = w.dispatcher := by
  have hdm : w.dispatcher ∈ w.dispatcher :: bs := List.mem_cons_self _ _
  have hch := hI.1.dispatcher_chain
  cases hl : lists w.dispatcher with
  | nil =>
    rw [hl] at hch
    rw [run_empty cb fuel w hch] at h
    have := (Prod.mk.inj (Option.some.inj h)).2
    subst this
    exact ⟨lists, hI, rfl, rfl⟩
  | cons c rest =>
    rw [hl] at hch
    by_cases hdue : toLong (usub w.now (w.ctx c).dispatchTime) < 0
    · rw [run_not_due cb fuel w c hch.1 hdue] at h
      have := (Prod.mk.inj (Option.some.inj h)).2
      subst this
      exact ⟨lists, hI, rfl, rfl⟩
    · obtain ⟨B, hB⟩ := exists_fuel lists (w.dispatcher :: bs) 0
      have hm := run_mono cb (Nat.le_add_right fuel B) h
      have hcm : c ∈ lists w.dispatcher := by rw [hl]; exact List.mem_cons_self _ _
      have hqc : (w.ctx c).queue = some w.dispatcher := hI.1.owner hdm hcm
      have hcr : c ∉ rest := follows_not_mem_tail hch
      obtain ⟨_, lists3, hL3, hfr, hcase1, hcase2, hcase3⟩ :=
        run_step_partial cb hcb hI.1 (fuel + B) (fun q hq => by have := hB q hq; omega) c rest
          hl hdue (fun ev hev => hI.2.2.2.2 c (by rw [hqc]; simp) ev hev) r w2 hm
      obtain ⟨hd3, _, hpool3, hne3, hbrk3, _, hoth3, _, _, hse3, _⟩ := hfr
      refine ⟨lists3, hI.frame hL3 ?_ hpool3 hne3 hbrk3 ?_, hbrk3, hd3⟩
      · intro x q hx
        have hmem_other : ∀ l3 : Nat → List Nat, x ≠ c →
            (∀ q2, q2 ≠ w.dispatcher → ∀ y ∈ lists q2, y ∈ l3 q2) →
            (∀ y ∈ rest, y ∈ l3 w.dispatcher) → (w.ctx x).queue = some q →
            q ∈ w2.dispatcher :: bs ∧ x ∈ l3 q := by
          intro l3 hxc h1 h2 hxq
          obtain ⟨h3, h4⟩ := hI.2.1 x q hxq
          refine ⟨by rw [hd3]; exact h3, ?_⟩
          by_cases hqd : q = w.dispatcher
          · rw [hqd]
            rw [hqd, hl] at h4
            rcases List.mem_cons.mp h4 with h5 | h5
            · exact absurd h5 hxc
            · exact h2 x h5
          · exact h1 q hqd x h4
        by_cases hr : 0 ≤ (w.ctx c).repeatInterval
        · obtain ⟨t, hl3, hq3, _⟩ := hcase2 hr
          by_cases hxc : x = c
          · subst hxc
            rw [hq3] at hx
            rw [← Option.some.inj hx, hl3, Function.update_same]
            exact ⟨by rw [hd3]; exact hdm, (mem_insertByTime _ _ _ _ _).mpr (Or.inl rfl)⟩
          · rw [(hoth3 x hxc).1] at hx
            refine hmem_other lists3 hxc ?_ ?_ hx
            · intro q2 hq2 y hy
              rw [hl3, Function.update_noteq hq2]; exact hy
            · intro y hy
              rw [hl3, Function.update_same]
              exact (mem_insertByTime _ _ _ _ _).mpr (Or.inr hy)
        · have hneg : (w.ctx c).repeatInterval < 0 := by omega
          cases hse : (w.ctx c).signalEvent with
          | none =>
            obtain ⟨hl3, hq3⟩ := hcase1 hneg hse
            by_cases hxc : x = c
            · subst hxc
              rw [hq3] at hx
              exact absurd hx (by simp)
            · rw [(hoth3 x hxc).1] at hx
              refine hmem_other lists3 hxc ?_ ?_ hx
              · intro q2 hq2 y hy
                rw [hl3, Function.update_noteq hq2]; exact hy
              · intro y hy
                rw [hl3, Function.update_same]; exact hy
          | some ev =>
            obtain ⟨hl3, hq3⟩ := hcase3 ev hneg hse
            have hevb : ev ∈ bs := hI.2.2.2.2 c (by rw [hqc]; simp) ev hse
            have hevd : ev ≠ w.dispatcher := fun h => hI.1.2.1 (h ▸ hevb)
            by_cases hxc : x = c
            · subst hxc
              rw [hq3] at hx
              rw [← Option.some.inj hx, hl3, Function.update_same]
              exact ⟨by rw [hd3]; exact List.mem_cons_of_mem _ hevb,
                List.mem_append_right _ (List.mem_singleton_self _)⟩
            · rw [(hoth3 x hxc).1] at hx
              refine hmem_other lists3 hxc ?_ ?_ hx
              · intro q2 hq2 y hy
                rw [hl3]
                by_cases hqe : q2 = ev
                · rw [hqe, Function.update_same]
                  rw [hqe] at hy
                  exact List.mem_append_left _ hy
                · rw [Function.update_noteq hqe, Function.update_noteq hq2]; exact hy
              · intro y hy
                rw [hl3, Function.update_noteq (Ne.symm hevd), Function.update_same]
                exact hy
      · intro x hx
        left
        by_cases hxc : x = c
        · subst hxc
          exact ⟨by rw [hqc]; simp, hse3⟩
        · obtain ⟨h1, h2⟩ := hoth3 x hxc
          exact ⟨by rw [← h1]; exact hx, ((TaskContext.data_eq_iff _ _).mp h2).2.2.2.2⟩

/-- The pool-based `schedule` keeps the invariant, whatever the first interval. -/
theorem inv_schedule {bs : List Nat} {w : World} {lists : Nat → List Nat}
    (hI : InvAt bs w lists) (eph : EmptyPoolHandler) (firstInterval nextInterval : Int)
    (target : Task) (tag : Option Nat) (fuel : Nat) (r : Option Nat) (w2 : World)
    (h : TaskDispatcher.schedule eph fuel w firstInterval nextInterval target tag
      = some (r, w2)) :
    ∃ lists2, InvAt bs w2 lists2 := by
  unfold TaskDispatcher.schedule at h
  cases hpool : w.contextPool with
  | none =>
    simp only [hpool] at h
    have := (Prod.mk.inj (Option.some.inj h)).2
    subst this
    exact ⟨lists, hI⟩
  | some pool =>
    simp only [hpool] at h
    cases hf : ContextPool.fetch eph fuel w pool with
    | none => simp [hf] at h
    | some r1 =>
      obtain ⟨c1, w1⟩ := r1
      obtain ⟨c, hc, hI1, hcb, _, hd1⟩ := inv_fetch hI pool hpool eph fuel c1 w1 hf
      subst hc
      simp only [hf] at h
      cases hca : TaskQueue.cancelAllTarget fuel w1 w1.dispatcher target with
      | none => simp [hca] at h
      | some w3 =>
        simp only [hca] at h
        rw [cancelAllTarget_eq] at hca
        obtain ⟨lists3, hI3, hb3, _, _⟩ :=
          inv_cancelWhere (fun c => Task.eq c.target target) (fun _ => rfl) hI1
            (List.mem_cons_self _ _) fuel w3 hca
        cases hs : TaskDispatcher.scheduleTarget fuel w3 c firstInterval nextInterval target
            tag with
        | none => simp [hs] at h
        | some w4 =>
          simp only [hs] at h
          have := (Prod.mk.inj (Option.some.inj h)).2
          subst this
          obtain ⟨lists4, hI4, _⟩ := inv_scheduleTarget hI3 c (by rw [hb3]; exact hcb)
            firstInterval nextInterval target tag fuel w4 hs
          exact ⟨lists4, hI4⟩

/-- The pool-based `onSignal` keeps the invariant. -/
theorem inv_onSignal {bs : List Nat} {w : World} {lists : Nat → List Nat}
    (hI : InvAt bs w lists) (eph : EmptyPoolHandler) {b : Nat} (hb : b ∈ bs) (target : Task)
    (tag : Option Nat) (repeat_ : Bool) (fuel : Nat) (r : Option Nat) (w2 : World)
    (h : EventBarrier.onSignal eph fuel w b target tag repeat_ = some (r, w2)) :
    ∃ lists2, InvAt bs w2 lists2 := by
  unfold EventBarrier.onSignal at h
  cases hpool : w.contextPool with
  | none =>
    simp only [hpool] at h
    have := (Prod.mk.inj (Option.some.inj h)).2
    subst this
    exact ⟨lists, hI⟩
  | some pool =>
    simp only [hpool] at h
    cases hf : ContextPool.fetch eph fuel w pool with
    | none => simp [hf] at h
    | some r1 =>
      obtain ⟨c1, w1⟩ := r1
      obtain ⟨c, hc, hI1, hcb, _, hd1⟩ := inv_fetch hI pool hpool eph fuel c1 w1 hf
      subst hc
      simp only [hf] at h
      cases hca : TaskQueue.cancelAllTarget fuel w1 w1.dispatcher target with
      | none => simp [hca] at h
      | some w3 =>
        simp only [hca] at h
        rw [cancelAllTarget_eq] at hca
        obtain ⟨lists3, hI3, hb3, _, _⟩ :=
          inv_cancelWhere (fun c => Task.eq c.target target) (fun _ => rfl) hI1
            (List.mem_cons_self _ _) fuel w3 hca
        cases hs : EventBarrier.onSignalTarget fuel w3 b c target tag repeat_ with
        | none => simp [hs] at h
        | some w4 =>
          simp only [hs] at h
          have := (Prod.mk.inj (Option.some.inj h)).2
          subst this
          obtain ⟨lists4, hI4, _⟩ := inv_onSignalTarget hI3 hb c (by rw [hb3]; exact hcb)
            target tag repeat_ fuel w4 hs
          exact ⟨lists4, hI4⟩

/-- An empty dispatcher satisfies the invariant. -/
theorem inv_initial {bs : List Nat} {w : World} (h : Initial bs w) :
    InvAt bs w (fun _ => []) := by
  obtain ⟨h1, h2, h3, h4, h5, h6⟩ := h
  refine ⟨⟨h1, h2, h3, fun q hq => h4 q hq, ?_⟩, ?_, ?_, fun x _ => h5 x, ?_⟩
  · intro q _ c hc
    exact absurd hc (List.not_mem_nil _)
  · intro c q hq
    rw [h5 c] at hq
    exact absurd hq (by simp)
  · intro pool hp
    obtain ⟨h7, h8⟩ := h6 pool hp
    exact ⟨[], h7, Or.inl h8, fun e he => absurd he (List.not_mem_nil _)⟩
  · intro c hc
    exact absurd (h5 c) hc

/-- Every call that returns keeps the invariant. -/
theorem inv_step (cb : Callback) (hcb : Quiet cb) {bs : List Nat} {w : World}
    {lists : Nat → List Nat} (hI : InvAt bs w lists) (op : Op) (eph : EmptyPoolHandler)
    (fuel : Nat) (hok : op.ok bs w) (w2 : World) (h : op.apply cb eph fuel w = some w2) :
    ∃ lists2, InvAt bs w2 lists2 := by
  cases op with
  | tick t =>
    have := Option.some.inj h
    subst this
    exact ⟨lists, hI.frame (hI.1.tickFrame t) (hI.2.1.tickPending t) rfl rfl rfl
      (fun x hx => Or.inl ⟨hx, rfl⟩)⟩
  | schedule firstInterval nextInterval target tag =>
    simp only [Op.apply, Option.map_eq_some'] at h
    obtain ⟨⟨r, w3⟩, h1, h2⟩ := h
    simp only [] at h2
    subst h2
    exact inv_schedule hI eph firstInterval nextInterval target tag fuel r w3 h1
  | scheduleTarget context firstInterval nextInterval target tag =>
    obtain ⟨l2, h2, _⟩ := inv_scheduleTarget hI context hok firstInterval nextInterval target
      tag fuel w2 h
    exact ⟨l2, h2⟩
  | scheduleContext context firstInterval nextInterval =>
    obtain ⟨l2, h2, _⟩ := inv_scheduleContext hI context hok firstInterval nextInterval fuel
      w2 h
    exact ⟨l2, h2⟩
  | onSignal b target tag repeat_ =>
    simp only [Op.apply, Option.map_eq_some'] at h
    obtain ⟨⟨r, w3⟩, h1, h2⟩ := h
    simp only [] at h2
    subst h2
    exact inv_onSignal hI eph hok target tag repeat_ fuel r w3 h1
  | onSignalTarget b context target tag repeat_ =>
    obtain ⟨l2, h2, _⟩ := inv_onSignalTarget hI hok.1 context hok.2 target tag repeat_ fuel
      w2 h
    exact ⟨l2, h2⟩
  | onSignalContext b context repeat_ =>
    obtain ⟨l2, h2, _⟩ := inv_onSignalContext hI hok.1 context hok.2 repeat_ fuel w2 h
    exact ⟨l2, h2⟩
  | signal b =>
    simp only [Op.apply, Option.map_eq_some'] at h
    obtain ⟨⟨r, w3⟩, h1, h2⟩ := h
    simp only [] at h2
    subst h2
    obtain ⟨l2, h2, _⟩ := inv_signal hI hok fuel r w3 h1
    exact ⟨l2, h2⟩
  | signalAll b =>
    obtain ⟨l2, h2, _⟩ := inv_signalAll hok fuel w lists w2 hI h
    exact ⟨l2, h2⟩
  | cancel q context =>
    obtain ⟨l2, h2, _⟩ := inv_cancel hI hok context fuel w2 h
    exact ⟨l2, h2⟩
  | contextCancel context =>
    obtain ⟨l2, h2, _⟩ := inv_contextCancel hI context fuel w2 h
    exact ⟨l2, h2⟩
  | cancelAllTarget q target =>
    have h1 : cancelWhere (fun c => Task.eq c.target target) fuel w q = some w2 := by
      rw [← cancelAllTarget_eq]; exact h
    obtain ⟨l2, h2, _⟩ := inv_cancelWhere (fun c => Task.eq c.target target) (fun _ => rfl) hI
      hok fuel w2 h1
    exact ⟨l2, h2⟩
  | cancelAllTag q tag =>
    have h1 : cancelWhere (fun c => decide (c.tag = tag)) fuel w q = some w2 := by
      rw [← cancelAllTag_eq]; exact h
    obtain ⟨l2, h2, _⟩ := inv_cancelWhere (fun c => decide (c.tag = tag)) (fun _ => rfl) hI
      hok fuel w2 h1
    exact ⟨l2, h2⟩
  | cancelAll q =>
    have h1 : cancelWhere (fun _ => true) fuel w q = some w2 := by
      rw [← cancelAll_eq]; exact h
    obtain ⟨l2, h2, _⟩ := inv_cancelWhere (fun _ => true) (fun _ => rfl) hI hok fuel w2 h1
    exact ⟨l2, h2⟩
  | run =>
    simp only [Op.apply, Option.map_eq_some'] at h
    obtain ⟨⟨r, w3⟩, h1, h2⟩ := h
    simp only [] at h2
    subst h2
    obtain ⟨l2, h2, _⟩ := inv_run cb hcb hI fuel r w3 h1
    exact ⟨l2, h2⟩

/-- Every reachable world satisfies the invariant. -/
theorem reachable_inv (cb : Callback) (hcb : Quiet cb) (bs : List Nat) (w : World)
    (h : Reachable cb bs w) : ∃ lists, InvAt bs w lists := by
  induction h with
  | start hinit => exact ⟨_, inv_initial hinit⟩
  | step op eph fuel _ hok happ ih =>
    obtain ⟨lists, hI⟩ := ih
    exact inv_step cb hcb hI op eph fuel hok _ happ

/-! ## Cancellation -/

/-- Claim C14: on a world with well-formed lists, for the dispatcher (whose `cancelAll`
goes on through all its barriers) and for each barrier (which has no subqueues), with
enough fuel: `cancelAll(target)` returns and leaves on every queue visited the old list
without the contexts whose `target` field is `target`, in the old order, so that no context
linked there has that target; every removed context has `queue` and `nextContext` null;
every other context names the queue it named; nothing but links changes.  The same holds
for `cancelAll(tag)` with the tags compared as pointers, and `cancelAll()` leaves every
queue visited with an empty list. -/
theorem cancelAll_recursive_exact {w : World} {bs : List Nat} {lists : Nat → List Nat}
    (hL : Linked w bs lists) {this : Nat} (hthis : this ∈ w.dispatcher :: bs) (fuel : Nat)
    (hfuel : ∀ q ∈ w.dispatcher :: bs, (lists q).length + 2 < fuel)
    (hfuel2 : bs.length + 1 < fuel) :
    (∀ target : Task, ∃ w2, TaskQueue.cancelAllTarget fuel w this target = some w2 ∧
      CancelledWhere (fun c => decide (c.target = target)) w w2 bs lists this ∧
      (∀ q ∈ cancelScope w bs this, ∀ l, chain w2.ctx (w2.tq q).firstContext l →
        ∀ c ∈ l, (w2.ctx c).target ≠ target) ∧
      (∀ q ∈ cancelScope w bs this, ∀ c ∈ lists q, (w.ctx c).target = target →
        (w2.ctx c).queue = none ∧ (w2.ctx c).nextContext = none) ∧
      (∀ q ∈ cancelScope w bs this,
        chain w2.ctx (w2.tq q).firstContext
          ((lists q).filter (fun c => decide ((w.ctx c).target ≠ target))))) ∧
    (∀ tag : Option Nat, ∃ w2, TaskQueue.cancelAllTag fuel w this tag = some w2 ∧
      CancelledWhere (fun c => decide (c.tag = tag)) w w2 bs lists this) ∧
    (∃ w2, TaskQueue.cancelAll fuel w this = some w2 ∧
      CancelledWhere (fun _ => true) w w2 bs lists this ∧
      ∀ q ∈ cancelScope w bs this, (w2.tq q).firstContext = none) := by
  refine ⟨?_, ?_, ?_⟩
  · intro target
    rw [cancelAllTarget_eq]
    have hP : (fun c : TaskContext => Task.eq c.target target)
        = (fun c => decide (c.target = target)) := by
      funext c
      by_cases h : c.target = target
      · rw [decide_eq_true h]; exact (Task.eq_iff _ _).mpr h
      · rw [decide_eq_false h]
        cases hb : Task.eq c.target target with
        | false => rfl
        | true => exact absurd ((Task.eq_iff _ _).mp hb) h
    obtain ⟨w2, hrun, hC⟩ := cancelWhere_scope (fun c => Task.eq c.target target)
      (fun _ => rfl) hL hthis fuel hfuel hfuel2
    rw [hP] at hC
    refine ⟨w2, hrun, hC, ?_, ?_, ?_⟩
    · intro q hq l hl c hc
      exact of_decide_eq_false (hC.2.2.2.1 q hq l hl c hc)
    · intro q hq c hc ht
      exact hC.2.1 q hq c hc (decide_eq_true ht)
    · intro q hq
      have hq2 : q ∈ w2.dispatcher :: bs := by
        rw [hC.2.2.2.2.dispatcher]
        unfold cancelScope at hq
        split_ifs at hq with h
        · exact hq
        · rw [List.mem_singleton.mp hq]; exact hthis
      have hch := hC.1.chain_of_mem hq2
      simp only [hq, if_true] at hch
      have hf : (lists q).filter (fun c => !decide ((w.ctx c).target = target))
          = (lists q).filter (fun c => decide ((w.ctx c).target ≠ target)) := by
        congr 1
        funext c
        simp
      rw [← hf]
      exact hch
  · intro tag
    rw [cancelAllTag_eq]
    exact cancelWhere_scope (fun c => decide (c.tag = tag)) (fun _ => rfl) hL hthis fuel
      hfuel hfuel2
  · rw [cancelAll_eq]
    obtain ⟨w2, hrun, hC⟩ := cancelWhere_scope (fun _ => true) (fun _ => rfl) hL hthis fuel
      hfuel hfuel2
    refine ⟨w2, hrun, hC, ?_⟩
    intro q hq
    have hq2 : q ∈ w2.dispatcher :: bs := by
      rw [hC.2.2.2.2.dispatcher]
      unfold cancelScope at hq
      split_ifs at hq with h
      · exact hq
      · rw [List.mem_singleton.mp hq]; exact hthis
    have hch := hC.1.chain_of_mem hq2
    simp only [hq, if_true] at hch
    simpa using hch

/-- Claim C15: on a world with well-formed lists and with enough fuel,
`TaskQueue::cancel(context)` on a queue that has the context on its list returns, takes
exactly that context off the list (the others stay, in their order, and the other lists
are as before), and leaves its `queue` and `nextContext` null; on a queue that does not
have the context on its list it returns the world unchanged; `TaskContext::cancel()` on an
idle context returns the world unchanged; and after one `TaskContext::cancel()` a second
one changes nothing. -/
theorem cancel_single_context {w : World} {bs : List Nat} {lists : Nat → List Nat}
    (hL : Linked w bs lists) {q : Nat} (hq : q ∈ w.dispatcher :: bs) (context : Nat)
    (fuel : Nat) (hfuel : ∀ q2 ∈ w.dispatcher :: bs, (lists q2).length < fuel) :
    (context ∈ lists q →
      ∃ w2, TaskQueue.cancel fuel w q context = some w2 ∧
        Linked w2 bs (Function.update lists q ((lists q).erase context)) ∧
        (w2.ctx context).queue = none ∧ (w2.ctx context).nextContext = none ∧
        SameData w w2 ∧ (∀ x, x ≠ context → (w2.ctx x).queue = (w.ctx x).queue)) ∧
    (context ∉ lists q → TaskQueue.cancel fuel w q context = some w) ∧
    ((w.ctx context).queue = none → TaskContext.cancel fuel w context = some w) ∧
    ((∀ q2, (w.ctx context).queue = some q2 → q2 ∈ w.dispatcher :: bs) →
      ∃ w2, TaskContext.cancel fuel w context = some w2 ∧
        TaskContext.cancel fuel w2 context = some w2) := by
  refine ⟨?_, ?_, ?_, ?_⟩
  · intro hc
    obtain ⟨w2, hrun, hL2, hsd, hqs, hnx⟩ :=
      cancel_linked_present hL hq context hc fuel (hfuel q hq)
    refine ⟨w2, hrun, hL2, ?_, hnx, hsd, ?_⟩
    · rw [hqs context]; simp
    · intro x hx; rw [hqs x]; simp [hx]
  · intro hc
    exact cancel_linked_absent hL hq context hc fuel (hfuel q hq)
  · intro hidle
    simp [TaskContext.cancel, hidle]
  · intro hknown
    cases hqc : (w.ctx context).queue with
    | none => exact ⟨w, by simp [TaskContext.cancel, hqc], by simp [TaskContext.cancel, hqc]⟩
    | some q2 =>
      have hq2 := hknown q2 hqc
      by_cases hc : context ∈ lists q2
      · obtain ⟨w2, hrun, _, _, hqs, _⟩ :=
          cancel_linked_present hL hq2 context hc fuel (hfuel q2 hq2)
        have hidle : (w2.ctx context).queue = none := by rw [hqs context]; simp
        refine ⟨w2, by simp [TaskContext.cancel, hqc, hrun], by simp [TaskContext.cancel, hidle]⟩
      · have hrun := cancel_linked_absent hL hq2 context hc fuel (hfuel q2 hq2)
        exact ⟨w, by simp [TaskContext.cancel, hqc, hrun], by simp [TaskContext.cancel, hqc, hrun]⟩

/-! ## The order of the list of the dispatcher -/

/-- Inside one window the signed-difference comparison is the comparison of the offsets
from the start of the window. -/
theorem before_iff_of_within (base a b : Nat) (ha : Within base a) (hb : Within base b) :
    before a b = true ↔ usub a base < usub b base := by
  unfold Within usub LONG_HALF ULONG_RANGE at *
  unfold before toLong usub LONG_HALF ULONG_RANGE
  simp only [decide_eq_true_eq]
  split_ifs with h
  · constructor
    · intro h2; omega
    · intro h2; omega
  · constructor
    · intro _; omega
    · intro _; omega

/-- Inserting by time keeps a list ascending when all the dispatch times involved lie in
one window, and puts the new context behind all the contexts that are not later. -/
theorem ascending_insertByTime (ctx : Nat → TaskContext) (base t context : Nat) (l : List Nat)
    (ht : Within base t) (hwin : ∀ x ∈ l, Within base (ctx x).dispatchTime)
    (hasc : Ascending ctx l) (ctx2 : Nat → TaskContext)
    (h2 : ∀ x ∈ l, (ctx2 x).dispatchTime = (ctx x).dispatchTime)
    (h2c : (ctx2 context).dispatchTime = t) :
    Ascending ctx2 (insertByTime ctx t context l) ∧
    (∀ x ∈ l.takeWhile (fun x => !before t (ctx x).dispatchTime),
      before t (ctx x).dispatchTime = false) ∧
    (∀ x ∈ l.dropWhile (fun x => !before t (ctx x).dispatchTime),
      before t (ctx x).dispatchTime = true) := by
  induction l with
  | nil =>
    simp [insertByTime, Ascending]
  | cons y l ih =>
    have hy := hwin y (List.mem_cons_self _ _)
    have hasc2 : Ascending ctx l := (List.pairwise_cons.mp hasc).2
    have hyl := (List.pairwise_cons.mp hasc).1
    obtain ⟨ih1, ih2, ih3⟩ := ih (fun x hx => hwin x (List.mem_cons_of_mem _ hx)) hasc2
      (fun x hx => h2 x (List.mem_cons_of_mem _ hx))
    by_cases hb : before t (ctx y).dispatchTime = true
    · -- the new context goes in front
      have hlt := (before_iff_of_within base _ _ ht hy).mp hb
      have hall : ∀ x ∈ y :: l, before t (ctx x).dispatchTime = true := by
        intro x hx
        rcases List.mem_cons.mp hx with rfl | hx
        · exact hb
        · have hxw := hwin x (List.mem_cons_of_mem _ hx)
          have h1 := hyl x hx
          have h3 : ¬ usub (ctx x).dispatchTime base < usub (ctx y).dispatchTime base := by
            intro h4
            have := (before_iff_of_within base _ _ hxw hy).mpr h4
            rw [h1] at this
            exact Bool.false_ne_true this
          exact (before_iff_of_within base _ _ ht hxw).mpr (by omega)
      refine ⟨?_, ?_, ?_⟩
      · simp only [insertByTime, hb, if_true]
        refine List.pairwise_cons.mpr ⟨?_, ?_⟩
        · intro x hx
          rw [h2c, h2 x hx]
          have hxw := hwin x hx
          have h5 := (before_iff_of_within base _ _ ht hxw).mp (hall x hx)
          cases h6 : before (ctx x).dispatchTime t with
          | false => rfl
          | true =>
            have := (before_iff_of_within base _ _ hxw ht).mp h6
            omega
        · refine List.Pairwise.imp_of_mem ?_ hasc
          intro a b ha hb2 hab
          rw [h2 a ha, h2 b hb2]
          exact hab
      · simp [List.takeWhile, hb]
      · simp only [List.dropWhile, hb, Bool.not_true]
        exact hall
    · have hb2 : before t (ctx y).dispatchTime = false := by
        cases h : before t (ctx y).dispatchTime with
        | false => rfl
        | true => exact absurd h hb
      refine ⟨?_, ?_, ?_⟩
      · simp only [insertByTime, hb2, Bool.false_eq_true, if_false]
        refine List.pairwise_cons.mpr ⟨?_, ih1⟩
        intro x hx
        rcases (mem_insertByTime _ _ _ _ _).mp hx with rfl | hx
        · rw [h2c, h2 y (List.mem_cons_self _ _)]
          exact hb2
        · rw [h2 x (List.mem_cons_of_mem _ hx), h2 y (List.mem_cons_self _ _)]
          exact hyl x hx
      · intro x hx
        simp only [List.takeWhile, hb2, Bool.not_false] at hx
        rcases List.mem_cons.mp hx with rfl | hx
        · exact hb2
        · exact ih2 x hx
      · intro x hx
        simp only [List.dropWhile, hb2, Bool.not_false] at hx
        exact ih3 x hx

/-- Claim C16: let the list of the dispatcher be in ascending order of dispatch time by the
signed-difference comparison, and let the dispatch times of its contexts and of a
context that is on no list all lie in one window shorter than half the tick range (so
that they are less than half the range away from one another).  Then `enqueueContext`
returns, with enough fuel, and splits the old list in two parts, `pre` and `post`, between
which the new context is linked: the new list `pre ++ context :: post` is again in
ascending order, the other contexts keep their places relative to one another, no context
of `pre` is later than the new one, every context of `post` is strictly later, and so
every context whose dispatch time equals that of the new one precedes it.  No dispatch
time changes. -/
theorem enqueue_keeps_time_order {w : World} {bs : List Nat} {lists : Nat → List Nat}
    (hL : Linked w bs lists) (context : Nat)
    (hc : ∀ q ∈ w.dispatcher :: bs, context ∉ lists q) (base : Nat)
    (hwin : ∀ x ∈ context :: lists w.dispatcher, Within base (w.ctx x).dispatchTime)
    (hasc : Ascending w.ctx (lists w.dispatcher)) (fuel : Nat)
    (hfuel : (lists w.dispatcher).length < fuel) :
    ∃ w2 pre post, TaskDispatcher.enqueueContext fuel w context = some w2 ∧
      lists w.dispatcher = pre ++ post ∧
      Linked w2 bs (Function.update lists w.dispatcher (pre ++ context :: post)) ∧
      Ascending w2.ctx (pre ++ context :: post) ∧
      (∀ x ∈ pre, before (w.ctx context).dispatchTime (w.ctx x).dispatchTime = false) ∧
      (∀ x ∈ post, before (w.ctx context).dispatchTime (w.ctx x).dispatchTime = true) ∧
      (∀ x ∈ lists w.dispatcher,
        (w.ctx x).dispatchTime = (w.ctx context).dispatchTime → x ∈ pre) ∧
      (∀ x, (w2.ctx x).dispatchTime = (w.ctx x).dispatchTime) := by
  obtain ⟨w2, hrun, hL2, hsd, _, _⟩ := enqueueContext_linked hL context hc fuel hfuel
  have hdt : ∀ x, (w2.ctx x).dispatchTime = (w.ctx x).dispatchTime := fun x => (hsd.ctx x).2.2.1
  obtain ⟨hA, hpre, hpost⟩ := ascending_insertByTime w.ctx base (w.ctx context).dispatchTime
    context (lists w.dispatcher) (hwin _ (List.mem_cons_self _ _))
    (fun x hx => hwin x (List.mem_cons_of_mem _ hx)) hasc w2.ctx (fun x _ => hdt x)
    (hdt context)
  rw [insertByTime_eq] at hL2 hA
  refine ⟨w2, _, _, hrun, (List.takeWhile_append_dropWhile _ _).symm, hL2, hA, hpre, hpost, ?_,
    hdt⟩
  intro x hx heq
  have hsplit := List.takeWhile_append_dropWhile
    (fun x => !before (w.ctx context).dispatchTime (w.ctx x).dispatchTime) (lists w.dispatcher)
  rw [← hsplit] at hx
  rcases List.mem_append.mp hx with h | h
  · exact h
  · have h1 := hpost x h
    rw [heq] at h1
    have h2 : before (w.ctx context).dispatchTime (w.ctx context).dispatchTime = false := by
      unfold before
      rw [usub_self, toLong_zero]
      decide
    rw [h2] at h1
    exact absurd h1 Bool.false_ne_true

/-! ## Iteration -/

theorem follows_head {next : Nat → Option Nat} {p : Option Nat} {l : List Nat}
    (h : follows next p l) : p = l.head? := by
  cases l with
  | nil => exact h
  | cons c l => exact h.1

/-- The step `++it` from a context whose successor was recorded before the body ran. -/
theorem incr_construct (w w1 : World) (c : Nat) (r : List Nat)
    (hnext : (w.ctx c).nextContext = r.head?) :
    Iterator.incr w1 (Iterator.construct w (some c)) = Iterator.construct w1 r.head? := by
  cases r with
  | nil =>
    simp only [List.head?] at hnext
    simp [Iterator.incr, Iterator.construct, hnext]
  | cons r0 r =>
    simp only [List.head?] at hnext
    simp [Iterator.incr, Iterator.construct, hnext]

/-- A walk from the iterator that stands on the first context of `rem`, the part of the
list still to visit. -/
theorem walk_from (sel : Nat → Removal) (bs : List Nat) (q : Nat) (inner : Nat)
    (rem : List Nat) :
    ∀ (fuel : Nat) (w : World) (lists : Nat → List Nat) (pre : List Nat),
      Linked w bs lists → q ∈ w.dispatcher :: bs → lists q = pre ++ rem →
      rem.length < fuel → (lists q).length < inner →
      ∃ w2, walk sel inner fuel w q (Iterator.construct w rem.head?) = some (rem, w2) ∧
        Linked w2 bs (Function.update lists q
          (pre ++ rem.filter (fun c => decide (sel c = Removal.keep)))) ∧
        SameData w w2 := by
  induction rem with
  | nil =>
    intro fuel w lists pre hL _ hl hfuel _
    obtain ⟨n, rfl⟩ := fuel_succ hfuel
    refine ⟨w, ?_, ?_, SameData.refl w⟩
    · simp [walk, Iterator.eq, Iterator.endIterator, Iterator.construct]
    · refine hL.congr_lists ?_
      intro q2 _
      by_cases h : q2 = q
      · subst h; simp [hl]
      · simp [Function.update_noteq h]
  | cons c r ih =>
    intro fuel w lists pre hL hq hl hfuel hinner
    obtain ⟨n, rfl⟩ := fuel_succ hfuel
    have hch := hL.chain_of_mem hq
    rw [hl] at hch
    have hnd : (pre ++ c :: r).Nodup := follows_nodup hch
    have hcpre : c ∉ pre := by
      intro h
      have := List.nodup_append.mp hnd
      exact this.2.2 h (List.mem_cons_self _ _)
    have hsub := chain_slotAfter w pre (Slot.first q) (c :: r) hch
    have hnext : (w.ctx c).nextContext = r.head? := follows_head hsub.2
    have hcmem : c ∈ lists q := by rw [hl]; simp
    have hwalk : ∀ w1 : World,
        walk sel inner (n + 1) w q (Iterator.construct w (c :: r).head?)
          = match (match sel c with
              | Removal.keep => some w
              | Removal.viaQueue => TaskQueue.cancel inner w q c
              | Removal.viaContext => TaskContext.cancel inner w c) with
            | none => none
            | some w1 =>
              match walk sel inner n w1 q (Iterator.incr w1 (Iterator.construct w (some c))) with
              | none => none
              | some (l, w2) => some (c :: l, w2) := by
      intro _
      simp [walk, Iterator.eq, Iterator.endIterator, Iterator.construct, Iterator.star]
    rw [hwalk w]
    have hcancel : ∃ w1, TaskQueue.cancel inner w q c = some w1 ∧
        Linked w1 bs (Function.update lists q (pre ++ r)) ∧ SameData w w1 := by
      obtain ⟨w1, hrun, hL1, hsd, _⟩ := cancel_linked_present hL hq c hcmem inner hinner
      refine ⟨w1, hrun, ?_, hsd⟩
      have he : (lists q).erase c = pre ++ r := by
        rw [hl, List.erase_append_right _ hcpre, List.erase_cons_head]
      rw [he] at hL1
      exact hL1
    have hremoved : ∀ w1, Linked w1 bs (Function.update lists q (pre ++ r)) → SameData w w1 →
        sel c ≠ Removal.keep →
        ∃ w2, (match walk sel inner n w1 q
              (Iterator.incr w1 (Iterator.construct w (some c))) with
            | none => none
            | some (l, w2) => some (c :: l, w2)) = some (c :: r, w2) ∧
          Linked w2 bs (Function.update lists q
            (pre ++ (c :: r).filter (fun c => decide (sel c = Removal.keep)))) ∧
          SameData w w2 := by
      intro w1 hL1 hsd hne
      rw [incr_construct w w1 c r hnext]
      obtain ⟨w2, hrun2, hL2, hsd2⟩ := ih n w1 (Function.update lists q (pre ++ r)) pre hL1
        (by rw [hsd.dispatcher]; exact hq) (by rw [Function.update_same])
        (by simp at hfuel; omega)
        (by rw [Function.update_same]; rw [hl] at hinner; simp at hinner ⊢; omega)
      refine ⟨w2, by rw [hrun2], ?_, hsd.trans hsd2⟩
      rw [Function.update_idem] at hL2
      simpa [List.filter, hne] using hL2
    cases hs : sel c with
    | keep =>
      simp only []
      rw [incr_construct w w c r hnext]
      obtain ⟨w2, hrun2, hL2, hsd2⟩ := ih n w lists (pre ++ [c]) hL hq
        (by rw [hl]; simp) (by simp at hfuel; omega) hinner
      refine ⟨w2, by rw [hrun2], ?_, hsd2⟩
      simpa [List.filter, hs] using hL2
    | viaQueue =>
      obtain ⟨w1, hrun, hL1, hsd⟩ := hcancel
      simp only [hrun]
      exact hremoved w1 hL1 hsd (by rw [hs]; decide)
    | viaContext =>
      obtain ⟨w1, hrun, hL1, hsd⟩ := hcancel
      have hown : (w.ctx c).queue = some q := hL.owner hq hcmem
      have hrun2 : TaskContext.cancel inner w c = some w1 := by
        simp [TaskContext.cancel, hown, hrun]
      simp only [hrun2]
      exact hremoved w1 hL1 hsd (by rw [hs]; decide)

/-- Claim C20: on a world with well-formed lists, for the dispatcher and each barrier, and
for every choice `sel` of what the body does with each context (leave it, cancel it with
`TaskQueue::cancel` on the queue walked, or cancel it with `TaskContext::cancel`), the walk
from `begin()` to `end()` returns, with enough fuel, and the contexts it yields are exactly
the list the queue had when the walk started: each once, in list order, and the walk ends
after the last.  Afterwards the list holds the contexts that were left alone, in their
order, and nothing but links has changed. -/
theorem iteration_is_removal_safe (sel : Nat → Removal) {w : World} {bs : List Nat}
    {lists : Nat → List Nat} (hL : Linked w bs lists) {q : Nat}
    (hq : q ∈ w.dispatcher :: bs) (inner fuel : Nat) (hinner : (lists q).length < inner)
    (hfuel : (lists q).length < fuel) :
    ∃ w2, walk sel inner fuel w q (Iterator.begin w q) = some (lists q, w2) ∧
      (lists q).Nodup ∧
      Linked w2 bs (Function.update lists q
        ((lists q).filter (fun c => decide (sel c = Removal.keep)))) ∧
      SameData w w2 := by
  have hch := hL.chain_of_mem hq
  have hbegin : Iterator.begin w q = Iterator.construct w (lists q).head? := by
    unfold Iterator.begin
    rw [follows_head hch]
  rw [hbegin]
  obtain ⟨w2, hrun, hL2, hsd⟩ := walk_from sel bs q inner (lists q) fuel w lists [] hL hq
    (by simp) hfuel hinner
  exact ⟨w2, hrun, follows_nodup hch, by simpa using hL2, hsd⟩

/-! ## Reuse of the contexts of the pool -/

theorem takeWhile_ne_split (pre post : List Nat) (s : Nat) (h : s ∉ pre) :
    (pre ++ s :: post).takeWhile (fun e => e != s) = pre ∧
    (pre ++ s :: post).dropWhile (fun e => e != s) = s :: post := by
  induction pre with
  | nil => simp [List.takeWhile, List.dropWhile]
  | cons x pre ih =>
    have hx : x ≠ s := fun h2 => h (h2 ▸ List.mem_cons_self _ _)
    have ih2 := ih (fun h2 => h (List.mem_cons_of_mem _ h2))
    have hb : (x != s) = true := by simpa using hx
    rw [List.cons_append, List.takeWhile_cons, List.dropWhile_cons]
    simp only [hb, if_true]
    exact ⟨by rw [ih2.1], ih2.2⟩

/-- The do-while loop of `fetchCore` returns the first entry of its round that is not
pending, and leaves the cursor on the entry that follows it. -/
theorem fetchLoop_first (w : World) (s c : Nat) (tl : List Nat) (p : List Nat) :
    ∀ (fuel : Nat) (pool : DynamicContextPool) (cur : Nat) (rest : List Nat),
      pool.currentEntry = some cur → cycPath (cyc w pool) cur rest (some s) → s ∉ rest →
      cur :: rest = p ++ c :: tl → (∀ x ∈ p, (w.ctx x).isPending = true) →
      (w.ctx c).isPending = false → p.length < fuel →
      DynamicContextPool.fetchLoop fuel w pool (some s)
        = some (some c, { pool with currentEntry := cyc w pool c }) := by
  induction p with
  | nil =>
    intro fuel pool cur rest hcur _ _ hsplit _ hidle hfuel
    obtain ⟨n, rfl⟩ := fuel_succ hfuel
    have hc : cur = c := by simpa using (List.cons.inj hsplit).1
    subst hc
    rw [fetchLoop_step n w pool (some s) cur hcur]
    simp [hidle]
  | cons x p ih =>
    intro fuel pool cur rest hcur hpath hs hsplit hpend hidle hfuel
    obtain ⟨n, rfl⟩ := fuel_succ hfuel
    have h1 := List.cons.inj hsplit
    have hcx : cur = x := h1.1
    have hrest : rest = p ++ c :: tl := h1.2
    have hp : (w.ctx cur).isPending = true := by
      rw [hcx]; exact hpend x (List.mem_cons_self _ _)
    cases rest with
    | nil => cases p <;> simp at hrest
    | cons y rest2 =>
      obtain ⟨hc, hpath2⟩ := hpath
      have hys : y ≠ s := fun h => hs (h ▸ List.mem_cons_self _ _)
      have hcyc : cyc w { pool with currentEntry := some y } = cyc w pool := by
        funext e; simp [cyc]
      have hstep : DynamicContextPool.fetchLoop (n + 1) w pool (some s)
          = DynamicContextPool.fetchLoop n w { pool with currentEntry := some y } (some s) := by
        rw [fetchLoop_step n w pool (some s) cur hcur]
        simp [hp, hc, hys]
      rw [hstep, ih n { pool with currentEntry := some y } y rest2 rfl
        (by rw [hcyc]; exact hpath2) (fun h => hs (List.mem_cons_of_mem _ h)) hrest
        (fun z hz => hpend z (List.mem_cons_of_mem _ hz)) hidle (by simp at hfuel; omega), hcyc]

/-- The start of `fetchCore` on a pool that has entries: the cursor `s` it starts from, the
round from there, and the loop it enters. -/
theorem fetchCore_enter (w : World) (pool : DynamicContextPool) (es : List Nat)
    (hp : PoolOK w pool es) (hne : es ≠ []) (fuel : Nat) :
    ∃ s pre post, es = pre ++ s :: post ∧ poolRound es pool = s :: post ++ pre ∧
      s ∉ post ++ pre ∧
      ∃ pool1 : DynamicContextPool, pool1.currentEntry = some s ∧
        cyc w pool1 = cyc w pool ∧
        (∀ x, { pool1 with currentEntry := x } = { pool with currentEntry := x }) ∧
        cycPath (cyc w pool1) s (post ++ pre) (some s) ∧
        DynamicContextPool.fetchCore fuel w pool
          = match DynamicContextPool.fetchLoop fuel w pool1 (some s) with
            | none => none
            | some (some context, pool2) =>
              some (some context, { w with contextPool := some pool2 })
            | some (none, pool2) => some (DynamicContextPool.allocate w pool2) := by
  obtain ⟨hfol, hcur, _⟩ := hp
  cases es with
  | nil => exact absurd rfl hne
  | cons e0 es0 =>
    have hfirst : pool.firstEntry = some e0 := hfol.1
    have hnd : (e0 :: es0).Nodup := follows_nodup hfol
    have main : ∀ s pre post, e0 :: es0 = pre ++ s :: post →
        poolRound (e0 :: es0) pool = s :: post ++ pre →
        (if pool.currentEntry = none then
          ({ pool with currentEntry := pool.firstEntry } : DynamicContextPool)
          else pool).currentEntry = some s →
        ∃ s pre post, e0 :: es0 = pre ++ s :: post ∧
          poolRound (e0 :: es0) pool = s :: post ++ pre ∧ s ∉ post ++ pre ∧
          ∃ pool1 : DynamicContextPool, pool1.currentEntry = some s ∧
            cyc w pool1 = cyc w pool ∧
            (∀ x, { pool1 with currentEntry := x } = { pool with currentEntry := x }) ∧
            cycPath (cyc w pool1) s (post ++ pre) (some s) ∧
            DynamicContextPool.fetchCore fuel w pool
              = match DynamicContextPool.fetchLoop fuel w pool1 (some s) with
                | none => none
                | some (some context, pool2) =>
                  some (some context, { w with contextPool := some pool2 })
                | some (none, pool2) => some (DynamicContextPool.allocate w pool2) := by
      intro s pre post hsplit hround hcur1
      have hnd2 : (pre ++ s :: post).Nodup := by rw [← hsplit]; exact hnd
      have hsrest : s ∉ post ++ pre := by
        have h1 := List.nodup_middle.mp hnd2
        have h2 := (List.nodup_cons.mp h1).1
        intro h
        apply h2
        rcases List.mem_append.mp h with h3 | h3
        · exact List.mem_append_right _ h3
        · exact List.mem_append_left _ h3
      have hfirst1 : (if pool.currentEntry = none then
          ({ pool with currentEntry := pool.firstEntry } : DynamicContextPool)
          else pool).firstEntry = pool.firstEntry := by
        split <;> rfl
      have hcyc : cyc w (if pool.currentEntry = none then
          ({ pool with currentEntry := pool.firstEntry } : DynamicContextPool)
          else pool) = cyc w pool := by
        funext e; simp [cyc, hfirst1]
      refine ⟨s, pre, post, hsplit, hround, hsrest, _, hcur1, hcyc, ?_, ?_, ?_⟩
      · intro x; split <;> rfl
      · rw [hcyc]
        exact cycPath_round w pool pre post s (by rw [← hsplit]; exact hfol)
      · rw [← hcur1]
        unfold DynamicContextPool.fetchCore
        rw [hfirst]
    rcases hcur with h | ⟨e, he, h⟩
    · refine main e0 [] es0 rfl ?_ ?_
      · simp [poolRound, h]
      · simp [h, hfirst]
    · obtain ⟨pre, post, hsplit⟩ := List.append_of_mem he
      have hepre : e ∉ pre := by
        rw [hsplit] at hnd
        intro h2
        exact (List.nodup_append.mp hnd).2.2 h2 (List.mem_cons_self _ _)
      refine main e pre post hsplit ?_ ?_
      · have := takeWhile_ne_split pre post e hepre
        simp only [poolRound, h, hsplit, this.1, this.2]
      · simp [h]

/-- When some entry is not pending, `fetchCore` returns the first such entry of its round,
moves the cursor behind it and changes nothing else. -/
theorem fetchCore_first (w : World) (pool : DynamicContextPool) (es : List Nat)
    (hp : PoolOK w pool es) (fuel : Nat) (hfuel : es.length < fuel) (c : Nat)
    (hfind : (poolRound es pool).find? (fun e => !(w.ctx e).isPending) = some c) :
    DynamicContextPool.fetchCore fuel w pool
      = some (some c, { w with contextPool := some { pool with currentEntry := cyc w pool c } })
      := by
  have hne : es ≠ [] := by
    intro h
    subst h
    have : poolRound [] pool = [] := by
      unfold poolRound; cases pool.currentEntry <;> simp
    rw [this] at hfind
    simp at hfind
  obtain ⟨s, pre, post, hsplit, hround, hsrest, pool1, hcur1, hcyc, hset, hpath, hcore⟩ :=
    fetchCore_enter w pool es hp hne fuel
  rw [hround] at hfind
  obtain ⟨hidle, p, tl, hdec, hpend⟩ := List.find?_eq_some.mp hfind
  have hlen : p.length < fuel := by
    have h1 : (s :: post ++ pre).length = (p ++ c :: tl).length := by rw [hdec]
    have h2 : es.length = pre.length + (post.length + 1) := by rw [hsplit]; simp
    simp at h1
    omega
  have hloop := fetchLoop_first w s c tl p fuel pool1 s (post ++ pre) hcur1 hpath hsrest
    (by simpa using hdec) (fun x hx => by simpa using hpend x hx) (by simpa using hidle) hlen
  rw [hcore, hloop, hset, hcyc]

/-- When every entry is pending, `fetchCore` allocates: it returns the storage `new` hands
out and links it at the head of the chain. -/
theorem fetchCore_allocates (w : World) (pool : DynamicContextPool) (es : List Nat)
    (hp : PoolOK w pool es) (fuel : Nat) (hfuel : es.length < fuel)
    (hall : ∀ e ∈ es, (w.ctx e).isPending = true) :
    ∃ w2 pool2, DynamicContextPool.fetchCore fuel w pool = some (some w.brk, w2) ∧
      w2.brk = w.brk + 1 ∧ w2.contextPool = some pool2 ∧ PoolOK w2 pool2 (w.brk :: es) ∧
      (w2.ctx w.brk).isPending = false ∧ (∀ x, x ≠ w.brk → w2.ctx x = w.ctx x) := by
  have halloc : ∀ pool1 : DynamicContextPool, PoolOK w pool1 es →
      ∃ w2 pool2, DynamicContextPool.allocate w pool1 = (some w.brk, w2) ∧
        w2.brk = w.brk + 1 ∧ w2.contextPool = some pool2 ∧ PoolOK w2 pool2 (w.brk :: es) ∧
        (w2.ctx w.brk).isPending = false ∧ (∀ x, x ≠ w.brk → w2.ctx x = w.ctx x) := by
    intro pool1 hp1
    obtain ⟨pool2, h1, h2, _⟩ := allocate_spec w pool1 es hp1
    refine ⟨(DynamicContextPool.allocate w pool1).2, pool2, rfl, rfl, h1, h2, ?_, ?_⟩
    · simp [DynamicContextPool.allocate, TaskContext.construct, TaskContext.isPending]
    · intro x hx
      simp [DynamicContextPool.allocate, Function.update_apply, hx]
  by_cases hne : es = []
  · subst hne
    have hfirst : pool.firstEntry = none := hp.1
    obtain ⟨w2, pool2, h1, h2⟩ := halloc pool hp
    exact ⟨w2, pool2, by simp [DynamicContextPool.fetchCore, hfirst, h1], h2⟩
  · obtain ⟨s, pre, post, hsplit, hround, hsrest, pool1, hcur1, hcyc, hset, hpath, hcore⟩ :=
      fetchCore_enter w pool es hp hne fuel
    have hlen : (post ++ pre).length < fuel := by
      have h2 : es.length = pre.length + (post.length + 1) := by rw [hsplit]; simp
      simp only [List.length_append]
      omega
    have hs : s ∈ es := by rw [hsplit]; simp
    rcases fetchLoop_round w s (post ++ pre) fuel pool1 s hcur1 hpath hsrest hlen with
      ⟨c, pool2, h1, h2, _⟩ | ⟨_, h2⟩
    · exfalso
      have hidle := fetchLoop_idle fuel w pool1 (some s) c pool2 h1
      have hces : c ∈ es := by
        rw [hsplit]
        rcases List.mem_cons.mp h2 with h | h
        · rw [h]; simp
        · rcases List.mem_append.mp h with h | h
          · exact List.mem_append_right _ (List.mem_cons_of_mem _ h)
          · exact List.mem_append_left _ h
      have := hall c hces
      simp [TaskContext.isPending, hidle] at this
    · rw [hcore, h2, hset]
      have hp2 : PoolOK w { pool with currentEntry := some s } es :=
        ⟨hp.1, Or.inr ⟨s, hs, rfl⟩, hp.2.2⟩
      obtain ⟨w2, pool2, h3, h4⟩ := halloc _ hp2
      exact ⟨w2, pool2, by simp only [h3], h4⟩

theorem mem_poolRound (es : List Nat) (pool : DynamicContextPool) (x : Nat) :
    x ∈ poolRound es pool ↔ x ∈ es := by
  unfold poolRound
  cases pool.currentEntry with
  | none => exact Iff.rfl
  | some s =>
    simp only []
    rw [List.mem_append, or_comm, ← List.mem_append, List.takeWhile_append_dropWhile]

theorem nodup_poolRound (es : List Nat) (pool : DynamicContextPool) (h : es.Nodup) :
    (poolRound es pool).Nodup := by
  unfold poolRound
  cases pool.currentEntry with
  | none => exact h
  | some s =>
    simp only []
    rw [List.nodup_append_comm, List.takeWhile_append_dropWhile]
    exact h

/-- With the cursor on the entry that follows `c`, the round ends with `c`. -/
theorem poolRound_after (w : World) (pool : DynamicContextPool) (es : List Nat)
    (hfol : follows w.nextEntry pool.firstEntry es) (c : Nat) (hc : c ∈ es) :
    ∃ X, poolRound es { pool with currentEntry := cyc w pool c } = X ++ [c] := by
  have hnd : es.Nodup := follows_nodup hfol
  obtain ⟨a, b, hsplit⟩ := List.append_of_mem hc
  subst hsplit
  obtain ⟨p2, hp2⟩ := follows_drop hfol
  have hnext : w.nextEntry c = b.head? := follows_head hp2.2
  cases b with
  | nil =>
    have hn : w.nextEntry c = none := hnext
    have hhead : pool.firstEntry = (a ++ [c]).head? := follows_head hfol
    cases hl : a ++ [c] with
    | nil => simp at hl
    | cons s post =>
      rw [hl] at hhead
      have hcur : cyc w pool c = some s := by simp [cyc, hn, hhead]
      refine ⟨a, ?_⟩
      have := takeWhile_ne_split [] post s (by simp)
      simp only [List.nil_append] at this
      simp only [poolRound, hcur, hl, this.1, this.2, List.append_nil]
  | cons b0 b2 =>
    have hn : w.nextEntry c = some b0 := hnext
    have hcur : cyc w pool c = some b0 := by simp [cyc, hn]
    refine ⟨b0 :: b2 ++ a, ?_⟩
    have hb0 : b0 ∉ a ++ [c] := by
      have h1 : ((a ++ [c]) ++ b0 :: b2).Nodup := by simpa using hnd
      intro h2
      exact (List.nodup_append.mp h1).2.2 h2 (List.mem_cons_self _ _)
    have := takeWhile_ne_split (a ++ [c]) b2 b0 hb0
    have he : a ++ c :: b0 :: b2 = (a ++ [c]) ++ b0 :: b2 := by simp
    simp only [poolRound, hcur, he, this.1, this.2]
    simp

/-- Two fetches in a row, with nothing scheduled in between, return different contexts
when two entries are not pending. -/
theorem fetchCore_twice (w : World) (pool : DynamicContextPool) (es : List Nat)
    (hp : PoolOK w pool es) (fuel : Nat) (hfuel : es.length < fuel) (e1 e2 : Nat)
    (h1 : e1 ∈ es) (h2 : e2 ∈ es) (hne : e1 ≠ e2) (hi1 : (w.ctx e1).isPending = false)
    (hi2 : (w.ctx e2).isPending = false) :
    ∃ c1 c2 pool1 w2,
      DynamicContextPool.fetchCore fuel w pool
        = some (some c1, { w with contextPool := some pool1 }) ∧
      DynamicContextPool.fetchCore fuel { w with contextPool := some pool1 } pool1
        = some (some c2, w2) ∧
      c1 ≠ c2 ∧ c1 ∈ es ∧ c2 ∈ es ∧ (w.ctx c1).isPending = false ∧
      (w.ctx c2).isPending = false := by
  have hnd : es.Nodup := follows_nodup hp.1
  -- the first fetch
  have hsome : ((poolRound es pool).find? (fun e => !(w.ctx e).isPending)).isSome = true :=
    List.find?_isSome.mpr ⟨e1, (mem_poolRound es pool e1).mpr h1, by simp [hi1]⟩
  obtain ⟨c1, hc1⟩ := Option.isSome_iff_exists.mp hsome
  have hrun1 := fetchCore_first w pool es hp fuel hfuel c1 hc1
  have hc1es : c1 ∈ es := (mem_poolRound es pool c1).mp (List.mem_of_find?_eq_some hc1)
  have hc1idle : (w.ctx c1).isPending = false := by simpa using List.find?_some hc1
  -- the pool after it
  have hp1 : PoolOK ({ w with contextPool := some { pool with currentEntry := cyc w pool c1 } })
      { pool with currentEntry := cyc w pool c1 } es := by
    refine ⟨hp.1, ?_, hp.2.2⟩
    right
    show ∃ e ∈ es, cyc w pool c1 = some e
    rcases follows_next_mem hp.1 c1 hc1es with h | ⟨n, hn, h⟩
    · cases es with
      | nil => exact absurd hc1es (List.not_mem_nil _)
      | cons e0 es0 =>
        have hfirst : pool.firstEntry = some e0 := hp.1.1
        exact ⟨e0, List.mem_cons_self _ _, by simp [cyc, h, hfirst]⟩
    · exact ⟨n, hn, by simp [cyc, h]⟩
  obtain ⟨X, hX⟩ := poolRound_after w pool es hp.1 c1 hc1es
  have hndX : (X ++ [c1]).Nodup := by
    rw [← hX]; exact nodup_poolRound es _ hnd
  have hc1X : c1 ∉ X := by
    intro h
    exact (List.nodup_append.mp hndX).2.2 h (List.mem_singleton_self _)
  -- another entry that is not pending
  obtain ⟨e, hees, hec, heidle⟩ : ∃ e, e ∈ es ∧ e ≠ c1 ∧ (w.ctx e).isPending = false := by
    by_cases h : e1 = c1
    · exact ⟨e2, h2, fun h3 => hne (h.trans h3.symm), hi2⟩
    · exact ⟨e1, h1, h, hi1⟩
  have heX : e ∈ X := by
    have := (mem_poolRound es { pool with currentEntry := cyc w pool c1 } e).mpr hees
    rw [hX] at this
    rcases List.mem_append.mp this with h | h
    · exact h
    · exact absurd (List.mem_singleton.mp h) hec
  have hsomeX : (X.find? (fun e => !(w.ctx e).isPending)).isSome = true :=
    List.find?_isSome.mpr ⟨e, heX, by simp [heidle]⟩
  obtain ⟨c2, hc2⟩ := Option.isSome_iff_exists.mp hsomeX
  have hc2X : c2 ∈ X := List.mem_of_find?_eq_some hc2
  have hfind2 : (poolRound es { pool with currentEntry := cyc w pool c1 }).find?
      (fun e => !(w.ctx e).isPending) = some c2 := by
    rw [hX, List.find?_append, hc2]
    rfl
  have hrun2 := fetchCore_first _ _ es hp1 fuel hfuel c2 hfind2
  refine ⟨c1, c2, _, _, hrun1, hrun2, ?_, hc1es, ?_, hc1idle, ?_⟩
  · intro h
    rw [h] at hc1X
    exact hc1X hc2X
  · have : c2 ∈ X ++ [c1] := List.mem_append_left _ hc2X
    rw [← hX] at this
    exact (mem_poolRound es _ c2).mp this
  · simpa using List.find?_some hc2

/-- Claim C19: for a well-formed pool with entries `es` and with enough fuel,
`fetchCore` never returns an entry that is pending; when some entry is not pending it
returns the first such entry in the order from the cursor onward (wrapping to the head
of the chain), moves the cursor to the entry that follows it (the head of the chain after
the last entry) and changes nothing else, so it allocates nothing; when two entries are not
pending, two fetches in a row return different entries; and when every entry is pending it
returns the storage `new` hands out next and links it at the head of the chain.  `fetch()`
returns what `fetchCore()` returns. -/
theorem pool_reuses_idle_contexts {w : World} {pool : DynamicContextPool} {es : List Nat}
    (hp : PoolOK w pool es) (eph : EmptyPoolHandler) (fuel : Nat) (hfuel : es.length < fuel) :
    (∀ c w2, DynamicContextPool.fetchCore fuel w pool = some (some c, w2) →
      (w.ctx c).isPending = false ∨ c ∉ es) ∧
    (∀ c, (poolRound es pool).find? (fun e => !(w.ctx e).isPending) = some c →
      DynamicContextPool.fetchCore fuel w pool
        = some (some c,
            { w with contextPool := some { pool with currentEntry := cyc w pool c } })) ∧
    ((∃ e ∈ es, (w.ctx e).isPending = false) →
      ∃ c w2, DynamicContextPool.fetchCore fuel w pool = some (some c, w2) ∧ c ∈ es ∧
        (w.ctx c).isPending = false ∧ w2.brk = w.brk ∧ w2.ctx = w.ctx ∧
        w2.nextEntry = w.nextEntry) ∧
    (∀ e1 ∈ es, ∀ e2 ∈ es, e1 ≠ e2 → (w.ctx e1).isPending = false →
      (w.ctx e2).isPending = false →
      ∃ c1 c2 pool1 w2,
        DynamicContextPool.fetchCore fuel w pool
          = some (some c1, { w with contextPool := some pool1 }) ∧
        DynamicContextPool.fetchCore fuel { w with contextPool := some pool1 } pool1
          = some (some c2, w2) ∧
        c1 ≠ c2) ∧
    ((∀ e ∈ es, (w.ctx e).isPending = true) →
      ∃ w2 pool2, DynamicContextPool.fetchCore fuel w pool = some (some w.brk, w2) ∧
        w.brk ∉ es ∧ w2.brk = w.brk + 1 ∧ w2.contextPool = some pool2 ∧
        PoolOK w2 pool2 (w.brk :: es)) ∧
    ContextPool.fetch eph fuel w pool = DynamicContextPool.fetchCore fuel w pool := by
  refine ⟨?_, ?_, ?_, ?_, ?_, fetch_eq_fetchCore eph fuel w pool⟩
  · intro c w2 h
    rcases fetchCore_result fuel w pool c w2 h with ⟨h1, _⟩ | ⟨h1, _⟩
    · left; simp [TaskContext.isPending, h1]
    · right
      intro hc
      have := hp.2.2 c hc
      omega
  · intro c hc
    exact fetchCore_first w pool es hp fuel hfuel c hc
  · intro ⟨e, he, hidle⟩
    have hsome : ((poolRound es pool).find? (fun e => !(w.ctx e).isPending)).isSome = true :=
      List.find?_isSome.mpr ⟨e, (mem_poolRound es pool e).mpr he, by simp [hidle]⟩
    obtain ⟨c, hc⟩ := Option.isSome_iff_exists.mp hsome
    refine ⟨c, _, fetchCore_first w pool es hp fuel hfuel c hc,
      (mem_poolRound es pool c).mp (List.mem_of_find?_eq_some hc), ?_, rfl, rfl, rfl⟩
    simpa using List.find?_some hc
  · intro e1 h1 e2 h2 hne hi1 hi2
    obtain ⟨c1, c2, pool1, w2, hr1, hr2, hd, _⟩ :=
      fetchCore_twice w pool es hp fuel hfuel e1 e2 h1 h2 hne hi1 hi2
    exact ⟨c1, c2, pool1, w2, hr1, hr2, hd⟩
  · intro hall
    obtain ⟨w2, pool2, hrun, hbrk, hpool, hp2, _⟩ :=
      fetchCore_allocates w pool es hp fuel hfuel hall
    refine ⟨w2, pool2, hrun, ?_, hbrk, hpool, hp2⟩
    intro h
    have := hp.2.2 _ h
    omega

/-! ## Re-arming a context from its own callback -/

/-- Claim C18: let `c` be the head of the list of the dispatcher and due, with a callable
target, whatever its `repeatInterval`, its `signalEvent` and the scheduling policy.  If
its callback lets some ticks pass and then calls `schedule(c, d, n)` with `d ≥ 0`, then
`run()` returns true, with enough fuel, and afterwards `c` is on the list of the
dispatcher exactly once, at the place `enqueueContext` gave it for the dispatch time (tick
at the call of `schedule`) `+ d`, with that dispatch time and `repeatInterval = n`; the
list is otherwise the old one without its head, and `c` is on no other list: `run()` has
neither overwritten the time nor inserted `c` again. -/
theorem reschedule_inside_callback_respected {w : World} {bs : List Nat}
    {lists : Nat → List Nat} (hL : Linked w bs lists) (hPL : PendingLinked w bs lists)
    (c : Nat) (rest : List Nat) (hl : lists w.dispatcher = c :: rest)
    (hdue : ¬ toLong (usub w.now (w.ctx c).dispatchTime) < 0)
    (hf : (w.ctx c).target.toBool = true) (d n : Int) (hd : 0 ≤ d) (ticks inner fuel : Nat)
    (hinner : ∀ q ∈ w.dispatcher :: bs, (lists q).length < inner)
    (hfuel : ∀ q ∈ w.dispatcher :: bs, (lists q).length < fuel) :
    ∃ w3, TaskDispatcher.run (rearmInside inner c d n ticks) fuel w = some (true, w3) ∧
      Linked w3 bs (Function.update lists w.dispatcher
        (insertByTime w.ctx (uadd (uadd w.now ticks) (toULong d)) c rest)) ∧
      PendingLinked w3 bs (Function.update lists w.dispatcher
        (insertByTime w.ctx (uadd (uadd w.now ticks) (toULong d)) c rest)) ∧
      (w3.ctx c).queue = some w.dispatcher ∧
      (w3.ctx c).dispatchTime = uadd (uadd w.now ticks) (toULong d) ∧
      (w3.ctx c).repeatInterval = n ∧
      (insertByTime w.ctx (uadd (uadd w.now ticks) (toULong d)) c rest).count c = 1 ∧
      (∀ q ∈ bs, c ∉ lists q) ∧
      w3.calls = w.calls ++ [(w.ctx c).target] := by
  have hdm : w.dispatcher ∈ w.dispatcher :: bs := List.mem_cons_self _ _
  have hch := hL.dispatcher_chain
  rw [hl] at hch
  have hcr : c ∉ rest := follows_not_mem_tail hch
  have hcm : c ∈ lists w.dispatcher := by rw [hl]; exact List.mem_cons_self _ _
  have hqc : (w.ctx c).queue = some w.dispatcher := hL.owner hdm hcm
  have hcb : ∀ q ∈ bs, c ∉ lists q := by
    intro q hq
    have hqd : w.dispatcher ≠ q := fun h => hL.2.1 (h ▸ hq)
    exact hL.disjoint hdm (List.mem_cons_of_mem _ hq) hqd hcm
  have hscal := runDetach_scalars w c
  have hL1 := runDetach_linked hL c rest hl
  -- the world in which the callback calls `schedule`
  let wi : World := { TaskDispatcher.runDetach w c with
    now := uadd (TaskDispatcher.runDetach w c).now ticks
    calls := (TaskDispatcher.runDetach w c).calls ++ [(w.ctx c).target] }
  have htarget : ((TaskDispatcher.runDetach w c).ctx c).target = (w.ctx c).target := by
    rw [runDetach_ctx_self]
  have hrun : TaskDispatcher.run (rearmInside inner c d n ticks) fuel w
      = match TaskDispatcher.scheduleContext inner wi c d n with
        | none => none
        | some w2 =>
          match TaskDispatcher.runRearm fuel w2 c w.now (w.ctx c).dispatchTime with
          | none => none
          | some w3 => some (true, w3) := by
    rw [run_due _ fuel w c hch.1 hdue, htarget, hf]
    rfl
  have hdi : wi.dispatcher = w.dispatcher := hscal.2.1
  have hnowi : wi.now = uadd w.now ticks := by
    show uadd (TaskDispatcher.runDetach w c).now ticks = _
    rw [hscal.1]
  have hLi : Linked wi bs (Function.update lists w.dispatcher rest) :=
    hL1.congr_world rfl rfl (fun _ => rfl) (fun _ => rfl)
  have hctxi : ∀ x, wi.ctx x = (TaskDispatcher.runDetach w c).ctx x := fun _ => rfl
  have hother : ∀ x, x ≠ c → wi.ctx x = w.ctx x := fun x hx => runDetach_ctx_other w c x hx
  have hknown : ∀ q, (wi.ctx c).queue = some q → q ∈ wi.dispatcher :: bs := by
    intro q hq
    rw [hctxi, runDetach_ctx_self] at hq
    rw [hdi]
    split_ifs at hq with h
    rw [hqc] at hq
    rw [← Option.some.inj hq]
    exact hdm
  have hPLi : ∀ x q, x ≠ c → (wi.ctx x).queue = some q →
      q ∈ wi.dispatcher :: bs ∧ x ∈ Function.update lists w.dispatcher rest q := by
    intro x q hx hq
    rw [hother x hx] at hq
    obtain ⟨hqm, hxm⟩ := hPL x q hq
    refine ⟨by rw [hdi]; exact hqm, ?_⟩
    by_cases hqd : q = w.dispatcher
    · subst hqd
      rw [Function.update_same]
      rw [hl] at hxm
      rcases List.mem_cons.mp hxm with h | h
      · exact absurd h hx
      · exact h
    · rw [Function.update_noteq hqd]; exact hxm
  have hleni : ∀ k : Nat, (∀ q ∈ w.dispatcher :: bs, (lists q).length < k) →
      ∀ q ∈ wi.dispatcher :: bs, (Function.update lists w.dispatcher rest q).length < k := by
    intro k hk q hq
    rw [hdi] at hq
    by_cases hqd : q = w.dispatcher
    · rw [hqd, Function.update_same]
      have := hk _ hdm
      rw [hl] at this
      simp at this
      omega
    · rw [Function.update_noteq hqd]; exact hk q hq
  obtain ⟨w2, hrun2, hL2, hPL2, hsd2, hq2⟩ :=
    scheduleContext_busy hLi c hknown hPLi d n hd inner (hleni inner hinner)
  -- the lists after the callback
  have hd2 : w2.dispatcher = w.dispatcher := hsd2.dispatcher.trans hdi
  have hlists : ∀ q ∈ w.dispatcher :: bs,
      Function.update lists w.dispatcher
          (insertByTime w.ctx (uadd (uadd w.now ticks) (toULong d)) c rest) q
      = scheduledLists wi (Function.update lists w.dispatcher rest) c
          (uadd wi.now (toULong d)) q := by
    intro q hqm
    unfold scheduledLists
    rw [hdi, hnowi]
    by_cases hqd : q = w.dispatcher
    · subst hqd
      simp only [Function.update_same]
      rw [List.erase_of_not_mem hcr]
      refine (insertByTime_congr _ _ _ _ _ ?_).symm
      intro x hx
      rw [hother x (fun h => hcr (h ▸ hx))]
    · simp only [Function.update_noteq hqd]
      rcases List.mem_cons.mp hqm with h | h
      · exact absurd h hqd
      · exact (List.erase_of_not_mem (hcb q h)).symm
  have hPL3 : PendingLinked w2 bs (Function.update lists w.dispatcher
      (insertByTime w.ctx (uadd (uadd w.now ticks) (toULong d)) c rest)) := by
    intro x q hx
    obtain ⟨h1, h2⟩ := hPL2 x q hx
    refine ⟨h1, ?_⟩
    rw [hd2] at h1
    rw [hlists q h1]
    exact h2
  have hL3 : Linked w2 bs (Function.update lists w.dispatcher
      (insertByTime w.ctx (uadd (uadd w.now ticks) (toULong d)) c rest)) := by
    refine hL2.congr_lists ?_
    intro q hq
    rw [hd2] at hq
    exact hlists q hq
  have hc2 := hsd2.ctx c
  simp only [World.setCtx, Function.update_same, armed] at hc2
  have hmem : c ∈ insertByTime w.ctx (uadd (uadd w.now ticks) (toULong d)) c rest :=
    (mem_insertByTime _ _ _ _ _).mpr (Or.inl rfl)
  -- after the callback `run()` finds the context linked and leaves it alone
  have hrearm : TaskDispatcher.runRearm fuel w2 c w.now (w.ctx c).dispatchTime = some w2 := by
    unfold TaskDispatcher.runRearm
    split_ifs with h
    · have hch2 := hL3.dispatcher_chain
      rw [hd2, Function.update_same] at hch2
      rw [← hd2] at hch2
      obtain ⟨s, hs⟩ := findContextLoop_present c _ fuel w2 (Slot.first w2.dispatcher) hch2
        (by
          rw [length_insertByTime]
          have := hfuel _ hdm
          rw [hl] at this
          simpa using this) hmem
      simp only [TaskQueue.findContext, hs]
    · rfl
  refine ⟨w2, ?_, hL3, hPL3, ?_, ?_, hc2.2.2.2.1, ?_, hcb, ?_⟩
  · rw [hrun, hrun2]
    simp only [hrearm]
  · rw [hq2 c, hdi]; simp
  · exact hc2.2.2.1.trans (congrArg (fun t => uadd t (toULong d)) hnowi)
  · have hnd : (insertByTime w.ctx (uadd (uadd w.now ticks) (toULong d)) c rest).Nodup := by
      have := hL3.dispatcher_chain
      rw [hd2, Function.update_same] at this
      exact follows_nodup this
    exact List.count_eq_one_of_mem hnd hmem
  · rw [hsd2.2.2.2.2.2.2.1]
    show (TaskDispatcher.runDetach w c).calls ++ _ = _
    rw [hscal.2.2.2.2.2.2]

/-! ## Waiters on a barrier -/

theorem length_parkedLists (lists : Nat → List Nat) (b context q : Nat) :
    (parkedLists lists b context q).length ≤ (lists q).length + 1 := by
  unfold parkedLists
  have := List.length_erase_le context (lists q)
  by_cases h : q = b
  · subst h
    rw [Function.update_same]
    simp
    omega
  · rw [Function.update_noteq h]
    show ((lists q).erase context).length ≤ _
    omega

/-- Claim C11: on a world with well-formed lists in which the dispatcher has nothing on
its list, let the callback leave the scheduler alone and let `f` be a callable target.
First, when the barrier `B` has no waiter: after `whenever(c, f)` the context `c` is parked
on `B` with `queue = B` and `signalEvent = B`, and for every tick `ts` of `signal()` and
every tick `tr` of `run()` that is not before `ts` (by the signed difference), `signal()`
returns true and `run()` returns true and has called `f` exactly once, and `c` is again
the parked waiter of `B`, with `queue = B` and `signalEvent = B`, and the list of the
dispatcher is empty; a second `signal(); run()` gives the same, so that `f` has been called
exactly twice.  After `when(c, f)` instead, the same `signal(); run()` calls `f` once and
leaves `c` idle and the list of `B` empty.  Second, when `c`, bound to `B` by `whenever`
with the target `f`, is the first waiter of `B` and the waiters `rest` are parked behind
it: `signal(); run()` calls `f` exactly once and leaves the list of `B` as `rest` followed
by `c`, that is `c` parked again at the tail, with `queue = B` and `signalEvent = B`. -/
theorem whenever_waiter_returns (cb : Callback) (hcb : Quiet cb) {w : World} {bs : List Nat}
    {lists : Nat → List Nat} (hL : Linked w bs lists) (hPL : PendingLinked w bs lists)
    {B : Nat} (hB : B ∈ bs) (hd : lists w.dispatcher = []) (c : Nat)
    (f : Task) (hf : f.toBool = true) (tag : Option Nat) (fuel : Nat)
    (hfuel : ∀ q ∈ w.dispatcher :: bs, (lists q).length + 2 < fuel) :
    (lists B = [] →
    (∃ w1, EventBarrier.wheneverTarget fuel w B c f tag = some w1 ∧
      (w1.ctx c).queue = some B ∧ (w1.ctx c).signalEvent = some B ∧
      ∀ ts tr, ¬ toLong (usub tr ts) < 0 →
        ∃ w2 w3, EventBarrier.signal fuel (atTick w1 ts) B = some (true, w2) ∧
          TaskDispatcher.run cb fuel (atTick w2 tr) = some (true, w3) ∧
          w3.calls = w.calls ++ [f] ∧
          chain w3.ctx (w3.tq B).firstContext [c] ∧
          (w3.tq w.dispatcher).firstContext = none ∧
          (w3.ctx c).queue = some B ∧ (w3.ctx c).signalEvent = some B ∧
          ∀ ts2 tr2, ¬ toLong (usub tr2 ts2) < 0 →
            ∃ w4 w5, EventBarrier.signal fuel (atTick w3 ts2) B = some (true, w4) ∧
              TaskDispatcher.run cb fuel (atTick w4 tr2) = some (true, w5) ∧
              w5.calls = w.calls ++ [f, f] ∧
              chain w5.ctx (w5.tq B).firstContext [c] ∧
              (w5.ctx c).queue = some B ∧ (w5.ctx c).signalEvent = some B) ∧
    (∃ w1, EventBarrier.whenTarget fuel w B c f tag = some w1 ∧
      (w1.ctx c).queue = some B ∧ (w1.ctx c).signalEvent = none ∧
      ∀ ts tr, ¬ toLong (usub tr ts) < 0 →
        ∃ w2 w3, EventBarrier.signal fuel (atTick w1 ts) B = some (true, w2) ∧
          TaskDispatcher.run cb fuel (atTick w2 tr) = some (true, w3) ∧
          w3.calls = w.calls ++ [f] ∧ (w3.ctx c).isPending = false ∧
          (w3.tq B).firstContext = none ∧ (w3.tq w.dispatcher).firstContext = none)) ∧
    (∀ rest : List Nat, lists B = c :: rest → (w.ctx c).signalEvent = some B →
      (w.ctx c).target = f → ∀ ts tr, ¬ toLong (usub tr ts) < 0 →
        ∃ w2 w3, EventBarrier.signal fuel (atTick w ts) B = some (true, w2) ∧
          TaskDispatcher.run cb fuel (atTick w2 tr) = some (true, w3) ∧
          w3.calls = w.calls ++ [f] ∧
          Linked w3 bs (Function.update lists B (rest ++ [c])) ∧
          (w3.ctx c).queue = some B ∧ (w3.ctx c).signalEvent = some B) := by
  have hdm : w.dispatcher ∈ w.dispatcher :: bs := List.mem_cons_self _ _
  have hBm : B ∈ w.dispatcher :: bs := List.mem_cons_of_mem _ hB
  have hBd : B ≠ w.dispatcher := fun h => hL.2.1 (h ▸ hB)
  have hlen : ∀ q ∈ w.dispatcher :: bs, (lists q).length < fuel :=
    fun q hq => by have := hfuel q hq; omega
  have hpd : parkedLists lists B c w.dispatcher = [] := by
    unfold parkedLists
    rw [Function.update_noteq (Ne.symm hBd)]
    show (lists w.dispatcher).erase c = []
    rw [hd]; rfl
  have hplen : ∀ w1 : World, w1.dispatcher = w.dispatcher →
      ∀ q ∈ w1.dispatcher :: bs, (parkedLists lists B c q).length + 1 < fuel := by
    intro w1 hd1 q hq
    rw [hd1] at hq
    have := hfuel q hq
    have := length_parkedLists lists B c q
    omega
  refine ⟨fun hBe => ?_, ?_⟩
  swap
  · intro rest hl hse htg ts tr hdue
    obtain ⟨w2, w3, hrun2, hrun3, hcalls3, _, hdata3, _, _, hsome⟩ :=
      event_cycle cb hcb hL hB hd c rest hl
        (by intro ev h; rw [hse] at h; rw [← Option.some.inj h]; exact hB) ts tr hdue fuel
        (fun q hq => by have := hfuel q hq; omega)
    obtain ⟨hL3, hqc3⟩ := hsome B hse
    rw [Function.update_idem, Function.update_same] at hL3
    refine ⟨w2, w3, hrun2, hrun3, ?_, hL3, hqc3, ?_⟩
    · rw [hcalls3, htg]; simp [hf]
    · rw [(hdata3 c).2]; exact hse
  have hpB : parkedLists lists B c B = [c] := by
    unfold parkedLists
    rw [Function.update_same, hBe]; rfl
  refine ⟨?_, ?_⟩
  · obtain ⟨w1, hrun1, hL1, _, hsd1, hq1⟩ :=
      onSignalTarget_spec hL hPL hB c f tag true fuel hlen
    have hd1 : w1.dispatcher = w.dispatcher := hsd1.dispatcher
    have hc1 := hsd1.ctx c
    simp only [World.setCtx, Function.update_same, if_true] at hc1
    have hcalls1 : w1.calls = w.calls := hsd1.2.2.2.2.2.2.1
    refine ⟨w1, hrun1, by rw [hq1 c]; simp, hc1.2.2.2.2, ?_⟩
    intro ts tr hdue
    obtain ⟨w2, w3, hrun2, hrun3, hcalls3, hd3, hL3, hdata3, hq3, _⟩ :=
      whenever_round cb hcb hL1 hB (by rw [hd1]; exact hpd) c hpB hc1.2.2.2.2 ts tr hdue fuel
        (hplen w1 hd1)
    have hcalls3b : w3.calls = w.calls ++ [f] := by
      rw [hcalls3, hc1.1, hcalls1]; simp [hf]
    have hd3w : w3.dispatcher = w.dispatcher := hd3.trans hd1
    have hchB : ∀ w5 : World, w5.dispatcher = w.dispatcher →
        Linked w5 bs (parkedLists lists B c) → chain w5.ctx (w5.tq B).firstContext [c] := by
      intro w5 hd5 hL5
      have := hL5.chain_of_mem (q := B) (by rw [hd5]; exact hBm)
      rwa [hpB] at this
    refine ⟨w2, w3, hrun2, hrun3, hcalls3b, hchB w3 hd3w hL3, ?_, ?_, ?_, ?_⟩
    · have := hL3.dispatcher_chain
      rw [hd3w, hpd] at this
      exact this
    · rw [hq3 c, hq1 c]; simp
    · rw [(hdata3 c).2]; exact hc1.2.2.2.2
    · intro ts2 tr2 hdue2
      obtain ⟨w4, w5, hrun4, hrun5, hcalls5, hd5, hL5, hdata5, hq5, _⟩ :=
        whenever_round cb hcb hL3 hB (by rw [hd3w]; exact hpd) c hpB
          (by rw [(hdata3 c).2]; exact hc1.2.2.2.2) ts2 tr2 hdue2 fuel (hplen w3 hd3w)
      refine ⟨w4, w5, hrun4, hrun5, ?_, hchB w5 (hd5.trans hd3w) hL5, ?_, ?_⟩
      · rw [hcalls5, (hdata3 c).1, hc1.1, hcalls3b]; simp [hf]
      · rw [hq5 c, hq3 c, hq1 c]; simp
      · rw [(hdata5 c).2, (hdata3 c).2]; exact hc1.2.2.2.2
  · obtain ⟨w1, hrun1, hL1, _, hsd1, hq1⟩ :=
      onSignalTarget_spec hL hPL hB c f tag false fuel hlen
    have hd1 : w1.dispatcher = w.dispatcher := hsd1.dispatcher
    have hc1 := hsd1.ctx c
    simp only [World.setCtx, Function.update_same, Bool.false_eq_true, if_false] at hc1
    have hcalls1 : w1.calls = w.calls := hsd1.2.2.2.2.2.2.1
    refine ⟨w1, hrun1, by rw [hq1 c]; simp, hc1.2.2.2.2, ?_⟩
    intro ts tr hdue
    obtain ⟨w2, w3, hrun2, hrun3, hcalls3, hd3, _, _, hnone, _⟩ :=
      event_cycle cb hcb hL1 hB (by rw [hd1]; exact hpd) c [] hpB
        (by intro ev h; rw [hc1.2.2.2.2] at h; exact absurd h (by simp)) ts tr hdue fuel
        (hplen w1 hd1)
    obtain ⟨hL3, hqc3⟩ := hnone hc1.2.2.2.2
    have hd3w : w3.dispatcher = w.dispatcher := hd3.trans hd1
    refine ⟨w2, w3, hrun2, hrun3, ?_, by simp [TaskContext.isPending, hqc3], ?_, ?_⟩
    · rw [hcalls3, hc1.1, hcalls1]; simp [hf]
    · have := hL3.chain_of_mem (q := B) (by rw [hd3w]; exact hBm)
      rw [Function.update_same] at this
      exact this
    · have := hL3.dispatcher_chain
      rw [hd3w, Function.update_noteq (Ne.symm hBd), hpd] at this
      exact this

/-- Claim C12, refuted as stated: on a dispatcher with a pool and one barrier (101) and
nothing scheduled, after `whenever(g)` the sequence `signal(); signal(); run(); run()`
calls `g` once, not twice.  The first `signal()` moves the lone waiter to the dispatcher
and returns true; the second finds no waiter and returns false; the first `run()` calls
`g` and returns true; the second finds the list empty and returns false. -/
theorem second_signal_finds_no_waiter :
    (EventBarrier.whenever none 8
        (barrierWorld 0 SchedulingPolicy.INTERVAL (some (DynamicContextPool.construct 0)))
        101 (fn 1) none).bind (fun r1 =>
      (EventBarrier.signal 8 r1.2 101).bind (fun r2 =>
        (EventBarrier.signal 8 r2.2 101).bind (fun r3 =>
          (TaskDispatcher.run returnAtOnce 8 r3.2).bind (fun r4 =>
            (TaskDispatcher.run returnAtOnce 8 r4.2).map (fun r5 =>
              (r2.1, r3.1, r4.1, r5.1, r5.2.calls))))))
      = some (true, false, true, false, [fn 1]) := by
  decide!

/-- Claim C12, amended: in a quiescent world in which the dispatcher has nothing on its
list and the barrier `B` has no waiter, after the pool-based `whenever(g)` with a callable
`g` and with a callback that leaves the scheduler alone, the first `signal()` returns true,
a second `signal()` finds no waiter, returns false and changes nothing, the `run()` that
follows (at a tick not before that of the first `signal()`) returns true and has called `g`
exactly once, and every later `run()` without another `signal()` returns false and calls
nothing. -/
theorem lone_waiter_fires_once_per_signal (cb : Callback) (hcb : Quiet cb) {w : World}
    {bs : List Nat} {lists : Nat → List Nat} {es : List Nat} (hQ : Quiescent w bs lists es)
    (eph : EmptyPoolHandler) {B : Nat} (hB : B ∈ bs) (hd : lists w.dispatcher = [])
    (hBe : lists B = []) (g : Task) (hg : g.toBool = true) (tag : Option Nat) (fuel : Nat)
    (hfuel : ∀ q ∈ w.dispatcher :: bs, (lists q).length + 2 < fuel)
    (hfuel2 : bs.length + 1 < fuel) (hfuel3 : es.length < fuel) :
    ∃ c w1, EventBarrier.whenever eph fuel w B g tag = some (some c, w1) ∧
      ∀ t1 t2 t3, ¬ toLong (usub t3 t1) < 0 →
        ∃ w2 w3, EventBarrier.signal fuel (atTick w1 t1) B = some (true, w2) ∧
          EventBarrier.signal fuel (atTick w2 t2) B = some (false, atTick w2 t2) ∧
          TaskDispatcher.run cb fuel (atTick w2 t3) = some (true, w3) ∧
          w3.calls = w.calls ++ [g] ∧
          ∀ t, TaskDispatcher.run cb fuel (atTick w3 t) = some (false, atTick w3 t) := by
  have hdm : w.dispatcher ∈ w.dispatcher :: bs := List.mem_cons_self _ _
  have hBm : B ∈ w.dispatcher :: bs := List.mem_cons_of_mem _ hB
  have hBd : B ≠ w.dispatcher := fun h => hQ.1.2.1 (h ▸ hB)
  obtain ⟨c, w1, es1, hrun1, hQ1, _, hq1, htg1, _, hse1, _, _, _, hd1, _, hcalls1, _⟩ :=
    onSignal_spec hQ eph hB g tag true fuel hfuel hfuel2 hfuel3
  have hL1 := hQ1.1
  have hpd : parkedLists (fun q => (lists q).filter (fun x => !Task.eq (w.ctx x).target g)) B c
      w.dispatcher = [] := by
    unfold parkedLists
    rw [Function.update_noteq (Ne.symm hBd)]
    show ((lists w.dispatcher).filter _).erase c = []
    rw [hd]; rfl
  have hpB : parkedLists (fun q => (lists q).filter (fun x => !Task.eq (w.ctx x).target g)) B c
      B = [c] := by
    unfold parkedLists
    rw [Function.update_same]
    show ((lists B).filter _).erase c ++ [c] = [c]
    rw [hBe]; rfl
  refine ⟨c, w1, hrun1, ?_⟩
  intro t1 t2 t3 hdue
  obtain ⟨w2, w3, hrun2, hrun3, hcalls3, hd3, hL3, _, _, hL2, _, hd2⟩ :=
    whenever_round cb hcb hL1 hB (by rw [hd1]; exact hpd) c hpB (by simpa using hse1) t1 t3
      hdue fuel (by
        intro q hq
        rw [hd1] at hq
        have := hfuel q hq
        have h1 := length_parkedLists
          (fun q => (lists q).filter (fun x => !Task.eq (w.ctx x).target g)) B c q
        have h2 := List.length_filter_le (fun x => !Task.eq (w.ctx x).target g) (lists q)
        have h3 : ((fun q => (lists q).filter (fun x => !Task.eq (w.ctx x).target g)) q).length
            ≤ (lists q).length := h2
        omega)
  refine ⟨w2, w3, hrun2, ?_, hrun3, ?_, ?_⟩
  · refine signal_empty fuel (atTick w2 t2) B ?_
    have := hL2.chain_of_mem (q := B) (by rw [hd2, hd1]; exact hBm)
    rw [hd1, Function.update_noteq hBd, Function.update_same] at this
    exact this
  · rw [hcalls3, htg1, hcalls1]; simp [hg]
  · intro t
    refine run_empty cb fuel (atTick w3 t) ?_
    have := hL3.dispatcher_chain
    rw [hd3, hd1, hpd] at this
    show (w3.tq w3.dispatcher).firstContext = none
    rw [hd3, hd1]
    exact this

/-- Claim C17: in every world reached from an empty dispatcher and its empty barriers by
calls that return (pool-based and caller-provided `schedule`, `callAfter`, `callEvery`,
`when`, `whenever`, `signal`, `signalAll`, `cancel`, the three `cancelAll` and `run()`
with a callback that leaves the scheduler alone), in any order and with the clock
changing in between, the dispatcher and each barrier have a well-formed list, and a
context has a non-null `queue` exactly when it is on one of these lists; it is then on
that list once, on no other list, and the list is that of the queue its field names.  In
particular the caller-provided `schedule` of a context parked on a barrier takes it off
the list of that barrier and puts it on the list of the dispatcher. -/
theorem link_consistency_invariant (cb : Callback) (hcb : Quiet cb) (bs : List Nat)
    (w : World) (h : Reachable cb bs w) :
    ∃ lists : Nat → List Nat,
      (∀ q ∈ w.dispatcher :: bs, chain w.ctx (w.tq q).firstContext (lists q)) ∧
      (∀ c, (w.ctx c).queue ≠ none ↔ ∃ q ∈ w.dispatcher :: bs, c ∈ lists q) ∧
      (∀ q ∈ w.dispatcher :: bs, ∀ c ∈ lists q,
        (w.ctx c).queue = some q ∧ (lists q).count c = 1 ∧
        ∀ q2 ∈ w.dispatcher :: bs, q2 ≠ q → c ∉ lists q2) ∧
      (∀ b ∈ bs, ∀ c ∈ lists b, ∀ (firstInterval nextInterval : Int) (fuel : Nat),
        0 ≤ firstInterval → (∀ q ∈ w.dispatcher :: bs, (lists q).length < fuel) →
        ∃ w2 l, TaskDispatcher.scheduleContext fuel w c firstInterval nextInterval = some w2 ∧
          chain w2.ctx (w2.tq b).firstContext ((lists b).erase c) ∧ c ∉ (lists b).erase c ∧
          (w2.ctx c).queue = some w.dispatcher ∧
          chain w2.ctx (w2.tq w.dispatcher).firstContext l ∧ c ∈ l) := by
  obtain ⟨lists, hL, hPL, _⟩ := reachable_inv cb hcb bs w h
  refine ⟨lists, fun q hq => hL.chain_of_mem hq, ?_, ?_, ?_⟩
  · intro c
    constructor
    · intro hc
      cases hq : (w.ctx c).queue with
      | none => exact absurd hq hc
      | some q =>
        obtain ⟨h1, h2⟩ := hPL c q hq
        exact ⟨q, h1, h2⟩
    · intro ⟨q, hq, hc⟩
      rw [hL.owner hq hc]
      simp
  · intro q hq c hc
    refine ⟨hL.owner hq hc, ?_, ?_⟩
    · exact List.count_eq_one_of_mem (follows_nodup (hL.chain_of_mem hq)) hc
    · intro q2 hq2 hne
      exact hL.disjoint hq hq2 (Ne.symm hne) hc
  · intro b hb c hc firstInterval nextInterval fuel hfi hfuel
    have hbm : b ∈ w.dispatcher :: bs := List.mem_cons_of_mem _ hb
    have hbd : b ≠ w.dispatcher := fun h => hL.2.1 (h ▸ hb)
    obtain ⟨w2, hrun, hL2, _, hsd, hqs⟩ :=
      scheduleContext_spec hL hPL c firstInterval nextInterval hfi fuel hfuel
    have hd2 : w2.dispatcher = w.dispatcher := hsd.dispatcher
    refine ⟨w2, scheduledLists w lists c (uadd w.now (toULong firstInterval)) w.dispatcher,
      hrun, ?_, ?_, ?_, ?_, ?_⟩
    · have := hL2.chain_of_mem (q := b) (by rw [hd2]; exact hbm)
      unfold scheduledLists at this
      rw [Function.update_noteq hbd] at this
      exact this
    · intro hmem
      exact ((follows_nodup (hL.chain_of_mem hbm)).mem_erase_iff.mp hmem).1 rfl
    · rw [hqs c]; simp
    · have := hL2.dispatcher_chain
      rw [hd2] at this
      exact this
    · unfold scheduledLists
      rw [Function.update_same]
      exact (mem_insertByTime _ _ _ _ _).mpr (Or.inl rfl)

/-! ## Examples -/

theorem reachable_stepD (cb : Callback) (bs : List Nat) (op : Op) (w : World)
    (h : Reachable cb bs w) (hok : op.ok bs w) (hsome : (op.apply cb none 8 w).isSome = true) :
    Reachable cb bs (stepD cb op w) := by
  obtain ⟨w2, hw2⟩ := Option.isSome_iff_exists.mp hsome
  have : stepD cb op w = w2 := by simp [stepD, hw2]
  rw [this]
  exact Reachable.step op none 8 h hok hw2

/-- In a reachable world every pending context is on the list of its queue. -/
theorem pendingLinked_of_reachable (cb : Callback) (hcb : Quiet cb) {bs : List Nat}
    {w : World} (h : Reachable cb bs w) {lists : Nat → List Nat} (hL : Linked w bs lists) :
    PendingLinked w bs lists := by
  obtain ⟨lists2, hL2, hPL2, _⟩ := reachable_inv cb hcb bs w h
  intro c q hq
  obtain ⟨h1, h2⟩ := hPL2 c q hq
  refine ⟨h1, ?_⟩
  rw [follows_unique (hL.chain_of_mem h1) (hL2.chain_of_mem h1)]
  exact h2

theorem initial_startWorld (now : Nat) (policy : SchedulingPolicy) (poolLimit : Nat) :
    Initial [] (startWorld now policy none) ∧
    Initial [] (startWorld now policy (some (DynamicContextPool.construct poolLimit))) := by
  refine ⟨⟨rfl, by simp, by simp, ?_, fun _ => rfl, ?_⟩, ⟨rfl, by simp, by simp, ?_, fun _ => rfl, ?_⟩⟩
  · intro q _; rfl
  · intro pool h; simp [startWorld] at h
  · intro q _; rfl
  · intro pool h
    simp only [startWorld, Option.some.injEq] at h
    subst h
    exact ⟨rfl, rfl⟩

theorem initial_barrierWorld (now : Nat) (policy : SchedulingPolicy) (poolLimit : Nat) :
    Initial [101] (barrierWorld now policy none) ∧
    Initial [101] (barrierWorld now policy (some (DynamicContextPool.construct poolLimit))) := by
  have hfc : ∀ q ∈ [100, 101], ∀ pool,
      ((barrierWorld now policy pool).tq q).firstContext = none := by
    intro q hq pool
    simp only [List.mem_cons, List.mem_singleton, List.not_mem_nil, or_false] at hq
    rcases hq with rfl | rfl <;> rfl
  have hd : ∀ pool, (barrierWorld now policy pool).dispatcher ∉ [101] := by
    intro pool h
    have : (100 : Nat) ∈ [101] := h
    simp at this
  refine ⟨⟨⟨rfl, rfl⟩, hd _, ?_, fun q hq => hfc q hq _, fun _ => rfl, ?_⟩,
    ⟨⟨rfl, rfl⟩, hd _, ?_, fun q hq => hfc q hq _, fun _ => rfl, ?_⟩⟩
  · intro b hb
    rw [List.mem_singleton.mp hb]; rfl
  · intro pool h; simp [barrierWorld, EventBarrier.construct, World.setTq, startWorld] at h
  · intro b hb
    rw [List.mem_singleton.mp hb]; rfl
  · intro pool h
    simp only [barrierWorld, EventBarrier.construct, World.setTq, startWorld,
      Option.some.injEq] at h
    subst h
    exact ⟨rfl, rfl⟩

theorem whenever_waiter_returns_witness :
    Quiet returnAtOnce ∧
    Linked (barrierWorld 0 SchedulingPolicy.INTERVAL (some (DynamicContextPool.construct 0)))
      [101] (fun _ => []) ∧
    PendingLinked
      (barrierWorld 0 SchedulingPolicy.INTERVAL (some (DynamicContextPool.construct 0)))
      [101] (fun _ => []) ∧
    (fn 1).toBool = true ∧ ¬ toLong (usub 7 5) < 0 ∧ ¬ toLong (usub 9 9) < 0 ∧
    (∃ w1 w2 w3 w4 w5,
      EventBarrier.wheneverTarget 8
        (barrierWorld 0 SchedulingPolicy.INTERVAL (some (DynamicContextPool.construct 0)))
        101 0 (fn 1) none = some w1 ∧
      EventBarrier.signal 8 (atTick w1 5) 101 = some (true, w2) ∧
      TaskDispatcher.run returnAtOnce 8 (atTick w2 7) = some (true, w3) ∧
      w3.calls = [fn 1] ∧ (w3.ctx 0).queue = some 101 ∧ (w3.ctx 0).signalEvent = some 101 ∧
      EventBarrier.signal 8 (atTick w3 9) 101 = some (true, w4) ∧
      TaskDispatcher.run returnAtOnce 8 (atTick w4 9) = some (true, w5) ∧
      w5.calls = [fn 1, fn 1]) ∧
    (∃ w1 w2 w3,
      EventBarrier.whenTarget 8
        (barrierWorld 0 SchedulingPolicy.INTERVAL (some (DynamicContextPool.construct 0)))
        101 0 (fn 1) none = some w1 ∧
      EventBarrier.signal 8 (atTick w1 5) 101 = some (true, w2) ∧
      TaskDispatcher.run returnAtOnce 8 (atTick w2 7) = some (true, w3) ∧
      w3.calls = [fn 1] ∧ (w3.ctx 0).isPending = false) ∧
    Linked cyclingWorld [101] twoWaitersLists ∧ PendingLinked cyclingWorld [101] twoWaitersLists ∧
    twoWaitersLists 101 = [0, 1] ∧ (cyclingWorld.ctx 0).signalEvent = some 101 ∧
    (∃ w2 w3, EventBarrier.signal 8 (atTick cyclingWorld 5) 101 = some (true, w2) ∧
      TaskDispatcher.run returnAtOnce 8 (atTick w2 7) = some (true, w3) ∧
      w3.calls = [fn 1] ∧
      Linked w3 [101] (Function.update twoWaitersLists 101 ([1] ++ [0]))) := by
  have h := whenever_waiter_returns returnAtOnce quiet_returnAtOnce quiescent_barrierWorld.1
    quiescent_barrierWorld.2.1 (show (101 : Nat) ∈ [101] by decide) rfl 0 (fn 1)
    (by decide) none 8 (by decide)
  have hr : Reachable returnAtOnce [101] cyclingWorld := by
    refine reachable_stepD _ _ _ _ ?_ (by decide!) (by decide!)
    refine reachable_stepD _ _ _ _ ?_ (by decide!) (by decide!)
    refine reachable_stepD _ _ _ _ ?_ (by decide!) (by decide!)
    exact Reachable.start (initial_barrierWorld 3 SchedulingPolicy.INTERVAL 0).1
  have hL : Linked cyclingWorld [101] twoWaitersLists := by decide!
  have hPL := pendingLinked_of_reachable returnAtOnce quiet_returnAtOnce hr hL
  have hc := (whenever_waiter_returns returnAtOnce quiet_returnAtOnce hL hPL
    (show (101 : Nat) ∈ [101] by decide) (by decide!) 0 (fn 1) (by decide) none 8
    (by decide!)).2 [1] (by decide!) (by decide!) (by decide!) 5 7 (by decide)
  refine ⟨quiet_returnAtOnce, quiescent_barrierWorld.1, quiescent_barrierWorld.2.1, by decide,
    by decide, by decide, ?_, ?_, hL, hPL, by decide!, by decide!, ?_⟩
  · obtain ⟨w1, h1, _, _, h2⟩ := (h.1 rfl).1
    obtain ⟨w2, w3, h3, h4, h5, _, _, h6, h7, h8⟩ := h2 5 7 (by decide)
    obtain ⟨w4, w5, h9, h10, h11, _⟩ := h8 9 9 (by decide)
    exact ⟨w1, w2, w3, w4, w5, h1, h3, h4, h5, h6, h7, h9, h10, h11⟩
  · obtain ⟨w1, h1, _, _, h2⟩ := (h.1 rfl).2
    obtain ⟨w2, w3, h3, h4, h5, h6, _⟩ := h2 5 7 (by decide)
    exact ⟨w1, w2, w3, h1, h3, h4, h5, h6⟩
  · obtain ⟨w2, w3, h1, h2, h3, h4, _⟩ := hc
    exact ⟨w2, w3, h1, h2, h3, h4⟩

theorem lone_waiter_fires_once_per_signal_witness :
    Quiet returnAtOnce ∧
    Quiescent (barrierWorld 0 SchedulingPolicy.INTERVAL (some (DynamicContextPool.construct 0)))
      [101] (fun _ => []) [] ∧
    (fn 1).toBool = true ∧ ¬ toLong (usub 7 5) < 0 ∧
    (∃ c w1 w2 w3,
      EventBarrier.whenever none 8
        (barrierWorld 0 SchedulingPolicy.INTERVAL (some (DynamicContextPool.construct 0)))
        101 (fn 1) none = some (some c, w1) ∧
      EventBarrier.signal 8 (atTick w1 5) 101 = some (true, w2) ∧
      EventBarrier.signal 8 (atTick w2 6) 101 = some (false, atTick w2 6) ∧
      TaskDispatcher.run returnAtOnce 8 (atTick w2 7) = some (true, w3) ∧
      w3.calls = [fn 1] ∧
      TaskDispatcher.run returnAtOnce 8 (atTick w3 8) = some (false, atTick w3 8) ∧
      TaskDispatcher.run returnAtOnce 8 (atTick w3 9) = some (false, atTick w3 9)) := by
  have h := lone_waiter_fires_once_per_signal returnAtOnce quiet_returnAtOnce
    quiescent_barrierWorld none (show (101 : Nat) ∈ [101] by decide) rfl rfl (fn 1) (by decide)
    none 8 (by decide) (by decide) (by decide)
  refine ⟨quiet_returnAtOnce, quiescent_barrierWorld, by decide, by decide, ?_⟩
  obtain ⟨c, w1, h1, h2⟩ := h
  obtain ⟨w2, w3, h3, h4, h5, h6, h7⟩ := h2 5 6 7 (by decide)
  exact ⟨c, w1, w2, w3, h1, h3, h4, h5, h6, h7 8, h7 9⟩

theorem cancelAll_recursive_exact_witness :
    Linked waitingWorld [101] waitingLists ∧
    (100 : Nat) ∈ waitingWorld.dispatcher :: [101] ∧
    (waitingWorld.ctx 1).target = fn 2 ∧
    (∃ w2, TaskQueue.cancelAllTarget 8 waitingWorld 100 (fn 2) = some w2 ∧
      CancelledWhere (fun c => decide (c.target = fn 2)) waitingWorld w2 [101] waitingLists
        100 ∧
      (w2.ctx 1).queue = none ∧ (w2.ctx 1).nextContext = none ∧
      chain w2.ctx (w2.tq 101).firstContext [0] ∧
      chain w2.ctx (w2.tq 100).firstContext [2]) ∧
    (∃ w2, TaskQueue.cancelAllTag 8 waitingWorld 100 none = some w2 ∧
      CancelledWhere (fun c => decide (c.tag = none)) waitingWorld w2 [101] waitingLists 100) ∧
    (∃ w2, TaskQueue.cancelAll 8 waitingWorld 100 = some w2 ∧
      CancelledWhere (fun _ => true) waitingWorld w2 [101] waitingLists 100 ∧
      ∀ q ∈ cancelScope waitingWorld [101] 100, (w2.tq q).firstContext = none) := by
  have h := @cancelAll_recursive_exact waitingWorld [101] waitingLists (by decide!) 100
    (by decide!) 8 (by decide!) (by decide)
  refine ⟨by decide!, by decide!, by decide!, ?_, h.2.1 none, h.2.2⟩
  obtain ⟨w2, h1, h2, _, h3, h4⟩ := h.1 (fn 2)
  have h5 := h3 101 (by decide!) 1 (by decide!) (by decide!)
  have h6 := h4 101 (by decide!)
  have h7 := h4 100 (by decide!)
  have e1 : (waitingLists 101).filter
      (fun c => decide ((waitingWorld.ctx c).target ≠ fn 2)) = [0] := by decide!
  have e2 : (waitingLists 100).filter
      (fun c => decide ((waitingWorld.ctx c).target ≠ fn 2)) = [2] := by decide!
  rw [e1] at h6
  rw [e2] at h7
  exact ⟨w2, h1, h2, h5.1, h5.2, h6, h7⟩

theorem cancel_single_context_witness :
    Linked waitingWorld [101] waitingLists ∧
    (101 : Nat) ∈ waitingWorld.dispatcher :: [101] ∧ 0 ∈ waitingLists 101 ∧
    2 ∉ waitingLists 101 ∧
    (∃ w2, TaskQueue.cancel 8 waitingWorld 101 0 = some w2 ∧
      Linked w2 [101] (Function.update waitingLists 101 ((waitingLists 101).erase 0)) ∧
      (w2.ctx 0).queue = none ∧ (w2.ctx 0).nextContext = none) ∧
    TaskQueue.cancel 8 waitingWorld 101 2 = some waitingWorld ∧
    (∃ w2, TaskContext.cancel 8 waitingWorld 0 = some w2 ∧
      TaskContext.cancel 8 w2 0 = some w2) := by
  have h := @cancel_single_context waitingWorld [101] waitingLists (by decide!) 101
    (by decide!) 0 8 (by decide!)
  have h2 := @cancel_single_context waitingWorld [101] waitingLists (by decide!) 101
    (by decide!) 2 8 (by decide!)
  refine ⟨by decide!, by decide!, by decide, by decide, ?_, h2.2.1 (by decide), ?_⟩
  · obtain ⟨w2, h3, h4, h5, h6, _⟩ := h.1 (by decide)
    exact ⟨w2, h3, h4, h5, h6⟩
  · exact h.2.2.2 (by decide!)

theorem enqueue_keeps_time_order_witness :
    Linked orderedWorld [] orderedLists ∧
    (∀ x ∈ 2 :: orderedLists orderedWorld.dispatcher,
      Within 0 (orderedWorld.ctx x).dispatchTime) ∧
    Ascending orderedWorld.ctx (orderedLists orderedWorld.dispatcher) ∧
    (∃ w2 pre post, TaskDispatcher.enqueueContext 8 orderedWorld 2 = some w2 ∧
      orderedLists orderedWorld.dispatcher = pre ++ post ∧
      Linked w2 [] (Function.update orderedLists orderedWorld.dispatcher (pre ++ 2 :: post)) ∧
      Ascending w2.ctx (pre ++ 2 :: post)) := by
  have h := @enqueue_keeps_time_order orderedWorld [] orderedLists (by decide!) 2 (by decide!)
    0 (by decide!) (by decide!) 8 (by decide!)
  refine ⟨by decide!, by decide!, by decide!, ?_⟩
  obtain ⟨w2, pre, post, h1, h2, h3, h4, _⟩ := h
  exact ⟨w2, pre, post, h1, h2, h3, h4⟩

theorem link_consistency_invariant_witness :
    Quiet returnAtOnce ∧ Reachable returnAtOnce [101] mixedWorld ∧
    (∃ lists : Nat → List Nat,
      (∀ q ∈ mixedWorld.dispatcher :: [101],
        chain mixedWorld.ctx (mixedWorld.tq q).firstContext (lists q)) ∧
      (∀ c, (mixedWorld.ctx c).queue ≠ none ↔ ∃ q ∈ mixedWorld.dispatcher :: [101],
        c ∈ lists q) ∧
      (∀ q ∈ mixedWorld.dispatcher :: [101], ∀ c ∈ lists q,
        (mixedWorld.ctx c).queue = some q ∧ (lists q).count c = 1 ∧
        ∀ q2 ∈ mixedWorld.dispatcher :: [101], q2 ≠ q → c ∉ lists q2)) := by
  have hr : Reachable returnAtOnce [101] mixedWorld := by
    refine reachable_stepD _ _ _ _ ?_ (by decide!) (by decide!)
    refine reachable_stepD _ _ _ _ ?_ (by decide!) (by decide!)
    refine reachable_stepD _ _ _ _ ?_ (by decide!) (by decide!)
    refine reachable_stepD _ _ _ _ ?_ (by decide!) (by decide!)
    refine reachable_stepD _ _ _ _ ?_ (by decide!) (by decide!)
    exact Reachable.start (initial_barrierWorld 0 SchedulingPolicy.INTERVAL 0).2
  obtain ⟨lists, h1, h2, h3, _⟩ :=
    link_consistency_invariant returnAtOnce quiet_returnAtOnce [101] mixedWorld hr
  exact ⟨quiet_returnAtOnce, hr, lists, h1, h2, h3⟩

theorem reschedule_inside_callback_respected_witness :
    Linked armedWorld [] armedLists ∧ PendingLinked armedWorld [] armedLists ∧
    armedLists armedWorld.dispatcher = [0] ∧
    ¬ toLong (usub armedWorld.now (armedWorld.ctx 0).dispatchTime) < 0 ∧
    (armedWorld.ctx 0).target.toBool = true ∧ (0 : Int) ≤ 5 ∧
    (∃ w3, TaskDispatcher.run (rearmInside 8 0 5 (-1) 2) 8 armedWorld = some (true, w3) ∧
      (w3.ctx 0).queue = some armedWorld.dispatcher ∧
      (w3.ctx 0).dispatchTime = uadd (uadd armedWorld.now 2) (toULong 5) ∧
      (w3.ctx 0).repeatInterval = -1 ∧
      (insertByTime armedWorld.ctx (uadd (uadd armedWorld.now 2) (toULong 5)) 0 []).count 0
        = 1) := by
  have hr : Reachable returnAtOnce [] armedWorld :=
    reachable_stepD _ _ _ _ (Reachable.start (initial_startWorld 0 SchedulingPolicy.TIMING 0).1)
      (by decide!) (by decide!)
  have hL : Linked armedWorld [] armedLists := by decide!
  have hPL := pendingLinked_of_reachable returnAtOnce quiet_returnAtOnce hr hL
  have h := reschedule_inside_callback_respected hL hPL 0 [] (by decide!) (by decide!)
    (by decide!) 5 (-1) (by decide) 2 8 8 (by decide!) (by decide!)
  refine ⟨hL, hPL, by decide!, by decide!, by decide!, by decide, ?_⟩
  obtain ⟨w3, h1, _, _, h2, h3, h4, h5, _⟩ := h
  exact ⟨w3, h1, h2, h3, h4, h5⟩

theorem pool_reuses_idle_contexts_witness :
    PoolOK pooledWorld pooledPool [11, 10] ∧ pooledWorld.contextPool = some pooledPool ∧
    (pooledWorld.ctx 10).isPending = false ∧ (pooledWorld.ctx 11).isPending = true ∧
    (poolRound [11, 10] pooledPool).find? (fun e => !(pooledWorld.ctx e).isPending) = some 10 ∧
    DynamicContextPool.fetchCore 8 pooledWorld pooledPool
      = some (some 10, { pooledWorld with
          contextPool := some { pooledPool with currentEntry := cyc pooledWorld pooledPool 10 } }) ∧
    ContextPool.fetch none 8 pooledWorld pooledPool
      = DynamicContextPool.fetchCore 8 pooledWorld pooledPool := by
  have h := @pool_reuses_idle_contexts pooledWorld pooledPool [11, 10] (by decide!) none 8
    (by decide)
  exact ⟨by decide!, by decide!, by decide!, by decide!, by decide!, h.2.1 10 (by decide!),
    h.2.2.2.2.2⟩

theorem iteration_is_removal_safe_witness :
    Linked waitingWorld [101] waitingLists ∧
    (101 : Nat) ∈ waitingWorld.dispatcher :: [101] ∧
    (∃ w2, walk (fun c => if c = 0 then Removal.viaContext else Removal.keep) 8 8 waitingWorld
        101 (Iterator.begin waitingWorld 101) = some (waitingLists 101, w2) ∧
      (waitingLists 101).Nodup ∧
      Linked w2 [101] (Function.update waitingLists 101
        ((waitingLists 101).filter (fun c =>
          decide ((if c = 0 then Removal.viaContext else Removal.keep) = Removal.keep))))) := by
  have h := @iteration_is_removal_safe
    (fun c => if c = 0 then Removal.viaContext else Removal.keep) waitingWorld [101]
    waitingLists (by decide!) 101 (by decide!) 8 8 (by decide!) (by decide!)
  refine ⟨by decide!, by decide!, ?_⟩
  obtain ⟨w2, h1, h2, h3, _⟩ := h
  exact ⟨w2, h1, h2, h3⟩

/-! ## The arithmetic of the periodic re-arm -/

/-- Claim C21, at the inputs where the code departs from it.  The policy switch of `run()`
takes a remainder by zero exactly when the policy is TIMING, the interval is 0 and the
tick read after the callback is later than the time that fired: for every other policy,
interval and pair of ticks the next dispatch time is defined.  The interval 0 is accepted
by the scheduling entry points: the pool-based `callEvery(0, f)` on a dispatcher under
TIMING returns a context armed with `repeatInterval = 0`, and `run()` at the tick of the
call, with a callback that takes three ticks, does not return a result, while under
INTERVAL and under CYCLE the same calls return true. -/
theorem timing_rearm_divides_by_zero :
    (∀ (policy : SchedulingPolicy) (then_ now dispatchTime : Nat) (r : Int),
      TaskDispatcher.nextDispatchTime policy then_ now dispatchTime r = none ↔
        (policy = SchedulingPolicy.TIMING ∧ r = 0 ∧
          0 < toLong (usub now (uadd dispatchTime (toULong r))))) ∧
    TaskDispatcher.nextDispatchTime SchedulingPolicy.TIMING 0 3 0 0 = none ∧
    (∃ w1, TaskDispatcher.callEvery none 8
        (startWorld 0 SchedulingPolicy.TIMING (some (DynamicContextPool.construct 0)))
        0 (fn 1) none = some (some 10, w1) ∧
      (w1.tq w1.dispatcher).firstContext = some 10 ∧
      (w1.ctx 10).repeatInterval = 0 ∧ (w1.ctx 10).dispatchTime = 0 ∧ w1.now = 0 ∧
      (TaskDispatcher.run (returnAfter 3) 8 w1).isNone = true) ∧
    (∀ policy ∈ [SchedulingPolicy.INTERVAL, SchedulingPolicy.CYCLE],
      ((TaskDispatcher.callEvery none 8
          (startWorld 0 policy (some (DynamicContextPool.construct 0)))
          0 (fn 1) none).bind (fun r1 =>
        (TaskDispatcher.run (returnAfter 3) 8 r1.2).map (fun r2 =>
          (r2.1, (r2.2.ctx 10).dispatchTime, r2.2.calls)))) = some (true, 3, [fn 1])) := by
  refine ⟨?_, by decide, ⟨_, rfl, by decide, by decide, by decide, by decide, by decide⟩,
    by decide⟩
  intro policy then_ now dispatchTime r
  cases policy with
  | INTERVAL => simp [TaskDispatcher.nextDispatchTime]
  | CYCLE =>
    unfold TaskDispatcher.nextDispatchTime
    simp only []
    split <;> simp
  | TIMING =>
    unfold TaskDispatcher.nextDispatchTime
    simp only []
    by_cases ho : toLong (usub now (uadd dispatchTime (toULong r))) > 0
    · by_cases hr : r = 0
      · simp [ho, hr]
      · simp [ho, hr]
    · simp [ho]

end QDispatch
